import Mathlib

/-!
Computer-club event processor.

A shallow embedding of the Go packages `internal/storage`, `internal/model`,
`internal/apierror`, `internal/parser` and `internal/processor`, followed by
theorems about the reading of the input file, the event-processing state
machine and the text of the output.

Modelling conventions.

* `time.Time` values are whole minutes counted from midnight of day zero, as an
  `Int`; a `time.Duration` is a number of minutes. Every time the program sees
  comes from a layout of hours and minutes, so nothing finer exists. Adding one
  day (`AddDate(0, 0, 1)`) adds 1440.
* Go `int` is `Int`. The one place where the program computes with a value of
  unknown size is the income of a table, price times hours added to the
  previous income: there the wrap-around at 64 bits is modelled (`wrapInt`).
  The other operations on `int` are comparisons. Usage times are whole minutes
  as an `Int`; a `time.Duration` holds them up to some 292 years.
* A Go map is an association list with distinct keys (`AList`); the pair
  `(value, ok)` returned by a lookup is an `Option`.
* An interface value of type `model.ClientData` held by an event is its dynamic
  payload. The waiting queue stores interface values that may be nil, so its
  element type is `Option ClientData`, and `none` is Go's nil.
* The output writer is the list of lines written so far. A line is kept as the
  object that was rendered; `Line.written` is its text.
* The input file is the list of its lines, which the scanner hands out one by
  one; every line is taken to fit the buffer of the scanner (64 KiB).
* A time is written with the layouts of `plainLayout`, among them the default
  `15:04`; the other elements of a Go layout are not modelled.
* A Go panic (a failed type assertion, a method call on nil) is the result
  `none`.
-/

namespace YadroIntern

/-! ## internal/storage/inmemory.go -/

/-- The type `InMemoryStorage[K, V]`: a map with distinct keys. -/
abbrev InMemoryStorage (K V : Type) := AList (fun _ : K => V)

/-- Equality of two stores is decided on their entries. -/
instance InMemoryStorage.instDecEq {K V : Type} [DecidableEq K] [DecidableEq V] :
    DecidableEq (InMemoryStorage K V) :=
  fun a b => decidable_of_iff (a.entries = b.entries) AList.ext_iff.symm

/-- The struct `Pair[K, V]`. -/
structure Pair (K V : Type) where
  Key : K
  Value : V
deriving DecidableEq, Repr

/-- The constructor `NewInMemoryStorage`: the empty map. -/
def NewInMemoryStorage {K V : Type} : InMemoryStorage K V := ∅

/-- The method `Get`: the value stored under the key, if any. -/
def InMemoryStorage.Get {K V : Type} [DecidableEq K] (i : InMemoryStorage K V) (key : K) :
    Option V :=
  AList.lookup key i

/-- The method `Set`: sets or updates the value stored under the key. -/
def InMemoryStorage.Set {K V : Type} [DecidableEq K] (i : InMemoryStorage K V) (key : K)
    (value : V) : InMemoryStorage K V :=
  AList.insert key value i

/-- The method `Delete`: returns early when the key is absent, else deletes it. -/
def InMemoryStorage.Delete {K V : Type} [DecidableEq K] (i : InMemoryStorage K V) (key : K) :
    InMemoryStorage K V :=
  if (AList.lookup key i).isNone then i else AList.erase key i

/-- The method `Len`: the number of entries. -/
def InMemoryStorage.Len {K V : Type} (i : InMemoryStorage K V) : Int :=
  (i.entries.length : Int)

/-- The method `GetAll`: the entries, here in the order the list holds them. -/
def InMemoryStorage.GetAll {K V : Type} (i : InMemoryStorage K V) : List (Pair K V) :=
  i.entries.map (fun e => ⟨e.1, e.2⟩)

/-! ## internal/storage/queue.go -/

/-- The struct `InMemoryQueue[T]`. -/
structure InMemoryQueue (T : Type) where
  queue : List T
  nilValue : T
deriving DecidableEq, Repr

/-- The constructor `NewInMemoryQueue`. -/
def NewInMemoryQueue {T : Type} (nilValue : T) : InMemoryQueue T :=
  { queue := [], nilValue := nilValue }

/-- The method `Push`: appends at the tail. -/
def InMemoryQueue.Push {T : Type} (i : InMemoryQueue T) (value : T) : InMemoryQueue T :=
  { i with queue := i.queue ++ [value] }

/-- The method `Len`. -/
def InMemoryQueue.Len {T : Type} (i : InMemoryQueue T) : Int :=
  (i.queue.length : Int)

/-- The method `Peek`: the first element and no error, or the nil value and an error. -/
def InMemoryQueue.Peek {T : Type} (i : InMemoryQueue T) : T × Option String :=
  match i.queue with
  | [] => (i.nilValue, some "queue is empty")
  | top :: _ => (top, none)

/-- The method `Pop`: as `Peek`, and on success the queue loses its first element. -/
def InMemoryQueue.Pop {T : Type} (i : InMemoryQueue T) : (T × Option String) × InMemoryQueue T :=
  match i.Peek with
  | (_, some err) => ((i.nilValue, some err), i)
  | (top, none) => ((top, none), { i with queue := i.queue.drop 1 })

/-- The method `Clear`. -/
def InMemoryQueue.Clear {T : Type} (i : InMemoryQueue T) : InMemoryQueue T :=
  { i with queue := [] }

/-! ## internal/apierror -/

/-- Reason code: the client is already in the club. -/
def ErrYouShallNotPass : String := "YouShallNotPass"

/-- Reason code: the client tries to enter before the club opens. -/
def ErrNotOpenYet : String := "NotOpenYet"

/-- Reason code: the client is not in the club. -/
def ErrClientUnknown : String := "ClientUnknown"

/-- Reason code: the table is already occupied. -/
def ErrTableIsBusy : String := "PlaceIsBusy"

/-- Reason code: the client waits although some table is free. -/
def ErrCantWaitLonger : String := "ICanWaitNoLonger!"

/-- Go's `error` values that occur in the program: `errors.New`, and the two
error structs of `apierror`. -/
inductive GoError where
  | New (msg : String)
  | ParseError (RowNumber : Int) (UserMsg : String) (BaseErr : Option String)
  | ValidationError (RowNumber : Int) (UserMsg : String)
deriving DecidableEq, Repr

/-! ## internal/model -/

/-- The four implementations of the interface `model.ClientData`. -/
inductive ClientData where
  | ClientArrives (name : String)
  | ClientSits (name : String) (table : Int) (maxTables : Int)
  | ClientWaits (name : String)
  | ClientLeaves (name : String)
deriving DecidableEq, Repr

/-- The method `GetName`. -/
def ClientData.GetName : ClientData → String
  | .ClientArrives name => name
  | .ClientSits name _ _ => name
  | .ClientWaits name => name
  | .ClientLeaves name => name

/-- The constructor `NewClientArrives`. -/
def NewClientArrives (name : String) : ClientData := .ClientArrives name

/-- The constructor `NewClientSits`. -/
def NewClientSits (name : String) (table maxTables : Int) : ClientData :=
  .ClientSits name table maxTables

/-- The constructor `NewClientWaits`. -/
def NewClientWaits (name : String) : ClientData := .ClientWaits name

/-- The constructor `NewClientLeaves`. -/
def NewClientLeaves (name : String) : ClientData := .ClientLeaves name

/-- The type `IncomingEventType`, an `int`. -/
abbrev IncomingEventType := Int

/-- The event kind `Arrives`. -/
def Arrives : IncomingEventType := 1

/-- The event kind `Sits`. -/
def Sits : IncomingEventType := 2

/-- The event kind `Waits`. -/
def Waits : IncomingEventType := 3

/-- The event kind `Leaves`. -/
def Leaves : IncomingEventType := 4

/-- The struct `IncomingEvent`; the field `Type` is called `Typ` here. -/
structure IncomingEvent where
  HappensAt : Int
  Typ : IncomingEventType
  Client : ClientData
deriving DecidableEq, Repr

/-- The constructor `NewIncomingEvent`. -/
def NewIncomingEvent (happensAt : Int) (eventType : IncomingEventType) (client : ClientData) :
    IncomingEvent :=
  { HappensAt := happensAt, Typ := eventType, Client := client }

/-- The struct `WrappedIncomingEvent`: what the event channel carries. -/
structure WrappedIncomingEvent where
  Event : Option IncomingEvent
  Err : Option GoError
deriving DecidableEq, Repr

/-- The type `OutgoingEventType`, an `int`. -/
abbrev OutgoingEventType := Int

/-- The generated kind "client left". -/
def OutgoingEventTypeClientLeft : OutgoingEventType := 11

/-- The generated kind "client sat". -/
def OutgoingEventTypeClientSat : OutgoingEventType := 12

/-- The generated kind "error". -/
def OutgoingEventTypeError : OutgoingEventType := 13

/-- The struct `OutgoingEvent`; `Err` and `Client` may be nil. -/
structure OutgoingEvent where
  HappensAt : Int
  Typ : OutgoingEventType
  Err : Option GoError
  Client : Option ClientData
deriving DecidableEq, Repr

/-- The constructor `NewErrorEvent`. -/
def NewErrorEvent (happensAt : Int) (err : GoError) : OutgoingEvent :=
  { HappensAt := happensAt, Typ := OutgoingEventTypeError, Err := some err, Client := none }

/-- The constructor `NewClientLeftEvent`. -/
def NewClientLeftEvent (happensAt : Int) (client : ClientData) : OutgoingEvent :=
  { HappensAt := happensAt, Typ := OutgoingEventTypeClientLeft, Err := none,
    Client := some client }

/-- The constructor `NewClientSatEvent`. -/
def NewClientSatEvent (happensAt : Int) (client : ClientData) : OutgoingEvent :=
  { HappensAt := happensAt, Typ := OutgoingEventTypeClientSat, Err := none,
    Client := some client }

/-- The struct `TimeInterval`. -/
structure TimeInterval where
  Start : Int
  End : Int
deriving DecidableEq, Repr

/-- The method `In`: `Start.Before(t) && End.After(t)`. -/
def TimeInterval.In (ti : TimeInterval) (t : Int) : Bool :=
  decide (ti.Start < t) && decide (ti.End > t)

/-- The constructor `NewTimeInterval`: an end before the start is moved one day on. -/
def NewTimeInterval (start stop : Int) : TimeInterval :=
  if start > stop then { Start := start, End := stop + 1440 } else { Start := start, End := stop }

/-- The struct `CoreData`. -/
structure CoreData where
  TablesCount : Int
  PricePerHour : Int
  WorkingTime : TimeInterval
deriving DecidableEq, Repr

/-- The constructor `NewCoreData`. -/
def NewCoreData (tablesCount pricePerHour : Int) (workingTime : TimeInterval) : CoreData :=
  { TablesCount := tablesCount, PricePerHour := pricePerHour, WorkingTime := workingTime }

/-- The struct `RevenueStats`; `UsageTime` is in minutes. -/
structure RevenueStats where
  Income : Int
  UsageTime : Int
deriving DecidableEq, Repr

/-! ## cmd/config -/

/-- The struct `config.Processor`. -/
structure Processor where
  TimeFormat : String
deriving DecidableEq, Repr

/-! ## internal/processor/processor.go -/

/-- The interface `ifces.TimeFormatter` as used by `writeOutEvent`: an incoming
or an outgoing event. -/
inductive TimeFormatter where
  | incoming (e : IncomingEvent)
  | outgoing (e : OutgoingEvent)
deriving DecidableEq, Repr

/-- One line of output: a formatted time (the opening and closing markers), a
rendered event, or a revenue line of table `i`. -/
inductive Line where
  | time (t : Int)
  | event (e : TimeFormatter)
  | revenue (i : Int) (stats : RevenueStats)
deriving DecidableEq, Repr

/-- The struct `EventProcessorImpl`. -/
@[ext]
structure EventProcessorImpl where
  out : List Line
  cfg : Processor
  coreData : CoreData
  tables : InMemoryStorage Int IncomingEvent
  clients : InMemoryStorage String Int
  revenue : InMemoryStorage Int RevenueStats
  waitingQueue : InMemoryQueue (Option ClientData)
deriving DecidableEq

/-- The constructor `NewEventProcessor`. -/
def NewEventProcessor (out : List Line) (cfg : Processor) (coreData : CoreData)
    (tablesStorage : InMemoryStorage Int IncomingEvent)
    (revenueStorage : InMemoryStorage Int RevenueStats)
    (clientsStorage : InMemoryStorage String Int)
    (clientsQueue : InMemoryQueue (Option ClientData)) : EventProcessorImpl :=
  { out := out, cfg := cfg, coreData := coreData, tables := tablesStorage,
    clients := clientsStorage, revenue := revenueStorage, waitingQueue := clientsQueue }

/-- The processor that `main` builds: an empty buffer, empty stores and an empty
queue whose nil value is nil. -/
def newClub (cfg : Processor) (coreData : CoreData) : EventProcessorImpl :=
  NewEventProcessor [] cfg coreData NewInMemoryStorage NewInMemoryStorage NewInMemoryStorage
    (NewInMemoryQueue none)

/-- The method `writeOutEvent`: appends the rendered event to the output. -/
def writeOutEvent (p : EventProcessorImpl) (event : TimeFormatter) : EventProcessorImpl :=
  { p with out := p.out ++ [Line.event event] }

/-- The value of `int(math.Ceil(d.Hours()))` for a duration of `d` whole minutes. -/
def ceilHours (d : Int) : Int := -((-d) / 60)

/-- The value an `int` holds after an addition or a multiplication whose exact
result is `n`: Go computes on 64 bits and wraps around. -/
def wrapInt (n : Int) : Int :=
  (n + 9223372036854775808) % 18446744073709551616 - 9223372036854775808

/-- The method `updateRevenue`. The income is an `int`: the product and the sum
wrap around at 64 bits. The usage time is counted in whole minutes; a
`time.Duration` counts nanoseconds in 64 bits and holds every usage time below
153722867 minutes (some 292 years). -/
def updateRevenue (p : EventProcessorImpl) (busyTable : Int) (releaseTime : Int) :
    EventProcessorImpl :=
  if busyTable = -1 then p
  else
    match p.tables.Get busyTable with
    | none => p
    | some sittingEvent =>
      let sittingTime := ceilHours (releaseTime - sittingEvent.HappensAt)
      let prevRevenue : RevenueStats :=
        match p.revenue.Get busyTable with
        | some r => r
        | none => { Income := 0, UsageTime := 0 }
      { p with
        revenue := p.revenue.Set busyTable
          { Income := wrapInt (prevRevenue.Income
              + wrapInt (p.coreData.PricePerHour * sittingTime)),
            UsageTime := prevRevenue.UsageTime + (releaseTime - sittingEvent.HappensAt) } }

/-- The method `processArrives`. -/
def processArrives (p : EventProcessorImpl) (event : IncomingEvent) : EventProcessorImpl :=
  if !p.coreData.WorkingTime.In event.HappensAt then
    writeOutEvent p (.outgoing (NewErrorEvent event.HappensAt (GoError.New ErrNotOpenYet)))
  else if (p.clients.Get event.Client.GetName).isSome then
    writeOutEvent p (.outgoing (NewErrorEvent event.HappensAt (GoError.New ErrYouShallNotPass)))
  else
    { p with clients := p.clients.Set event.Client.GetName (-1) }

/-- The method `processSits`. The type assertion to `*model.ClientSits` panics
on any other payload. -/
def processSits (p : EventProcessorImpl) (event : IncomingEvent) (generateSatEvent : Bool) :
    Option EventProcessorImpl :=
  if (p.clients.Get event.Client.GetName).isNone then
    some (writeOutEvent p
      (.outgoing (NewErrorEvent event.HappensAt (GoError.New ErrClientUnknown))))
  else
    match event.Client with
    | .ClientSits _ table _ =>
      if (p.tables.Get table).isSome then
        some (writeOutEvent p
          (.outgoing (NewErrorEvent event.HappensAt (GoError.New ErrTableIsBusy))))
      else
        let p1 : EventProcessorImpl :=
          match p.clients.Get event.Client.GetName with
          | some prevSitTable =>
            if prevSitTable ≠ -1 then
              let q := updateRevenue p prevSitTable event.HappensAt
              { q with
                clients := q.clients.Delete event.Client.GetName,
                tables := q.tables.Delete prevSitTable }
            else p
          | none => p
        let p2 : EventProcessorImpl :=
          { p1 with
            tables := p1.tables.Set table event,
            clients := p1.clients.Set event.Client.GetName table }
        if generateSatEvent then
          some (writeOutEvent p2 (.outgoing (NewClientSatEvent event.HappensAt event.Client)))
        else some p2
    | _ => none

/-- The method `processWaits`. -/
def processWaits (p : EventProcessorImpl) (event : IncomingEvent) : EventProcessorImpl :=
  if p.tables.Len < p.coreData.TablesCount then
    writeOutEvent p (.outgoing (NewErrorEvent event.HappensAt (GoError.New ErrCantWaitLonger)))
  else if p.waitingQueue.Len ≥ p.coreData.TablesCount then
    writeOutEvent p (.outgoing (NewClientLeftEvent event.HappensAt event.Client))
  else
    { p with waitingQueue := p.waitingQueue.Push (some event.Client) }

/-- The method `processLeaves`. Calling `GetName` on a nil queue element panics. -/
def processLeaves (p : EventProcessorImpl) (event : IncomingEvent) (generateLeftEvent : Bool) :
    Option EventProcessorImpl :=
  match p.clients.Get event.Client.GetName with
  | none =>
    some (writeOutEvent p
      (.outgoing (NewErrorEvent event.HappensAt (GoError.New ErrClientUnknown))))
  | some busyTable =>
    let p1 : EventProcessorImpl := { p with clients := p.clients.Delete event.Client.GetName }
    let p2 : EventProcessorImpl :=
      if generateLeftEvent then
        writeOutEvent p1 (.outgoing (NewClientLeftEvent event.HappensAt event.Client))
      else p1
    if busyTable = -1 then some p2
    else
      let p3 := updateRevenue p2 busyTable event.HappensAt
      let p4 : EventProcessorImpl := { p3 with tables := p3.tables.Delete busyTable }
      if p4.waitingQueue.Len > 0 then
        match p4.waitingQueue.Pop with
        | ((none, _), _) => none
        | ((some client, _), rest) =>
          let sitClientData := NewClientSits client.GetName busyTable p4.coreData.TablesCount
          let sitEvent := NewIncomingEvent event.HappensAt Sits sitClientData
          let p5 : EventProcessorImpl :=
            { p4 with waitingQueue := rest, clients := p4.clients.Set client.GetName (-1) }
          processSits p5 sitEvent true
      else some p4

/-- The method `processEvent`: a switch on the event kind with no default case. -/
def processEvent (p : EventProcessorImpl) (event : IncomingEvent) : Option EventProcessorImpl :=
  if event.Typ = Arrives then some (processArrives p event)
  else if event.Typ = Sits then processSits p event false
  else if event.Typ = Waits then some (processWaits p event)
  else if event.Typ = Leaves then processLeaves p event false
  else some p

/-- The second loop of `leaveClients`: pops the queue until it is empty and
appends each name. The fuel bounds the number of iterations. -/
def drainQueue : Nat → InMemoryQueue (Option ClientData) → List String →
    Option (InMemoryQueue (Option ClientData) × List String)
  | 0, q, clients => if q.Len > 0 then none else some (q, clients)
  | fuel + 1, q, clients =>
    if q.Len > 0 then
      match q.Pop with
      | ((none, _), _) => none
      | ((some client, _), rest) => drainQueue fuel rest (clients ++ [client.GetName])
    else some (q, clients)

/-- Go's `<=` on strings: lexicographic on the bytes, which for UTF-8 is the
lexicographic order on the characters. -/
def strLE (a b : String) : Prop := a.data ≤ b.data

/-- The comparison of two strings is decided on their characters. -/
instance strLE.instDecidableRel : DecidableRel strLE :=
  fun a b => inferInstanceAs (Decidable (a.data ≤ b.data))

/-- The call `sort.Strings`. -/
def sortStrings (clients : List String) : List String :=
  List.insertionSort strLE clients

/-- The last loop of `leaveClients`, over the sorted names. -/
def leaveLoop (p : EventProcessorImpl) : List String → Option EventProcessorImpl
  | [] => some p
  | clientName :: rest =>
    let leaveEvent :=
      NewIncomingEvent p.coreData.WorkingTime.End Leaves (NewClientLeaves clientName)
    if (p.clients.Get clientName).isNone then
      leaveLoop (writeOutEvent p (.incoming leaveEvent)) rest
    else
      match processLeaves p leaveEvent true with
      | none => none
      | some q => leaveLoop q rest

/-- The method `leaveClients`. -/
def leaveClients (p : EventProcessorImpl) : Option EventProcessorImpl :=
  let clients : List String := p.clients.GetAll.map (fun pair => pair.Key)
  match drainQueue p.waitingQueue.queue.length p.waitingQueue clients with
  | none => none
  | some (rest, names) => leaveLoop { p with waitingQueue := rest } (sortStrings names)

/-- The loop of `ProcessEvents` over the channel: stops at the first failure,
otherwise echoes the event and processes it. A message with neither an event
nor a failure makes `writeOutEvent` dereference nil. -/
def eventsLoop (p : EventProcessorImpl) : List WrappedIncomingEvent →
    Option (EventProcessorImpl × Option GoError)
  | [] => some (p, none)
  | wrapped :: rest =>
    match wrapped.Err with
    | some err => some (p, some err)
    | none =>
      match wrapped.Event with
      | none => none
      | some event =>
        match processEvent (writeOutEvent p (.incoming event)) event with
        | none => none
        | some q => eventsLoop q rest

/-- The method `ProcessEvents`: the resulting processor and the returned error. -/
def ProcessEvents (p : EventProcessorImpl) (events : List WrappedIncomingEvent) :
    Option (EventProcessorImpl × Option GoError) :=
  let p0 : EventProcessorImpl := { p with out := p.out ++ [Line.time p.coreData.WorkingTime.Start] }
  match eventsLoop p0 events with
  | none => none
  | some (q, some err) => some (q, some err)
  | some (q, none) =>
    match leaveClients q with
    | none => none
    | some r => some ({ r with out := r.out ++ [Line.time r.coreData.WorkingTime.End] }, none)

/-- The loop of `ShowRevenue` over the table numbers. -/
def showRevenueLoop (p : EventProcessorImpl) : List Int → EventProcessorImpl
  | [] => p
  | i :: rest =>
    match p.revenue.Get i with
    | none => showRevenueLoop p rest
    | some stats => showRevenueLoop { p with out := p.out ++ [Line.revenue i stats] } rest

/-- The values of `i` in `for i := 1; i <= tablesCount; i++`. -/
def tableNumbers (tablesCount : Int) : List Int :=
  (List.range tablesCount.toNat).map (fun k : Nat => (k : Int) + 1)

/-- The method `ShowRevenue`: `i` runs from 1 to `TablesCount`. -/
def ShowRevenue (p : EventProcessorImpl) : EventProcessorImpl :=
  showRevenueLoop p (tableNumbers p.coreData.TablesCount)

/-- The states the loop of `ProcessEvents` passes through when `main` runs it:
the new club after the opening line, and every state an echoed and processed
event leads to. -/
inductive Reachable (cfg : Processor) (coreData : CoreData) : EventProcessorImpl → Prop where
  | start :
    Reachable cfg coreData
      { newClub cfg coreData with
        out := (newClub cfg coreData).out ++ [Line.time coreData.WorkingTime.Start] }
  | step {p q : EventProcessorImpl} (event : IncomingEvent) :
    Reachable cfg coreData p →
    processEvent (writeOutEvent p (.incoming event)) event = some q →
    Reachable cfg coreData q

/-! ## internal/apierror: validation and error texts -/

/-- Message: the client name does not match the pattern. -/
def ErrClientDataInvalidName : String := "invalid client name"

/-- Message of `MoreThenZero`. -/
def ErrValueMustBeMoreThanZero : String := "value must be more than zero"

/-- Message of `NotMoreThen`. -/
def ErrValueTooBig : String := "value is too big"

/-- The function `NotMoreThen`: nil when `i <= j`. -/
def NotMoreThen (i j : Int) : Option GoError :=
  if i ≤ j then none else some (GoError.New ErrValueTooBig)

/-- The function `MoreThenZero`: nil when `i > 0`. -/
def MoreThenZero (i : Int) : Option GoError :=
  if i > 0 then none else some (GoError.New ErrValueMustBeMoreThanZero)

/-- The character class of the name pattern: a lowercase Latin letter, a digit
or an underscore. -/
def isNameChar (c : Char) : Bool :=
  (decide ('a' ≤ c) && decide (c ≤ 'z')) || (decide ('0' ≤ c) && decide (c ≤ '9'))
    || decide (c = '_')

/-- The function `ValidateName`: nil when the whole name matches one or more
characters of the class. -/
def ValidateName (name : String) : Option GoError :=
  if !name.data.isEmpty && name.data.all isNameChar then none
  else some (GoError.New ErrClientDataInvalidName)

/-- The method `Error` of the three kinds of error. -/
def GoError.Error : GoError → String
  | .New msg => msg
  | .ParseError rowNumber userMsg _ =>
    "failed to parse row " ++ toString rowNumber ++ ": " ++ userMsg
  | .ValidationError rowNumber userMsg =>
    "validation error at row " ++ toString rowNumber ++ ": " ++ userMsg

/-- The method `Validate` of the four payloads. -/
def ClientData.Validate : ClientData → Option GoError
  | .ClientArrives name => ValidateName name
  | .ClientSits name table maxTables =>
    match ValidateName name with
    | some err => some err
    | none =>
      match MoreThenZero table with
      | some err => some err
      | none => NotMoreThen table maxTables
  | .ClientWaits name => ValidateName name
  | .ClientLeaves name => ValidateName name

/-! ## internal/parser: what reaches the processor -/

/-- The events `readEvent` can return for a given `maxTables`: the kind is one
of the four, the payload is the one `parseClientData` builds for that kind, with
`maxTables` in a Sits payload, and `Validate` found nothing. -/
def validated (maxTables : Int) (event : IncomingEvent) : Bool :=
  match event.Client with
  | .ClientArrives _ => decide (event.Typ = Arrives) && event.Client.Validate.isNone
  | .ClientSits _ _ m =>
    decide (event.Typ = Sits) && decide (m = maxTables) && event.Client.Validate.isNone
  | .ClientWaits _ => decide (event.Typ = Waits) && event.Client.Validate.isNone
  | .ClientLeaves _ => decide (event.Typ = Leaves) && event.Client.Validate.isNone

/-! ## internal/processor: enumeration order of the presence map -/

/-- The method `leaveClients` for a given enumeration of the presence map: Go
does not fix the order in which `GetAll` ranges over the map, `pairs` is the
order it happened to take. -/
def leaveClientsFrom (pairs : List (Pair String Int)) (p : EventProcessorImpl) :
    Option EventProcessorImpl :=
  let clients : List String := pairs.map (fun pair => pair.Key)
  match drainQueue p.waitingQueue.queue.length p.waitingQueue clients with
  | none => none
  | some (rest, names) => leaveLoop { p with waitingQueue := rest } (sortStrings names)

/-! ## cmd/main.go -/

/-- What `main` hands to `log.Println`: the message of an error, or one line of
the buffer the processor wrote to. -/
inductive Printed where
  | message (text : String)
  | line (l : Line)
deriving DecidableEq, Repr

/-- The part of `main` after the club data has been read: the processor runs on
a fresh buffer; a returned failure is printed alone, otherwise the revenue is
appended to the buffer and the buffer is printed line by line. -/
def mainAfterCoreData (cfg : Processor) (coreData : CoreData)
    (events : List WrappedIncomingEvent) : Option (List Printed) :=
  match ProcessEvents (newClub cfg coreData) events with
  | none => none
  | some (_, some err) => some [Printed.message err.Error]
  | some (q, none) => some ((ShowRevenue q).out.map Printed.line)

/-- The states reachable by delivered events only. -/
inductive ReachableValid (cfg : Processor) (coreData : CoreData) :
    EventProcessorImpl → Prop where
  | start :
    ReachableValid cfg coreData
      { newClub cfg coreData with
        out := (newClub cfg coreData).out ++ [Line.time coreData.WorkingTime.Start] }
  | step {p q : EventProcessorImpl} (event : IncomingEvent) :
    ReachableValid cfg coreData p →
    validated coreData.TablesCount event = true →
    processEvent (writeOutEvent p (.incoming event)) event = some q →
    ReachableValid cfg coreData q


/-! ## Library calls: fmt, strconv, strings, time

The texts the program reads and writes go through a few calls of the Go
standard library. They are modelled on the characters of a string; for the
UTF-8 texts the program handles, searching and cutting by characters and by
bytes agree. -/

/-- The verb `%d` of `fmt` on an `int`. -/
def sprintInt : Int → String
  | .ofNat n => Nat.repr n
  | .negSucc n => "-" ++ Nat.repr (n + 1)

/-- The verb `%02d` of `fmt` on an `int`: zeros fill the width of two, which a
sign counts towards. -/
def sprintInt02 (n : Int) : String :=
  if 0 ≤ n ∧ n < 10 then "0" ++ sprintInt n else sprintInt n

/-- Whether a character is a decimal digit. -/
def isDigit (c : Char) : Bool := decide ('0' ≤ c) && decide (c ≤ '9')

/-- The value of a decimal digit. -/
def digitVal (c : Char) : Nat := c.toNat - 48

/-- The value of a run of characters that are all decimal digits, added to
`acc` times ten to the length of the run. -/
def digitsValue : List Char → Nat → Option Nat
  | [], acc => some acc
  | c :: rest, acc => if isDigit c then digitsValue rest (acc * 10 + digitVal c) else none

/-- The function `strconv.Atoi` on a 64-bit platform: an optional sign followed
by one or more decimal digits, whose value fits an `int`; `none` is an error. -/
def Atoi (s : String) : Option Int :=
  match s.data with
  | [] => none
  | c :: rest =>
    if c = '-' then
      if rest.isEmpty then none
      else (digitsValue rest 0).bind (fun n => if n ≤ 2 ^ 63 then some (-(n : Int)) else none)
    else if c = '+' then
      if rest.isEmpty then none
      else (digitsValue rest 0).bind (fun n => if n < 2 ^ 63 then some (n : Int) else none)
    else (digitsValue (c :: rest) 0).bind (fun n => if n < 2 ^ 63 then some (n : Int) else none)

/-- The first occurrence of a non-empty separator: the text before it and the
text after it. -/
def cut (sep : List Char) : List Char → Option (List Char × List Char)
  | [] => none
  | c :: rest =>
    if sep.isPrefixOf (c :: rest) then some ([], (c :: rest).drop sep.length)
    else (cut sep rest).map (fun ab => (c :: ab.1, ab.2))

/-- The loop of `strings.genSplit` for a non-empty separator: at most `n` cuts,
then the remainder. -/
def genSplit (sep : List Char) : Nat → List Char → List (List Char)
  | 0, s => [s]
  | n + 1, s =>
    match cut sep s with
    | none => [s]
    | some (a, b) => a :: genSplit sep n b

/-- The function `strings.explode`, for `n` no more than the number of
characters: `n - 1` single characters, then the remainder. -/
def explode : Nat → List Char → List (List Char)
  | 0, _ => []
  | 1, s => [s]
  | _ + 2, [] => []
  | n + 2, c :: rest => [c] :: explode (n + 1) rest

/-- The function `strings.SplitN`: nothing for `n = 0`, all the pieces for a
negative `n`, at most `n` pieces otherwise, the last being the unsplit rest. An
empty separator splits after each character. -/
def SplitN (s sep : String) (n : Int) : List String :=
  if n = 0 then []
  else if sep.data.isEmpty then
    (explode (if n < 0 ∨ n > s.data.length then s.data.length else n.toNat) s.data).map
      String.mk
  else
    (genSplit sep.data (if n < 0 then s.data.length else n.toNat - 1) s.data).map String.mk

/-- The function `strings.Split`. -/
def Split (s sep : String) : List String := SplitN s sep (-1)

/-- Two decimal digits of a number from 0 to 99. -/
def digit2 (n : Int) : List Char :=
  [Nat.digitChar (n.toNat / 10), Nat.digitChar (n.toNat % 10)]

/-- Whether a character of a layout stands for itself wherever it is: it starts
none of the elements that `time.Time.Format` replaces (`Jan`, `Mon`, `MST`,
`01` to `06`, `15`, `1`, `2006`, `2`, `_2`, `3`, `4`, `5`, `PM`, `pm`, `-07`,
`Z07`, `.000`, `,000` and their variants). -/
def layoutLiteral (c : Char) : Bool :=
  !(['J', 'M', '0', '1', '2', '3', '4', '5', '_', 'P', 'p', '-', 'Z', '.', ','].contains c)

/-- Whether a layout is made of the hour `15`, the minute `04` and characters
that stand for themselves. -/
def plainChars : List Char → Bool
  | [] => true
  | [c] => layoutLiteral c
  | c1 :: c2 :: rest =>
    if c1 = '1' ∧ c2 = '5' then plainChars rest
    else if c1 = '0' ∧ c2 = '4' then plainChars rest
    else layoutLiteral c1 && plainChars (c2 :: rest)

/-- The layouts for which `formatTime` is the method `time.Time.Format`: the
hour `15`, the minute `04` and characters that stand for themselves, such as
the default `15:04`. -/
def plainLayout (layout : String) : Prop := plainChars layout.data = true

/-- A layout is checked character by character. -/
instance plainLayout.instDecidable (layout : String) : Decidable (plainLayout layout) :=
  inferInstanceAs (Decidable (_ = true))

/-- The method `time.Time.Format` for the layouts of `plainLayout`: the hour `15`
and the minute `04` are written with two digits, every other character is
copied. The other elements of a layout (`PM`, `05`, `2006` and so on) are not
modelled. -/
def formatChars : List Char → Int → List Char
  | [], _ => []
  | [c], _ => [c]
  | c1 :: c2 :: rest, t =>
    if c1 = '1' ∧ c2 = '5' then digit2 (t / 60 % 24) ++ formatChars rest t
    else if c1 = '0' ∧ c2 = '4' then digit2 (t % 60) ++ formatChars rest t
    else c1 :: formatChars (c2 :: rest) t

/-- The call `t.Format(layout)`. -/
def formatTime (t : Int) (layout : String) : String := String.mk (formatChars layout.data t)

/-- The function `getnum` of package `time`: one or two digits, exactly two when
`fixed`. -/
def getnum (value : List Char) (fixed : Bool) : Option (Int × List Char) :=
  match value with
  | [] => none
  | [d1] => if isDigit d1 && !fixed then some ((digitVal d1 : Int), []) else none
  | d1 :: d2 :: rest =>
    if isDigit d1 then
      if isDigit d2 then some ((digitVal d1 * 10 + digitVal d2 : Nat), rest)
      else if fixed then none
      else some ((digitVal d1 : Int), d2 :: rest)
    else none

/-- The function `time.Parse` for the same layouts: the hour takes one or two
digits and is below 24, the minute takes two digits and is below 60, a literal
character stands for itself, and nothing may follow. -/
def parseChars : List Char → List Char → Int → Int → Option (Int × Int)
  | [], value, h, m => if value.isEmpty then some (h, m) else none
  | [c], value, h, m =>
    match value with
    | [v] => if v = c then some (h, m) else none
    | _ => none
  | c1 :: c2 :: rest, value, h, m =>
    if c1 = '1' ∧ c2 = '5' then
      match getnum value false with
      | none => none
      | some (n, value1) => if 24 ≤ n then none else parseChars rest value1 n m
    else if c1 = '0' ∧ c2 = '4' then
      match getnum value true with
      | none => none
      | some (n, value1) => if 60 ≤ n then none else parseChars rest value1 h n
    else
      match value with
      | [] => none
      | v :: value1 => if v = c1 then parseChars (c2 :: rest) value1 h m else none

/-- The call `time.Parse(layout, value)`: the minutes from midnight of day zero,
`none` for an error. -/
def parseTime (layout value : String) : Option Int :=
  (parseChars layout.data value.data 0 0).map (fun hm => hm.1 * 60 + hm.2)

/-! ## internal/model: rendering -/

/-- The method `String` of the four payloads. -/
def ClientData.String : ClientData → String
  | .ClientArrives name => name
  | .ClientSits name table _ => name ++ " " ++ sprintInt table
  | .ClientWaits name => name
  | .ClientLeaves name => name

/-- The method `String` of `IncomingEvent`. -/
def IncomingEvent.String (e : IncomingEvent) (timeFormat : String) : String :=
  formatTime e.HappensAt timeFormat ++ " " ++ sprintInt e.Typ ++ " " ++ e.Client.String

/-- The method `String` of `OutgoingEvent`; with neither an error nor a payload
it calls a method on nil. -/
def OutgoingEvent.String (e : OutgoingEvent) (timeFormat : String) : Option String :=
  match e.Err with
  | some err =>
    some (formatTime e.HappensAt timeFormat ++ " " ++ sprintInt e.Typ ++ " " ++ err.Error)
  | none =>
    match e.Client with
    | none => none
    | some client =>
      some (formatTime e.HappensAt timeFormat ++ " " ++ sprintInt e.Typ ++ " " ++ client.String)

/-- The method `String` of `RevenueStats`: `int(Hours())` and `int(Minutes()) % 60`
round towards zero. -/
def RevenueStats.String (r : RevenueStats) : String :=
  sprintInt r.Income ++ " " ++ sprintInt02 (r.UsageTime.tdiv 60) ++ ":"
    ++ sprintInt02 (r.UsageTime.tmod 60)

/-- The method `String` of the interface `ifces.TimeFormatter`. -/
def TimeFormatter.String (f : TimeFormatter) (timeFormat : String) : Option String :=
  match f with
  | .incoming e => some (e.String timeFormat)
  | .outgoing e => e.String timeFormat

/-- The text the processor wrote to its buffer for a line: the time marker of
`ProcessEvents`, the event of `writeOutEvent`, the `"%d %s\n"` of `ShowRevenue`. -/
def Line.written (timeFormat : String) : Line → Option String
  | .time t => some (formatTime t timeFormat ++ "\n")
  | .event e => (e.String timeFormat).map (fun s => s ++ "\n")
  | .revenue i stats => some (sprintInt i ++ " " ++ stats.String ++ "\n")

/-! ## internal/apierror/input_errors.go -/

/-- Message: no line for the number of tables. -/
def ErrTablesCountNotSpecified : String := "tables count are not specified"

/-- Message: the number of tables is not an integer. -/
def ErrTablesCountInvalidFormat : String := "tables count are not integer"

/-- Message: no line for the price. -/
def ErrPricePerHourNotSpecified : String := "price per hour are not specified"

/-- Message: the price is not an integer. -/
def ErrPricePerHourInvalidFormat : String := "price per hour are not integer"

/-- Message: no line for the working time. -/
def ErrWorkingTimeNotSpecified : String := "working time are not specified"

/-- Message: the working time is not two times. -/
def ErrWorkingTimeInvalidFormat : String := "working time are not time interval"

/-- Message: the opening time does not parse. -/
def ErrFailedToParseStartTime : String := "failed to parse start time"

/-- Message: the closing time does not parse. -/
def ErrFailedToParseEndTime : String := "failed to parse end time"

/-- Message: the event line has too few fields. -/
def ErrEventInvalidFormat : String :=
  "event must be in format: <time> <event-type> <client-data>"

/-- Message: the time of the event does not parse. -/
def ErrFailedToParseEventTime : String := "failed to parse event happened time"

/-- Message: the kind of the event is not an integer. -/
def ErrFailedToParseEventType : String := "failed to parse event type"

/-- Message: the kind of the event is not one of the four. -/
def ErrUnknownEventType : String := "unknown event type"

/-- Message: the payload has the wrong number of fields. -/
def ErrClientDataInvalidFormat : String := "invalid client data format for event type"

/-- Message: the table number is not an integer. -/
def ErrFailedToParseClientTableNumber : String := "failed to parse client table number"

/-- The base error of a failed `strconv.Atoi`, named by the call. -/
def atoiFailed : String := "strconv.Atoi"

/-- The base error of a failed `time.Parse`, named by the call. -/
def parseFailed : String := "time.Parse"

/-! ## internal/model/event.go -/

/-- The function `GetValidClientDataSize`. -/
def GetValidClientDataSize (eventType : IncomingEventType) : Int :=
  if eventType = Sits then 2
  else if eventType = Waits ∨ eventType = Leaves ∨ eventType = Arrives then 1
  else 0

/-! ## cmd/config and internal/parser/parser.go -/

/-- The struct `config.Parser`. -/
structure Parser where
  TimeFormat : String
  TimeSeparator : String
  EventInfoSeparator : String
  DistinctEventInfoCount : Int
  EventsChanSize : Int
deriving DecidableEq, Repr

/-- The default values of `config.Parser`. -/
def defaultParser : Parser :=
  { TimeFormat := "15:04", TimeSeparator := " ", EventInfoSeparator := " ",
    DistinctEventInfoCount := 3, EventsChanSize := 10 }

/-- Whether a line fits the buffer of a `bufio.Scanner` together with its line
end of one or two bytes: `bufio.MaxScanTokenSize` is 64 KiB. -/
def fitsBuffer (line : String) : Prop := line.utf8ByteSize + 2 ≤ 65536

/-- The length of a line is decided by comparison. -/
instance fitsBuffer.instDecidable (line : String) : Decidable (fitsBuffer line) :=
  inferInstanceAs (Decidable (_ ≤ _))

/-- The `bufio.Scanner` over the input file: the lines not yet read, and the
line `Text` returns. The lines are those of a file in which every line fits
the buffer of the scanner (`fitsBuffer`): at a longer line the scanner of Go
stops with `ErrTooLong`, which is not modelled. -/
structure Scanner where
  lines : List String
  text : String
deriving DecidableEq, Repr

/-- The method `Scan`: moves to the next line, or reports that there is none. -/
def Scanner.Scan (s : Scanner) : Bool × Scanner :=
  match s.lines with
  | [] => (false, { s with text := "" })
  | line :: rest => (true, { lines := rest, text := line })

/-- The struct `FileParser`. -/
structure FileParser where
  scanner : Scanner
  cfg : Parser
  rowNumber : Int
  maxTables : Int
deriving DecidableEq, Repr

/-- The constructor `NewFileParser`. -/
def NewFileParser (scanner : Scanner) (cfg : Parser) : FileParser :=
  { scanner := scanner, cfg := cfg, rowNumber := 0, maxTables := 0 }

/-- The parser over the lines of a file, as `main` builds it. -/
def fileParser (lines : List String) (cfg : Parser) : FileParser :=
  NewFileParser { lines := lines, text := "" } cfg

/-- The method `scanWithRowNumber`. -/
def FileParser.scanWithRowNumber (p : FileParser) : Bool × FileParser :=
  let scanned := p.scanner.Scan
  (scanned.1, { p with rowNumber := p.rowNumber + 1, scanner := scanned.2 })

/-- The method `readTablesCount`: the value and the error, and the parser after
the call. -/
def FileParser.readTablesCount (p : FileParser) (validate : Int → Option GoError) :
    (Int × Option GoError) × FileParser :=
  match p.scanWithRowNumber with
  | (false, p1) =>
    ((0, some (GoError.ParseError p1.rowNumber ErrTablesCountNotSpecified none)), p1)
  | (true, p1) =>
    match Atoi p1.scanner.text with
    | none =>
      ((0, some (GoError.ParseError p1.rowNumber ErrTablesCountInvalidFormat
        (some atoiFailed))), p1)
    | some n =>
      match validate n with
      | some e => ((0, some (GoError.ValidationError p1.rowNumber e.Error)), p1)
      | none => ((n, none), p1)

/-- The method `readPricePerHour`. -/
def FileParser.readPricePerHour (p : FileParser) (validate : Int → Option GoError) :
    (Int × Option GoError) × FileParser :=
  match p.scanWithRowNumber with
  | (false, p1) =>
    ((0, some (GoError.ParseError p1.rowNumber ErrPricePerHourNotSpecified none)), p1)
  | (true, p1) =>
    match Atoi p1.scanner.text with
    | none =>
      ((0, some (GoError.ParseError p1.rowNumber ErrPricePerHourInvalidFormat
        (some atoiFailed))), p1)
    | some n =>
      match validate n with
      | some e => ((0, some (GoError.ValidationError p1.rowNumber e.Error)), p1)
      | none => ((n, none), p1)

/-- The method `readWorkingTime`. -/
def FileParser.readWorkingTime (p : FileParser) :
    (Option TimeInterval × Option GoError) × FileParser :=
  match p.scanWithRowNumber with
  | (false, p1) =>
    ((none, some (GoError.ParseError p1.rowNumber ErrWorkingTimeNotSpecified none)), p1)
  | (true, p1) =>
    match Split p1.scanner.text p1.cfg.TimeSeparator with
    | [startStr, endStr] =>
      match parseTime p1.cfg.TimeFormat startStr with
      | none =>
        ((none, some (GoError.ParseError p1.rowNumber ErrFailedToParseStartTime
          (some parseFailed))), p1)
      | some start =>
        match parseTime p1.cfg.TimeFormat endStr with
        | none =>
          ((none, some (GoError.ParseError p1.rowNumber ErrFailedToParseEndTime
            (some parseFailed))), p1)
        | some stop => ((some (NewTimeInterval start stop), none), p1)
    | _ =>
      ((none, some (GoError.ParseError p1.rowNumber ErrWorkingTimeInvalidFormat none)), p1)

/-- The method `ReadCoreData`. A nil working time comes with an error only, so the
case of neither does not occur. -/
def FileParser.ReadCoreData (p : FileParser) : (Option CoreData × Option GoError) × FileParser :=
  match p.readTablesCount MoreThenZero with
  | ((_, some err), p1) => ((none, some err), p1)
  | ((tablesCount, none), p1) =>
    match p1.readWorkingTime with
    | ((_, some err), p2) => ((none, some err), p2)
    | ((none, none), p2) => ((none, none), p2)
    | ((some workingTime, none), p2) =>
      match p2.readPricePerHour MoreThenZero with
      | ((_, some err), p3) => ((none, some err), p3)
      | ((pricePerHour, none), p3) =>
        ((some (NewCoreData tablesCount pricePerHour workingTime), none), p3)

/-- The method `parseIncomingEventType`. -/
def FileParser.parseIncomingEventType (p : FileParser) (s : String) :
    IncomingEventType × Option GoError :=
  match Atoi s with
  | none => (0, some (GoError.ParseError p.rowNumber ErrFailedToParseEventType (some atoiFailed)))
  | some eventType =>
    if eventType = Arrives then (Arrives, none)
    else if eventType = Sits then (Sits, none)
    else if eventType = Waits then (Waits, none)
    else if eventType = Leaves then (Leaves, none)
    else (0, some (GoError.ValidationError p.rowNumber ErrUnknownEventType))

/-- The method `parseClientData`: the payload, which is nil with a nil error
when the split yields no field, and the error. The second field is read only
for the kind Sits, where there are two. -/
def FileParser.parseClientData (p : FileParser) (eventType : IncomingEventType) (s : String) :
    Option ClientData × Option GoError :=
  let content := Split s p.cfg.EventInfoSeparator
  if content.length = 0 then (none, none)
  else if (content.length : Int) ≠ GetValidClientDataSize eventType then
    (none, some (GoError.ParseError p.rowNumber ErrClientDataInvalidFormat none))
  else
    let name := content.getD 0 ""
    let built : Option ClientData × Option GoError :=
      if eventType = Arrives then (some (NewClientArrives name), none)
      else if eventType = Sits then
        match Atoi (content.getD 1 "") with
        | none =>
          (none, some (GoError.ParseError p.rowNumber ErrFailedToParseClientTableNumber
            (some atoiFailed)))
        | some table => (some (NewClientSits name table p.maxTables), none)
      else if eventType = Waits then (some (NewClientWaits name), none)
      else if eventType = Leaves then (some (NewClientLeaves name), none)
      else (none, some (GoError.ValidationError p.rowNumber ErrUnknownEventType))
    match built with
    | (some clientData, none) =>
      match clientData.Validate with
      | some e => (none, some (GoError.ValidationError p.rowNumber e.Error))
      | none => (some clientData, none)
    | other => other

/-- The method `readEvent` on the line the scanner holds: the event and the
error. The result `none` is a panic: with fewer than three fields configured
the indexing of the fields is out of range, and an event with a nil payload
panics as soon as it is rendered. -/
def FileParser.readEvent (p : FileParser) : Option (Option IncomingEvent × Option GoError) :=
  let eventStrings :=
    SplitN p.scanner.text p.cfg.EventInfoSeparator p.cfg.DistinctEventInfoCount
  if (eventStrings.length : Int) ≠ p.cfg.DistinctEventInfoCount then
    some (none, some (GoError.ParseError p.rowNumber ErrEventInvalidFormat none))
  else
    match eventStrings with
    | happensAtStr :: eventTypeStr :: clientDataStr :: _ =>
      match parseTime p.cfg.TimeFormat happensAtStr with
      | none =>
        some (none, some (GoError.ParseError p.rowNumber ErrFailedToParseEventTime
          (some parseFailed)))
      | some happensAt =>
        match p.parseIncomingEventType eventTypeStr with
        | (_, some err) => some (none, some err)
        | (eventType, none) =>
          match p.parseClientData eventType clientDataStr with
          | (_, some err) => some (none, some err)
          | (none, none) => none
          | (some clientData, none) =>
            some (some (NewIncomingEvent happensAt eventType clientData), none)
    | _ => none

/-- The loop of the goroutine of `ReadEvents`: the messages sent on the channel
before it is closed. The fuel bounds the number of scans. -/
def FileParser.readEventsLoop : Nat → FileParser → Option (List WrappedIncomingEvent)
  | 0, _ => none
  | fuel + 1, p =>
    match p.scanWithRowNumber with
    | (false, _) => some []
    | (true, p1) =>
      match p1.readEvent with
      | none => none
      | some (_, some err) => some [{ Event := none, Err := some err }]
      | some (none, none) => none
      | some (some event, none) =>
        (FileParser.readEventsLoop fuel p1).map
          (fun sent => { Event := some event, Err := none } :: sent)

/-- The method `ReadEvents`: the messages the channel carries. -/
def FileParser.ReadEvents (p : FileParser) (maxTables : Int) :
    Option (List WrappedIncomingEvent) :=
  FileParser.readEventsLoop (p.scanner.lines.length + 1) { p with maxTables := maxTables }

/-! ## cmd/main.go -/

/-- The function `main` once the input file is open, on the lines of the file:
the core data are read, then the events, which the processor consumes; an error
of `ReadCoreData` is printed alone. -/
def mainOn (parserCfg : Parser) (cfg : Processor) (lines : List String) :
    Option (List Printed) :=
  match (fileParser lines parserCfg).ReadCoreData with
  | ((_, some err), _) => some [Printed.message err.Error]
  | ((none, none), _) => none
  | ((some coreData, none), fp) =>
    match fp.ReadEvents coreData.TablesCount with
    | none => none
    | some events => mainAfterCoreData cfg coreData events


/-! ## Auxiliary definitions for the statements

Short names for the output a transition appends, and the concrete states the
examples below are evaluated on. -/

/-- The processor after it has written one Error event with the given time and
reason code; nothing but the output differs. -/
def withError (p : EventProcessorImpl) (t : Int) (code : String) : EventProcessorImpl :=
  { p with out := p.out ++ [Line.event (.outgoing (NewErrorEvent t (GoError.New code)))] }

/-- The lines a successful `processSits` writes: the ClientSat event when asked
for, nothing otherwise. -/
def satLines (generateSatEvent : Bool) (event : IncomingEvent) : List Line :=
  if generateSatEvent then
    [Line.event (.outgoing (NewClientSatEvent event.HappensAt event.Client))]
  else []

/-- The lines `processLeaves` writes before it releases the table: the
ClientLeft event when asked for, nothing otherwise. -/
def leftLines (generateLeftEvent : Bool) (event : IncomingEvent) : List Line :=
  if generateLeftEvent then
    [Line.event (.outgoing (NewClientLeftEvent event.HappensAt event.Client))]
  else []

/-- The configuration of the test suite: the default time layout. -/
def testCfg : Processor := { TimeFormat := "15:04" }

/-- The club of the test suite: ten tables, price 10, open 10:00 to 14:00. -/
def testCore : CoreData := NewCoreData 10 10 { Start := 600, End := 840 }

/-- The event that seated client1 at table 1 at 10:00. -/
def sitClient1 : IncomingEvent := NewIncomingEvent 600 Sits (NewClientSits "client1" 1 10)

/-- A club in which client1 holds table 1 since 10:00 and nobody else is in. -/
def oneSeated : EventProcessorImpl :=
  { newClub testCfg testCore with
    clients := NewInMemoryStorage.Set "client1" 1,
    tables := NewInMemoryStorage.Set 1 sitClient1 }

/-- As `oneSeated`, with client2 present without a table and waiting. -/
def oneSeatedOneQueued : EventProcessorImpl :=
  { oneSeated with
    clients := oneSeated.clients.Set "client2" (-1),
    waitingQueue := oneSeated.waitingQueue.Push (some (NewClientWaits "client2")) }

/-- No nil sits in the waiting queue. -/
def QueueNonNil (p : EventProcessorImpl) : Prop :=
  ∀ x ∈ p.waitingQueue.queue, x ≠ none

/-- Every client mapped to a real table is the occupant recorded for that table. -/
def SeatedConsistent (p : EventProcessorImpl) : Prop :=
  ∀ (c : String) (X : Int), p.clients.Get c = some X → X ≠ -1 →
    ∃ ev : IncomingEvent, p.tables.Get X = some ev ∧ ev.Client.GetName = c

/-- A channel message that carries an event and no failure. -/
def wrap (event : IncomingEvent) : WrappedIncomingEvent := { Event := some event, Err := none }

/-- The state `ProcessEvents` is in after the opening line and the given
events, before the closing procedure. -/
def afterEvents (cfg : Processor) (coreData : CoreData) (events : List IncomingEvent) :
    Option EventProcessorImpl :=
  (eventsLoop
    { newClub cfg coreData with
      out := (newClub cfg coreData).out ++ [Line.time coreData.WorkingTime.Start] }
    (events.map wrap)).map Prod.fst

/-- The name at the head of the waiting queue, if there is one. -/
def headName (p : EventProcessorImpl) : Option String :=
  match p.waitingQueue.queue with
  | some client :: _ => some client.GetName
  | _ => none

/-- The club of the scenario: one table, price 10, open 10:00 to 20:00. -/
def scenarioCore : CoreData := NewCoreData 1 10 { Start := 600, End := 1200 }

/-- In the scenario club: client1 arrives at 10:10, sits down at table 1 at
10:30 and leaves in the same minute. -/
def zeroMinuteEvents : List IncomingEvent :=
  [NewIncomingEvent 610 Arrives (NewClientArrives "client1"),
   NewIncomingEvent 630 Sits (NewClientSits "client1" 1 1),
   NewIncomingEvent 630 Leaves (NewClientLeaves "client1")]

/-- In the scenario club: client1 arrives and sits at 10:30, then asks to wait. -/
def seatedWaiterEvents : List IncomingEvent :=
  [NewIncomingEvent 630 Arrives (NewClientArrives "client1"),
   NewIncomingEvent 630 Sits (NewClientSits "client1" 1 1),
   NewIncomingEvent 631 Waits (NewClientWaits "client1")]

/-- The state after `seatedWaiterEvents`: client1 holds table 1 and heads the queue. -/
def seatedWaiter : EventProcessorImpl :=
  (afterEvents testCfg scenarioCore seatedWaiterEvents).getD (newClub testCfg scenarioCore)

/-- In the scenario club: client1 arrives and sits at 10:30, client2 arrives and waits. -/
def seatedAndQueuedEvents : List IncomingEvent :=
  [NewIncomingEvent 630 Arrives (NewClientArrives "client1"),
   NewIncomingEvent 630 Sits (NewClientSits "client1" 1 1),
   NewIncomingEvent 640 Arrives (NewClientArrives "client2"),
   NewIncomingEvent 641 Waits (NewClientWaits "client2")]

/-- The state after `seatedAndQueuedEvents`: client1 holds table 1, client2 waits. -/
def seatedAndQueued : EventProcessorImpl :=
  (afterEvents testCfg scenarioCore seatedAndQueuedEvents).getD (newClub testCfg scenarioCore)

/-- The input of the scenario. -/
def scenarioEvents : List IncomingEvent :=
  [NewIncomingEvent 600 Arrives (NewClientArrives "client1"),
   NewIncomingEvent 600 Sits (NewClientSits "client1" 1 1),
   NewIncomingEvent 630 Arrives (NewClientArrives "client2"),
   NewIncomingEvent 631 Waits (NewClientWaits "client2"),
   NewIncomingEvent 720 Leaves (NewClientLeaves "client1")]

/-- The output the scenario is described with: the opening time, the five
echoed events of which only the Leave generates events, namely ClientLeft
client1 and ClientSat client2 1, then ClientLeft client2 at closing, and the
closing time. -/
def scenarioDescribedOut : List Line :=
  [Line.time 600] ++ (scenarioEvents.map (fun e => Line.event (.incoming e))) ++
  [Line.event (.outgoing (NewClientLeftEvent 720 (NewClientLeaves "client1"))),
   Line.event (.outgoing (NewClientSatEvent 720 (NewClientSits "client2" 1 1))),
   Line.event (.outgoing (NewClientLeftEvent 1200 (NewClientLeaves "client2"))),
   Line.time 1200]

/-- The scenario club with client1 already admitted: present, without table. -/
def admittedClub : EventProcessorImpl :=
  { newClub testCfg scenarioCore with clients := NewInMemoryStorage.Set "client1" (-1) }

/-- Whether a line is a generated ClientLeft event (kind 11). -/
def isClientLeft : Line → Bool
  | .event (.outgoing e) => decide (e.Typ = OutgoingEventTypeClientLeft)
  | _ => false

/-- Whether a line is a generated ClientLeft event (kind 11) for the client `c`. -/
def isLeftOf (c : String) : Line → Bool
  | .event (.outgoing e) =>
    decide (e.Typ = OutgoingEventTypeClientLeft)
      && decide (e.Client.map ClientData.GetName = some c)
  | _ => false

/-- The ClientLeft line the closing procedure writes for the client `c`. -/
def closingLeft (p : EventProcessorImpl) (c : String) : Line :=
  Line.event (.outgoing (NewClientLeftEvent p.coreData.WorkingTime.End (NewClientLeaves c)))

/-- The revenue entry of a table after one more occupancy of `d` minutes, in
exact arithmetic. -/
def accrued (prev : Option RevenueStats) (pricePerHour d : Int) : RevenueStats :=
  { Income := (prev.getD ⟨0, 0⟩).Income + pricePerHour * ⌈(d : ℚ) / 60⌉,
    UsageTime := (prev.getD ⟨0, 0⟩).UsageTime + d }

/-- The revenue entry of a table after one more occupancy of `d` minutes, as
`updateRevenue` computes it on `int`. -/
def billed (prev : Option RevenueStats) (pricePerHour d : Int) : RevenueStats :=
  { Income := wrapInt ((prev.getD ⟨0, 0⟩).Income + wrapInt (pricePerHour * ceilHours d)),
    UsageTime := (prev.getD ⟨0, 0⟩).UsageTime + d }

/-- Whether a number is in the range of an `int` of 64 bits. -/
def fitsInt (n : Int) : Prop := -9223372036854775808 ≤ n ∧ n ≤ 9223372036854775807

/-- The range of `int` is decided by comparison. -/
instance fitsInt.instDecidable (n : Int) : Decidable (fitsInt n) :=
  inferInstanceAs (Decidable (_ ∧ _))

/-- Whether a number of minutes is in the range of a `time.Duration`, which
counts nanoseconds in 64 bits. -/
def fitsDuration (d : Int) : Prop := fitsInt (d * 60000000000)

/-- The range of `time.Duration` is decided by comparison. -/
instance fitsDuration.instDecidable (d : Int) : Decidable (fitsDuration d) :=
  inferInstanceAs (Decidable (fitsInt _))

/-- No overflow when a table with the revenue entry `prev` is billed for `d`
minutes: the amount and the new income are in the range of `int`, the duration
and the new usage time in the range of `time.Duration`. -/
def billable (prev : Option RevenueStats) (pricePerHour d : Int) : Prop :=
  fitsInt (pricePerHour * ceilHours d)
  ∧ fitsInt ((prev.getD ⟨0, 0⟩).Income + pricePerHour * ceilHours d)
  ∧ fitsDuration d
  ∧ fitsDuration ((prev.getD ⟨0, 0⟩).UsageTime + d)

/-- The absence of overflow is decided by comparison. -/
instance billable.instDecidable (prev : Option RevenueStats) (pricePerHour d : Int) :
    Decidable (billable prev pricePerHour d) :=
  inferInstanceAs (Decidable (_ ∧ _ ∧ _ ∧ _))

/-- Whether a line is a generated Error event (kind 13). -/
def isError : Line → Bool
  | .event (.outgoing e) => decide (e.Typ = OutgoingEventTypeError)
  | _ => false

/-- The five reason codes the processor answers with. -/
def reasonCodes : List String :=
  [ErrNotOpenYet, ErrYouShallNotPass, ErrClientUnknown, ErrTableIsBusy, ErrCantWaitLonger]

/-- An event of kind Sits carries a Sits payload, as every delivered event does. -/
def wellShaped (event : IncomingEvent) : Prop :=
  event.Typ = Sits → ∃ (name : String) (table maxTables : Int),
    event.Client = .ClientSits name table maxTables

/-- Every occupied table has a number from 1 to `tablesCount`. -/
def TablesInRange (tablesCount : Int) (p : EventProcessorImpl) : Prop :=
  ∀ k : Int, (p.tables.Get k).isSome → 1 ≤ k ∧ k ≤ tablesCount

/-- The state after the first three of `seatedAndQueuedEvents`: client1 holds
the only table, client2 is present and nobody waits. -/
def seatedBeforeWait : EventProcessorImpl :=
  (afterEvents testCfg scenarioCore (seatedAndQueuedEvents.take 3)).getD
    (newClub testCfg scenarioCore)

/-- In the scenario club, open until 20:00: client1 arrives at 19:00 and sits
down at table 1 at 21:00. -/
def lateSitEvents : List IncomingEvent :=
  [NewIncomingEvent 1140 Arrives (NewClientArrives "client1"),
   NewIncomingEvent 1260 Sits (NewClientSits "client1" 1 1)]

/-- A club of two tables, price 10, open 10:00 to 20:00. -/
def twoTablesCore : CoreData := NewCoreData 2 10 { Start := 600, End := 1200 }

/-- In the club of two tables: client1 and client2 arrive, sit at tables 1 and
2, client1 asks to wait while seated, and client2 leaves. -/
def orphanEvents : List IncomingEvent :=
  [NewIncomingEvent 630 Arrives (NewClientArrives "client1"),
   NewIncomingEvent 630 Arrives (NewClientArrives "client2"),
   NewIncomingEvent 640 Sits (NewClientSits "client1" 1 2),
   NewIncomingEvent 640 Sits (NewClientSits "client2" 2 2),
   NewIncomingEvent 650 Waits (NewClientWaits "client1"),
   NewIncomingEvent 660 Leaves (NewClientLeaves "client2")]

/-- The table a revenue line is for. -/
def tableOf : Line → Option Int
  | .revenue i _ => some i
  | _ => none

/-- The state in which `ProcessEvents` ends on `orphanEvents`. -/
def orphanEnd : EventProcessorImpl :=
  ((ProcessEvents (newClub testCfg twoTablesCore) (orphanEvents.map wrap)).map Prod.fst).getD
    (newClub testCfg twoTablesCore)

/-- The client name an event line carries; a time line, a revenue line and an
event without a payload carry none. -/
def lineClient : Line → Option String
  | .event (.incoming e) => some e.Client.GetName
  | .event (.outgoing e) => e.Client.map ClientData.GetName
  | _ => none

/-- The names the closing procedure collects from the waiting queue. -/
def queuedNames (p : EventProcessorImpl) : List String :=
  p.waitingQueue.queue.filterMap (fun x => x.map ClientData.GetName)

/-- Whether a line is an event the processor generated: a ClientLeft (kind 11),
a ClientSat (kind 12) or an Error (kind 13). -/
def isGenerated : Line → Bool
  | .event (.outgoing e) =>
    decide (e.Typ = OutgoingEventTypeClientLeft ∨ e.Typ = OutgoingEventTypeClientSat
      ∨ e.Typ = OutgoingEventTypeError)
  | _ => false

/-- The layout of the lines of a run as the specification describes it:
`Echoed p events body q` says that the events lead from `p` to `q` and that
`body` is, for each event in input order, its echoed line immediately followed
by the generated events its processing wrote. -/
inductive Echoed : EventProcessorImpl → List IncomingEvent → List Line →
    EventProcessorImpl → Prop where
  | done (p : EventProcessorImpl) : Echoed p [] [] p
  | turn {p q r : EventProcessorImpl} {event : IncomingEvent} {rest : List IncomingEvent}
      {gen body : List Line} :
    processEvent (writeOutEvent p (.incoming event)) event = some q →
    q.out = p.out ++ Line.event (.incoming event) :: gen →
    (∀ l ∈ gen, isGenerated l = true) →
    Echoed q rest body r →
    Echoed p (event :: rest) (Line.event (.incoming event) :: gen ++ body) r

/-- Of two strings one is below the other. -/
instance strLE.instIsTotal : IsTotal String strLE :=
  ⟨fun a b => le_total a.data b.data⟩

/-- The comparison of strings is transitive. -/
instance strLE.instIsTrans : IsTrans String strLE :=
  ⟨fun a b c (h1 : a.data ≤ b.data) (h2 : b.data ≤ c.data) => le_trans h1 h2⟩

/-- Two strings below each other are the same string. -/
instance strLE.instIsAntisymm : IsAntisymm String strLE :=
  ⟨fun a b (h1 : a.data ≤ b.data) (h2 : b.data ≤ a.data) => String.ext (le_antisymm h1 h2)⟩


/-- The queue after `Push` has been called with each item in turn. -/
def pushAll {T : Type} (q : InMemoryQueue T) (items : List T) : InMemoryQueue T :=
  items.foldl InMemoryQueue.Push q

/-- What `n` successive calls of `Pop` return, and the queue they leave. -/
def popAll {T : Type} : Nat → InMemoryQueue T → List (T × Option String) × InMemoryQueue T
  | 0, q => ([], q)
  | n + 1, q => ((q.Pop.1 :: (popAll n q.Pop.2).1), (popAll n q.Pop.2).2)

/-- The payload `parseClientData` builds for a kind that takes a name alone. -/
def nameOnly (eventType : IncomingEventType) (name : String) : ClientData :=
  if eventType = Arrives then NewClientArrives name
  else if eventType = Waits then NewClientWaits name
  else NewClientLeaves name

/-- The four kinds of input event. -/
def knownKind (eventType : IncomingEventType) : Prop :=
  eventType = Arrives ∨ eventType = Sits ∨ eventType = Waits ∨ eventType = Leaves

/-- The four kinds are told apart by comparison. -/
instance knownKind.instDecidable (eventType : IncomingEventType) : Decidable (knownKind eventType) :=
  inferInstanceAs (Decidable (_ ∨ _ ∨ _ ∨ _))

/-- What one processed event does to the presence map, the occupancy and the
queue, case by case: nothing (an Error, a ClientLeft for a full queue, an
unknown kind); an Arrive admits an absent client; a Sit seats a client without a
table, or moves a seated client; a Wait joins the queue; a Leave removes a
client without a table, or releases its table, which goes to the head of the
queue if there is one. -/
inductive Transition (p : EventProcessorImpl) (event : IncomingEvent)
    (q : EventProcessorImpl) : Prop where
  | same :
    q.clients = p.clients → q.tables = p.tables → q.waitingQueue = p.waitingQueue →
    Transition p event q
  | arrive :
    event.Typ = Arrives → p.clients.Get event.Client.GetName = none →
    q.clients = p.clients.Set event.Client.GetName (-1) → q.tables = p.tables →
    q.waitingQueue = p.waitingQueue → Transition p event q
  | sit (table maxTables : Int) :
    event.Typ = Sits → event.Client = .ClientSits event.Client.GetName table maxTables →
    p.clients.Get event.Client.GetName = some (-1) → p.tables.Get table = none →
    q.clients = p.clients.Set event.Client.GetName table →
    q.tables = p.tables.Set table event →
    q.waitingQueue = p.waitingQueue → Transition p event q
  | move (table maxTables cur : Int) :
    event.Typ = Sits → event.Client = .ClientSits event.Client.GetName table maxTables →
    p.clients.Get event.Client.GetName = some cur → cur ≠ -1 → p.tables.Get table = none →
    q.clients = (p.clients.Delete event.Client.GetName).Set event.Client.GetName table →
    q.tables = (p.tables.Delete cur).Set table event →
    q.waitingQueue = p.waitingQueue → Transition p event q
  | wait :
    event.Typ = Waits → p.coreData.TablesCount ≤ p.tables.Len →
    p.waitingQueue.Len < p.coreData.TablesCount →
    q.clients = p.clients → q.tables = p.tables →
    q.waitingQueue = { p.waitingQueue with
      queue := p.waitingQueue.queue ++ [some event.Client] } →
    Transition p event q
  | leaveIdle :
    event.Typ = Leaves → p.clients.Get event.Client.GetName = some (-1) →
    q.clients = p.clients.Delete event.Client.GetName → q.tables = p.tables →
    q.waitingQueue = p.waitingQueue → Transition p event q
  | leaveFree (busyTable : Int) :
    event.Typ = Leaves → p.clients.Get event.Client.GetName = some busyTable →
    busyTable ≠ -1 → p.waitingQueue.queue = [] →
    q.clients = p.clients.Delete event.Client.GetName →
    q.tables = p.tables.Delete busyTable →
    q.waitingQueue = p.waitingQueue → Transition p event q
  | leaveSeat (busyTable : Int) (head : ClientData) (rest : List (Option ClientData)) :
    event.Typ = Leaves → p.clients.Get event.Client.GetName = some busyTable →
    busyTable ≠ -1 → p.waitingQueue.queue = some head :: rest →
    q.clients = ((p.clients.Delete event.Client.GetName).Set head.GetName (-1)).Set
      head.GetName busyTable →
    q.tables = (p.tables.Delete busyTable).Set busyTable
      (NewIncomingEvent event.HappensAt Sits
        (NewClientSits head.GetName busyTable p.coreData.TablesCount)) →
    q.waitingQueue = { p.waitingQueue with queue := rest } →
    Transition p event q

/-- Every occupied table's recorded occupant is present and mapped to that
table. -/
def Occupants (p : EventProcessorImpl) : Prop :=
  ∀ (X : Int) (ev : IncomingEvent), p.tables.Get X = some ev →
    p.clients.Get ev.Client.GetName = some X

/-- Every queued client is present and holds no table. -/
def QueuedIdle (p : EventProcessorImpl) : Prop :=
  ∀ name ∈ queuedNames p, p.clients.Get name = some (-1)

/-- While somebody waits, no fewer than `TablesCount` tables are occupied. -/
def AllBusyWhenQueued (p : EventProcessorImpl) : Prop :=
  p.waitingQueue.queue ≠ [] → p.coreData.TablesCount ≤ p.tables.Len

/-- The input discipline that the processor does not check: a Wait comes from a
client that is present, holds no table and is not yet queued, and a Leave does
not come from a queued client. -/
def disciplined (p : EventProcessorImpl) (event : IncomingEvent) : Prop :=
  (event.Typ = Waits →
    p.clients.Get event.Client.GetName = some (-1) ∧ event.Client.GetName ∉ queuedNames p)
  ∧ (event.Typ = Leaves → event.Client.GetName ∉ queuedNames p)

/-- The discipline is decided on the state. -/
instance disciplined.instDecidable (p : EventProcessorImpl) (event : IncomingEvent) :
    Decidable (disciplined p event) :=
  inferInstanceAs (Decidable (_ ∧ _))

/-- The states reachable by delivered events that keep the discipline. -/
inductive ReachableDisciplined (cfg : Processor) (coreData : CoreData) :
    EventProcessorImpl → Prop where
  | start :
    ReachableDisciplined cfg coreData
      { newClub cfg coreData with
        out := (newClub cfg coreData).out ++ [Line.time coreData.WorkingTime.Start] }
  | step {p q : EventProcessorImpl} (event : IncomingEvent) :
    ReachableDisciplined cfg coreData p →
    validated coreData.TablesCount event = true →
    disciplined p event →
    processEvent (writeOutEvent p (.incoming event)) event = some q →
    ReachableDisciplined cfg coreData q

/-- The invariants of a disciplined run, for a club of `tc` tables. -/
def Tidy (tc : Int) (p : EventProcessorImpl) : Prop :=
  p.coreData.TablesCount = tc ∧ QueueNonNil p ∧ SeatedConsistent p ∧ TablesInRange tc p
    ∧ AllBusyWhenQueued p ∧ Occupants p ∧ QueuedIdle p ∧ (queuedNames p).Nodup

/-- A run of delivered events that keep the discipline, from the given state;
`none` when an event is not a delivered one, breaks the discipline or makes the
processor panic. -/
def disciplinedRun (tc : Int) : EventProcessorImpl → List IncomingEvent →
    Option EventProcessorImpl
  | p, [] => some p
  | p, event :: rest =>
    if validated tc event = true ∧ disciplined p event then
      match processEvent (writeOutEvent p (.incoming event)) event with
      | none => none
      | some q => disciplinedRun tc q rest
    else none

/-- In the scenario club: client1 arrives and sits, and client2, who never
arrived, asks to wait. -/
def absentWaitEvents : List IncomingEvent :=
  [NewIncomingEvent 630 Arrives (NewClientArrives "client1"),
   NewIncomingEvent 630 Sits (NewClientSits "client1" 1 1),
   NewIncomingEvent 641 Waits (NewClientWaits "client2")]

/-- The state after `absentWaitEvents`: client2 waits and is not present. -/
def absentWaiter : EventProcessorImpl :=
  (afterEvents testCfg scenarioCore absentWaitEvents).getD (newClub testCfg scenarioCore)

/-- In the club of two tables: client1 and client2 hold the tables, client3
arrives and asks to wait twice. -/
def doubleWaitEvents : List IncomingEvent :=
  [NewIncomingEvent 630 Arrives (NewClientArrives "client1"),
   NewIncomingEvent 630 Arrives (NewClientArrives "client2"),
   NewIncomingEvent 630 Arrives (NewClientArrives "client3"),
   NewIncomingEvent 640 Sits (NewClientSits "client1" 1 2),
   NewIncomingEvent 640 Sits (NewClientSits "client2" 2 2),
   NewIncomingEvent 650 Waits (NewClientWaits "client3"),
   NewIncomingEvent 651 Waits (NewClientWaits "client3")]

/-- The state after `doubleWaitEvents`: client3 is queued twice. -/
def doubleWaiter : EventProcessorImpl :=
  (afterEvents testCfg twoTablesCore doubleWaitEvents).getD (newClub testCfg twoTablesCore)

/-- The state after `orphanEvents`, before the closing procedure: client1 is
mapped to table 2 and the entries of both tables name client1. -/
def orphanState : EventProcessorImpl :=
  (afterEvents testCfg twoTablesCore orphanEvents).getD (newClub testCfg twoTablesCore)

/-- The occupancy entry of table `X` names the client `c`. -/
def namedBy (p : EventProcessorImpl) (c : String) (X : Int) : Prop :=
  ∃ ev : IncomingEvent, p.tables.Get X = some ev ∧ ev.Client.GetName = c

/-- The combination "absent": not present, named by no table, not queued. -/
def isAbsent (p : EventProcessorImpl) (c : String) : Prop :=
  p.clients.Get c = none ∧ (∀ X : Int, ¬ namedBy p c X) ∧ c ∉ queuedNames p

/-- The combination "present, no table": present without a table, named by no
table, not queued. -/
def isIdle (p : EventProcessorImpl) (c : String) : Prop :=
  p.clients.Get c = some (-1) ∧ (∀ X : Int, ¬ namedBy p c X) ∧ c ∉ queuedNames p

/-- The combination "present, at table X": mapped to exactly one table, which
is the only one that names the client, and not queued. -/
def isSeated (p : EventProcessorImpl) (c : String) : Prop :=
  ∃ X : Int, X ≠ -1 ∧ p.clients.Get c = some X ∧ (∀ Y : Int, namedBy p c Y ↔ Y = X)
    ∧ c ∉ queuedNames p

/-- The combination "present, no table, queued". -/
def isQueued (p : EventProcessorImpl) (c : String) : Prop :=
  p.clients.Get c = some (-1) ∧ (∀ X : Int, ¬ namedBy p c X) ∧ c ∈ queuedNames p

/-- The raw line the closing procedure writes for a name that is no longer
present: the Leave event itself, in the form of an input event. -/
def rawLeave (p : EventProcessorImpl) (c : String) : Line :=
  Line.event (.incoming
    (NewIncomingEvent p.coreData.WorkingTime.End Leaves (NewClientLeaves c)))

/-- The lines of the last loop of `leaveClients` over the given names, for a
presence map and a closing time: the ClientLeft for a name that is present, the
raw line for a name that is not, each name being deleted as it is visited. -/
def closingLines (closing : Int) : InMemoryStorage String Int → List String → List Line
  | _, [] => []
  | clients, c :: rest =>
    (if (clients.Get c).isSome then
        Line.event (.outgoing (NewClientLeftEvent closing (NewClientLeaves c)))
      else Line.event (.incoming (NewIncomingEvent closing Leaves (NewClientLeaves c))))
      :: closingLines closing (clients.Delete c) rest

/-- The lines the closing procedure writes from a state. -/
def closingOf (p : EventProcessorImpl) : List Line :=
  ((leaveClients p).map (fun q => q.out.drop p.out.length)).getD []

/-- What `readEvent` returns on each line by itself, the first line being read
on the row after `row`. -/
def lineResults (cfg : Parser) (maxTables : Int) :
    Int → List String → List (Option (Option IncomingEvent × Option GoError))
  | _, [] => []
  | row, line :: rest =>
    (FileParser.mk ⟨rest, line⟩ cfg (row + 1) maxTables).readEvent
      :: lineResults cfg maxTables (row + 1) rest

/-- The messages on the channel, given what `readEvent` returned line by line:
the events up to the first failure, and that failure. -/
def deliver : List (Option (Option IncomingEvent × Option GoError)) →
    Option (List WrappedIncomingEvent)
  | [] => some []
  | none :: _ => none
  | some (_, some err) :: _ => some [{ Event := none, Err := some err }]
  | some (none, none) :: _ => none
  | some (some event, none) :: rest =>
    (deliver rest).map (fun sent => { Event := some event, Err := none } :: sent)

/-- A file for a club that is open overnight, from 20:00 to 10:00: one table,
price 10, and client1 arriving at 02:00. -/
def overnightLines : List String := ["1", "20:00 10:00", "10", "02:00 1 client1"]

/-- The core data of `overnightLines`. -/
def overnightCore : CoreData := NewCoreData 1 10 (NewTimeInterval 1200 600)

/-- Two event lines of which the second has the earlier time. -/
def unorderedLines : List String := ["10:00 1 client1", "09:00 1 client2"]

/-! ## Lookup lemmas for the store -/

section Storage

variable {K V : Type} [DecidableEq K]

@[simp] theorem InMemoryStorage.Get_Set_self (i : InMemoryStorage K V) (k : K) (v : V) :
    (i.Set k v).Get k = some v := by
  simp [InMemoryStorage.Get, InMemoryStorage.Set]

theorem InMemoryStorage.Get_Set_of_ne (i : InMemoryStorage K V) {k k2 : K} (v : V)
    (h : k2 ≠ k) : (i.Set k v).Get k2 = i.Get k2 := by
  simp [InMemoryStorage.Get, InMemoryStorage.Set, AList.lookup_insert_ne h]

theorem InMemoryStorage.Delete_eq_erase (i : InMemoryStorage K V) (k : K) :
    i.Delete k = AList.erase k i := by
  unfold InMemoryStorage.Delete
  split
  · rename_i h
    rw [Option.isNone_iff_eq_none, AList.lookup_eq_none] at h
    apply AList.ext
    simp only [AList.erase]
    rw [List.kerase_of_not_mem_keys]
    exact h
  · rfl

@[simp] theorem InMemoryStorage.Get_Delete_self (i : InMemoryStorage K V) (k : K) :
    (i.Delete k).Get k = none := by
  simp [InMemoryStorage.Delete_eq_erase, InMemoryStorage.Get]

theorem InMemoryStorage.Get_Delete_of_ne (i : InMemoryStorage K V) {k k2 : K}
    (h : k2 ≠ k) : (i.Delete k).Get k2 = i.Get k2 := by
  simp [InMemoryStorage.Delete_eq_erase, InMemoryStorage.Get, AList.lookup_erase_ne h]

end Storage

/-! ## Revenue accrual -/

/-- The integer formula of `ceilHours` is the ceiling of the duration in hours. -/
theorem ceilHours_eq_ceil (d : Int) : ceilHours d = ⌈(d : ℚ) / 60⌉ := by
  unfold ceilHours
  have h : ⌊((-d : Int) : ℚ) / ((60 : Nat) : ℚ)⌋ = (-d) / ((60 : Nat) : Int) :=
    Rat.floor_intCast_div_natCast (-d) 60
  have h2 : ((-d : Int) : ℚ) / ((60 : Nat) : ℚ) = -((d : ℚ) / 60) := by
    push_cast; ring
  rw [h2, Int.floor_neg] at h
  have h3 : ((60 : Nat) : Int) = 60 := rfl
  rw [h3] at h
  omega

/-- A number in the range of `int` is held as it is. -/
theorem wrapInt_of_fits {n : Int} (h : fitsInt n) : wrapInt n = n := by
  unfold wrapInt
  unfold fitsInt at h
  omega

/-- Without overflow the entry that `updateRevenue` computes is the exact one. -/
theorem billed_of_billable (prev : Option RevenueStats) (pricePerHour d : Int)
    (h : billable prev pricePerHour d) :
    billed prev pricePerHour d =
      { Income := (prev.getD ⟨0, 0⟩).Income + pricePerHour * ceilHours d,
        UsageTime := (prev.getD ⟨0, 0⟩).UsageTime + d } := by
  unfold billed
  rw [wrapInt_of_fits h.1, wrapInt_of_fits h.2.1]

/-- Without overflow the entry that `updateRevenue` computes is the accrued
one. -/
theorem billed_eq_accrued (prev : Option RevenueStats) (pricePerHour d : Int)
    (h : billable prev pricePerHour d) :
    billed prev pricePerHour d = accrued prev pricePerHour d := by
  rw [billed_of_billable prev pricePerHour d h, accrued, ceilHours_eq_ceil]

/-- What `updateRevenue` does for an occupied table other than the sentinel. -/
theorem updateRevenue_billed (p : EventProcessorImpl) (table t : Int) (ev : IncomingEvent)
    (hne : table ≠ -1) (hocc : p.tables.Get table = some ev) :
    updateRevenue p table t =
      { p with
        revenue := p.revenue.Set table
          (billed (p.revenue.Get table) p.coreData.PricePerHour (t - ev.HappensAt)) } := by
  unfold updateRevenue billed
  rw [if_neg hne, hocc]
  cases h : p.revenue.Get table <;> simp

/-- What `updateRevenue` does for an occupied table other than the sentinel
when nothing overflows. -/
theorem updateRevenue_of_occupied (p : EventProcessorImpl) (table t : Int) (ev : IncomingEvent)
    (hne : table ≠ -1) (hocc : p.tables.Get table = some ev)
    (hfit : billable (p.revenue.Get table) p.coreData.PricePerHour (t - ev.HappensAt)) :
    updateRevenue p table t =
      { p with
        revenue := p.revenue.Set table
          { Income := ((p.revenue.Get table).getD ⟨0, 0⟩).Income
              + p.coreData.PricePerHour * ceilHours (t - ev.HappensAt),
            UsageTime := ((p.revenue.Get table).getD ⟨0, 0⟩).UsageTime
              + (t - ev.HappensAt) } } := by
  rw [updateRevenue_billed p table t ev hne hocc, billed_of_billable _ _ _ hfit]

/-- For the sentinel `updateRevenue` returns at once. -/
theorem updateRevenue_of_sentinel (p : EventProcessorImpl) (t : Int) :
    updateRevenue p (-1) t = p := by
  simp [updateRevenue]

/-- For a table without occupancy entry `updateRevenue` returns at once. -/
theorem updateRevenue_of_free (p : EventProcessorImpl) (table t : Int)
    (hfree : p.tables.Get table = none) : updateRevenue p table t = p := by
  unfold updateRevenue
  split
  · rfl
  · rw [hfree]

@[simp] theorem updateRevenue_out (p : EventProcessorImpl) (table t : Int) :
    (updateRevenue p table t).out = p.out := by
  unfold updateRevenue; split
  · rfl
  · split <;> rfl

@[simp] theorem updateRevenue_tables (p : EventProcessorImpl) (table t : Int) :
    (updateRevenue p table t).tables = p.tables := by
  unfold updateRevenue; split
  · rfl
  · split <;> rfl

@[simp] theorem updateRevenue_clients (p : EventProcessorImpl) (table t : Int) :
    (updateRevenue p table t).clients = p.clients := by
  unfold updateRevenue; split
  · rfl
  · split <;> rfl

@[simp] theorem updateRevenue_waitingQueue (p : EventProcessorImpl) (table t : Int) :
    (updateRevenue p table t).waitingQueue = p.waitingQueue := by
  unfold updateRevenue; split
  · rfl
  · split <;> rfl

@[simp] theorem updateRevenue_coreData (p : EventProcessorImpl) (table t : Int) :
    (updateRevenue p table t).coreData = p.coreData := by
  unfold updateRevenue; split
  · rfl
  · split <;> rfl

@[simp] theorem updateRevenue_cfg (p : EventProcessorImpl) (table t : Int) :
    (updateRevenue p table t).cfg = p.cfg := by
  unfold updateRevenue; split
  · rfl
  · split <;> rfl

/-- Only the revenue store is touched by `updateRevenue`. -/
theorem updateRevenue_eq (p : EventProcessorImpl) (table t : Int) :
    updateRevenue p table t = { p with revenue := (updateRevenue p table t).revenue } := by
  unfold updateRevenue; split
  · rfl
  · split <;> rfl

/-- The new revenue store depends on the occupancy, the revenue and the club data only. -/
theorem updateRevenue_revenue_congr (p q : EventProcessorImpl) (table t : Int)
    (h1 : q.tables = p.tables) (h2 : q.revenue = p.revenue) (h3 : q.coreData = p.coreData) :
    (updateRevenue q table t).revenue = (updateRevenue p table t).revenue := by
  unfold updateRevenue
  rw [h1, h2, h3]
  split
  · exact h2
  · split
    · exact h2
    · rfl

/-- A release leaves the revenue of every other table as it was. -/
theorem updateRevenue_revenue_of_ne (p : EventProcessorImpl) (table t : Int) {k : Int}
    (h : k ≠ table) : (updateRevenue p table t).revenue.Get k = p.revenue.Get k := by
  unfold updateRevenue; split
  · rfl
  · split
    · rfl
    · exact InMemoryStorage.Get_Set_of_ne _ _ h

/-- Claim C1: for a table other than the sentinel that is occupied since
`ev.HappensAt`, and a release time `t` not before it, `updateRevenue` adds
`PricePerHour * ceil((t - seatedAt) / 1 hour)` to the table's income and the
unrounded `t - seatedAt` to its usage time, counting from 0/0 when the table has
no revenue entry, as long as nothing overflows (the amount and the income in
the range of `int`, the duration and the usage time in the range of
`time.Duration`); a second release at `t2` then adds its own amounts on top.
Whatever the price, the income is the sum as an `int` of 64 bits holds it. The
revenue of every other table, the occupancy, the presence map, the queue and
the output stay as they were. For the sentinel -1 or an unoccupied table
nothing changes at all. -/
theorem updateRevenue_accrues (p : EventProcessorImpl) (table t : Int) :
    (∀ ev : IncomingEvent, table ≠ -1 → p.tables.Get table = some ev → ev.HappensAt ≤ t →
      (billable (p.revenue.Get table) p.coreData.PricePerHour (t - ev.HappensAt) →
        (updateRevenue p table t).revenue.Get table =
            some { Income := ((p.revenue.Get table).getD ⟨0, 0⟩).Income
                      + p.coreData.PricePerHour * ⌈((t - ev.HappensAt : Int) : ℚ) / 60⌉,
                   UsageTime := ((p.revenue.Get table).getD ⟨0, 0⟩).UsageTime
                      + (t - ev.HappensAt) }
        ∧ (∀ t2 : Int, ev.HappensAt ≤ t2 →
            billable ((updateRevenue p table t).revenue.Get table) p.coreData.PricePerHour
              (t2 - ev.HappensAt) →
            (updateRevenue (updateRevenue p table t) table t2).revenue.Get table =
              some { Income := ((p.revenue.Get table).getD ⟨0, 0⟩).Income
                        + p.coreData.PricePerHour * ⌈((t - ev.HappensAt : Int) : ℚ) / 60⌉
                        + p.coreData.PricePerHour * ⌈((t2 - ev.HappensAt : Int) : ℚ) / 60⌉,
                     UsageTime := ((p.revenue.Get table).getD ⟨0, 0⟩).UsageTime
                        + (t - ev.HappensAt) + (t2 - ev.HappensAt) }))
      ∧ (fitsDuration (t - ev.HappensAt) →
          fitsDuration (((p.revenue.Get table).getD ⟨0, 0⟩).UsageTime + (t - ev.HappensAt)) →
          (updateRevenue p table t).revenue.Get table =
            some { Income := wrapInt (((p.revenue.Get table).getD ⟨0, 0⟩).Income
                      + wrapInt (p.coreData.PricePerHour
                          * ⌈((t - ev.HappensAt : Int) : ℚ) / 60⌉)),
                   UsageTime := ((p.revenue.Get table).getD ⟨0, 0⟩).UsageTime
                      + (t - ev.HappensAt) })
      ∧ (∀ other : Int, other ≠ table →
          (updateRevenue p table t).revenue.Get other = p.revenue.Get other)
      ∧ (updateRevenue p table t).tables = p.tables
      ∧ (updateRevenue p table t).clients = p.clients
      ∧ (updateRevenue p table t).waitingQueue = p.waitingQueue
      ∧ (updateRevenue p table t).out = p.out)
    ∧ ((table = -1 ∨ p.tables.Get table = none) → updateRevenue p table t = p) := by
  refine ⟨?_, ?_⟩
  · intro ev hne hocc _
    refine ⟨?_, ?_, ?_, ?_, ?_, ?_, ?_⟩
    · intro hfit
      have h1 := updateRevenue_of_occupied p table t ev hne hocc hfit
      refine ⟨?_, ?_⟩
      · rw [h1, ← ceilHours_eq_ceil]; simp
      · intro t2 _ hfit2
        have hocc2 : (updateRevenue p table t).tables.Get table = some ev := by
          rw [h1]; exact hocc
        have hcd : (updateRevenue p table t).coreData = p.coreData := by simp
        rw [updateRevenue_of_occupied _ table t2 ev hne hocc2 (by rw [hcd]; exact hfit2), h1,
          ← ceilHours_eq_ceil, ← ceilHours_eq_ceil]
        simp
    · intro _ _
      rw [updateRevenue_billed p table t ev hne hocc, ← ceilHours_eq_ceil]
      simp [billed]
    · intro other ho
      exact updateRevenue_revenue_of_ne p table t ho
    · simp
    · simp
    · simp
    · simp
  · rintro (h | h)
    · subst h; exact updateRevenue_of_sentinel p t
    · exact updateRevenue_of_free p table t h

/-- Claim C1, evaluated: client1 holds table 1 since 10:00; a release at 12:00
books 2 hours at price 10 and 120 minutes of usage, and a release of the
sentinel changes nothing. At the price 9223372036854775807 the two hours
overflow, and the income that is booked is -2. -/
theorem updateRevenue_accrues_witness :
    ((1 : Int) ≠ -1 ∧ oneSeated.tables.Get 1 = some sitClient1 ∧ sitClient1.HappensAt ≤ 720
      ∧ billable (oneSeated.revenue.Get 1) oneSeated.coreData.PricePerHour
          (720 - sitClient1.HappensAt))
    ∧ (updateRevenue oneSeated 1 720).revenue.Get 1 =
        some { Income := 0 + 10 * ⌈(((720 : Int) - 600 : Int) : ℚ) / 60⌉, UsageTime := 0 + (720 - 600) }
    ∧ updateRevenue oneSeated (-1) 720 = oneSeated
    ∧ (updateRevenue
          { oneSeated with coreData := NewCoreData 1 9223372036854775807 ⟨600, 1200⟩ }
          1 720).revenue.Get 1 = some { Income := -2, UsageTime := 120 } :=
  ⟨⟨by decide, by decide, by decide, by decide⟩,
   (((updateRevenue_accrues oneSeated 1 720).1 sitClient1 (by decide) (by decide)
      (by decide)).1 (by decide)).1,
   (updateRevenue_accrues oneSeated (-1) 720).2 (Or.inl rfl),
   by decide⟩

/-! ## Arrive and Wait -/

/-- Strictly inside the working hours an absent client is let in. -/
theorem processArrives_of_absent (p : EventProcessorImpl) (event : IncomingEvent)
    (h1 : p.coreData.WorkingTime.Start < event.HappensAt)
    (h2 : event.HappensAt < p.coreData.WorkingTime.End)
    (h3 : p.clients.Get event.Client.GetName = none) :
    processArrives p event = { p with clients := p.clients.Set event.Client.GetName (-1) } := by
  have hin : p.coreData.WorkingTime.In event.HappensAt = true := by
    simp only [TimeInterval.In, Bool.and_eq_true, decide_eq_true_eq]
    omega
  simp [processArrives, hin, h3]

/-- Claim C6: an Arrive before the opening time or after the closing time gets
exactly one Error NotOpenYet at its own time, whether or not the client is
present, and no state changes; strictly inside the working hours an Arrive of a
present client gets exactly one Error YouShallNotPass and no state changes, and
an Arrive of an absent client writes nothing and maps the client to the
sentinel -1, with occupancy, queue and revenue as they were. -/
theorem processArrives_cases (p : EventProcessorImpl) (event : IncomingEvent) :
    ((event.HappensAt < p.coreData.WorkingTime.Start ∨
        p.coreData.WorkingTime.End < event.HappensAt) →
      processArrives p event = withError p event.HappensAt ErrNotOpenYet)
    ∧ (p.coreData.WorkingTime.Start < event.HappensAt →
        event.HappensAt < p.coreData.WorkingTime.End →
        (p.clients.Get event.Client.GetName).isSome →
        processArrives p event = withError p event.HappensAt ErrYouShallNotPass)
    ∧ (p.coreData.WorkingTime.Start < event.HappensAt →
        event.HappensAt < p.coreData.WorkingTime.End →
        p.clients.Get event.Client.GetName = none →
        processArrives p event = { p with clients := p.clients.Set event.Client.GetName (-1) }
        ∧ (processArrives p event).clients.Get event.Client.GetName = some (-1)) := by
  refine ⟨?_, ?_, ?_⟩
  · intro h
    have hin : p.coreData.WorkingTime.In event.HappensAt = false := by
      simp only [TimeInterval.In, Bool.and_eq_false_iff, decide_eq_false_iff_not]
      omega
    simp [processArrives, hin, withError, writeOutEvent]
  · intro h1 h2 h3
    have hin : p.coreData.WorkingTime.In event.HappensAt = true := by
      simp only [TimeInterval.In, Bool.and_eq_true, decide_eq_true_eq]
      omega
    simp [processArrives, hin, h3, withError, writeOutEvent]
  · intro h1 h2 h3
    rw [processArrives_of_absent p event h1 h2 h3]
    exact ⟨rfl, InMemoryStorage.Get_Set_self _ _ _⟩

/-- Claim C6, evaluated in the club open 10:00 to 14:00 where client1 is seated:
client1 arriving at 09:00 is told NotOpenYet, client1 arriving at 12:00 is told
YouShallNotPass, and client2 arriving at 12:00 becomes present without table. -/
theorem processArrives_cases_witness :
    processArrives oneSeated (NewIncomingEvent 540 Arrives (NewClientArrives "client1")) =
        withError oneSeated 540 ErrNotOpenYet
    ∧ processArrives oneSeated (NewIncomingEvent 720 Arrives (NewClientArrives "client1")) =
        withError oneSeated 720 ErrYouShallNotPass
    ∧ (processArrives oneSeated
        (NewIncomingEvent 720 Arrives (NewClientArrives "client2"))).clients.Get "client2" =
        some (-1) :=
  ⟨(processArrives_cases oneSeated
      (NewIncomingEvent 540 Arrives (NewClientArrives "client1"))).1 (Or.inl (by decide)),
   (processArrives_cases oneSeated
      (NewIncomingEvent 720 Arrives (NewClientArrives "client1"))).2.1
      (by decide) (by decide) (by decide),
   ((processArrives_cases oneSeated
      (NewIncomingEvent 720 Arrives (NewClientArrives "client2"))).2.2
      (by decide) (by decide) (by decide)).2⟩

/-- Claim C5: a Wait while fewer than `TablesCount` tables are occupied gets
exactly one Error ICanWaitNoLonger! and no state changes; otherwise, when the
queue already holds `TablesCount` entries or more, exactly one ClientLeft event
for the client is written at the event's time and the queue and the presence
map stay as they were; otherwise nothing is written and the client is appended
at the tail of the queue. -/
theorem processWaits_cases (p : EventProcessorImpl) (event : IncomingEvent) :
    ((p.tables.keys.length : Int) < p.coreData.TablesCount →
      processWaits p event = withError p event.HappensAt ErrCantWaitLonger)
    ∧ (p.coreData.TablesCount ≤ (p.tables.keys.length : Int) →
        p.coreData.TablesCount ≤ (p.waitingQueue.queue.length : Int) →
        processWaits p event =
          { p with out := p.out ++
              [Line.event (.outgoing (NewClientLeftEvent event.HappensAt event.Client))] })
    ∧ (p.coreData.TablesCount ≤ (p.tables.keys.length : Int) →
        (p.waitingQueue.queue.length : Int) < p.coreData.TablesCount →
        processWaits p event =
          { p with waitingQueue :=
              { p.waitingQueue with queue := p.waitingQueue.queue ++ [some event.Client] } }) := by
  have hlen : p.tables.Len = (p.tables.keys.length : Int) := by
    simp [InMemoryStorage.Len, AList.keys, List.keys]
  refine ⟨?_, ?_, ?_⟩
  · intro h
    simp [processWaits, hlen, h, withError, writeOutEvent]
  · intro h1 h2
    simp [processWaits, hlen, not_lt.mpr h1, InMemoryQueue.Len, h2, writeOutEvent]
  · intro h1 h2
    simp [processWaits, hlen, not_lt.mpr h1, InMemoryQueue.Len, h2, InMemoryQueue.Push]

/-- Claim C5, evaluated: with one of ten tables occupied a Wait is refused; in
a club of one table that is occupied, client3 is turned away when client2
already waits, and client2 is enqueued when nobody waits. -/
theorem processWaits_cases_witness :
    processWaits oneSeated (NewIncomingEvent 720 Waits (NewClientWaits "client2")) =
        withError oneSeated 720 ErrCantWaitLonger
    ∧ processWaits { oneSeatedOneQueued with coreData := NewCoreData 1 10 ⟨600, 840⟩ }
          (NewIncomingEvent 720 Waits (NewClientWaits "client3")) =
        { oneSeatedOneQueued with
          coreData := NewCoreData 1 10 ⟨600, 840⟩,
          out := [Line.event (.outgoing (NewClientLeftEvent 720 (NewClientWaits "client3")))] }
    ∧ (processWaits { oneSeated with coreData := NewCoreData 1 10 ⟨600, 840⟩ }
          (NewIncomingEvent 720 Waits (NewClientWaits "client2"))).waitingQueue.queue =
        [some (NewClientWaits "client2")] :=
  ⟨(processWaits_cases oneSeated
      (NewIncomingEvent 720 Waits (NewClientWaits "client2"))).1 (by decide),
   (processWaits_cases { oneSeatedOneQueued with coreData := NewCoreData 1 10 ⟨600, 840⟩ }
      (NewIncomingEvent 720 Waits (NewClientWaits "client3"))).2.1 (by decide) (by decide),
   congrArg (fun q => q.waitingQueue.queue)
    ((processWaits_cases { oneSeated with coreData := NewCoreData 1 10 ⟨600, 840⟩ }
      (NewIncomingEvent 720 Waits (NewClientWaits "client2"))).2.2 (by decide) (by decide))⟩


/-! ## Sit -/

/-- An unknown client is refused before anything else is looked at. -/
theorem processSits_of_unknown (p : EventProcessorImpl) (event : IncomingEvent) (b : Bool)
    (h : p.clients.Get event.Client.GetName = none) :
    processSits p event b = some (withError p event.HappensAt ErrClientUnknown) := by
  simp [processSits, h, withError, writeOutEvent]

/-- A present client is refused when the table has an occupancy entry. -/
theorem processSits_of_busy (p : EventProcessorImpl) (event : IncomingEvent) (b : Bool)
    {name : String} {table maxTables : Int}
    (hcl : event.Client = .ClientSits name table maxTables)
    (h : (p.clients.Get name).isSome) (hbusy : (p.tables.Get table).isSome) :
    processSits p event b = some (withError p event.HappensAt ErrTableIsBusy) := by
  have hn : event.Client.GetName = name := by rw [hcl]; rfl
  have h2 : (p.clients.Get name).isNone = false := by
    cases hx : p.clients.Get name <;> simp_all
  unfold processSits
  rw [hn, h2]
  simp only [Bool.false_eq_true, if_false]
  rw [hcl]
  simp [hbusy, withError, writeOutEvent]

/-- A present client without table takes a free table. -/
theorem processSits_of_free_noTable (p : EventProcessorImpl) (event : IncomingEvent) (b : Bool)
    {name : String} {table maxTables : Int}
    (hcl : event.Client = .ClientSits name table maxTables)
    (h : p.clients.Get name = some (-1)) (hfree : p.tables.Get table = none) :
    processSits p event b =
      some { p with
        tables := p.tables.Set table event,
        clients := p.clients.Set name table,
        out := p.out ++ satLines b event } := by
  have hn : event.Client.GetName = name := by rw [hcl]; rfl
  unfold processSits
  rw [hn, h]
  simp only [Option.isNone_some, Bool.false_eq_true, if_false]
  rw [hcl]
  cases b <;> simp [hfree, satLines, writeOutEvent, h, hcl]

/-- A present client mapped to a table releases it and takes a free table. -/
theorem processSits_of_free_table (p : EventProcessorImpl) (event : IncomingEvent) (b : Bool)
    {name : String} {table maxTables cur : Int}
    (hcl : event.Client = .ClientSits name table maxTables)
    (h : p.clients.Get name = some cur) (hcur : cur ≠ -1) (hfree : p.tables.Get table = none) :
    processSits p event b =
      some { updateRevenue p cur event.HappensAt with
        tables := ((updateRevenue p cur event.HappensAt).tables.Delete cur).Set table event,
        clients := ((updateRevenue p cur event.HappensAt).clients.Delete name).Set name table,
        out := (updateRevenue p cur event.HappensAt).out ++ satLines b event } := by
  have hn : event.Client.GetName = name := by rw [hcl]; rfl
  unfold processSits
  rw [hn, h]
  simp only [Option.isNone_some, Bool.false_eq_true, if_false]
  rw [hcl]
  cases b <;> simp [hfree, satLines, writeOutEvent, h, hcur, hcl]

/-- A successful Sit never writes an Error line. -/
theorem satLines_ne_error (b : Bool) (event : IncomingEvent) (t : Int) (code : String) :
    satLines b event ≠ [Line.event (.outgoing (NewErrorEvent t (GoError.New code)))] := by
  cases b <;> simp [satLines, NewClientSatEvent, NewErrorEvent]

/-- A present client and a free table: the Sit succeeds. -/
theorem processSits_succeeds (p : EventProcessorImpl) (name : String)
    (table maxTables t : Int) (b : Bool)
    (hpres : (p.clients.Get name).isSome) (hfree : p.tables.Get table = none) :
    ∃ q, processSits p (NewIncomingEvent t Sits (NewClientSits name table maxTables)) b = some q
      ∧ q.out = p.out ++
          satLines b (NewIncomingEvent t Sits (NewClientSits name table maxTables))
      ∧ q.tables.Get table = some (NewIncomingEvent t Sits (NewClientSits name table maxTables))
      ∧ q.clients.Get name = some table := by
  have hcl : (NewIncomingEvent t Sits (NewClientSits name table maxTables)).Client =
      .ClientSits name table maxTables := rfl
  obtain ⟨cur, hcur⟩ := Option.isSome_iff_exists.mp hpres
  by_cases hs : cur = -1
  · subst hs
    refine ⟨_, processSits_of_free_noTable p _ b hcl hcur hfree, rfl, ?_, ?_⟩ <;> simp
  · refine ⟨_, processSits_of_free_table p _ b hcl hcur hs hfree, ?_, ?_, ?_⟩ <;> simp

/-- Claim C3, as the code has it: a Sit of a client absent from the presence
map fails with ClientUnknown, whatever the table; a Sit of a present client
fails with PlaceIsBusy exactly when the target table has an occupancy entry, be
it of another client or of the client itself, and succeeds otherwise: no Error
is written, the table is occupied by the event and the client is mapped to it. -/
theorem processSits_outcome (p : EventProcessorImpl) (name : String) (table maxTables t : Int)
    (b : Bool) :
    (p.clients.Get name = none →
      processSits p (NewIncomingEvent t Sits (NewClientSits name table maxTables)) b =
        some (withError p t ErrClientUnknown))
    ∧ ((p.clients.Get name).isSome →
        (processSits p (NewIncomingEvent t Sits (NewClientSits name table maxTables)) b =
            some (withError p t ErrTableIsBusy) ↔ (p.tables.Get table).isSome)
        ∧ (p.tables.Get table = none →
            ∃ q, processSits p (NewIncomingEvent t Sits (NewClientSits name table maxTables)) b
                = some q
              ∧ q.out = p.out ++
                  satLines b (NewIncomingEvent t Sits (NewClientSits name table maxTables))
              ∧ q.tables.Get table =
                  some (NewIncomingEvent t Sits (NewClientSits name table maxTables))
              ∧ q.clients.Get name = some table)) := by
  have hcl : (NewIncomingEvent t Sits (NewClientSits name table maxTables)).Client =
      .ClientSits name table maxTables := rfl
  refine ⟨?_, ?_⟩
  · intro h
    exact processSits_of_unknown p _ b h
  · intro hpres
    refine ⟨⟨?_, ?_⟩, ?_⟩
    · intro hfail
      by_contra hfree
      have hfree2 : p.tables.Get table = none := by
        cases hx : p.tables.Get table <;> simp_all
      obtain ⟨q, hq, hout, -, -⟩ := processSits_succeeds p name table maxTables t b hpres hfree2
      rw [hq] at hfail
      have hqe : q = withError p t ErrTableIsBusy := Option.some.inj hfail
      rw [hqe] at hout
      simp only [withError] at hout
      exact satLines_ne_error b _ _ _ (List.append_cancel_left hout).symm
    · intro hbusy
      exact processSits_of_busy p _ b hcl hpres hbusy
    · intro hfree
      exact processSits_succeeds p name table maxTables t b hpres hfree

/-- Claim C3, evaluated where client1 holds table 1: client2 is unknown, client1
asking for table 1 is told PlaceIsBusy because the table is occupied, and
client1 asking for the free table 2 is seated there. -/
theorem processSits_outcome_witness :
    processSits oneSeated (NewIncomingEvent 720 Sits (NewClientSits "client2" 2 10)) false =
        some (withError oneSeated 720 ErrClientUnknown)
    ∧ ((processSits oneSeated (NewIncomingEvent 720 Sits (NewClientSits "client1" 1 10)) false =
            some (withError oneSeated 720 ErrTableIsBusy) ↔ (oneSeated.tables.Get 1).isSome)
      ∧ (oneSeated.tables.Get 1).isSome)
    ∧ ∃ q, processSits oneSeated (NewIncomingEvent 720 Sits (NewClientSits "client1" 2 10)) false
          = some q
        ∧ q.out = oneSeated.out ++
            satLines false (NewIncomingEvent 720 Sits (NewClientSits "client1" 2 10))
        ∧ q.tables.Get 2 = some (NewIncomingEvent 720 Sits (NewClientSits "client1" 2 10))
        ∧ q.clients.Get "client1" = some 2 :=
  ⟨(processSits_outcome oneSeated "client2" 2 10 720 false).1 (by decide),
   ⟨((processSits_outcome oneSeated "client1" 1 10 720 false).2 (by decide)).1, by decide⟩,
   ((processSits_outcome oneSeated "client1" 2 10 720 false).2 (by decide)).2 (by decide)⟩

/-- Claim C3 as stated fails: client1 is present and the Sit of client1 at
table 1, which client1 holds itself, fails with PlaceIsBusy, so the failure is
not equivalent to the table being occupied by a different client. -/
theorem processSits_busy_own_table :
    (oneSeated.clients.Get "client1").isSome
    ∧ ¬ (processSits oneSeated (NewIncomingEvent 720 Sits (NewClientSits "client1" 1 10)) false =
            some (withError oneSeated 720 ErrTableIsBusy)
          ↔ ∃ ev : IncomingEvent, oneSeated.tables.Get 1 = some ev
              ∧ ev.Client.GetName ≠ "client1") := by
  refine ⟨by decide, ?_⟩
  intro h
  obtain ⟨ev, h1, h2⟩ := h.mp (by decide)
  have h3 : oneSeated.tables.Get 1 = some sitClient1 := by decide
  rw [h3] at h1
  have h4 : sitClient1 = ev := Option.some.inj h1
  rw [← h4] at h2
  exact h2 (by decide)

/-- Claim C4: a Sit from the input stream of a present client at a free table
writes nothing and leaves the queue alone; the table is then occupied by the
event (the client's name, the event's time) and the client is mapped to it;
every other client keeps its entry. If the client held a table `cur`, that
table's revenue accrues with the event's time as release time (the exact
amounts as long as nothing overflows), its occupancy entry is deleted, and all
other tables keep their revenue and occupancy; if the client held no table, the
revenue and all other occupancy entries are as before. -/
theorem processEvent_sit_free (p : EventProcessorImpl) (name : String)
    (table maxTables t cur : Int)
    (hpres : p.clients.Get name = some cur) (hfree : p.tables.Get table = none) :
    ∃ q, processEvent p (NewIncomingEvent t Sits (NewClientSits name table maxTables)) = some q
      ∧ q.out = p.out
      ∧ q.waitingQueue = p.waitingQueue
      ∧ q.tables.Get table = some (NewIncomingEvent t Sits (NewClientSits name table maxTables))
      ∧ q.clients.Get name = some table
      ∧ (∀ c : String, c ≠ name → q.clients.Get c = p.clients.Get c)
      ∧ (∀ ev : IncomingEvent, cur ≠ -1 → p.tables.Get cur = some ev →
          (billable (p.revenue.Get cur) p.coreData.PricePerHour (t - ev.HappensAt) →
            q.revenue.Get cur =
              some { Income := ((p.revenue.Get cur).getD ⟨0, 0⟩).Income
                        + p.coreData.PricePerHour * ⌈((t - ev.HappensAt : Int) : ℚ) / 60⌉,
                     UsageTime := ((p.revenue.Get cur).getD ⟨0, 0⟩).UsageTime
                        + (t - ev.HappensAt) })
          ∧ q.tables.Get cur = none
          ∧ (∀ k : Int, k ≠ cur → q.revenue.Get k = p.revenue.Get k)
          ∧ (∀ k : Int, k ≠ cur → k ≠ table → q.tables.Get k = p.tables.Get k))
      ∧ (cur = -1 → q.revenue = p.revenue
          ∧ (∀ k : Int, k ≠ table → q.tables.Get k = p.tables.Get k)) := by
  have hcl : (NewIncomingEvent t Sits (NewClientSits name table maxTables)).Client =
      .ClientSits name table maxTables := rfl
  have hdisp : processEvent p (NewIncomingEvent t Sits (NewClientSits name table maxTables)) =
      processSits p (NewIncomingEvent t Sits (NewClientSits name table maxTables)) false := by
    simp [processEvent, NewIncomingEvent, Sits, Arrives]
  rw [hdisp]
  by_cases hs : cur = -1
  · subst hs
    refine ⟨_, processSits_of_free_noTable p _ false hcl hpres hfree, ?_, rfl, ?_, ?_, ?_, ?_, ?_⟩
    · simp [satLines]
    · simp
    · simp
    · intro c hc
      exact InMemoryStorage.Get_Set_of_ne _ _ hc
    · intro ev h
      exact absurd rfl h
    · intro _
      exact ⟨rfl, fun k hk => InMemoryStorage.Get_Set_of_ne _ _ hk⟩
  · refine ⟨_, processSits_of_free_table p _ false hcl hpres hs hfree, ?_, ?_, ?_, ?_, ?_, ?_, ?_⟩
    · simp [satLines]
    · simp
    · simp
    · simp
    · intro c hc
      simp only [updateRevenue_clients]
      rw [InMemoryStorage.Get_Set_of_ne _ _ hc, InMemoryStorage.Get_Delete_of_ne _ hc]
    · intro ev _ hocc
      have hct : cur ≠ table := by
        intro h; rw [h, hfree] at hocc; exact Option.noConfusion hocc
      refine ⟨?_, ?_, ?_, ?_⟩
      · intro hfit
        show (updateRevenue p cur t).revenue.Get cur = _
        rw [updateRevenue_of_occupied p cur t ev hs hocc hfit, ← ceilHours_eq_ceil]
        simp
      · simp only [updateRevenue_tables]
        rw [InMemoryStorage.Get_Set_of_ne _ _ hct, InMemoryStorage.Get_Delete_self]
      · intro k hk
        exact updateRevenue_revenue_of_ne p cur _ hk
      · intro k hk hkt
        simp only [updateRevenue_tables]
        rw [InMemoryStorage.Get_Set_of_ne _ _ hkt, InMemoryStorage.Get_Delete_of_ne _ hk]
    · intro h
      exact absurd h hs

/-- Claim C4, evaluated: client1, seated at table 1 since 10:00, sits down at
the free table 2 at 12:00; the two hours at the price 10 do not overflow. -/
theorem processEvent_sit_free_witness :
    (oneSeated.clients.Get "client1" = some 1 ∧ oneSeated.tables.Get 2 = none
      ∧ billable (oneSeated.revenue.Get 1) oneSeated.coreData.PricePerHour
          (720 - sitClient1.HappensAt))
    ∧ ∃ q, processEvent oneSeated (NewIncomingEvent 720 Sits (NewClientSits "client1" 2 10))
          = some q
        ∧ q.out = oneSeated.out
        ∧ q.waitingQueue = oneSeated.waitingQueue
        ∧ q.tables.Get 2 = some (NewIncomingEvent 720 Sits (NewClientSits "client1" 2 10))
        ∧ q.clients.Get "client1" = some 2
        ∧ (∀ c : String, c ≠ "client1" → q.clients.Get c = oneSeated.clients.Get c)
        ∧ (∀ ev : IncomingEvent, (1 : Int) ≠ -1 → oneSeated.tables.Get 1 = some ev →
            (billable (oneSeated.revenue.Get 1) oneSeated.coreData.PricePerHour
                (720 - ev.HappensAt) →
              q.revenue.Get 1 =
                some { Income := ((oneSeated.revenue.Get 1).getD ⟨0, 0⟩).Income
                          + oneSeated.coreData.PricePerHour
                            * ⌈((720 - ev.HappensAt : Int) : ℚ) / 60⌉,
                       UsageTime := ((oneSeated.revenue.Get 1).getD ⟨0, 0⟩).UsageTime
                          + (720 - ev.HappensAt) })
            ∧ q.tables.Get 1 = none
            ∧ (∀ k : Int, k ≠ 1 → q.revenue.Get k = oneSeated.revenue.Get k)
            ∧ (∀ k : Int, k ≠ 1 → k ≠ 2 → q.tables.Get k = oneSeated.tables.Get k))
        ∧ ((1 : Int) = -1 → q.revenue = oneSeated.revenue
            ∧ (∀ k : Int, k ≠ 2 → q.tables.Get k = oneSeated.tables.Get k)) :=
  ⟨⟨by decide, by decide, by decide⟩,
   processEvent_sit_free oneSeated "client1" 2 10 720 1 (by decide) (by decide)⟩


/-! ## Leave -/

/-- A Leave of an unknown client is refused. -/
theorem processLeaves_of_unknown (p : EventProcessorImpl) (event : IncomingEvent) (b : Bool)
    (h : p.clients.Get event.Client.GetName = none) :
    processLeaves p event b = some (withError p event.HappensAt ErrClientUnknown) := by
  simp [processLeaves, h, withError, writeOutEvent]

/-- A Leave of a client without table only deletes the presence entry. -/
theorem processLeaves_of_noTable (p : EventProcessorImpl) (event : IncomingEvent) (b : Bool)
    (h : p.clients.Get event.Client.GetName = some (-1)) :
    processLeaves p event b =
      some { p with
        clients := p.clients.Delete event.Client.GetName,
        out := p.out ++ leftLines b event } := by
  cases b <;> simp [processLeaves, h, leftLines, writeOutEvent]

/-- A Leave of a client mapped to a table, nobody waiting: the table is released. -/
theorem processLeaves_of_table_noQueue (p : EventProcessorImpl) (event : IncomingEvent)
    (b : Bool) {busyTable : Int}
    (h : p.clients.Get event.Client.GetName = some busyTable) (hne : busyTable ≠ -1)
    (hq : p.waitingQueue.queue = []) :
    processLeaves p event b =
      some { updateRevenue p busyTable event.HappensAt with
        clients := p.clients.Delete event.Client.GetName,
        tables := p.tables.Delete busyTable,
        out := p.out ++ leftLines b event } := by
  unfold processLeaves
  rw [h]
  cases b <;>
  · simp only [hne, if_false, if_true, Bool.false_eq_true, writeOutEvent,
      updateRevenue_waitingQueue, InMemoryQueue.Len, hq,
      List.length_nil, Nat.cast_zero, gt_iff_lt, lt_self_iff_false, Option.some.injEq]
    apply EventProcessorImpl.ext
    · simp [leftLines]
    · simp
    · simp
    · simp
    · simp
    · exact updateRevenue_revenue_congr p _ busyTable event.HappensAt rfl rfl rfl
    · simp

/-- A Leave of a client mapped to a table while somebody waits: the table is
released and handed to the head of the queue. -/
theorem processLeaves_of_table_queued (p : EventProcessorImpl) (event : IncomingEvent)
    (b : Bool) {busyTable : Int} {head : ClientData} {rest : List (Option ClientData)}
    (h : p.clients.Get event.Client.GetName = some busyTable) (hne : busyTable ≠ -1)
    (hq : p.waitingQueue.queue = some head :: rest) :
    processLeaves p event b =
      some { updateRevenue p busyTable event.HappensAt with
        clients := ((p.clients.Delete event.Client.GetName).Set head.GetName (-1)).Set
          head.GetName busyTable,
        tables := (p.tables.Delete busyTable).Set busyTable
          (NewIncomingEvent event.HappensAt Sits
            (NewClientSits head.GetName busyTable p.coreData.TablesCount)),
        waitingQueue := { p.waitingQueue with queue := rest },
        out := p.out ++ leftLines b event ++
          [Line.event (.outgoing (NewClientSatEvent event.HappensAt
            (NewClientSits head.GetName busyTable p.coreData.TablesCount)))] } := by
  have hpop : p.waitingQueue.Pop = ((some head, none), { p.waitingQueue with queue := rest }) := by
    simp [InMemoryQueue.Pop, InMemoryQueue.Peek, hq]
  unfold processLeaves
  rw [h]
  cases b <;>
  · simp only [hne, if_false, if_true, Bool.false_eq_true, writeOutEvent,
      updateRevenue_waitingQueue, updateRevenue_coreData, updateRevenue_out,
      updateRevenue_tables, updateRevenue_clients, updateRevenue_cfg,
      InMemoryQueue.Len, hq, List.length_cons, gt_iff_lt]
    rw [if_pos (by positivity)]
    rw [hpop]
    simp only []
    rw [@processSits_of_free_noTable _ _ true head.GetName busyTable p.coreData.TablesCount
      rfl (by simp) (by simp)]
    simp only [Option.some.injEq]
    apply EventProcessorImpl.ext
    · simp [leftLines, satLines, NewIncomingEvent, NewClientSits]
    · simp
    · simp
    · simp
    · simp
    · exact updateRevenue_revenue_congr p _ busyTable event.HappensAt rfl rfl rfl
    · simp

/-- Claim C2: when the client holds table `X` and the queue has head `head`,
a Leave writes the ClientLeft event if asked for and then exactly one ClientSat
event for `head` at `X`, both at the Leave's time, and no Error; the revenue of
`X` has accrued up to that time (the exact amounts as long as nothing
overflows) and no other table's revenue changed; `X` is
occupied by `head` seated at that time, `head` is mapped to `X`, every other
occupancy entry is as before, and the queue has lost its head and nothing else. -/
theorem processLeaves_cascade (p : EventProcessorImpl) (name : String) (t X : Int) (b : Bool)
    (ev : IncomingEvent) (head : ClientData) (rest : List (Option ClientData))
    (hheld : p.clients.Get name = some X) (hX : X ≠ -1) (hocc : p.tables.Get X = some ev)
    (hq : p.waitingQueue.queue = some head :: rest) :
    ∃ q, processLeaves p (NewIncomingEvent t Leaves (NewClientLeaves name)) b = some q
      ∧ q.out = p.out ++ leftLines b (NewIncomingEvent t Leaves (NewClientLeaves name)) ++
          [Line.event (.outgoing (NewClientSatEvent t
            (NewClientSits head.GetName X p.coreData.TablesCount)))]
      ∧ (billable (p.revenue.Get X) p.coreData.PricePerHour (t - ev.HappensAt) →
          q.revenue.Get X =
            some { Income := ((p.revenue.Get X).getD ⟨0, 0⟩).Income
                      + p.coreData.PricePerHour * ⌈((t - ev.HappensAt : Int) : ℚ) / 60⌉,
                   UsageTime := ((p.revenue.Get X).getD ⟨0, 0⟩).UsageTime
                      + (t - ev.HappensAt) })
      ∧ (∀ k : Int, k ≠ X → q.revenue.Get k = p.revenue.Get k)
      ∧ q.tables.Get X =
          some (NewIncomingEvent t Sits (NewClientSits head.GetName X p.coreData.TablesCount))
      ∧ (∀ k : Int, k ≠ X → q.tables.Get k = p.tables.Get k)
      ∧ q.clients.Get head.GetName = some X
      ∧ q.waitingQueue.queue = rest
      ∧ q.waitingQueue.nilValue = p.waitingQueue.nilValue := by
  have hn : (NewIncomingEvent t Leaves (NewClientLeaves name)).Client.GetName = name := rfl
  refine ⟨_, processLeaves_of_table_queued p _ b (by rw [hn]; exact hheld) hX hq,
    rfl, ?_, ?_, ?_, ?_, ?_, rfl, rfl⟩
  · intro hfit
    show (updateRevenue p X t).revenue.Get X = _
    rw [updateRevenue_of_occupied p X t ev hX hocc hfit, ← ceilHours_eq_ceil]
    simp
  · intro k hk
    exact updateRevenue_revenue_of_ne p X t hk
  · simp [NewIncomingEvent]
  · intro k hk
    show ((p.tables.Delete X).Set X _).Get k = _
    rw [InMemoryStorage.Get_Set_of_ne _ _ hk, InMemoryStorage.Get_Delete_of_ne _ hk]
  · simp

/-- Claim C2, evaluated: client1 holds table 1 since 10:00 and client2 waits;
client1 leaves at 12:00 with the ClientLeft line asked for; the two hours at
the price 10 do not overflow. -/
theorem processLeaves_cascade_witness :
    (oneSeatedOneQueued.clients.Get "client1" = some 1 ∧ (1 : Int) ≠ -1
      ∧ oneSeatedOneQueued.tables.Get 1 = some sitClient1
      ∧ oneSeatedOneQueued.waitingQueue.queue = some (NewClientWaits "client2") :: []
      ∧ billable (oneSeatedOneQueued.revenue.Get 1) oneSeatedOneQueued.coreData.PricePerHour
          (720 - sitClient1.HappensAt))
    ∧ ∃ q, processLeaves oneSeatedOneQueued
          (NewIncomingEvent 720 Leaves (NewClientLeaves "client1")) true = some q
        ∧ q.out = oneSeatedOneQueued.out
            ++ leftLines true (NewIncomingEvent 720 Leaves (NewClientLeaves "client1"))
            ++ [Line.event (.outgoing (NewClientSatEvent 720
                (NewClientSits (NewClientWaits "client2").GetName 1
                  oneSeatedOneQueued.coreData.TablesCount)))]
        ∧ (billable (oneSeatedOneQueued.revenue.Get 1)
              oneSeatedOneQueued.coreData.PricePerHour (720 - sitClient1.HappensAt) →
            q.revenue.Get 1 =
              some { Income := ((oneSeatedOneQueued.revenue.Get 1).getD ⟨0, 0⟩).Income
                        + oneSeatedOneQueued.coreData.PricePerHour
                          * ⌈((720 - sitClient1.HappensAt : Int) : ℚ) / 60⌉,
                     UsageTime := ((oneSeatedOneQueued.revenue.Get 1).getD ⟨0, 0⟩).UsageTime
                        + (720 - sitClient1.HappensAt) })
        ∧ (∀ k : Int, k ≠ 1 → q.revenue.Get k = oneSeatedOneQueued.revenue.Get k)
        ∧ q.tables.Get 1 =
            some (NewIncomingEvent 720 Sits
              (NewClientSits (NewClientWaits "client2").GetName 1
                oneSeatedOneQueued.coreData.TablesCount))
        ∧ (∀ k : Int, k ≠ 1 → q.tables.Get k = oneSeatedOneQueued.tables.Get k)
        ∧ q.clients.Get (NewClientWaits "client2").GetName = some 1
        ∧ q.waitingQueue.queue = []
        ∧ q.waitingQueue.nilValue = oneSeatedOneQueued.waitingQueue.nilValue :=
  ⟨⟨by decide, by decide, by decide, by decide, by decide⟩,
   processLeaves_cascade oneSeatedOneQueued "client1" 720 1 true sitClient1
    (NewClientWaits "client2") [] (by decide) (by decide) (by decide) (by decide)⟩


/-! ## Invariants of the reachable states -/

/-- Two clients mapped to the same real table are the same client. -/
theorem SeatedConsistent.inj {p : EventProcessorImpl} (h : SeatedConsistent p)
    {c d : String} {X : Int} (hc : p.clients.Get c = some X) (hd : p.clients.Get d = some X)
    (hX : X ≠ -1) : c = d := by
  obtain ⟨ev, h1, h2⟩ := h c X hc hX
  obtain ⟨ev2, h3, h4⟩ := h d X hd hX
  rw [h1] at h3
  rw [← h2, ← h4, Option.some.inj h3]

/-- The invariant looks at the presence map and the occupancy only. -/
theorem SeatedConsistent.of_eq {p q : EventProcessorImpl} (h : SeatedConsistent p)
    (h1 : q.clients = p.clients) (h2 : q.tables = p.tables) : SeatedConsistent q := by
  intro c X hc hX
  rw [h1] at hc
  rw [h2]
  exact h c X hc hX

/-- Deleting a client and its table keeps the invariant. -/
theorem SeatedConsistent.release {p q : EventProcessorImpl} (h : SeatedConsistent p)
    {name : String} {X : Int} (hname : p.clients.Get name = some X)
    (h1 : q.clients = p.clients.Delete name) (h2 : q.tables = p.tables.Delete X) :
    SeatedConsistent q := by
  intro c Y hc hY
  rw [h1] at hc
  by_cases hcn : c = name
  · rw [hcn, InMemoryStorage.Get_Delete_self] at hc
    exact Option.noConfusion hc
  · rw [InMemoryStorage.Get_Delete_of_ne _ hcn] at hc
    have hYX : Y ≠ X := by
      intro hyx
      rw [hyx] at hc hY
      exact hcn (h.inj hc hname hY)
    rw [h2, InMemoryStorage.Get_Delete_of_ne _ hYX]
    exact h c Y hc hY

/-- Deleting a client without table keeps the invariant. -/
theorem SeatedConsistent.forget {p q : EventProcessorImpl} (h : SeatedConsistent p)
    {name : String} (h1 : q.clients = p.clients.Delete name) (h2 : q.tables = p.tables) :
    SeatedConsistent q := by
  intro c Y hc hY
  rw [h1] at hc
  by_cases hcn : c = name
  · rw [hcn, InMemoryStorage.Get_Delete_self] at hc
    exact Option.noConfusion hc
  · rw [InMemoryStorage.Get_Delete_of_ne _ hcn] at hc
    rw [h2]
    exact h c Y hc hY

/-- Seating a client at a free table keeps the invariant. -/
theorem SeatedConsistent.seat {p q : EventProcessorImpl} (h : SeatedConsistent p)
    {name : String} {table : Int} {event : IncomingEvent}
    (hfree : p.tables.Get table = none) (hev : event.Client.GetName = name)
    (h1 : q.clients = p.clients.Set name table) (h2 : q.tables = p.tables.Set table event) :
    SeatedConsistent q := by
  intro c Y hc hY
  rw [h1] at hc
  rw [h2]
  by_cases hcn : c = name
  · rw [hcn, InMemoryStorage.Get_Set_self] at hc
    rw [← Option.some.inj hc, InMemoryStorage.Get_Set_self, hcn]
    exact ⟨event, rfl, hev⟩
  · rw [InMemoryStorage.Get_Set_of_ne _ _ hcn] at hc
    obtain ⟨ev, h3, h4⟩ := h c Y hc hY
    have hYt : Y ≠ table := by
      intro hyt
      rw [hyt, hfree] at h3
      exact Option.noConfusion h3
    rw [InMemoryStorage.Get_Set_of_ne _ _ hYt]
    exact ⟨ev, h3, h4⟩

/-- Mapping a client to the sentinel keeps the invariant. -/
theorem SeatedConsistent.unseat {p q : EventProcessorImpl} (h : SeatedConsistent p)
    {name : String} (h1 : q.clients = p.clients.Set name (-1)) (h2 : q.tables = p.tables) :
    SeatedConsistent q := by
  intro c Y hc hY
  rw [h1] at hc
  by_cases hcn : c = name
  · rw [hcn, InMemoryStorage.Get_Set_self] at hc
    exact absurd (Option.some.inj hc).symm hY
  · rw [InMemoryStorage.Get_Set_of_ne _ _ hcn] at hc
    rw [h2]
    exact h c Y hc hY

/-- The outcomes of `processSits`, when it returns. -/
theorem processSits_cases {p q : EventProcessorImpl} {event : IncomingEvent} {b : Bool}
    (h : processSits p event b = some q) :
    q = withError p event.HappensAt ErrClientUnknown
    ∨ q = withError p event.HappensAt ErrTableIsBusy
    ∨ ∃ (name : String) (table maxTables cur : Int),
        event.Client = .ClientSits name table maxTables
        ∧ p.clients.Get name = some cur ∧ p.tables.Get table = none
        ∧ ((cur = -1 ∧ q = { p with
              tables := p.tables.Set table event,
              clients := p.clients.Set name table,
              out := p.out ++ satLines b event })
          ∨ (cur ≠ -1 ∧ q = { updateRevenue p cur event.HappensAt with
              tables := ((updateRevenue p cur event.HappensAt).tables.Delete cur).Set table event,
              clients :=
                ((updateRevenue p cur event.HappensAt).clients.Delete name).Set name table,
              out := (updateRevenue p cur event.HappensAt).out ++ satLines b event })) := by
  cases hc : p.clients.Get event.Client.GetName with
  | none =>
    rw [processSits_of_unknown p event b hc] at h
    exact Or.inl (Option.some.inj h).symm
  | some cur =>
    cases hcl : event.Client with
    | ClientSits name table maxTables =>
      have hn : event.Client.GetName = name := by rw [hcl]; rfl
      rw [hn] at hc
      cases ht : p.tables.Get table with
      | some ev =>
        rw [processSits_of_busy p event b hcl (by rw [hc]; rfl) (by rw [ht]; rfl)] at h
        exact Or.inr (Or.inl (Option.some.inj h).symm)
      | none =>
        refine Or.inr (Or.inr ⟨name, table, maxTables, cur, rfl, hc, ht, ?_⟩)
        by_cases hs : cur = -1
        · subst hs
          rw [processSits_of_free_noTable p event b hcl hc ht] at h
          exact Or.inl ⟨rfl, (Option.some.inj h).symm⟩
        · rw [processSits_of_free_table p event b hcl hc hs ht] at h
          exact Or.inr ⟨hs, (Option.some.inj h).symm⟩
    | ClientArrives name =>
      rw [hcl] at hc
      simp [processSits, hcl, hc] at h
    | ClientWaits name =>
      rw [hcl] at hc
      simp [processSits, hcl, hc] at h
    | ClientLeaves name =>
      rw [hcl] at hc
      simp [processSits, hcl, hc] at h

/-- The outcomes of `processLeaves`, when it returns. -/
theorem processLeaves_cases {p q : EventProcessorImpl} {event : IncomingEvent} {b : Bool}
    (h : processLeaves p event b = some q) :
    (p.clients.Get event.Client.GetName = none
      ∧ q = withError p event.HappensAt ErrClientUnknown)
    ∨ (p.clients.Get event.Client.GetName = some (-1)
      ∧ q = { p with
          clients := p.clients.Delete event.Client.GetName,
          out := p.out ++ leftLines b event })
    ∨ (∃ busyTable : Int, p.clients.Get event.Client.GetName = some busyTable
        ∧ busyTable ≠ -1 ∧ p.waitingQueue.queue = []
        ∧ q = { updateRevenue p busyTable event.HappensAt with
            clients := p.clients.Delete event.Client.GetName,
            tables := p.tables.Delete busyTable,
            out := p.out ++ leftLines b event })
    ∨ (∃ (busyTable : Int) (head : ClientData) (rest : List (Option ClientData)),
        p.clients.Get event.Client.GetName = some busyTable
        ∧ busyTable ≠ -1 ∧ p.waitingQueue.queue = some head :: rest
        ∧ q = { updateRevenue p busyTable event.HappensAt with
            clients := ((p.clients.Delete event.Client.GetName).Set head.GetName (-1)).Set
              head.GetName busyTable,
            tables := (p.tables.Delete busyTable).Set busyTable
              (NewIncomingEvent event.HappensAt Sits
                (NewClientSits head.GetName busyTable p.coreData.TablesCount)),
            waitingQueue := { p.waitingQueue with queue := rest },
            out := p.out ++ leftLines b event ++
              [Line.event (.outgoing (NewClientSatEvent event.HappensAt
                (NewClientSits head.GetName busyTable p.coreData.TablesCount)))] }) := by
  cases hc : p.clients.Get event.Client.GetName with
  | none =>
    rw [processLeaves_of_unknown p event b hc] at h
    exact Or.inl ⟨rfl, (Option.some.inj h).symm⟩
  | some busyTable =>
    by_cases hs : busyTable = -1
    · subst hs
      rw [processLeaves_of_noTable p event b hc] at h
      exact Or.inr (Or.inl ⟨rfl, (Option.some.inj h).symm⟩)
    · cases hq : p.waitingQueue.queue with
      | nil =>
        rw [processLeaves_of_table_noQueue p event b hc hs hq] at h
        exact Or.inr (Or.inr (Or.inl ⟨busyTable, rfl, hs, rfl, (Option.some.inj h).symm⟩))
      | cons x rest =>
        cases x with
        | some head =>
          rw [processLeaves_of_table_queued p event b hc hs hq] at h
          exact Or.inr (Or.inr (Or.inr
            ⟨busyTable, head, rest, rfl, hs, rfl, (Option.some.inj h).symm⟩))
        | none =>
          exfalso
          have hpop : p.waitingQueue.Pop =
              ((none, none), { p.waitingQueue with queue := rest }) := by
            simp [InMemoryQueue.Pop, InMemoryQueue.Peek, hq]
          unfold processLeaves at h
          rw [hc] at h
          cases b <;>
          · simp only [hs, if_false, if_true, Bool.false_eq_true, writeOutEvent,
              updateRevenue_waitingQueue, InMemoryQueue.Len, hq, List.length_cons,
              gt_iff_lt] at h
            rw [if_pos (by positivity), hpop] at h
            exact Option.noConfusion h

/-- The outcomes of `processArrives`. -/
theorem processArrives_outcomes (p : EventProcessorImpl) (event : IncomingEvent) :
    processArrives p event = withError p event.HappensAt ErrNotOpenYet
    ∨ processArrives p event = withError p event.HappensAt ErrYouShallNotPass
    ∨ processArrives p event = { p with clients := p.clients.Set event.Client.GetName (-1) } := by
  unfold processArrives
  split
  · exact Or.inl rfl
  · split
    · exact Or.inr (Or.inl rfl)
    · exact Or.inr (Or.inr rfl)

/-- The outcomes of `processWaits`. -/
theorem processWaits_outcomes (p : EventProcessorImpl) (event : IncomingEvent) :
    processWaits p event = withError p event.HappensAt ErrCantWaitLonger
    ∨ processWaits p event = { p with out := p.out ++
        [Line.event (.outgoing (NewClientLeftEvent event.HappensAt event.Client))] }
    ∨ processWaits p event = { p with waitingQueue :=
        { p.waitingQueue with queue := p.waitingQueue.queue ++ [some event.Client] } } := by
  unfold processWaits
  split
  · exact Or.inl rfl
  · split
    · exact Or.inr (Or.inl rfl)
    · exact Or.inr (Or.inr rfl)

/-- One processed event keeps nil out of the queue. -/
theorem queueNonNil_processEvent {p q : EventProcessorImpl} {event : IncomingEvent}
    (h : QueueNonNil p) (hq : processEvent p event = some q) : QueueNonNil q := by
  unfold YadroIntern.processEvent at hq
  split at hq
  · have hq2 := (Option.some.inj hq).symm
    rcases processArrives_outcomes p event with h1 | h1 | h1 <;>
    · rw [hq2, h1]; exact h
  · split at hq
    · rcases processSits_cases hq with h1 | h1 | ⟨name, table, m, cur, -, -, -, h1 | h1⟩
      · rw [h1]; exact h
      · rw [h1]; exact h
      · rw [h1.2]; exact h
      · rw [h1.2]
        intro x hx
        simp only [updateRevenue_waitingQueue] at hx
        exact h x hx
    · split at hq
      · have hq2 := (Option.some.inj hq).symm
        rcases processWaits_outcomes p event with h1 | h1 | h1
        · rw [hq2, h1]; exact h
        · rw [hq2, h1]; exact h
        · rw [hq2, h1]
          intro x hx
          simp only [List.mem_append, List.mem_singleton] at hx
          rcases hx with hx | hx
          · exact h x hx
          · rw [hx]; exact Option.some_ne_none _
      · split at hq
        · rcases processLeaves_cases hq with h1 | h1 | ⟨X, -, -, -, h1⟩ | ⟨X, hd, rest, -, -, h2, h1⟩
          · rw [h1.2]; exact h
          · rw [h1.2]; exact h
          · rw [h1]
            intro x hx
            simp only [updateRevenue_waitingQueue] at hx
            exact h x hx
          · rw [h1]
            intro x hx
            exact h x (by rw [h2]; exact List.mem_cons_of_mem _ hx)
        · rw [← Option.some.inj hq]; exact h

/-- One processed event keeps every seated client the occupant of its table. -/
theorem seatedConsistent_processEvent {p q : EventProcessorImpl} {event : IncomingEvent}
    (h : SeatedConsistent p) (hq : processEvent p event = some q) : SeatedConsistent q := by
  unfold YadroIntern.processEvent at hq
  split at hq
  · have hq2 := (Option.some.inj hq).symm
    rcases processArrives_outcomes p event with h1 | h1 | h1
    · rw [hq2, h1]; exact h.of_eq rfl rfl
    · rw [hq2, h1]; exact h.of_eq rfl rfl
    · rw [hq2, h1]; exact h.unseat rfl rfl
  · split at hq
    · rcases processSits_cases hq with h1 | h1 | ⟨name, table, m, cur, hcl, hc, hfree, h1 | h1⟩
      · rw [h1]; exact h.of_eq rfl rfl
      · rw [h1]; exact h.of_eq rfl rfl
      · rw [h1.2]
        have hev : event.Client.GetName = name := by rw [hcl]; rfl
        exact h.seat hfree hev rfl rfl
      · rw [h1.2]
        have hrel : SeatedConsistent
            { p with clients := p.clients.Delete name, tables := p.tables.Delete cur } :=
          h.release hc rfl rfl
        have hfree2 : (p.tables.Delete cur).Get table = none := by
          by_cases hct : table = cur
          · rw [hct]; exact InMemoryStorage.Get_Delete_self _ _
          · rw [InMemoryStorage.Get_Delete_of_ne _ hct]; exact hfree
        have hev : event.Client.GetName = name := by rw [hcl]; rfl
        have hcq : ((updateRevenue p cur event.HappensAt).clients.Delete name).Set name table =
            (p.clients.Delete name).Set name table := by simp
        have htq : ((updateRevenue p cur event.HappensAt).tables.Delete cur).Set table event =
            (p.tables.Delete cur).Set table event := by simp
        exact hrel.seat hfree2 hev hcq htq
    · split at hq
      · have hq2 := (Option.some.inj hq).symm
        rcases processWaits_outcomes p event with h1 | h1 | h1 <;>
        · rw [hq2, h1]; exact h.of_eq rfl rfl
      · split at hq
        · rcases processLeaves_cases hq with h1 | h1 | ⟨X, hc, -, -, h1⟩ | ⟨X, hd, rest, hc, -, -, h1⟩
          · rw [h1.2]; exact h.of_eq rfl rfl
          · rw [h1.2]; exact h.forget rfl rfl
          · rw [h1]; exact h.release hc rfl rfl
          · rw [h1]
            have hrel : SeatedConsistent
                { p with clients := p.clients.Delete event.Client.GetName,
                         tables := p.tables.Delete X } :=
              h.release hc rfl rfl
            have hun : SeatedConsistent
                { p with
                  clients := (p.clients.Delete event.Client.GetName).Set hd.GetName (-1),
                  tables := p.tables.Delete X } :=
              hrel.unseat rfl rfl
            have hev : (NewIncomingEvent event.HappensAt Sits
                (NewClientSits hd.GetName X p.coreData.TablesCount)).Client.GetName =
                hd.GetName := rfl
            have hfree2 : (p.tables.Delete X).Get X = none :=
              InMemoryStorage.Get_Delete_self _ _
            exact hun.seat hfree2 hev rfl rfl
        · rw [← Option.some.inj hq]; exact h.of_eq rfl rfl

/-- Every reachable state has a queue without nil. -/
theorem Reachable.queueNonNil {cfg : Processor} {coreData : CoreData} {p : EventProcessorImpl}
    (h : Reachable cfg coreData p) : QueueNonNil p := by
  induction h with
  | start => intro x hx; simp [newClub, NewEventProcessor, NewInMemoryQueue] at hx
  | step event _ hstep ih =>
    exact queueNonNil_processEvent (p := writeOutEvent _ (.incoming event)) ih hstep

/-- In every reachable state a client mapped to a real table occupies it. -/
theorem Reachable.seatedConsistent {cfg : Processor} {coreData : CoreData}
    {p : EventProcessorImpl} (h : Reachable cfg coreData p) : SeatedConsistent p := by
  induction h with
  | start =>
    intro c X hc
    simp [newClub, NewEventProcessor, NewInMemoryStorage, InMemoryStorage.Get] at hc
  | step event _ hstep ih =>
    exact seatedConsistent_processEvent (p := writeOutEvent _ (.incoming event))
      (ih.of_eq rfl rfl) hstep

/-- The club data never changes while events are processed. -/
theorem processEvent_coreData {p q : EventProcessorImpl} {event : IncomingEvent}
    (hq : processEvent p event = some q) : q.coreData = p.coreData := by
  unfold processEvent at hq
  split at hq
  · have hq2 := (Option.some.inj hq).symm
    rcases processArrives_outcomes p event with h1 | h1 | h1 <;>
    · rw [hq2, h1]
      try rfl
  · split at hq
    · rcases processSits_cases hq with h1 | h1 | ⟨name, table, m, cur, -, -, -, h1 | h1⟩
      · rw [h1]; rfl
      · rw [h1]; rfl
      · rw [h1.2]
      · rw [h1.2]; simp
    · split at hq
      · have hq2 := (Option.some.inj hq).symm
        rcases processWaits_outcomes p event with h1 | h1 | h1 <;>
        · rw [hq2, h1]
          try rfl
      · split at hq
        · rcases processLeaves_cases hq with h1 | h1 | ⟨X, -, -, -, h1⟩ | ⟨X, hd, rest, -, -, -, h1⟩
          · rw [h1.2]; rfl
          · rw [h1.2]
          · rw [h1]; simp
          · rw [h1]; simp
        · rw [← Option.some.inj hq]

/-- Every reachable state carries the club data it started with. -/
theorem Reachable.coreData_eq {cfg : Processor} {coreData : CoreData} {p : EventProcessorImpl}
    (h : Reachable cfg coreData p) : p.coreData = coreData := by
  induction h with
  | start => rfl
  | step event _ hstep ih =>
    rw [processEvent_coreData hstep]
    exact ih


/-! ## Leave and the presence map -/

/-- The loop of `ProcessEvents` stays within the reachable states. -/
theorem Reachable.of_eventsLoop {cfg : Processor} {coreData : CoreData} :
    ∀ (ws : List WrappedIncomingEvent) (p q : EventProcessorImpl) (r : Option GoError),
      Reachable cfg coreData p → eventsLoop p ws = some (q, r) → Reachable cfg coreData q := by
  intro ws
  induction ws with
  | nil =>
    intro p q r hp h
    simp only [eventsLoop, Option.some.injEq, Prod.mk.injEq] at h
    rw [← h.1]; exact hp
  | cons w ws ih =>
    intro p q r hp h
    unfold eventsLoop at h
    split at h
    · simp only [Option.some.injEq, Prod.mk.injEq] at h
      rw [← h.1]; exact hp
    · split at h
      · exact Option.noConfusion h
      · rename_i event _
        split at h
        · exact Option.noConfusion h
        · rename_i p1 hstep
          exact ih p1 q r (Reachable.step event hp hstep) h

/-- What `afterEvents` returns is reachable. -/
theorem Reachable.of_afterEvents {cfg : Processor} {coreData : CoreData}
    {events : List IncomingEvent} {p : EventProcessorImpl}
    (h : afterEvents cfg coreData events = some p) : Reachable cfg coreData p := by
  unfold afterEvents at h
  cases hl : eventsLoop
    { newClub cfg coreData with
      out := (newClub cfg coreData).out ++ [Line.time coreData.WorkingTime.Start] }
    (events.map wrap) with
  | none => rw [hl] at h; exact Option.noConfusion h
  | some qr =>
    rw [hl] at h
    have hq : qr.1 = p := Option.some.inj h
    rw [← hq]
    exact Reachable.of_eventsLoop _ _ qr.1 qr.2 Reachable.start hl

/-- Claim C7, as the code has it: in a reachable state in which the client is
present and is not, while mapped to a table, itself the head of the waiting
queue, a processed Leave removes the client from the presence map. -/
theorem processEvent_leave_absent (cfg : Processor) (coreData : CoreData)
    (p : EventProcessorImpl) (name : String) (t : Int)
    (hr : Reachable cfg coreData p) (hpres : (p.clients.Get name).isSome)
    (hnot : p.clients.Get name = some (-1) ∨ headName p ≠ some name) :
    ∃ q, processEvent p (NewIncomingEvent t Leaves (NewClientLeaves name)) = some q
      ∧ q.clients.Get name = none := by
  have hdisp : processEvent p (NewIncomingEvent t Leaves (NewClientLeaves name)) =
      processLeaves p (NewIncomingEvent t Leaves (NewClientLeaves name)) false := by
    simp [processEvent, NewIncomingEvent, Leaves, Arrives, Sits, Waits]
  have hn : (NewIncomingEvent t Leaves (NewClientLeaves name)).Client.GetName = name := rfl
  rw [hdisp]
  obtain ⟨X, hX⟩ := Option.isSome_iff_exists.mp hpres
  by_cases hs : X = -1
  · subst hs
    refine ⟨_, processLeaves_of_noTable p _ false (by rw [hn]; exact hX), ?_⟩
    show (p.clients.Delete name).Get name = none
    exact InMemoryStorage.Get_Delete_self _ _
  · have hhead : headName p ≠ some name := by
      rcases hnot with h1 | h1
      · rw [hX] at h1; exact absurd (Option.some.inj h1) hs
      · exact h1
    cases hq : p.waitingQueue.queue with
    | nil =>
      refine ⟨_, processLeaves_of_table_noQueue p _ false (by rw [hn]; exact hX) hs hq, ?_⟩
      show (p.clients.Delete name).Get name = none
      exact InMemoryStorage.Get_Delete_self _ _
    | cons x rest =>
      cases x with
      | none =>
        exact absurd rfl (hr.queueNonNil none (by rw [hq]; exact List.mem_cons_self _ _))
      | some head =>
        have hne : name ≠ head.GetName := by
          intro h
          apply hhead
          simp [headName, hq, h]
        refine ⟨_, processLeaves_of_table_queued p _ false (by rw [hn]; exact hX) hs hq, ?_⟩
        show (((p.clients.Delete name).Set head.GetName (-1)).Set head.GetName X).Get name = none
        rw [InMemoryStorage.Get_Set_of_ne _ _ hne, InMemoryStorage.Get_Set_of_ne _ _ hne]
        exact InMemoryStorage.Get_Delete_self _ _

/-- Claim C7, evaluated: client1 holds the only table and client2 waits; after
the Leave of client1 at 12:00 client1 is no longer present. -/
theorem processEvent_leave_absent_witness :
    (Reachable testCfg scenarioCore seatedAndQueued
      ∧ (seatedAndQueued.clients.Get "client1").isSome
      ∧ (seatedAndQueued.clients.Get "client1" = some (-1)
          ∨ headName seatedAndQueued ≠ some "client1"))
    ∧ ∃ q, processEvent seatedAndQueued (NewIncomingEvent 720 Leaves (NewClientLeaves "client1"))
          = some q
        ∧ q.clients.Get "client1" = none :=
  ⟨⟨@Reachable.of_afterEvents _ _ seatedAndQueuedEvents _ (by decide), by decide,
      Or.inr (by decide)⟩,
   processEvent_leave_absent testCfg scenarioCore seatedAndQueued "client1" 720
    (@Reachable.of_afterEvents _ _ seatedAndQueuedEvents _ (by decide)) (by decide)
    (Or.inr (by decide))⟩

/-- Claim C7 as stated fails: after Arrive, Sit and Wait of client1 in the club
of one table, client1 is present; the Leave of client1 hands the freed table to
the head of the queue, which is client1, and client1 is still present. -/
theorem processEvent_leave_still_present :
    Reachable testCfg scenarioCore seatedWaiter
    ∧ (seatedWaiter.clients.Get "client1").isSome
    ∧ ∃ q, processEvent seatedWaiter (NewIncomingEvent 720 Leaves (NewClientLeaves "client1"))
          = some q
        ∧ q.clients.Get "client1" = some 1 :=
  ⟨@Reachable.of_afterEvents _ _ seatedWaiterEvents _ (by decide), by decide,
   _, rfl, by decide⟩


/-! ## Whole runs -/

/-- The loop of `ShowRevenue` appends one line for each listed table that has a
revenue entry, in the order of the list, and changes nothing else. -/
theorem showRevenueLoop_eq (l : List Int) :
    ∀ p : EventProcessorImpl,
      showRevenueLoop p l =
        { p with out := p.out ++
            l.filterMap (fun i => (p.revenue.Get i).map (Line.revenue i)) } := by
  induction l with
  | nil => intro p; simp [showRevenueLoop]
  | cons i rest ih =>
    intro p
    unfold showRevenueLoop
    cases h : p.revenue.Get i with
    | none => simp only [ih p, List.filterMap_cons, h, Option.map_none']
    | some stats =>
      simp only [ih, List.filterMap_cons, h, Option.map_some', List.append_assoc,
        List.singleton_append]

/-- The method `ShowRevenue` as one expression. -/
theorem ShowRevenue_eq (p : EventProcessorImpl) :
    ShowRevenue p =
      { p with out := (p.out ++
          List.filterMap (fun i => (p.revenue.Get i).map (Line.revenue i))
            (tableNumbers p.coreData.TablesCount)) } := by
  unfold ShowRevenue
  exact showRevenueLoop_eq _ p

/-- The table numbers are 1 to `tablesCount`. -/
theorem mem_tableNumbers {n i : Int} : i ∈ tableNumbers n ↔ 1 ≤ i ∧ i ≤ n := by
  unfold tableNumbers
  simp only [List.mem_map, List.mem_range]
  constructor
  · rintro ⟨k, hk, rfl⟩
    omega
  · rintro ⟨h1, h2⟩
    exact ⟨(i - 1).toNat, by omega, by omega⟩

/-- No table number is listed twice. -/
theorem nodup_tableNumbers (n : Int) : (tableNumbers n).Nodup := by
  unfold tableNumbers
  apply List.Nodup.map _ (List.nodup_range _)
  intro a b h
  simp only at h
  omega

/-- A partial function defined at one element of a duplicate-free list only
selects that one element. -/
theorem filterMap_eq_singleton {β : Type} (f : Int → Option β) (k : Int) (x : β)
    (hf : f k = some x) (hno : ∀ i, i ≠ k → f i = none) :
    ∀ l : List Int, l.Nodup → k ∈ l → l.filterMap f = [x] := by
  intro l
  induction l with
  | nil => intro _ hk; exact absurd hk (List.not_mem_nil _)
  | cons a rest ih =>
    intro hnd hk
    rw [List.nodup_cons] at hnd
    by_cases ha : a = k
    · subst ha
      have hrest : rest.filterMap f = [] := by
        rw [List.filterMap_eq_nil_iff]
        intro i hi
        exact hno i (fun h => hnd.1 (h ▸ hi))
      rw [List.filterMap_cons, hf, hrest]
    · have hk2 : k ∈ rest := by
        rcases List.mem_cons.mp hk with h | h
        · exact absurd h.symm ha
        · exact h
      rw [List.filterMap_cons, hno a ha]
      exact ih hnd.2 hk2



/-- Claim C9, as the code has it, started with client1 already admitted: Sit
client1 1 10:00, Arrive client2 10:30 and Wait client2 10:31 generate no event;
Leave client1 12:00 is echoed and generates only ClientSat client2 1; the
closing procedure generates ClientLeft client2 at 20:00; table 1 ends with
income 100 and usage 600 minutes, which is the one revenue line. -/
theorem scenario_admitted_run :
    ∃ r, ProcessEvents admittedClub ((scenarioEvents.drop 1).map wrap) = some (r, none)
      ∧ r.out =
          [Line.time 600] ++ ((scenarioEvents.drop 1).map (fun e => Line.event (.incoming e))) ++
          [Line.event (.outgoing (NewClientSatEvent 720 (NewClientSits "client2" 1 1))),
           Line.event (.outgoing (NewClientLeftEvent 1200 (NewClientLeaves "client2"))),
           Line.time 1200]
      ∧ r.revenue.Get 1 = some { Income := 100, UsageTime := 600 }
      ∧ (ShowRevenue r).out = r.out ++ [Line.revenue 1 { Income := 100, UsageTime := 600 }] :=
  ⟨_, rfl, by decide, by decide, by decide⟩

/-- Claim C9 as stated fails. Run as written, the Arrive of client1 at 10:00 is
answered with NotOpenYet, the output differs from the described one and table 1
earns nothing. With client1 admitted beforehand, the Leave of client1 still
generates no ClientLeft event and the usage of table 1 is not 9h30m. -/
theorem scenario_as_described_fails :
    (∃ r, ProcessEvents (newClub testCfg scenarioCore) (scenarioEvents.map wrap) = some (r, none)
      ∧ Line.event (.outgoing (NewErrorEvent 600 (GoError.New ErrNotOpenYet))) ∈ r.out
      ∧ r.out ≠ scenarioDescribedOut
      ∧ r.revenue.Get 1 = none)
    ∧ (∃ r, ProcessEvents admittedClub ((scenarioEvents.drop 1).map wrap) = some (r, none)
      ∧ Line.event (.outgoing (NewClientLeftEvent 720 (NewClientLeaves "client1"))) ∉ r.out
      ∧ r.revenue.Get 1 ≠ some { Income := 100, UsageTime := 570 }) :=
  ⟨⟨_, rfl, by decide, by decide, by decide⟩, ⟨_, rfl, by decide, by decide⟩⟩



/-- One turn of the loop of `ProcessEvents` for a message that carries an event. -/
theorem eventsLoop_cons_wrap (p q : EventProcessorImpl) (event : IncomingEvent)
    (rest : List WrappedIncomingEvent)
    (h : processEvent (writeOutEvent p (.incoming event)) event = some q) :
    eventsLoop p (wrap event :: rest) = eventsLoop q rest := by
  simp only [eventsLoop, wrap, h]

/-- With nobody present and nobody waiting the closing procedure does nothing. -/
theorem leaveClients_of_empty (p : EventProcessorImpl) (hc : p.clients.entries = [])
    (hq : p.waitingQueue.queue = []) : leaveClients p = some p := by
  unfold leaveClients
  simp [InMemoryStorage.GetAll, hc, hq, drainQueue, InMemoryQueue.Len, sortStrings, leaveLoop]

/-- A key that was set twice and then deleted leaves the new store empty. -/
theorem InMemoryStorage.entries_Set_Set_Delete {K V : Type} [DecidableEq K] (k : K) (v w : V) :
    ((((NewInMemoryStorage : InMemoryStorage K V).Set k v).Set k w).Delete k).entries = [] := by
  rw [InMemoryStorage.Delete_eq_erase]
  simp [InMemoryStorage.Set, NewInMemoryStorage, AList.insert_entries, AList.erase,
    AList.singleton]

/-- The new store holds no key. -/
@[simp] theorem InMemoryStorage.Get_New {K V : Type} [DecidableEq K] (k : K) :
    (NewInMemoryStorage : InMemoryStorage K V).Get k = none := by
  simp [InMemoryStorage.Get, NewInMemoryStorage]

/-- An event of kind Arrives goes to `processArrives`. -/
theorem processEvent_of_Arrives (p : EventProcessorImpl) (t : Int) (c : ClientData) :
    processEvent p (NewIncomingEvent t Arrives c) =
      some (processArrives p (NewIncomingEvent t Arrives c)) := by
  simp [processEvent, NewIncomingEvent]

/-- An event of kind Sits goes to `processSits`, without ClientSat line. -/
theorem processEvent_of_Sits (p : EventProcessorImpl) (t : Int) (c : ClientData) :
    processEvent p (NewIncomingEvent t Sits c) =
      processSits p (NewIncomingEvent t Sits c) false := by
  simp [processEvent, NewIncomingEvent, Sits, Arrives]

/-- An event of kind Leaves goes to `processLeaves`, without ClientLeft line. -/
theorem processEvent_of_Leaves (p : EventProcessorImpl) (t : Int) (c : ClientData) :
    processEvent p (NewIncomingEvent t Leaves c) =
      processLeaves p (NewIncomingEvent t Leaves c) false := by
  simp [processEvent, NewIncomingEvent, Sits, Arrives, Waits, Leaves]

/-- Claim C10, as the code has it: for a run of Arrive, Sit and Leave of one
client, the Arrive strictly inside the working hours, the table among 1 to
`TablesCount` and the Leave not before the Sit, the output is the opening time,
the three echoed input lines and the closing time; it holds no ClientLeft line
(kind 11), the Leave appearing only as its echoed input line (kind 4); and the
report is exactly one revenue line, for that table, whose income is the ceiling
of the duration in hours times `PricePerHour`, as long as that product is in
the range of `int` and the duration in the range of `time.Duration`. -/
theorem round_trip (cfg : Processor) (coreData : CoreData) (name : String)
    (table maxTables tA tS tL : Int)
    (hA1 : coreData.WorkingTime.Start < tA) (hA2 : tA < coreData.WorkingTime.End)
    (ht1 : 1 ≤ table) (ht2 : table ≤ coreData.TablesCount) (_hd : tS ≤ tL)
    (hfit : billable none coreData.PricePerHour (tL - tS)) :
    ∃ r, ProcessEvents (newClub cfg coreData)
          [wrap (NewIncomingEvent tA Arrives (NewClientArrives name)),
           wrap (NewIncomingEvent tS Sits (NewClientSits name table maxTables)),
           wrap (NewIncomingEvent tL Leaves (NewClientLeaves name))] = some (r, none)
      ∧ r.out =
          [Line.time coreData.WorkingTime.Start,
           Line.event (.incoming (NewIncomingEvent tA Arrives (NewClientArrives name))),
           Line.event (.incoming (NewIncomingEvent tS Sits (NewClientSits name table maxTables))),
           Line.event (.incoming (NewIncomingEvent tL Leaves (NewClientLeaves name))),
           Line.time coreData.WorkingTime.End]
      ∧ r.out.countP isClientLeft = 0
      ∧ (ShowRevenue r).out = r.out ++
          [Line.revenue table
            { Income := coreData.PricePerHour * ⌈((tL - tS : Int) : ℚ) / 60⌉,
              UsageTime := tL - tS }] := by
  have hne : table ≠ -1 := by omega
  let eA := NewIncomingEvent tA Arrives (NewClientArrives name)
  let eS := NewIncomingEvent tS Sits (NewClientSits name table maxTables)
  let eL := NewIncomingEvent tL Leaves (NewClientLeaves name)
  let p0 : EventProcessorImpl :=
    { newClub cfg coreData with
      out := (newClub cfg coreData).out ++ [Line.time coreData.WorkingTime.Start] }
  let pA : EventProcessorImpl :=
    { writeOutEvent p0 (.incoming eA) with clients := p0.clients.Set name (-1) }
  let pS : EventProcessorImpl :=
    { writeOutEvent pA (.incoming eS) with
      tables := pA.tables.Set table eS, clients := pA.clients.Set name table }
  let pL : EventProcessorImpl :=
    { updateRevenue (writeOutEvent pS (.incoming eL)) table tL with
      clients := pS.clients.Delete name, tables := pS.tables.Delete table,
      out := (writeOutEvent pS (.incoming eL)).out }
  have hstepA : processEvent (writeOutEvent p0 (.incoming eA)) eA = some pA := by
    rw [processEvent_of_Arrives]
    rw [processArrives_of_absent (writeOutEvent p0 (.incoming eA)) eA hA1 hA2 rfl]
    rfl
  have hstepS : processEvent (writeOutEvent pA (.incoming eS)) eS = some pS := by
    rw [processEvent_of_Sits]
    rw [@processSits_of_free_noTable (writeOutEvent pA (.incoming eS)) eS false
      name table maxTables rfl (InMemoryStorage.Get_Set_self _ _ _) rfl]
    simp [pS, writeOutEvent, satLines]
  have hstepL : processEvent (writeOutEvent pS (.incoming eL)) eL = some pL := by
    rw [processEvent_of_Leaves]
    rw [@processLeaves_of_table_noQueue (writeOutEvent pS (.incoming eL)) eL false table
      (InMemoryStorage.Get_Set_self _ _ _) hne rfl]
    simp only [Option.some.injEq]
    apply EventProcessorImpl.ext
    · simp [pL, leftLines]
    · rfl
    · rfl
    · rfl
    · rfl
    · rfl
    · rfl
  have hloop : eventsLoop p0 [wrap eA, wrap eS, wrap eL] = some (pL, none) :=
    (eventsLoop_cons_wrap _ _ _ _ hstepA).trans
      ((eventsLoop_cons_wrap _ _ _ _ hstepS).trans
        ((eventsLoop_cons_wrap _ _ _ [] hstepL).trans rfl))
  have hclose : leaveClients pL = some pL :=
    leaveClients_of_empty pL (InMemoryStorage.entries_Set_Set_Delete name (-1) table)
      (by show (updateRevenue _ _ _).waitingQueue.queue = []
          rw [updateRevenue_waitingQueue]; rfl)
  have hocc : (writeOutEvent pS (.incoming eL)).tables.Get table = some eS :=
    InMemoryStorage.Get_Set_self _ _ _
  have hrev : pL.revenue =
      (NewInMemoryStorage : InMemoryStorage Int RevenueStats).Set table
        { Income := coreData.PricePerHour * ⌈((tL - tS : Int) : ℚ) / 60⌉,
          UsageTime := tL - tS } := by
    show (updateRevenue (writeOutEvent pS (.incoming eL)) table tL).revenue = _
    have hr0 : (writeOutEvent pS (.incoming eL)).revenue.Get table = none :=
      InMemoryStorage.Get_New table
    have hcd : (writeOutEvent pS (.incoming eL)).coreData = coreData := rfl
    rw [updateRevenue_of_occupied _ table tL eS hne hocc (by rw [hr0]; exact hfit),
      ← ceilHours_eq_ceil]
    rw [hr0, hcd]
    show (NewInMemoryStorage : InMemoryStorage Int RevenueStats).Set table _ = _
    simp [eS, NewIncomingEvent]
  refine ⟨{ pL with out := pL.out ++ [Line.time pL.coreData.WorkingTime.End] }, ?_, ?_, ?_, ?_⟩
  · show (match eventsLoop p0 [wrap eA, wrap eS, wrap eL] with
      | none => none
      | some (q, some err) => some (q, some err)
      | some (q, none) =>
        match leaveClients q with
        | none => none
        | some r => some ({ r with out := r.out ++ [Line.time r.coreData.WorkingTime.End] }, none))
      = _
    rw [hloop]
    simp only [hclose]
  · simp [pL, pS, pA, p0, eA, eS, eL, writeOutEvent, newClub, NewEventProcessor]
  · simp [pL, pS, pA, p0, writeOutEvent, newClub, NewEventProcessor, isClientLeft]
  · have hcdL : pL.coreData = coreData := by
      show (updateRevenue _ _ _).coreData = _
      rw [updateRevenue_coreData]; rfl
    have hfm : List.filterMap (fun i => (pL.revenue.Get i).map (Line.revenue i))
        (tableNumbers pL.coreData.TablesCount) =
        [Line.revenue table
          { Income := coreData.PricePerHour * ⌈((tL - tS : Int) : ℚ) / 60⌉,
            UsageTime := tL - tS }] := by
      rw [hcdL, hrev]
      exact filterMap_eq_singleton _ table _ (by simp)
        (fun i hi => by rw [InMemoryStorage.Get_Set_of_ne _ _ hi]; simp) _
        (nodup_tableNumbers _) (mem_tableNumbers.mpr ⟨ht1, ht2⟩)
    rw [ShowRevenue_eq]
    exact congrArg (fun l => (pL.out ++ [Line.time pL.coreData.WorkingTime.End]) ++ l) hfm

/-- Claim C10, evaluated: client1 arrives and sits at table 1 at 10:10 and
leaves at 12:00 in the scenario club. -/
theorem round_trip_witness :
    (scenarioCore.WorkingTime.Start < 610 ∧ 610 < scenarioCore.WorkingTime.End
      ∧ (1 : Int) ≤ 1 ∧ 1 ≤ scenarioCore.TablesCount ∧ (610 : Int) ≤ 720
      ∧ billable none scenarioCore.PricePerHour (720 - 610))
    ∧ ∃ r, ProcessEvents (newClub testCfg scenarioCore)
          [wrap (NewIncomingEvent 610 Arrives (NewClientArrives "client1")),
           wrap (NewIncomingEvent 610 Sits (NewClientSits "client1" 1 1)),
           wrap (NewIncomingEvent 720 Leaves (NewClientLeaves "client1"))] = some (r, none)
        ∧ r.out =
            [Line.time scenarioCore.WorkingTime.Start,
             Line.event (.incoming (NewIncomingEvent 610 Arrives (NewClientArrives "client1"))),
             Line.event (.incoming (NewIncomingEvent 610 Sits (NewClientSits "client1" 1 1))),
             Line.event (.incoming (NewIncomingEvent 720 Leaves (NewClientLeaves "client1"))),
             Line.time scenarioCore.WorkingTime.End]
        ∧ r.out.countP isClientLeft = 0
        ∧ (ShowRevenue r).out = r.out ++
            [Line.revenue 1
              { Income := scenarioCore.PricePerHour * ⌈(((720 : Int) - 610 : Int) : ℚ) / 60⌉,
                UsageTime := 720 - 610 }] :=
  ⟨⟨by decide, by decide, by decide, by decide, by decide, by decide⟩,
   round_trip testCfg scenarioCore "client1" 1 1 610 610 720
    (by decide) (by decide) (by decide) (by decide) (by decide) (by decide)⟩

/-- Claim C10 as stated fails: the run of Arrive, Sit and Leave of client1
inside the working hours produces no ClientLeft line (kind 11), not one. -/
theorem round_trip_without_left :
    ∃ r, ProcessEvents (newClub testCfg scenarioCore)
          [wrap (NewIncomingEvent 610 Arrives (NewClientArrives "client1")),
           wrap (NewIncomingEvent 610 Sits (NewClientSits "client1" 1 1)),
           wrap (NewIncomingEvent 720 Leaves (NewClientLeaves "client1"))] = some (r, none)
      ∧ r.out.countP isClientLeft ≠ 1 :=
  ⟨_, rfl, by decide⟩


/-! ## The closing procedure -/

/-- The keys that `leaveClients` collects from the presence map. -/
theorem InMemoryStorage.GetAll_keys {K V : Type} (i : InMemoryStorage K V) :
    i.GetAll.map (fun pair => pair.Key) = i.keys := by
  simp [InMemoryStorage.GetAll, AList.keys, List.keys, List.map_map, Function.comp_def]

/-- A key is listed exactly when a lookup finds it. -/
theorem InMemoryStorage.mem_keys_iff {K V : Type} [DecidableEq K] (i : InMemoryStorage K V)
    (k : K) : k ∈ i.keys ↔ (i.Get k).isSome := by
  rw [← AList.mem_keys, ← AList.lookup_isSome]
  rfl

/-- A store in which no lookup succeeds has no key. -/
theorem InMemoryStorage.keys_eq_nil {K V : Type} [DecidableEq K] (i : InMemoryStorage K V)
    (h : ∀ k, i.Get k = none) : i.keys = [] := by
  cases hk : i.keys with
  | nil => rfl
  | cons k rest =>
    have hm : k ∈ i.keys := by rw [hk]; exact List.mem_cons_self _ _
    rw [InMemoryStorage.mem_keys_iff, h k] at hm
    exact absurd hm (by simp)

/-- Draining a queue without nil empties it and appends the names in order;
the fuel `leaveClients` passes is enough. -/
theorem drainQueue_eq (nilValue : Option ClientData) :
    ∀ (l : List (Option ClientData)) (acc : List String), (∀ x ∈ l, x ≠ none) →
      drainQueue l.length { queue := l, nilValue := nilValue } acc =
        some ({ queue := [], nilValue := nilValue },
          acc ++ l.filterMap (fun x => x.map ClientData.GetName)) := by
  intro l
  induction l with
  | nil =>
    intro acc _
    simp [drainQueue, InMemoryQueue.Len]
  | cons x rest ih =>
    intro acc hnn
    cases x with
    | none => exact absurd rfl (hnn none (List.mem_cons_self _ _))
    | some client =>
      have hpop : ({ queue := some client :: rest, nilValue := nilValue } :
          InMemoryQueue (Option ClientData)).Pop =
          ((some client, none), { queue := rest, nilValue := nilValue }) := by
        simp [InMemoryQueue.Pop, InMemoryQueue.Peek]
      have hlen : ({ queue := some client :: rest, nilValue := nilValue } :
          InMemoryQueue (Option ClientData)).Len > 0 := by
        simp only [InMemoryQueue.Len, List.length_cons]
        positivity
      rw [List.length_cons, drainQueue, if_pos hlen, hpop]
      simp only []
      rw [ih _ (fun y hy => hnn y (List.mem_cons_of_mem _ hy))]
      simp

/-- One turn of the last loop of `leaveClients`, for an empty queue: the name is
deleted from the presence map; a present client gets its ClientLeft line and
its table, if it holds one, is billed and released; an absent name gets the raw
line only. -/
theorem leaveLoop_step (p : EventProcessorImpl) (c : String) (rest : List String)
    (hq : p.waitingQueue.queue = []) :
    ∃ q, leaveLoop p (c :: rest) = leaveLoop q rest
      ∧ q.waitingQueue = p.waitingQueue
      ∧ q.coreData = p.coreData
      ∧ q.clients = p.clients.Delete c
      ∧ q.out = p.out ++
          [if (p.clients.Get c).isSome then closingLeft p c
           else Line.event (.incoming
            (NewIncomingEvent p.coreData.WorkingTime.End Leaves (NewClientLeaves c)))]
      ∧ (∀ X : Int, p.clients.Get c ≠ some X →
          q.revenue.Get X = p.revenue.Get X ∧ q.tables.Get X = p.tables.Get X)
      ∧ (∀ (X : Int) (ev : IncomingEvent), p.clients.Get c = some X → X ≠ -1 →
          p.tables.Get X = some ev →
          q.revenue.Get X = some (billed (p.revenue.Get X) p.coreData.PricePerHour
            (p.coreData.WorkingTime.End - ev.HappensAt)))
      ∧ (SeatedConsistent p → SeatedConsistent q) := by
  have hn : (NewIncomingEvent p.coreData.WorkingTime.End Leaves
      (NewClientLeaves c)).Client.GetName = c := rfl
  cases hc : p.clients.Get c with
  | none =>
    refine ⟨writeOutEvent p (.incoming
      (NewIncomingEvent p.coreData.WorkingTime.End Leaves (NewClientLeaves c))),
      ?_, rfl, rfl, ?_, ?_, ?_, ?_, ?_⟩
    · simp [leaveLoop, hc]
    · show p.clients = p.clients.Delete c
      unfold InMemoryStorage.Delete
      rw [show AList.lookup c p.clients = none from hc]
      rfl
    · simp [writeOutEvent]
    · intro X _
      exact ⟨rfl, rfl⟩
    · intro X ev h
      exact Option.noConfusion h
    · intro h
      exact h.of_eq rfl rfl
  | some Y =>
    by_cases hs : Y = -1
    · subst hs
      have hpl := processLeaves_of_noTable p
        (NewIncomingEvent p.coreData.WorkingTime.End Leaves (NewClientLeaves c)) true
        (by rw [hn]; exact hc)
      refine ⟨{ p with
          clients := p.clients.Delete c,
          out := p.out ++ leftLines true
            (NewIncomingEvent p.coreData.WorkingTime.End Leaves (NewClientLeaves c)) },
        ?_, ?_, ?_, ?_, ?_, ?_, ?_, ?_⟩
      · simp only [leaveLoop, hc, Option.isNone_some, Bool.false_eq_true, if_false, hpl]
        rfl
      · rfl
      · rfl
      · rfl
      · simp [leftLines, closingLeft, NewIncomingEvent]
      · intro X _
        exact ⟨rfl, rfl⟩
      · intro X ev h hX
        exact absurd (Option.some.inj h).symm hX
      · intro h
        exact h.forget rfl rfl
    · have hpl := processLeaves_of_table_noQueue p
        (NewIncomingEvent p.coreData.WorkingTime.End Leaves (NewClientLeaves c)) true
        (by rw [hn]; exact hc) hs hq
      refine ⟨{ updateRevenue p Y p.coreData.WorkingTime.End with
          clients := p.clients.Delete c,
          tables := p.tables.Delete Y,
          out := p.out ++ leftLines true
            (NewIncomingEvent p.coreData.WorkingTime.End Leaves (NewClientLeaves c)) },
        ?_, ?_, ?_, ?_, ?_, ?_, ?_, ?_⟩
      · simp only [leaveLoop, hc, Option.isNone_some, Bool.false_eq_true, if_false, hpl]
        rfl
      · simp
      · simp
      · rfl
      · simp [leftLines, closingLeft, NewIncomingEvent]
      · intro X hX
        have hXY : X ≠ Y := fun h => hX (by rw [h])
        refine ⟨?_, ?_⟩
        · exact updateRevenue_revenue_of_ne p Y _ hXY
        · exact InMemoryStorage.Get_Delete_of_ne _ hXY
      · intro X ev h hX hocc
        have hXY : Y = X := Option.some.inj h
        subst hXY
        show (updateRevenue p Y _).revenue.Get Y = _
        rw [updateRevenue_billed p Y _ ev hs hocc]
        simp
      · intro h
        exact h.release hc rfl (by simp)

/-- A ClientLeft line of one client counts for that client only. -/
theorem isLeftOf_closingLeft (p : EventProcessorImpl) (c x : String) :
    isLeftOf c (closingLeft p x) = decide (x = c) := by
  simp [isLeftOf, closingLeft, NewClientLeftEvent, NewClientLeaves, ClientData.GetName,
    OutgoingEventTypeClientLeft]

/-- The lookup after a deletion. -/
theorem InMemoryStorage.Get_Delete {K V : Type} [DecidableEq K] (i : InMemoryStorage K V)
    (k k2 : K) : (i.Delete k).Get k2 = if k2 = k then none else i.Get k2 := by
  by_cases h : k2 = k
  · rw [if_pos h, h]; exact InMemoryStorage.Get_Delete_self _ _
  · rw [if_neg h]; exact InMemoryStorage.Get_Delete_of_ne _ h

/-- The last loop of `leaveClients`, for an empty queue, returns; it removes the
listed names from the presence map and writes exactly one ClientLeft line for
each listed name that was present. -/
theorem leaveLoop_presence :
    ∀ (L : List String) (p : EventProcessorImpl), p.waitingQueue.queue = [] →
      ∃ q lines, leaveLoop p L = some q
        ∧ q.waitingQueue = p.waitingQueue
        ∧ q.coreData = p.coreData
        ∧ (∀ c : String, q.clients.Get c = if c ∈ L then none else p.clients.Get c)
        ∧ q.out = p.out ++ lines
        ∧ (∀ c : String, lines.filter (isLeftOf c) =
            if c ∈ L ∧ (p.clients.Get c).isSome then [closingLeft p c] else []) := by
  intro L
  induction L with
  | nil =>
    intro p _
    exact ⟨p, [], rfl, rfl, rfl, fun c => by simp, by simp, fun c => by simp⟩
  | cons x rest ih =>
    intro p hq
    obtain ⟨p1, hstep, hq1, hcd1, hcl1, hout1, -, -, -⟩ := leaveLoop_step p x rest hq
    obtain ⟨q, lines, hloop, hq2, hcd2, hcl2, hout2, hfil2⟩ := ih p1 (by rw [hq1]; exact hq)
    refine ⟨q,
      (if (p.clients.Get x).isSome then closingLeft p x
        else Line.event (.incoming
          (NewIncomingEvent p.coreData.WorkingTime.End Leaves (NewClientLeaves x)))) :: lines,
      hstep.trans hloop, hq2.trans hq1, hcd2.trans hcd1, ?_, ?_, ?_⟩
    · intro c
      rw [hcl2 c, hcl1, InMemoryStorage.Get_Delete]
      by_cases hcx : c = x
      · simp [hcx]
      · by_cases hcr : c ∈ rest
        · simp [hcr]
        · simp [hcx, hcr]
    · rw [hout2, hout1, List.append_assoc]
      rfl
    · intro c
      have hleft : closingLeft p1 c = closingLeft p c := by
        simp only [closingLeft, hcd1]
      rw [List.filter_cons, hfil2 c, hcl1, InMemoryStorage.Get_Delete, hleft]
      by_cases hcx : c = x
      · subst hcx
        cases hpc : p.clients.Get c with
        | none => simp [isLeftOf]
        | some Y => simp [isLeftOf_closingLeft]
      · have hxc : ¬ x = c := fun h => hcx h.symm
        cases hpx : p.clients.Get x with
        | none => simp [isLeftOf, hcx]
        | some Y => simp [isLeftOf_closingLeft, hcx, hxc]

/-- The loop leaves the revenue of a table alone that no present client is
mapped to. -/
theorem leaveLoop_revenue_frame :
    ∀ (L : List String) (p q : EventProcessorImpl), p.waitingQueue.queue = [] →
      leaveLoop p L = some q →
      ∀ X : Int, (∀ c : String, p.clients.Get c ≠ some X) →
        q.revenue.Get X = p.revenue.Get X := by
  intro L
  induction L with
  | nil =>
    intro p q _ h X _
    rw [← Option.some.inj h]
  | cons x rest ih =>
    intro p q hq h X hX
    obtain ⟨p1, hstep, hq1, -, hcl1, -, hframe, -, -⟩ := leaveLoop_step p x rest hq
    rw [hstep] at h
    have hX1 : ∀ c : String, p1.clients.Get c ≠ some X := by
      intro c
      rw [hcl1, InMemoryStorage.Get_Delete]
      split
      · exact fun h => Option.noConfusion h
      · exact hX c
    rw [ih p1 q (by rw [hq1]; exact hq) h X hX1]
    exact (hframe X (hX x)).1

/-- The loop bills the table of every listed client that holds one, up to the
closing time. -/
theorem leaveLoop_revenue :
    ∀ (L : List String) (p q : EventProcessorImpl), p.waitingQueue.queue = [] →
      SeatedConsistent p → leaveLoop p L = some q →
      ∀ (c : String) (X : Int) (ev : IncomingEvent), p.clients.Get c = some X → X ≠ -1 →
        p.tables.Get X = some ev → c ∈ L →
        q.revenue.Get X = some (billed (p.revenue.Get X) p.coreData.PricePerHour
          (p.coreData.WorkingTime.End - ev.HappensAt)) := by
  intro L
  induction L with
  | nil =>
    intro p q _ _ _ c X ev _ _ _ hc
    exact absurd hc (List.not_mem_nil _)
  | cons x rest ih =>
    intro p q hq hinv h c X ev hc hX hocc hmem
    obtain ⟨p1, hstep, hq1, hcd1, hcl1, -, hframe, hbill, hinv1⟩ := leaveLoop_step p x rest hq
    rw [hstep] at h
    have hq1e : p1.waitingQueue.queue = [] := by rw [hq1]; exact hq
    by_cases hxc : x = c
    · subst hxc
      have hnone : ∀ d : String, p1.clients.Get d ≠ some X := by
        intro d
        rw [hcl1, InMemoryStorage.Get_Delete]
        split
        · exact fun h => Option.noConfusion h
        · rename_i hdx
          intro hd
          exact hdx (hinv.inj hd hc hX)
      rw [leaveLoop_revenue_frame rest p1 q hq1e h X hnone]
      exact hbill X ev hc hX hocc
    · have hcr : c ∈ rest := by
        rcases List.mem_cons.mp hmem with h1 | h1
        · exact absurd h1.symm hxc
        · exact h1
      have hxX : p.clients.Get x ≠ some X := fun hx => hxc (hinv.inj hx hc hX)
      have hc1 : p1.clients.Get c = some X := by
        rw [hcl1, InMemoryStorage.Get_Delete_of_ne _ (fun h => hxc h.symm)]
        exact hc
      have hocc1 : p1.tables.Get X = some ev := by
        rw [(hframe X hxX).2]; exact hocc
      have := ih p1 q hq1e (hinv1 hinv) h c X ev hc1 hX hocc1 hcr
      rw [this, (hframe X hxX).1, hcd1]

/-- What `leaveClients` comes to in a state whose queue holds no nil: the last
loop, run with an emptied queue over the sorted names of the presence map and
of the queue. -/
theorem leaveClients_eq (p : EventProcessorImpl) (hnn : QueueNonNil p) :
    leaveClients p =
      leaveLoop { p with waitingQueue := { queue := [], nilValue := p.waitingQueue.nilValue } }
        (sortStrings (p.clients.keys ++
          p.waitingQueue.queue.filterMap (fun x => x.map ClientData.GetName))) := by
  unfold leaveClients
  have hd := drainQueue_eq p.waitingQueue.nilValue p.waitingQueue.queue
    (p.clients.GetAll.map (fun pair => pair.Key)) hnn
  have heta : ({ queue := p.waitingQueue.queue, nilValue := p.waitingQueue.nilValue } :
      InMemoryQueue (Option ClientData)) = p.waitingQueue := rfl
  rw [heta, InMemoryStorage.GetAll_keys] at hd
  simp only [InMemoryStorage.GetAll_keys, hd]

/-- Sorting keeps the names. -/
theorem mem_sortStrings (c : String) (l : List String) : c ∈ sortStrings l ↔ c ∈ l :=
  (List.perm_insertionSort strLE l).mem_iff

/-- Claim C8: from every reachable state the closing procedure returns; after
it the presence map and the waiting queue are empty; among the lines it wrote
there is, for every client that was present, exactly one ClientLeft event (kind
11), stamped with the closing time, and none for any other name; and the table
of every client that held one has an occupancy entry and its revenue has
accrued from the seating time up to the closing time, by the exact amounts as
long as nothing overflows. -/
theorem leaveClients_closes (cfg : Processor) (coreData : CoreData) (p : EventProcessorImpl)
    (hr : Reachable cfg coreData p) :
    ∃ q lines, leaveClients p = some q
      ∧ q.clients.keys = []
      ∧ q.waitingQueue.queue = []
      ∧ q.out = p.out ++ lines
      ∧ (∀ c : String, (p.clients.Get c).isSome →
          lines.filter (isLeftOf c) =
            [Line.event (.outgoing
              (NewClientLeftEvent coreData.WorkingTime.End (NewClientLeaves c)))])
      ∧ (∀ c : String, p.clients.Get c = none → lines.filter (isLeftOf c) = [])
      ∧ (∀ (c : String) (X : Int), p.clients.Get c = some X → X ≠ -1 →
          ∃ ev : IncomingEvent, p.tables.Get X = some ev
            ∧ (billable (p.revenue.Get X) coreData.PricePerHour
                (coreData.WorkingTime.End - ev.HappensAt) →
              q.revenue.Get X = some (accrued (p.revenue.Get X) coreData.PricePerHour
                (coreData.WorkingTime.End - ev.HappensAt)))) := by
  have hnn := hr.queueNonNil
  have hinv := hr.seatedConsistent
  have hcd := hr.coreData_eq
  have hinv1 : SeatedConsistent
      { p with waitingQueue := { queue := [], nilValue := p.waitingQueue.nilValue } } :=
    hinv.of_eq rfl rfl
  obtain ⟨q, lines, hloop, hq, -, hcl, hout, hfil⟩ :=
    leaveLoop_presence
      (sortStrings (p.clients.keys ++
        p.waitingQueue.queue.filterMap (fun x => x.map ClientData.GetName)))
      { p with waitingQueue := { queue := [], nilValue := p.waitingQueue.nilValue } } rfl
  have hmem : ∀ c : String, (p.clients.Get c).isSome →
      c ∈ sortStrings (p.clients.keys ++
        p.waitingQueue.queue.filterMap (fun x => x.map ClientData.GetName)) := by
    intro c hc
    rw [mem_sortStrings]
    exact List.mem_append_left _ ((InMemoryStorage.mem_keys_iff _ _).mpr hc)
  refine ⟨q, lines, (leaveClients_eq p hnn).trans hloop, ?_, ?_, hout, ?_, ?_, ?_⟩
  · apply InMemoryStorage.keys_eq_nil
    intro c
    rw [hcl c]
    split
    · rfl
    · rename_i hc
      cases hpc : p.clients.Get c with
      | none => rfl
      | some Y => exact absurd (hmem c (by rw [hpc]; rfl)) hc
  · rw [hq]
  · intro c hc
    rw [hfil c, if_pos ⟨hmem c hc, hc⟩]
    simp only [closingLeft, hcd]
  · intro c hc
    rw [hfil c, if_neg]
    rintro ⟨-, h⟩
    rw [show ({ p with waitingQueue :=
      { queue := [], nilValue := p.waitingQueue.nilValue } } : EventProcessorImpl).clients.Get c
        = none from hc] at h
    exact absurd h (by simp)
  · intro c X hc hX
    obtain ⟨ev, hocc, -⟩ := hinv c X hc hX
    refine ⟨ev, hocc, fun hfit => ?_⟩
    have := leaveLoop_revenue _ _ q rfl hinv1 hloop c X ev hc hX hocc
      (hmem c (by rw [hc]; rfl))
    rw [this]
    simp only [hcd]
    rw [billed_eq_accrued _ _ _ hfit]

/-- Claim C8, evaluated at the reachable state in which client1 holds the only
table, since 10:30, and client2 waits; billing table 1 up to the closing time
does not overflow. -/
theorem leaveClients_closes_witness :
    (Reachable testCfg scenarioCore seatedAndQueued
      ∧ billable (seatedAndQueued.revenue.Get 1) scenarioCore.PricePerHour
          (scenarioCore.WorkingTime.End - 630))
    ∧ ∃ q lines, leaveClients seatedAndQueued = some q
      ∧ q.clients.keys = []
      ∧ q.waitingQueue.queue = []
      ∧ q.out = seatedAndQueued.out ++ lines
      ∧ (∀ c : String, (seatedAndQueued.clients.Get c).isSome →
          lines.filter (isLeftOf c) =
            [Line.event (.outgoing
              (NewClientLeftEvent scenarioCore.WorkingTime.End (NewClientLeaves c)))])
      ∧ (∀ c : String, seatedAndQueued.clients.Get c = none → lines.filter (isLeftOf c) = [])
      ∧ (∀ (c : String) (X : Int), seatedAndQueued.clients.Get c = some X → X ≠ -1 →
          ∃ ev : IncomingEvent, seatedAndQueued.tables.Get X = some ev
            ∧ (billable (seatedAndQueued.revenue.Get X) scenarioCore.PricePerHour
                (scenarioCore.WorkingTime.End - ev.HappensAt) →
              q.revenue.Get X =
                some (accrued (seatedAndQueued.revenue.Get X) scenarioCore.PricePerHour
                  (scenarioCore.WorkingTime.End - ev.HappensAt)))) :=
  ⟨⟨@Reachable.of_afterEvents _ _ seatedAndQueuedEvents _ (by decide), by decide⟩,
   leaveClients_closes testCfg scenarioCore seatedAndQueued
    (@Reachable.of_afterEvents _ _ seatedAndQueuedEvents _ (by decide))⟩


/-! ## Boundary cases of admission and billing -/

/-- Claim C11, evaluated on the code: with working hours 10:00 to 20:00 and an
empty club, the Arrive of client1 at exactly 10:00 is answered with the Error
NotOpenYet and client1 is not made present. -/
theorem arrive_at_opening_rejected :
    scenarioCore.WorkingTime.Start = 600
    ∧ validated scenarioCore.TablesCount
        (NewIncomingEvent 600 Arrives (NewClientArrives "client1")) = true
    ∧ processEvent (newClub testCfg scenarioCore)
        (NewIncomingEvent 600 Arrives (NewClientArrives "client1")) =
        some (withError (newClub testCfg scenarioCore) 600 ErrNotOpenYet)
    ∧ (withError (newClub testCfg scenarioCore) 600 ErrNotOpenYet).clients.Get "client1"
        = none := by
  decide

/-- The billed hours of an occupancy of more than zero and less than sixty
minutes. -/
theorem ceilHours_of_lt_hour {d : Int} (h1 : 0 < d) (h2 : d < 60) : ceilHours d = 1 := by
  unfold ceilHours
  omega

/-- A release of a table that was occupied for more than zero minutes and less
than one hour adds exactly one hour's price to the table's income (and the
minutes to its usage); a release after zero minutes leaves the income as it
was. Both as long as nothing overflows. -/
theorem updateRevenue_under_hour (p : EventProcessorImpl) (table t : Int) (ev : IncomingEvent)
    (hne : table ≠ -1) (hocc : p.tables.Get table = some ev)
    (hfit : billable (p.revenue.Get table) p.coreData.PricePerHour (t - ev.HappensAt)) :
    (0 < t - ev.HappensAt → t - ev.HappensAt < 60 →
      (updateRevenue p table t).revenue.Get table =
        some { Income := ((p.revenue.Get table).getD ⟨0, 0⟩).Income + p.coreData.PricePerHour,
               UsageTime := ((p.revenue.Get table).getD ⟨0, 0⟩).UsageTime
                  + (t - ev.HappensAt) })
    ∧ (t - ev.HappensAt = 0 →
      (updateRevenue p table t).revenue.Get table =
        some { Income := ((p.revenue.Get table).getD ⟨0, 0⟩).Income,
               UsageTime := ((p.revenue.Get table).getD ⟨0, 0⟩).UsageTime }) := by
  have h := updateRevenue_of_occupied p table t ev hne hocc hfit
  refine ⟨?_, ?_⟩
  · intro h1 h2
    rw [h, ceilHours_of_lt_hour h1 h2]
    simp
  · intro h0
    rw [h, h0]
    simp [ceilHours]

/-- The billing of an occupancy under one hour, evaluated: client1 holds table 1
since 10:00; released at 10:30 the table earns one hour's price, released at
10:00 it earns nothing. -/
theorem updateRevenue_under_hour_witness :
    ((1 : Int) ≠ -1 ∧ oneSeated.tables.Get 1 = some sitClient1
      ∧ 0 < 630 - sitClient1.HappensAt ∧ 630 - sitClient1.HappensAt < 60
      ∧ 600 - sitClient1.HappensAt = 0)
    ∧ (updateRevenue oneSeated 1 630).revenue.Get 1 =
        some { Income := ((oneSeated.revenue.Get 1).getD ⟨0, 0⟩).Income
                  + oneSeated.coreData.PricePerHour,
               UsageTime := ((oneSeated.revenue.Get 1).getD ⟨0, 0⟩).UsageTime
                  + (630 - sitClient1.HappensAt) }
    ∧ (updateRevenue oneSeated 1 600).revenue.Get 1 =
        some { Income := ((oneSeated.revenue.Get 1).getD ⟨0, 0⟩).Income,
               UsageTime := ((oneSeated.revenue.Get 1).getD ⟨0, 0⟩).UsageTime } :=
  ⟨⟨by decide, by decide, by decide, by decide, by decide⟩,
   (updateRevenue_under_hour oneSeated 1 630 sitClient1 (by decide) (by decide)
    (by decide)).1 (by decide) (by decide),
   (updateRevenue_under_hour oneSeated 1 600 sitClient1 (by decide) (by decide)
    (by decide)).2 (by decide)⟩

/-- Claim C13, evaluated on the code: in the club of one table at the price 10,
client1 arrives at 10:10, sits down at table 1 at 10:30 and leaves at 10:30.
The events are delivered ones and their times do not decrease. The table was
occupied for zero minutes, which is less than one hour, and it is billed
nothing: its income is 0, not the price of one hour, and the report line is
`1 0 00:00`. -/
theorem zero_minutes_unbilled :
    (∀ e ∈ zeroMinuteEvents, validated scenarioCore.TablesCount e = true)
    ∧ List.Pairwise (fun a b : Int => a ≤ b) (zeroMinuteEvents.map (fun e => e.HappensAt))
    ∧ scenarioCore.PricePerHour = 10
    ∧ (∃ r, ProcessEvents (newClub testCfg scenarioCore) (zeroMinuteEvents.map wrap)
          = some (r, none)
        ∧ r.revenue.Get 1 = some { Income := 0, UsageTime := 0 })
    ∧ (mainAfterCoreData testCfg scenarioCore (zeroMinuteEvents.map wrap)).map
        (fun printed => printed.filterMap (fun x =>
          match x with
          | Printed.line l => l.written "15:04"
          | Printed.message text => some text))
        = some ["10:00\n", "10:10 1 client1\n", "10:30 2 client1 1\n", "10:30 4 client1\n",
                "20:00\n", "1 0 00:00\n"] :=
  ⟨by decide, by decide, by decide, ⟨_, rfl, by decide⟩, by decide⟩

/-- The same at the level of `updateRevenue`: client1 holds table 1 since 10:00
and the table has earned nothing yet; a release at 10:00, after zero minutes,
leaves the income at 0 and does not add the price of 10. -/
theorem updateRevenue_zero_minutes :
    oneSeated.tables.Get 1 = some sitClient1
    ∧ 0 ≤ 600 - sitClient1.HappensAt ∧ 600 - sitClient1.HappensAt < 60
    ∧ oneSeated.revenue.Get 1 = none
    ∧ oneSeated.coreData.PricePerHour = 10
    ∧ (updateRevenue oneSeated 1 600).revenue.Get 1 = some { Income := 0, UsageTime := 0 } := by
  decide

/-- Claim C16: when the client is present and the target table is occupied,
the same Sit processed twice in a row is answered twice with the same Error
PlaceIsBusy at the Sit's time, and the presence map, the occupancy, the queue
and the revenue after the second are those after the first and those before. -/
theorem processEvent_sit_busy_twice (p : EventProcessorImpl) (name : String)
    (table maxTables t : Int)
    (hpres : (p.clients.Get name).isSome) (hocc : (p.tables.Get table).isSome) :
    ∃ q1 q2,
      processEvent p (NewIncomingEvent t Sits (NewClientSits name table maxTables)) = some q1
      ∧ processEvent q1 (NewIncomingEvent t Sits (NewClientSits name table maxTables)) = some q2
      ∧ q1.out = p.out ++
          [Line.event (.outgoing (NewErrorEvent t (GoError.New ErrTableIsBusy)))]
      ∧ q2.out = p.out ++
          [Line.event (.outgoing (NewErrorEvent t (GoError.New ErrTableIsBusy))),
           Line.event (.outgoing (NewErrorEvent t (GoError.New ErrTableIsBusy)))]
      ∧ (q1.clients = p.clients ∧ q1.tables = p.tables
          ∧ q1.waitingQueue = p.waitingQueue ∧ q1.revenue = p.revenue)
      ∧ (q2.clients = q1.clients ∧ q2.tables = q1.tables
          ∧ q2.waitingQueue = q1.waitingQueue ∧ q2.revenue = q1.revenue) := by
  have hcl : (NewIncomingEvent t Sits (NewClientSits name table maxTables)).Client =
      .ClientSits name table maxTables := rfl
  refine ⟨withError p t ErrTableIsBusy, withError (withError p t ErrTableIsBusy) t ErrTableIsBusy,
    ?_, ?_, rfl, ?_, ⟨rfl, rfl, rfl, rfl⟩, ⟨rfl, rfl, rfl, rfl⟩⟩
  · rw [processEvent_of_Sits]
    exact processSits_of_busy p _ false hcl hpres hocc
  · rw [processEvent_of_Sits]
    exact processSits_of_busy (withError p t ErrTableIsBusy) _ false hcl hpres hocc
  · simp [withError]

/-- Claim C16, evaluated: client1 holds table 1 and asks for table 1 twice. -/
theorem processEvent_sit_busy_twice_witness :
    ((oneSeated.clients.Get "client1").isSome ∧ (oneSeated.tables.Get 1).isSome)
    ∧ ∃ q1 q2,
      processEvent oneSeated (NewIncomingEvent 720 Sits (NewClientSits "client1" 1 10))
        = some q1
      ∧ processEvent q1 (NewIncomingEvent 720 Sits (NewClientSits "client1" 1 10)) = some q2
      ∧ q1.out = oneSeated.out ++
          [Line.event (.outgoing (NewErrorEvent 720 (GoError.New ErrTableIsBusy)))]
      ∧ q2.out = oneSeated.out ++
          [Line.event (.outgoing (NewErrorEvent 720 (GoError.New ErrTableIsBusy))),
           Line.event (.outgoing (NewErrorEvent 720 (GoError.New ErrTableIsBusy)))]
      ∧ (q1.clients = oneSeated.clients ∧ q1.tables = oneSeated.tables
          ∧ q1.waitingQueue = oneSeated.waitingQueue ∧ q1.revenue = oneSeated.revenue)
      ∧ (q2.clients = q1.clients ∧ q2.tables = q1.tables
          ∧ q2.waitingQueue = q1.waitingQueue ∧ q2.revenue = q1.revenue) :=
  ⟨⟨by decide, by decide⟩,
   processEvent_sit_busy_twice oneSeated "client1" 1 10 720 (by decide) (by decide)⟩


/-! ## Rejections -/

/-- A delivered event is well shaped. -/
theorem wellShaped_of_validated {maxTables : Int} {event : IncomingEvent}
    (h : validated maxTables event = true) : wellShaped event := by
  intro hs
  unfold validated at h
  cases hc : event.Client with
  | ClientSits name table m => exact ⟨name, table, m, rfl⟩
  | ClientArrives name =>
    rw [hc] at h
    simp [hs, Sits, Arrives] at h
  | ClientWaits name =>
    rw [hc] at h
    simp [hs, Sits, Waits] at h
  | ClientLeaves name =>
    rw [hc] at h
    simp [hs, Sits, Leaves] at h

/-- With a Sits payload `processSits` returns. -/
theorem processSits_isSome (p : EventProcessorImpl) (event : IncomingEvent) (b : Bool)
    {name : String} {table maxTables : Int}
    (hcl : event.Client = .ClientSits name table maxTables) :
    ∃ q, processSits p event b = some q := by
  have hn : event.Client.GetName = name := by rw [hcl]; rfl
  cases hc : p.clients.Get name with
  | none => exact ⟨_, processSits_of_unknown p event b (by rw [hn]; exact hc)⟩
  | some cur =>
    cases ht : p.tables.Get table with
    | some ev =>
      exact ⟨_, processSits_of_busy p event b hcl (by rw [hc]; rfl) (by rw [ht]; rfl)⟩
    | none =>
      by_cases hs : cur = -1
      · subst hs
        exact ⟨_, processSits_of_free_noTable p event b hcl hc ht⟩
      · exact ⟨_, processSits_of_free_table p event b hcl hc hs ht⟩

/-- Without nil in the queue `processLeaves` returns. -/
theorem processLeaves_isSome (p : EventProcessorImpl) (event : IncomingEvent) (b : Bool)
    (hnn : QueueNonNil p) : ∃ q, processLeaves p event b = some q := by
  cases hc : p.clients.Get event.Client.GetName with
  | none => exact ⟨_, processLeaves_of_unknown p event b hc⟩
  | some X =>
    by_cases hs : X = -1
    · subst hs
      exact ⟨_, processLeaves_of_noTable p event b hc⟩
    · cases hq : p.waitingQueue.queue with
      | nil => exact ⟨_, processLeaves_of_table_noQueue p event b hc hs hq⟩
      | cons x rest =>
        cases x with
        | none => exact absurd rfl (hnn none (by rw [hq]; exact List.mem_cons_self _ _))
        | some head => exact ⟨_, processLeaves_of_table_queued p event b hc hs hq⟩

/-- A well-shaped event is processed to the end when no nil sits in the queue. -/
theorem processEvent_isSome (p : EventProcessorImpl) (event : IncomingEvent)
    (hnn : QueueNonNil p) (hshape : wellShaped event) :
    ∃ q, processEvent p event = some q := by
  unfold processEvent
  split
  · exact ⟨_, rfl⟩
  · split
    · rename_i hs
      obtain ⟨name, table, m, hcl⟩ := hshape hs
      exact processSits_isSome p event false hcl
    · split
      · exact ⟨_, rfl⟩
      · split
        · exact processLeaves_isSome p event false hnn
        · exact ⟨_, rfl⟩

/-- The lines a processed input event appends: either exactly one Error with
the event's time and one of the five reason codes, all stores untouched, or
lines none of which is an Error. -/
theorem processEvent_lines {p q : EventProcessorImpl} {event : IncomingEvent}
    (hq : processEvent p event = some q) :
    (∃ code, code ∈ reasonCodes ∧ q = withError p event.HappensAt code)
    ∨ (∃ lines, q.out = p.out ++ lines ∧ ∀ l ∈ lines, isError l = false) := by
  unfold processEvent at hq
  split at hq
  · have hq2 := (Option.some.inj hq).symm
    rcases processArrives_outcomes p event with h1 | h1 | h1
    · exact Or.inl ⟨ErrNotOpenYet, by simp [reasonCodes], hq2.trans h1⟩
    · exact Or.inl ⟨ErrYouShallNotPass, by simp [reasonCodes], hq2.trans h1⟩
    · exact Or.inr ⟨[], by rw [hq2, h1]; simp, by simp⟩
  · split at hq
    · rcases processSits_cases hq with h1 | h1 | ⟨name, table, m, cur, -, -, -, h1 | h1⟩
      · exact Or.inl ⟨ErrClientUnknown, by simp [reasonCodes], h1⟩
      · exact Or.inl ⟨ErrTableIsBusy, by simp [reasonCodes], h1⟩
      · exact Or.inr ⟨[], by rw [h1.2]; simp [satLines], by simp⟩
      · exact Or.inr ⟨[], by rw [h1.2]; simp [satLines], by simp⟩
    · split at hq
      · have hq2 := (Option.some.inj hq).symm
        rcases processWaits_outcomes p event with h1 | h1 | h1
        · exact Or.inl ⟨ErrCantWaitLonger, by simp [reasonCodes], hq2.trans h1⟩
        · refine Or.inr ⟨[Line.event (.outgoing
            (NewClientLeftEvent event.HappensAt event.Client))], ?_, ?_⟩
          · rw [hq2, h1]
          · simp [isError, NewClientLeftEvent, OutgoingEventTypeClientLeft,
              OutgoingEventTypeError]
        · exact Or.inr ⟨[], by rw [hq2, h1]; simp, by simp⟩
      · split at hq
        · rcases processLeaves_cases hq with h1 | h1 | ⟨X, -, -, -, h1⟩ | ⟨X, hd, rest, -, -, -, h1⟩
          · exact Or.inl ⟨ErrClientUnknown, by simp [reasonCodes], h1.2⟩
          · exact Or.inr ⟨[], by rw [h1.2]; simp [leftLines], by simp⟩
          · exact Or.inr ⟨[], by rw [h1]; simp [leftLines], by simp⟩
          · refine Or.inr ⟨[Line.event (.outgoing (NewClientSatEvent event.HappensAt
              (NewClientSits hd.GetName X p.coreData.TablesCount)))], ?_, ?_⟩
            · rw [h1]
              simp [leftLines]
            · simp [isError, NewClientSatEvent, OutgoingEventTypeClientSat,
                OutgoingEventTypeError]
        · exact Or.inr ⟨[], by rw [← Option.some.inj hq]; simp, by simp⟩

/-- Claim C15: a processed input event appends at most one Error event; an
Error it appends has one of the five reason codes and the event's own time, and
then the presence map, the occupancy, the queue and the revenue are exactly as
before. Every well-shaped event is processed to the end when the queue holds no
nil. -/
theorem processEvent_at_most_one_error (p : EventProcessorImpl) (event : IncomingEvent) :
    (∀ q, processEvent p event = some q →
      ∃ lines, q.out = p.out ++ lines
        ∧ lines.countP isError ≤ 1
        ∧ ∀ l ∈ lines, isError l = true →
            (∃ code, code ∈ reasonCodes
              ∧ l = Line.event (.outgoing (NewErrorEvent event.HappensAt (GoError.New code))))
            ∧ q.clients = p.clients ∧ q.tables = p.tables
            ∧ q.waitingQueue = p.waitingQueue ∧ q.revenue = p.revenue)
    ∧ (QueueNonNil p → wellShaped event → ∃ q, processEvent p event = some q) := by
  refine ⟨?_, fun hnn hs => processEvent_isSome p event hnn hs⟩
  intro q hq
  rcases processEvent_lines hq with ⟨code, hcode, h1⟩ | ⟨lines, hout, hno⟩
  · refine ⟨[Line.event (.outgoing (NewErrorEvent event.HappensAt (GoError.New code)))],
      by rw [h1]; rfl, ?_, ?_⟩
    · simp [isError, NewErrorEvent]
    · intro l hl _
      rw [List.mem_singleton] at hl
      rw [h1]
      exact ⟨⟨code, hcode, hl⟩, rfl, rfl, rfl, rfl⟩
  · refine ⟨lines, hout, ?_, ?_⟩
    · have h0 : lines.countP isError = 0 := by
        rw [List.countP_eq_zero]
        intro l hl
        rw [hno l hl]
        exact Bool.false_ne_true
      omega
    · intro l hl he
      rw [hno l hl] at he
      exact absurd he Bool.false_ne_true

/-- Claim C15, evaluated: client1 holds table 1 and asks for it again at 12:00. -/
theorem processEvent_at_most_one_error_witness :
    (∃ lines, (withError oneSeated 720 ErrTableIsBusy).out = oneSeated.out ++ lines
        ∧ lines.countP isError ≤ 1
        ∧ ∀ l ∈ lines, isError l = true →
            (∃ code, code ∈ reasonCodes
              ∧ l = Line.event (.outgoing
                  (NewErrorEvent
                    (NewIncomingEvent 720 Sits (NewClientSits "client1" 1 10)).HappensAt
                    (GoError.New code))))
            ∧ (withError oneSeated 720 ErrTableIsBusy).clients = oneSeated.clients
            ∧ (withError oneSeated 720 ErrTableIsBusy).tables = oneSeated.tables
            ∧ (withError oneSeated 720 ErrTableIsBusy).waitingQueue = oneSeated.waitingQueue
            ∧ (withError oneSeated 720 ErrTableIsBusy).revenue = oneSeated.revenue)
    ∧ ∃ q, processEvent oneSeated (NewIncomingEvent 720 Sits (NewClientSits "client1" 1 10))
        = some q :=
  ⟨(processEvent_at_most_one_error oneSeated
      (NewIncomingEvent 720 Sits (NewClientSits "client1" 1 10))).1
      (withError oneSeated 720 ErrTableIsBusy) (by decide),
   (processEvent_at_most_one_error oneSeated
      (NewIncomingEvent 720 Sits (NewClientSits "client1" 1 10))).2
      (fun x hx => absurd hx (List.not_mem_nil x))
      (fun _ => ⟨"client1", 1, 10, rfl⟩)⟩


/-! ## A failure on the channel -/

/-- The loop of `ProcessEvents` stops at the first failure: what comes after it
on the channel does not matter. -/
theorem eventsLoop_append_failure :
    ∀ (ws : List WrappedIncomingEvent) (p q : EventProcessorImpl) (w : WrappedIncomingEvent)
      (rest : List WrappedIncomingEvent) (err : GoError),
      eventsLoop p ws = some (q, none) → w.Err = some err →
      eventsLoop p (ws ++ w :: rest) = some (q, some err) := by
  intro ws
  induction ws with
  | nil =>
    intro p q w rest err h hw
    simp only [eventsLoop, Option.some.injEq, Prod.mk.injEq, and_true] at h
    simp only [List.nil_append, eventsLoop, hw, h]
  | cons a ws ih =>
    intro p q w rest err h hw
    rw [List.cons_append]
    unfold eventsLoop at h ⊢
    cases ha : a.Err with
    | some e =>
      rw [ha] at h
      simp at h
    | none =>
      rw [ha] at h
      simp only []
      cases hev : a.Event with
      | none =>
        rw [hev] at h
        exact Option.noConfusion h
      | some event =>
        rw [hev] at h
        simp only [] at h ⊢
        cases hp : processEvent (writeOutEvent p (.incoming event)) event with
        | none =>
          rw [hp] at h
          exact Option.noConfusion h
        | some p1 =>
          rw [hp] at h
          exact ih p1 q w rest err h hw

/-- The loop of `ProcessEvents` gets through every sequence of well-shaped
events when it starts without nil in the queue. -/
theorem eventsLoop_isSome :
    ∀ (es : List IncomingEvent) (p : EventProcessorImpl), QueueNonNil p →
      (∀ e ∈ es, wellShaped e) →
      ∃ q, eventsLoop p (es.map wrap) = some (q, none) ∧ QueueNonNil q := by
  intro es
  induction es with
  | nil =>
    intro p hnn _
    exact ⟨p, rfl, hnn⟩
  | cons e es ih =>
    intro p hnn hs
    obtain ⟨p1, hp1⟩ := processEvent_isSome (writeOutEvent p (.incoming e)) e hnn
      (hs e (List.mem_cons_self _ _))
    obtain ⟨q, hq, hqnn⟩ := ih p1 (queueNonNil_processEvent (p := writeOutEvent p (.incoming e))
      hnn hp1) (fun x hx => hs x (List.mem_cons_of_mem _ hx))
    exact ⟨q, by rw [List.map_cons, eventsLoop_cons_wrap p p1 e _ hp1]; exact hq, hqnn⟩

/-- The new club has an empty queue. -/
theorem queueNonNil_newClub (cfg : Processor) (coreData : CoreData) (out : List Line) :
    QueueNonNil { newClub cfg coreData with out := out } := by
  intro x hx
  exact absurd hx (List.not_mem_nil x)

/-- Claim C20: when the channel carries, after some delivered events, a message
with a failure, `ProcessEvents` returns exactly that failure together with the
state reached by the events before it: nothing that follows on the channel is
processed, the closing procedure is not run and no closing time is written; and
`main` prints the failure's message and nothing else. -/
theorem ProcessEvents_failure (cfg : Processor) (coreData : CoreData)
    (es : List IncomingEvent) (w : WrappedIncomingEvent) (rest : List WrappedIncomingEvent)
    (err : GoError)
    (hvalid : ∀ e ∈ es, validated coreData.TablesCount e = true) (hw : w.Err = some err) :
    ∃ q, afterEvents cfg coreData es = some q
      ∧ ProcessEvents (newClub cfg coreData) (es.map wrap ++ w :: rest) = some (q, some err)
      ∧ mainAfterCoreData cfg coreData (es.map wrap ++ w :: rest)
          = some [Printed.message err.Error] := by
  obtain ⟨q, hq, -⟩ := eventsLoop_isSome es
    { newClub cfg coreData with
      out := (newClub cfg coreData).out ++ [Line.time coreData.WorkingTime.Start] }
    (queueNonNil_newClub cfg coreData _)
    (fun e he => wellShaped_of_validated (hvalid e he))
  have hfail := eventsLoop_append_failure _ _ q w rest err hq hw
  have hpe : ProcessEvents (newClub cfg coreData) (es.map wrap ++ w :: rest)
      = some (q, some err) := by
    show (match eventsLoop
        { newClub cfg coreData with
          out := (newClub cfg coreData).out ++ [Line.time coreData.WorkingTime.Start] }
        (es.map wrap ++ w :: rest) with
      | none => none
      | some (q, some err) => some (q, some err)
      | some (q, none) =>
        match leaveClients q with
        | none => none
        | some r => some ({ r with out := r.out ++ [Line.time r.coreData.WorkingTime.End] }, none))
      = _
    rw [hfail]
  refine ⟨q, ?_, hpe, ?_⟩
  · unfold afterEvents
    rw [hq]
    rfl
  · unfold mainAfterCoreData
    rw [hpe]

/-- Claim C20, evaluated: after the four events that seat client1 and queue
client2, line 8 fails to parse and another event follows. -/
theorem ProcessEvents_failure_witness :
    ((∀ e ∈ seatedAndQueuedEvents, validated scenarioCore.TablesCount e = true)
      ∧ (WrappedIncomingEvent.mk none
          (some (GoError.ParseError 8 "failed to parse event type" none))).Err
          = some (GoError.ParseError 8 "failed to parse event type" none))
    ∧ ∃ q, afterEvents testCfg scenarioCore seatedAndQueuedEvents = some q
      ∧ ProcessEvents (newClub testCfg scenarioCore)
          (seatedAndQueuedEvents.map wrap
            ++ WrappedIncomingEvent.mk none
                (some (GoError.ParseError 8 "failed to parse event type" none))
              :: [wrap (NewIncomingEvent 720 Leaves (NewClientLeaves "client1"))])
          = some (q, some (GoError.ParseError 8 "failed to parse event type" none))
      ∧ mainAfterCoreData testCfg scenarioCore
          (seatedAndQueuedEvents.map wrap
            ++ WrappedIncomingEvent.mk none
                (some (GoError.ParseError 8 "failed to parse event type" none))
              :: [wrap (NewIncomingEvent 720 Leaves (NewClientLeaves "client1"))])
          = some [Printed.message
              (GoError.ParseError 8 "failed to parse event type" none).Error] :=
  ⟨⟨by decide, rfl⟩,
   ProcessEvents_failure testCfg scenarioCore seatedAndQueuedEvents
    (WrappedIncomingEvent.mk none
      (some (GoError.ParseError 8 "failed to parse event type" none)))
    [wrap (NewIncomingEvent 720 Leaves (NewClientLeaves "client1"))]
    (GoError.ParseError 8 "failed to parse event type" none) (by decide) rfl⟩


/-! ## The number of occupied tables -/

/-- A state reachable by delivered events is reachable. -/
theorem ReachableValid.reachable {cfg : Processor} {coreData : CoreData}
    {p : EventProcessorImpl} (h : ReachableValid cfg coreData p) : Reachable cfg coreData p := by
  induction h with
  | start => exact Reachable.start
  | step event _ _ hstep ih => exact Reachable.step event ih hstep

/-- The table of a delivered Sits event is one of the club's tables. -/
theorem table_of_validated {maxTables : Int} {event : IncomingEvent} {name : String}
    {table m : Int} (h : validated maxTables event = true)
    (hcl : event.Client = .ClientSits name table m) : 1 ≤ table ∧ table ≤ maxTables := by
  unfold validated at h
  rw [hcl] at h
  simp only [Bool.and_eq_true, decide_eq_true_eq] at h
  obtain ⟨⟨-, hm⟩, hv⟩ := h
  simp only [ClientData.Validate] at hv
  cases hn : ValidateName name with
  | some e => rw [hn] at hv; simp at hv
  | none =>
    rw [hn] at hv
    simp only [] at hv
    unfold MoreThenZero at hv
    by_cases h0 : table > 0
    · rw [if_pos h0] at hv
      simp only [] at hv
      unfold NotMoreThen at hv
      by_cases h1 : table ≤ m
      · exact ⟨by omega, by omega⟩
      · rw [if_neg h1] at hv
        simp at hv
    · rw [if_neg h0] at hv
      simp at hv

/-- The occupancy after a deletion. -/
theorem isSome_Get_Delete {V : Type} (i : InMemoryStorage Int V) (k k2 : Int)
    (h : ((i.Delete k).Get k2).isSome) : (i.Get k2).isSome := by
  rw [InMemoryStorage.Get_Delete] at h
  split at h
  · exact absurd h (by simp)
  · exact h

/-- The occupancy after an insertion. -/
theorem isSome_Get_Set {V : Type} (i : InMemoryStorage Int V) (k k2 : Int) (v : V)
    (h : ((i.Set k v).Get k2).isSome) : k2 = k ∨ (i.Get k2).isSome := by
  by_cases hk : k2 = k
  · exact Or.inl hk
  · rw [InMemoryStorage.Get_Set_of_ne _ _ hk] at h
    exact Or.inr h

/-- One delivered event keeps the occupied tables among the club's tables. -/
theorem tablesInRange_processEvent {tc : Int} {p q : EventProcessorImpl}
    {event : IncomingEvent} (h : TablesInRange tc p) (hsc : SeatedConsistent p)
    (hv : validated tc event = true) (hq : processEvent p event = some q) :
    TablesInRange tc q := by
  unfold processEvent at hq
  split at hq
  · have hq2 := (Option.some.inj hq).symm
    rcases processArrives_outcomes p event with h1 | h1 | h1 <;>
    · rw [hq2, h1]; exact h
  · split at hq
    · rcases processSits_cases hq with h1 | h1 | ⟨name, table, m, cur, hcl, -, -, h1 | h1⟩
      · rw [h1]; exact h
      · rw [h1]; exact h
      · rw [h1.2]
        intro k hk
        rcases isSome_Get_Set _ _ _ _ hk with hk1 | hk1
        · rw [hk1]; exact table_of_validated hv hcl
        · exact h k hk1
      · rw [h1.2]
        intro k hk
        simp only [updateRevenue_tables] at hk
        rcases isSome_Get_Set _ _ _ _ hk with hk1 | hk1
        · rw [hk1]; exact table_of_validated hv hcl
        · exact h k (isSome_Get_Delete _ _ _ hk1)
    · split at hq
      · have hq2 := (Option.some.inj hq).symm
        rcases processWaits_outcomes p event with h1 | h1 | h1 <;>
        · rw [hq2, h1]; exact h
      · split at hq
        · rcases processLeaves_cases hq with h1 | h1 | ⟨X, -, -, -, h1⟩ | ⟨X, hd, rest, hc, hX, -, h1⟩
          · rw [h1.2]; exact h
          · rw [h1.2]; exact h
          · rw [h1]
            intro k hk
            exact h k (isSome_Get_Delete _ _ _ hk)
          · rw [h1]
            intro k hk
            rcases isSome_Get_Set _ _ _ _ hk with hk1 | hk1
            · obtain ⟨ev, hev, -⟩ := hsc _ X hc hX
              rw [hk1]
              exact h X (by rw [hev]; rfl)
            · exact h k (isSome_Get_Delete _ _ _ hk1)
        · rw [← Option.some.inj hq]; exact h

/-- In every state reachable by delivered events the occupied tables are among
the club's tables. -/
theorem ReachableValid.tablesInRange {cfg : Processor} {coreData : CoreData}
    {p : EventProcessorImpl} (h : ReachableValid cfg coreData p) :
    TablesInRange coreData.TablesCount p := by
  induction h with
  | start =>
    intro k hk
    simp [newClub, NewEventProcessor] at hk
  | step event hprev hv hstep ih =>
    exact tablesInRange_processEvent (p := writeOutEvent _ (.incoming event)) ih
      (hprev.reachable.seatedConsistent.of_eq rfl rfl) hv hstep

/-- There are `tablesCount` table numbers. -/
theorem length_tableNumbers (n : Int) : (tableNumbers n).length = n.toNat := by
  simp [tableNumbers]

/-- Among the club's tables no more than `tablesCount` can be occupied. -/
theorem keys_length_le {tc : Int} {p : EventProcessorImpl} (h : TablesInRange tc p)
    (htc : 0 ≤ tc) : (p.tables.keys.length : Int) ≤ tc := by
  have hsub : p.tables.keys ⊆ tableNumbers tc := by
    intro k hk
    rw [mem_tableNumbers]
    exact h k ((InMemoryStorage.mem_keys_iff _ _).mp hk)
  have hle := (List.subperm_of_subset p.tables.keys_nodup hsub).length_le
  rw [length_tableNumbers] at hle
  omega

/-- The loop of `ProcessEvents` over delivered events stays within the states
reachable by delivered events. -/
theorem reachableValid_of_eventsLoop {cfg : Processor} {coreData : CoreData} :
    ∀ (es : List IncomingEvent) (p q : EventProcessorImpl) (r : Option GoError),
      ReachableValid cfg coreData p →
      (∀ e ∈ es, validated coreData.TablesCount e = true) →
      eventsLoop p (es.map wrap) = some (q, r) → ReachableValid cfg coreData q := by
  intro es
  induction es with
  | nil =>
    intro p q r hp _ h
    simp only [List.map_nil, eventsLoop, Option.some.injEq, Prod.mk.injEq] at h
    rw [← h.1]; exact hp
  | cons e es ih =>
    intro p q r hp hv h
    cases hstep : processEvent (writeOutEvent p (.incoming e)) e with
    | none =>
      simp [eventsLoop, wrap, hstep] at h
    | some p1 =>
      rw [List.map_cons, eventsLoop_cons_wrap p p1 e _ hstep] at h
      exact ih p1 q r (ReachableValid.step e hp (hv e (List.mem_cons_self _ _)) hstep)
        (fun x hx => hv x (List.mem_cons_of_mem _ hx)) h

/-- What `afterEvents` returns for delivered events is reachable by delivered
events. -/
theorem reachableValid_of_afterEvents {cfg : Processor} {coreData : CoreData}
    {events : List IncomingEvent} {p : EventProcessorImpl}
    (hv : ∀ e ∈ events, validated coreData.TablesCount e = true)
    (h : afterEvents cfg coreData events = some p) : ReachableValid cfg coreData p := by
  unfold afterEvents at h
  cases hl : eventsLoop
    { newClub cfg coreData with
      out := (newClub cfg coreData).out ++ [Line.time coreData.WorkingTime.Start] }
    (events.map wrap) with
  | none => rw [hl] at h; exact Option.noConfusion h
  | some qr =>
    rw [hl] at h
    have hq : qr.1 = p := Option.some.inj h
    rw [← hq]
    exact reachableValid_of_eventsLoop events _ qr.1 qr.2 ReachableValid.start hv hl

/-- Claim C14: in every state reachable from the empty club by delivered events
(the club having no negative number of tables), no more than `TablesCount`
tables are occupied; and a Wait changes the queue only if all `TablesCount`
tables are occupied and the queue is shorter than `TablesCount`, and then it
appends its client. -/
theorem occupied_tables_bounded (cfg : Processor) (coreData : CoreData)
    (p : EventProcessorImpl) (htc : 0 ≤ coreData.TablesCount)
    (hr : ReachableValid cfg coreData p) :
    (p.tables.keys.length : Int) ≤ coreData.TablesCount
    ∧ ∀ event : IncomingEvent,
        (processWaits p event).waitingQueue.queue ≠ p.waitingQueue.queue →
        (p.tables.keys.length : Int) = coreData.TablesCount
        ∧ (p.waitingQueue.queue.length : Int) < coreData.TablesCount
        ∧ (processWaits p event).waitingQueue.queue =
            p.waitingQueue.queue ++ [some event.Client] := by
  have hcd : p.coreData = coreData := hr.reachable.coreData_eq
  have hle := keys_length_le hr.tablesInRange htc
  have hlen : p.tables.Len = (p.tables.keys.length : Int) := by
    simp [InMemoryStorage.Len, AList.keys, List.keys]
  refine ⟨hle, ?_⟩
  intro event hch
  unfold processWaits at hch ⊢
  rw [hcd, hlen] at hch ⊢
  by_cases h1 : (p.tables.keys.length : Int) < coreData.TablesCount
  · rw [if_pos h1] at hch
    exact absurd rfl hch
  · rw [if_neg h1] at hch ⊢
    by_cases h2 : p.waitingQueue.Len ≥ coreData.TablesCount
    · rw [if_pos h2] at hch
      exact absurd rfl hch
    · rw [if_neg h2]
      refine ⟨by omega, ?_, rfl⟩
      simp only [InMemoryQueue.Len, ge_iff_le, not_le] at h2
      exact h2

/-- Claim C14, evaluated in the club of one table, client1 seated and client2
present: one table is occupied, and the Wait of client2 enqueues client2. -/
theorem occupied_tables_bounded_witness :
    (0 ≤ scenarioCore.TablesCount ∧ ReachableValid testCfg scenarioCore seatedBeforeWait
      ∧ (processWaits seatedBeforeWait
          (NewIncomingEvent 641 Waits (NewClientWaits "client2"))).waitingQueue.queue
          ≠ seatedBeforeWait.waitingQueue.queue)
    ∧ (seatedBeforeWait.tables.keys.length : Int) ≤ scenarioCore.TablesCount
    ∧ (seatedBeforeWait.tables.keys.length : Int) = scenarioCore.TablesCount
    ∧ (seatedBeforeWait.waitingQueue.queue.length : Int) < scenarioCore.TablesCount
    ∧ (processWaits seatedBeforeWait
        (NewIncomingEvent 641 Waits (NewClientWaits "client2"))).waitingQueue.queue =
        seatedBeforeWait.waitingQueue.queue
          ++ [some (NewIncomingEvent 641 Waits (NewClientWaits "client2")).Client] :=
  ⟨⟨by decide,
    @reachableValid_of_afterEvents _ _ (seatedAndQueuedEvents.take 3) _ (by decide)
      (by decide),
    by decide⟩,
   (occupied_tables_bounded testCfg scenarioCore seatedBeforeWait (by decide)
      (@reachableValid_of_afterEvents _ _ (seatedAndQueuedEvents.take 3) _ (by decide)
        (by decide))).1,
   (occupied_tables_bounded testCfg scenarioCore seatedBeforeWait (by decide)
      (@reachableValid_of_afterEvents _ _ (seatedAndQueuedEvents.take 3) _ (by decide)
        (by decide))).2
      (NewIncomingEvent 641 Waits (NewClientWaits "client2")) (by decide)⟩


/-! ## Revenue over a run -/

/-- Claim C12, evaluated on the code: in the club open 10:00 to 20:00, client1
arrives at 19:00 and sits down at table 1 at 21:00; the events are delivered
ones and their times do not decrease. The closing procedure releases table 1 at
20:00, and table 1 ends with income -10 and usage -60 minutes. -/
theorem late_sit_negative_revenue :
    (∀ e ∈ lateSitEvents, validated scenarioCore.TablesCount e = true)
    ∧ List.Pairwise (fun a b : Int => a ≤ b) (lateSitEvents.map (fun e => e.HappensAt))
    ∧ 0 ≤ scenarioCore.PricePerHour
    ∧ ∃ r, ProcessEvents (newClub testCfg scenarioCore) (lateSitEvents.map wrap) = some (r, none)
      ∧ r.revenue.Get 1 = some { Income := -10, UsageTime := -60 } :=
  ⟨by decide, by decide, by decide, _, rfl, by decide⟩

/-- A release creates a revenue entry only for a table that was occupied. -/
theorem updateRevenue_origin (p : EventProcessorImpl) (table t k : Int)
    (h : ((updateRevenue p table t).revenue.Get k).isSome) :
    (p.revenue.Get k).isSome ∨ (p.tables.Get k).isSome := by
  unfold updateRevenue at h
  split at h
  · exact Or.inl h
  · split at h
    · exact Or.inl h
    · rename_i ev hev
      by_cases hk : k = table
      · rw [hk, hev]
        exact Or.inr rfl
      · rw [InMemoryStorage.Get_Set_of_ne _ _ hk] at h
        exact Or.inl h

/-- A processed event creates a revenue entry only for a table that was
occupied just before. -/
theorem processEvent_revenue_origin {p q : EventProcessorImpl} {event : IncomingEvent}
    (hq : processEvent p event = some q) (k : Int) (h : (q.revenue.Get k).isSome) :
    (p.revenue.Get k).isSome ∨ (p.tables.Get k).isSome := by
  unfold processEvent at hq
  split at hq
  · have hq2 := (Option.some.inj hq).symm
    rcases processArrives_outcomes p event with h1 | h1 | h1 <;>
    · rw [hq2, h1] at h; exact Or.inl h
  · split at hq
    · rcases processSits_cases hq with h1 | h1 | ⟨name, table, m, cur, -, -, -, h1 | h1⟩
      · rw [h1] at h; exact Or.inl h
      · rw [h1] at h; exact Or.inl h
      · rw [h1.2] at h; exact Or.inl h
      · rw [h1.2] at h; exact updateRevenue_origin p cur _ k h
    · split at hq
      · have hq2 := (Option.some.inj hq).symm
        rcases processWaits_outcomes p event with h1 | h1 | h1 <;>
        · rw [hq2, h1] at h; exact Or.inl h
      · split at hq
        · rcases processLeaves_cases hq with h1 | h1 | ⟨X, -, -, -, h1⟩ | ⟨X, hd, rest, -, -, -, h1⟩
          · rw [h1.2] at h; exact Or.inl h
          · rw [h1.2] at h; exact Or.inl h
          · rw [h1] at h; exact updateRevenue_origin p X _ k h
          · rw [h1] at h; exact updateRevenue_origin p X _ k h
        · rw [← Option.some.inj hq] at h; exact Or.inl h

/-- One turn of the last loop of `leaveClients` creates a revenue entry only
for an occupied table and occupies no table. -/
theorem leaveLoop_step_origin (p : EventProcessorImpl) (c : String) (rest : List String)
    (hq : p.waitingQueue.queue = []) :
    ∃ q, leaveLoop p (c :: rest) = leaveLoop q rest
      ∧ q.waitingQueue = p.waitingQueue
      ∧ (∀ k : Int, (q.revenue.Get k).isSome →
          (p.revenue.Get k).isSome ∨ (p.tables.Get k).isSome)
      ∧ (∀ k : Int, (q.tables.Get k).isSome → (p.tables.Get k).isSome) := by
  have hn : (NewIncomingEvent p.coreData.WorkingTime.End Leaves
      (NewClientLeaves c)).Client.GetName = c := rfl
  cases hc : p.clients.Get c with
  | none =>
    refine ⟨writeOutEvent p (.incoming
      (NewIncomingEvent p.coreData.WorkingTime.End Leaves (NewClientLeaves c))),
      ?_, rfl, fun k h => Or.inl h, fun k h => h⟩
    simp [leaveLoop, hc]
  | some Y =>
    by_cases hs : Y = -1
    · subst hs
      have hpl := processLeaves_of_noTable p
        (NewIncomingEvent p.coreData.WorkingTime.End Leaves (NewClientLeaves c)) true
        (by rw [hn]; exact hc)
      refine ⟨{ p with
          clients := p.clients.Delete c,
          out := p.out ++ leftLines true
            (NewIncomingEvent p.coreData.WorkingTime.End Leaves (NewClientLeaves c)) },
        ?_, rfl, fun k h => Or.inl h, fun k h => h⟩
      simp only [leaveLoop, hc, Option.isNone_some, Bool.false_eq_true, if_false, hpl]
      rfl
    · have hpl := processLeaves_of_table_noQueue p
        (NewIncomingEvent p.coreData.WorkingTime.End Leaves (NewClientLeaves c)) true
        (by rw [hn]; exact hc) hs hq
      refine ⟨{ updateRevenue p Y p.coreData.WorkingTime.End with
          clients := p.clients.Delete c,
          tables := p.tables.Delete Y,
          out := p.out ++ leftLines true
            (NewIncomingEvent p.coreData.WorkingTime.End Leaves (NewClientLeaves c)) },
        ?_, ?_, ?_, ?_⟩
      · simp only [leaveLoop, hc, Option.isNone_some, Bool.false_eq_true, if_false, hpl]
        rfl
      · simp
      · intro k h
        exact updateRevenue_origin p Y _ k h
      · intro k h
        exact isSome_Get_Delete _ _ _ h

/-- The last loop of `leaveClients` creates revenue entries only for tables
that were occupied when it started. -/
theorem leaveLoop_revenue_origin :
    ∀ (L : List String) (p q : EventProcessorImpl), p.waitingQueue.queue = [] →
      leaveLoop p L = some q →
      (∀ k : Int, (q.revenue.Get k).isSome →
        (p.revenue.Get k).isSome ∨ (p.tables.Get k).isSome)
      ∧ (∀ k : Int, (q.tables.Get k).isSome → (p.tables.Get k).isSome) := by
  intro L
  induction L with
  | nil =>
    intro p q _ h
    rw [← Option.some.inj h]
    exact ⟨fun k hk => Or.inl hk, fun k hk => hk⟩
  | cons c rest ih =>
    intro p q hq h
    obtain ⟨p1, hstep, hq1, hrev1, htab1⟩ := leaveLoop_step_origin p c rest hq
    rw [hstep] at h
    obtain ⟨hrev, htab⟩ := ih p1 q (by rw [hq1]; exact hq) h
    refine ⟨?_, fun k hk => htab1 k (htab k hk)⟩
    intro k hk
    rcases hrev k hk with h1 | h1
    · exact hrev1 k h1
    · exact Or.inr (htab1 k h1)

/-- The table numbers are listed in strictly ascending order. -/
theorem sorted_tableNumbers (n : Int) : List.Sorted (fun a b : Int => a < b) (tableNumbers n) := by
  unfold tableNumbers
  rw [List.Sorted, List.pairwise_map]
  exact (List.pairwise_lt_range _).imp (fun h => by omega)

/-- The revenue lines are for the listed tables that have a revenue entry, in
the order of the list. -/
theorem filterMap_tableOf (p : EventProcessorImpl) (l : List Int) :
    (l.filterMap (fun i => (p.revenue.Get i).map (Line.revenue i))).filterMap tableOf =
      l.filter (fun i => (p.revenue.Get i).isSome) := by
  induction l with
  | nil => rfl
  | cons i rest ih =>
    cases h : p.revenue.Get i with
    | none => simp [List.filterMap_cons, List.filter_cons, h, ih]
    | some stats => simp [List.filterMap_cons, List.filter_cons, h, ih, tableOf]

/-- What the report holds: `ShowRevenue` appends revenue lines only,
one for every table from 1 to `TablesCount` that has a revenue entry and none
for any other table, in strictly ascending order of the table number. A revenue
entry is created only by the release of a table that was occupied: a processed
event and the closing procedure add an entry only for a table that had an
occupancy entry just before. -/
theorem ShowRevenue_lines (p : EventProcessorImpl) :
    (∃ lines, (ShowRevenue p).out = p.out ++ lines
      ∧ (∀ l ∈ lines, ∃ (i : Int) (stats : RevenueStats), l = Line.revenue i stats)
      ∧ (∀ (i : Int) (stats : RevenueStats), Line.revenue i stats ∈ lines ↔
          1 ≤ i ∧ i ≤ p.coreData.TablesCount ∧ p.revenue.Get i = some stats)
      ∧ List.Sorted (fun a b : Int => a < b) (lines.filterMap tableOf))
    ∧ (∀ (event : IncomingEvent) (q : EventProcessorImpl) (k : Int),
        processEvent p event = some q → (q.revenue.Get k).isSome →
        (p.revenue.Get k).isSome ∨ (p.tables.Get k).isSome)
    ∧ (QueueNonNil p → ∀ (q : EventProcessorImpl) (k : Int),
        leaveClients p = some q → (q.revenue.Get k).isSome →
        (p.revenue.Get k).isSome ∨ (p.tables.Get k).isSome) := by
  refine ⟨⟨List.filterMap (fun i => (p.revenue.Get i).map (Line.revenue i))
      (tableNumbers p.coreData.TablesCount), ?_, ?_, ?_, ?_⟩, ?_, ?_⟩
  · rw [ShowRevenue_eq]
  · intro l hl
    obtain ⟨i, -, hi⟩ := List.mem_filterMap.mp hl
    cases hg : p.revenue.Get i with
    | none => rw [hg] at hi; exact Option.noConfusion hi
    | some stats =>
      rw [hg] at hi
      exact ⟨i, stats, (Option.some.inj hi).symm⟩
  · intro i stats
    rw [List.mem_filterMap]
    constructor
    · rintro ⟨j, hj, hl⟩
      cases hg : p.revenue.Get j with
      | none => rw [hg] at hl; exact Option.noConfusion hl
      | some s =>
        rw [hg] at hl
        have hinj := Option.some.inj hl
        simp only [Line.revenue.injEq] at hinj
        rw [← hinj.1, ← hinj.2]
        exact ⟨(mem_tableNumbers.mp hj).1, (mem_tableNumbers.mp hj).2, hg⟩
    · rintro ⟨h1, h2, h3⟩
      exact ⟨i, mem_tableNumbers.mpr ⟨h1, h2⟩, by rw [h3]; rfl⟩
  · rw [filterMap_tableOf]
    exact (sorted_tableNumbers _).filter _
  · intro event q k hq hk
    exact processEvent_revenue_origin hq k hk
  · intro hnn q k hq hk
    rw [leaveClients_eq p hnn] at hq
    rcases (leaveLoop_revenue_origin _ _ q rfl hq).1 k hk with h | h
    · exact Or.inl h
    · exact Or.inr h

/-- The report evaluated: the report after `orphanEvents`, and the revenue entry
of table 1 that the Leave of client1 and the closing procedure create where
client1 holds table 1 and client2 waits. -/
theorem ShowRevenue_lines_witness :
    (∃ lines, (ShowRevenue orphanEnd).out = orphanEnd.out ++ lines
      ∧ (∀ l ∈ lines, ∃ (i : Int) (stats : RevenueStats), l = Line.revenue i stats)
      ∧ (∀ (i : Int) (stats : RevenueStats), Line.revenue i stats ∈ lines ↔
          1 ≤ i ∧ i ≤ orphanEnd.coreData.TablesCount ∧ orphanEnd.revenue.Get i = some stats)
      ∧ List.Sorted (fun a b : Int => a < b) (lines.filterMap tableOf))
    ∧ ((seatedAndQueued.revenue.Get 1).isSome ∨ (seatedAndQueued.tables.Get 1).isSome)
    ∧ ((seatedAndQueued.revenue.Get 1).isSome ∨ (seatedAndQueued.tables.Get 1).isSome) :=
  ⟨(ShowRevenue_lines orphanEnd).1,
   (ShowRevenue_lines seatedAndQueued).2.1
    (NewIncomingEvent 720 Leaves (NewClientLeaves "client1"))
    ((processEvent seatedAndQueued
      (NewIncomingEvent 720 Leaves (NewClientLeaves "client1"))).getD seatedAndQueued)
    1 (by decide) (by decide),
   (ShowRevenue_lines seatedAndQueued).2.2
    (fun x hx => by
      have hq : seatedAndQueued.waitingQueue.queue = [some (NewClientWaits "client2")] := by
        decide
      rw [hq, List.mem_singleton] at hx
      rw [hx]
      exact Option.some_ne_none _)
    ((leaveClients seatedAndQueued).getD seatedAndQueued) 1 (by decide) (by decide)⟩

/-- Claim C17, evaluated on the code: `orphanEvents` are delivered events with
non-decreasing times and `ProcessEvents` completes on them. In the club of two
tables client1 sits at table 1 from 10:40 and asks to wait; when client2 leaves
table 2 at 11:00, client1 is taken from the queue, its presence entry is reset
to -1 and it is seated at table 2, so that table 1 is neither billed nor
released. Table 1 was occupied during the run and is still occupied at its end,
it has no revenue entry, and the report has a line for table 2 only. -/
theorem ShowRevenue_skips_occupied_table :
    (∀ e ∈ orphanEvents, validated twoTablesCore.TablesCount e = true)
    ∧ List.Pairwise (fun a b : Int => a ≤ b) (orphanEvents.map (fun e => e.HappensAt))
    ∧ ProcessEvents (newClub testCfg twoTablesCore) (orphanEvents.map wrap)
        = some (orphanEnd, none)
    ∧ (orphanEnd.tables.Get 1).isSome
    ∧ orphanEnd.revenue.Get 1 = none
    ∧ ((ShowRevenue orphanEnd).out.filterMap tableOf) = [2] := by
  decide


/-! ## The order of the closing procedure -/

/-- The order of `sort.Strings` is the order of `String`. -/
theorem strLE_iff_le (a b : String) : strLE a b ↔ a ≤ b := by
  unfold strLE
  rw [String.le_iff_toList_le]
  rfl

/-- The result of `sort.Strings` is in non-decreasing order. -/
theorem sorted_sortStrings (l : List String) : List.Sorted strLE (sortStrings l) :=
  List.sorted_insertionSort strLE l

/-- The result of `sort.Strings` does not depend on the order of its input. -/
theorem sortStrings_perm {l1 l2 : List String} (h : l1.Perm l2) :
    sortStrings l1 = sortStrings l2 :=
  List.eq_of_perm_of_sorted
    (((List.perm_insertionSort strLE l1).trans h).trans (List.perm_insertionSort strLE l2).symm)
    (sorted_sortStrings l1) (sorted_sortStrings l2)

/-- The last loop of `leaveClients`, for an empty queue, returns and writes one
event line for each listed name, in the order of the list. -/
theorem leaveLoop_lines :
    ∀ (L : List String) (p : EventProcessorImpl), p.waitingQueue.queue = [] →
      ∃ q lines, leaveLoop p L = some q
        ∧ q.coreData = p.coreData
        ∧ q.out = p.out ++ lines
        ∧ lines.map lineClient = L.map some := by
  intro L
  induction L with
  | nil =>
    intro p _
    exact ⟨p, [], rfl, rfl, by simp, rfl⟩
  | cons c rest ih =>
    intro p hq
    obtain ⟨q1, hstep, hwq, hcd, -, hout, -, -, -⟩ := leaveLoop_step p c rest hq
    obtain ⟨q, lines, hrun, hcd2, hout2, hnames⟩ := ih q1 (by rw [hwq]; exact hq)
    refine ⟨q, (if (p.clients.Get c).isSome then closingLeft p c
           else Line.event (.incoming
            (NewIncomingEvent p.coreData.WorkingTime.End Leaves (NewClientLeaves c)))) :: lines,
      hstep.trans hrun, hcd2.trans hcd, ?_, ?_⟩
    · rw [hout2, hout, List.append_assoc, List.singleton_append]
    · rw [List.map_cons, List.map_cons, hnames]
      congr 1
      split <;> rfl

/-- The method `leaveClients` for an enumeration of the presence map, when the
queue holds no nil. -/
theorem leaveClientsFrom_eq (p : EventProcessorImpl) (hnn : QueueNonNil p)
    (pairs : List (Pair String Int)) :
    leaveClientsFrom pairs p =
      leaveLoop { p with waitingQueue := { queue := [], nilValue := p.waitingQueue.nilValue } }
        (sortStrings (pairs.map (fun pair => pair.Key) ++ queuedNames p)) := by
  unfold leaveClientsFrom
  have hd := drainQueue_eq p.waitingQueue.nilValue p.waitingQueue.queue
    (pairs.map (fun pair => pair.Key)) hnn
  have heta : ({ queue := p.waitingQueue.queue, nilValue := p.waitingQueue.nilValue } :
      InMemoryQueue (Option ClientData)) = p.waitingQueue := rfl
  rw [heta] at hd
  simp only [hd]
  rfl

/-- Claim C18: whatever the order in which the presence map is enumerated, the
closing procedure returns the same state as `leaveClients`, when the queue holds
no nil; the names it visits are the names of the presence map and of the waiting
queue in lexicographically non-decreasing order, and it writes one event line
for each visited name, in that order. -/
theorem leaveClients_sorted (p : EventProcessorImpl) (hnn : QueueNonNil p)
    (pairs : List (Pair String Int)) (hperm : pairs.Perm p.clients.GetAll) :
    ∃ q lines names, leaveClientsFrom pairs p = some q
      ∧ leaveClients p = some q
      ∧ q.out = p.out ++ lines
      ∧ lines.map lineClient = names.map some
      ∧ names.Perm (p.clients.keys ++ queuedNames p)
      ∧ List.Sorted strLE names
      ∧ List.Sorted (fun a b : String => a ≤ b) names := by
  have hkeys : (pairs.map (fun pair => pair.Key) ++ queuedNames p).Perm
      (p.clients.keys ++ queuedNames p) := by
    rw [← InMemoryStorage.GetAll_keys]
    exact (hperm.map _).append_right _
  obtain ⟨q, lines, hrun, -, hout, hnames⟩ :=
    leaveLoop_lines (sortStrings (p.clients.keys ++ queuedNames p))
      { p with waitingQueue := { queue := [], nilValue := p.waitingQueue.nilValue } } rfl
  refine ⟨q, lines, sortStrings (p.clients.keys ++ queuedNames p), ?_, ?_, hout, hnames,
    List.perm_insertionSort strLE _, sorted_sortStrings _, ?_⟩
  · rw [leaveClientsFrom_eq p hnn, sortStrings_perm hkeys]
    exact hrun
  · rw [leaveClients_eq p hnn]
    exact hrun
  · exact (sorted_sortStrings _).imp (fun {a b} h => (strLE_iff_le a b).mp h)

/-- Claim C18 at a state with client1 and client2 present and client2 waiting,
for the presence map enumerated backwards. -/
theorem leaveClients_sorted_witness :
    (QueueNonNil seatedAndQueued
      ∧ seatedAndQueued.clients.GetAll.reverse.Perm seatedAndQueued.clients.GetAll)
    ∧ seatedAndQueued.clients.GetAll.reverse ≠ seatedAndQueued.clients.GetAll
    ∧ ∃ q lines names, leaveClientsFrom seatedAndQueued.clients.GetAll.reverse seatedAndQueued
          = some q
      ∧ leaveClients seatedAndQueued = some q
      ∧ q.out = seatedAndQueued.out ++ lines
      ∧ lines.map lineClient = names.map some
      ∧ names.Perm (seatedAndQueued.clients.keys ++ queuedNames seatedAndQueued)
      ∧ List.Sorted strLE names
      ∧ List.Sorted (fun a b : String => a ≤ b) names :=
  ⟨⟨(@Reachable.of_afterEvents testCfg scenarioCore seatedAndQueuedEvents seatedAndQueued
      (by decide)).queueNonNil,
    List.reverse_perm _⟩,
   by decide,
   leaveClients_sorted seatedAndQueued
    (@Reachable.of_afterEvents testCfg scenarioCore seatedAndQueuedEvents seatedAndQueued
      (by decide)).queueNonNil
    seatedAndQueued.clients.GetAll.reverse (List.reverse_perm _)⟩


/-! ## The layout of the output -/

/-- What a processed event writes are generated events. -/
theorem processEvent_generated {p q : EventProcessorImpl} {event : IncomingEvent}
    (hq : processEvent p event = some q) :
    ∃ gen, q.out = p.out ++ gen ∧ ∀ l ∈ gen, isGenerated l = true := by
  have herr : ∀ code, ∃ gen, (withError p event.HappensAt code).out = p.out ++ gen
      ∧ ∀ l ∈ gen, isGenerated l = true := fun code =>
    ⟨[Line.event (.outgoing (NewErrorEvent event.HappensAt (GoError.New code)))], rfl, by
      simp [isGenerated, NewErrorEvent]⟩
  unfold processEvent at hq
  split at hq
  · have hq2 := (Option.some.inj hq).symm
    rcases processArrives_outcomes p event with h1 | h1 | h1
    · rw [hq2, h1]; exact herr _
    · rw [hq2, h1]; exact herr _
    · exact ⟨[], by rw [hq2, h1]; simp, by simp⟩
  · split at hq
    · rcases processSits_cases hq with h1 | h1 | ⟨name, table, m, cur, -, -, -, h1 | h1⟩
      · rw [h1]; exact herr _
      · rw [h1]; exact herr _
      · exact ⟨[], by rw [h1.2]; simp [satLines], by simp⟩
      · exact ⟨[], by rw [h1.2]; simp [satLines], by simp⟩
    · split at hq
      · have hq2 := (Option.some.inj hq).symm
        rcases processWaits_outcomes p event with h1 | h1 | h1
        · rw [hq2, h1]; exact herr _
        · refine ⟨[Line.event (.outgoing
            (NewClientLeftEvent event.HappensAt event.Client))], ?_, ?_⟩
          · rw [hq2, h1]
          · simp [isGenerated, NewClientLeftEvent]
        · exact ⟨[], by rw [hq2, h1]; simp, by simp⟩
      · split at hq
        · rcases processLeaves_cases hq with h1 | h1 | ⟨X, -, -, -, h1⟩ | ⟨X, hd, rest, -, -, -, h1⟩
          · rw [h1.2]; exact herr _
          · exact ⟨[], by rw [h1.2]; simp [leftLines], by simp⟩
          · exact ⟨[], by rw [h1]; simp [leftLines], by simp⟩
          · refine ⟨[Line.event (.outgoing (NewClientSatEvent event.HappensAt
              (NewClientSits hd.GetName X p.coreData.TablesCount)))], ?_, ?_⟩
            · rw [h1]
              simp [leftLines]
            · simp [isGenerated, NewClientSatEvent]
        · exact ⟨[], by rw [← Option.some.inj hq]; simp, by simp⟩

/-- The loop of `ProcessEvents` on delivered events: it returns without a
failure, and what it wrote is laid out event by event. -/
theorem eventsLoop_echoed :
    ∀ (es : List IncomingEvent) (p : EventProcessorImpl), QueueNonNil p →
      (∀ e ∈ es, wellShaped e) →
      ∃ q body, eventsLoop p (es.map wrap) = some (q, none) ∧ QueueNonNil q
        ∧ q.coreData = p.coreData ∧ q.out = p.out ++ body ∧ Echoed p es body q := by
  intro es
  induction es with
  | nil =>
    intro p hnn _
    exact ⟨p, [], rfl, hnn, rfl, by simp, Echoed.done p⟩
  | cons e es ih =>
    intro p hnn hs
    have hnn1 : QueueNonNil (writeOutEvent p (.incoming e)) := hnn
    obtain ⟨q1, hq1⟩ := processEvent_isSome (writeOutEvent p (.incoming e)) e hnn1
      (hs e (List.mem_cons_self _ _))
    obtain ⟨gen, hgen, hall⟩ := processEvent_generated hq1
    have hout1 : q1.out = p.out ++ Line.event (.incoming e) :: gen := by
      rw [hgen]
      simp [writeOutEvent]
    obtain ⟨q, body, hrun, hnnq, hcd, hout, hech⟩ := ih q1 (queueNonNil_processEvent hnn1 hq1)
      (fun x hx => hs x (List.mem_cons_of_mem _ hx))
    refine ⟨q, Line.event (.incoming e) :: gen ++ body, ?_, hnnq, ?_, ?_,
      Echoed.turn hq1 hout1 hall hech⟩
    · simp only [List.map_cons, eventsLoop, wrap, hq1]
      exact hrun
    · rw [hcd, processEvent_coreData hq1]
      rfl
    · rw [hout, hout1]
      simp

/-- Claim C19: on delivered events without a failure, `ProcessEvents` returns
without a failure, and the buffer it filled is: the opening time; then, for each
input event in input order, its echoed line immediately followed by the
generated events its processing wrote; then the lines of the closing procedure,
which are event lines; and last the closing time. -/
theorem ProcessEvents_output (cfg : Processor) (coreData : CoreData)
    (events : List IncomingEvent) (hs : ∀ e ∈ events, wellShaped e) :
    ∃ (q r final : EventProcessorImpl) (body closing : List Line),
      ProcessEvents (newClub cfg coreData) (events.map wrap) = some (final, none)
      ∧ final.out = Line.time coreData.WorkingTime.Start :: body ++ closing
          ++ [Line.time coreData.WorkingTime.End]
      ∧ Echoed { newClub cfg coreData with out := [Line.time coreData.WorkingTime.Start] }
          events body q
      ∧ leaveClients q = some r
      ∧ r.out = q.out ++ closing
      ∧ (∀ l ∈ closing, (lineClient l).isSome) := by
  obtain ⟨q, body, hrun, hnn, hcd, hout, hech⟩ := eventsLoop_echoed events
    { newClub cfg coreData with out := [Line.time coreData.WorkingTime.Start] }
    (queueNonNil_newClub cfg coreData _) hs
  obtain ⟨r, closing, hleave, hcd2, hout2, hnames⟩ :=
    leaveLoop_lines (sortStrings (q.clients.keys ++ queuedNames q))
      { q with waitingQueue := { queue := [], nilValue := q.waitingQueue.nilValue } } rfl
  have hleave2 : leaveClients q = some r := by
    rw [leaveClients_eq q hnn]
    exact hleave
  refine ⟨q, r, { r with out := r.out ++ [Line.time r.coreData.WorkingTime.End] }, body,
    closing, ?_, ?_, hech, hleave2, hout2, ?_⟩
  · unfold ProcessEvents
    have hstart : ({ newClub cfg coreData with
        out := (newClub cfg coreData).out ++
          [Line.time (newClub cfg coreData).coreData.WorkingTime.Start] } : EventProcessorImpl)
        = { newClub cfg coreData with out := [Line.time coreData.WorkingTime.Start] } := rfl
    simp only [hstart, hrun, hleave2]
  · have hend : r.coreData = coreData := by
      rw [hcd2]
      exact hcd
    show r.out ++ [Line.time r.coreData.WorkingTime.End] = _
    rw [hout2, hout, hend]
    simp [newClub, NewEventProcessor]
  · intro l hl
    have hmem : lineClient l ∈ closing.map lineClient := List.mem_map_of_mem _ hl
    rw [hnames] at hmem
    obtain ⟨n, -, hn⟩ := List.mem_map.mp hmem
    rw [← hn]
    rfl

/-- Claim C19 on the events that seat client1 and queue client2. -/
theorem ProcessEvents_output_witness :
    (∀ e ∈ seatedAndQueuedEvents, wellShaped e)
    ∧ ∃ (q r final : EventProcessorImpl) (body closing : List Line),
      ProcessEvents (newClub testCfg scenarioCore) (seatedAndQueuedEvents.map wrap)
        = some (final, none)
      ∧ final.out = Line.time scenarioCore.WorkingTime.Start :: body ++ closing
          ++ [Line.time scenarioCore.WorkingTime.End]
      ∧ Echoed { newClub testCfg scenarioCore with
            out := [Line.time scenarioCore.WorkingTime.Start] }
          seatedAndQueuedEvents body q
      ∧ leaveClients q = some r
      ∧ r.out = q.out ++ closing
      ∧ (∀ l ∈ closing, (lineClient l).isSome) :=
  ⟨fun e he => wellShaped_of_validated
      ((by decide : ∀ e ∈ seatedAndQueuedEvents, validated scenarioCore.TablesCount e = true)
        e he),
   ProcessEvents_output testCfg scenarioCore seatedAndQueuedEvents
    (fun e he => wellShaped_of_validated
      ((by decide : ∀ e ∈ seatedAndQueuedEvents, validated scenarioCore.TablesCount e = true)
        e he))⟩


/-! ## The working hours, the queue and the store -/

/-- Claim C21, as the code has it: `NewTimeInterval` keeps the start; an end
before the start is moved one day on, any other end is kept. For two different
times less than a day apart, as two times of day are, the end of the interval is
strictly after its start; for two equal times the end is not moved and the
interval has no duration. -/
theorem NewTimeInterval_duration (start stop : Int) :
    (NewTimeInterval start stop).Start = start
    ∧ (stop < start → (NewTimeInterval start stop).End = stop + 1440)
    ∧ (start ≤ stop → (NewTimeInterval start stop).End = stop)
    ∧ (start ≠ stop → start < stop + 1440 →
        (NewTimeInterval start stop).Start < (NewTimeInterval start stop).End)
    ∧ (start = stop → (NewTimeInterval start stop).End = (NewTimeInterval start stop).Start) := by
  unfold NewTimeInterval
  refine ⟨?_, ?_, ?_, ?_, ?_⟩
  · split <;> rfl
  · intro h
    rw [if_pos h]
  · intro h
    rw [if_neg (by omega)]
  · intro hne hday
    split
    · exact hday
    · show start < stop
      omega
  · intro h
    rw [if_neg (by omega), h]

/-- Claim C21, evaluated: the club open from 20:00 to 10:00 closes at 10:00 of
the next day, the club open from 10:00 to 20:00 closes the same day. -/
theorem NewTimeInterval_duration_witness :
    (NewTimeInterval 1200 600).End = 600 + 1440
    ∧ (NewTimeInterval 600 1200).End = 1200
    ∧ (NewTimeInterval 1200 600).Start < (NewTimeInterval 1200 600).End
    ∧ (NewTimeInterval 600 600).End = (NewTimeInterval 600 600).Start :=
  ⟨(NewTimeInterval_duration 1200 600).2.1 (by decide),
   (NewTimeInterval_duration 600 1200).2.2.1 (by decide),
   (NewTimeInterval_duration 1200 600).2.2.2.1 (by decide) (by decide),
   (NewTimeInterval_duration 600 600).2.2.2.2 rfl⟩

/-- Claim C21 as stated fails: for the working hours 10:00 to 10:00 the end is
not after the start, so it is not moved to the following day either, and the
interval has no duration; no time lies inside it. -/
theorem NewTimeInterval_equal_times :
    (NewTimeInterval 600 600).Start = 600
    ∧ (NewTimeInterval 600 600).End = 600
    ∧ ¬ (NewTimeInterval 600 600).Start < (NewTimeInterval 600 600).End
    ∧ (NewTimeInterval 600 600).In 600 = false := by
  decide

/-- The queue after a run of pushes. -/
theorem pushAll_queue {T : Type} (items : List T) :
    ∀ q : InMemoryQueue T, (pushAll q items).queue = q.queue ++ items := by
  induction items with
  | nil => intro q; simp [pushAll]
  | cons x rest ih =>
    intro q
    have h := ih (q.Push x)
    simp only [pushAll, List.foldl_cons] at h ⊢
    rw [h]
    simp [InMemoryQueue.Push]

/-- A `Pop` on a queue that holds something. -/
theorem Pop_cons {T : Type} (q : InMemoryQueue T) (top : T) (rest : List T)
    (h : q.queue = top :: rest) : q.Pop = ((top, none), { q with queue := rest }) := by
  simp [InMemoryQueue.Pop, InMemoryQueue.Peek, h]

/-- A `Pop` on an empty queue. -/
theorem Pop_nil {T : Type} (q : InMemoryQueue T) (h : q.queue = []) :
    q.Pop = ((q.nilValue, some "queue is empty"), q) := by
  simp [InMemoryQueue.Pop, InMemoryQueue.Peek, h]

/-- The first `k` pops of a queue return its first `k` items. -/
theorem popAll_take {T : Type} :
    ∀ (k : Nat) (q : InMemoryQueue T), k ≤ q.queue.length →
      (popAll k q).1 = (q.queue.take k).map (fun x => (x, none))
      ∧ (popAll k q).2 = { q with queue := q.queue.drop k } := by
  intro k
  induction k with
  | zero => intro q _; simp [popAll]
  | succ k ih =>
    intro q hk
    cases hq : q.queue with
    | nil => rw [hq] at hk; exact absurd hk (by simp)
    | cons top rest =>
      have hpop := Pop_cons q top rest hq
      have h := ih { q with queue := rest } (by rw [hq] at hk; simpa using hk)
      simp only [popAll, hpop]
      rw [h.1, h.2]
      simp

/-- Claim C22: the queue is first in, first out. After the items have been
pushed in their order, as many pops as the queue has items return, without an
error, first the items the queue held and then the pushed items, in that order,
and leave the queue empty; after the first `k` of these pops the length has gone
down by `k`, and every push raises the length by exactly one. -/
theorem queue_fifo {T : Type} (q : InMemoryQueue T) (items : List T) :
    (pushAll q items).queue = q.queue ++ items
    ∧ (popAll (q.queue.length + items.length) (pushAll q items)).1
        = (q.queue ++ items).map (fun x => (x, none))
    ∧ (popAll (q.queue.length + items.length) (pushAll q items)).2.queue = []
    ∧ (∀ k : Nat, k ≤ q.queue.length + items.length →
        (popAll k (pushAll q items)).1 = ((q.queue ++ items).take k).map (fun x => (x, none))
        ∧ (popAll k (pushAll q items)).2.Len = (pushAll q items).Len - k)
    ∧ (∀ x : T, (q.Push x).Len = q.Len + 1 ∧ (q.Push x).queue = q.queue ++ [x])
    ∧ (∀ (top : T) (rest : List T), q.queue = top :: rest →
        q.Pop.1 = (top, none) ∧ q.Pop.2.queue = rest ∧ q.Pop.2.Len = q.Len - 1) := by
  have hq := pushAll_queue items q
  have hlen : q.queue.length + items.length ≤ (pushAll q items).queue.length := by
    rw [hq, List.length_append]
  have hall := popAll_take (q.queue.length + items.length) (pushAll q items) hlen
  refine ⟨hq, ?_, ?_, ?_, ?_, ?_⟩
  · rw [hall.1, hq, ← List.length_append, List.take_length]
  · rw [hall.2, hq, ← List.length_append]
    simp
  · intro k hk
    have h := popAll_take k (pushAll q items) (le_trans hk hlen)
    refine ⟨by rw [h.1, hq], ?_⟩
    rw [h.2]
    simp only [InMemoryQueue.Len, List.length_drop, hq, List.length_append]
    omega
  · intro x
    simp [InMemoryQueue.Push, InMemoryQueue.Len]
  · intro top rest h
    rw [Pop_cons q top rest h]
    simp [InMemoryQueue.Len, h]

/-- Claim C22, evaluated: a queue holding 1 and 2 gets 3 and 4 pushed; two pops
return 1 and 2 and leave two items. -/
theorem queue_fifo_witness :
    (popAll 2 (pushAll (InMemoryQueue.mk [1, 2] (0 : Nat)) [3, 4])).1 =
        (([1, 2] ++ [3, 4] : List Nat).take 2).map (fun x => (x, none))
    ∧ (popAll 2 (pushAll (InMemoryQueue.mk [1, 2] (0 : Nat)) [3, 4])).2.Len =
        (pushAll (InMemoryQueue.mk [1, 2] (0 : Nat)) [3, 4]).Len - (2 : Nat)
    ∧ (InMemoryQueue.mk [1, 2] (0 : Nat)).Pop.1 = (1, none)
    ∧ (InMemoryQueue.mk [1, 2] (0 : Nat)).Pop.2.queue = [2]
    ∧ (InMemoryQueue.mk [1, 2] (0 : Nat)).Pop.2.Len = (InMemoryQueue.mk [1, 2] (0 : Nat)).Len - 1 :=
  ⟨((queue_fifo (InMemoryQueue.mk [1, 2] (0 : Nat)) [3, 4]).2.2.2.1 2 (by decide)).1,
   ((queue_fifo (InMemoryQueue.mk [1, 2] (0 : Nat)) [3, 4]).2.2.2.1 2 (by decide)).2,
   (queue_fifo (InMemoryQueue.mk [1, 2] (0 : Nat)) [3, 4]).2.2.2.2.2 1 [2] rfl⟩

/-- Claim C23: `Peek` returns exactly what `Pop` returns. On a queue that holds
something both return its oldest item without an error, and `Pop` leaves the
rest; on an empty queue both return the configured nil value with the error
"queue is empty", and `Pop` leaves the queue as it was, empty. `Peek` does not
assign to the queue, so it has no queue to return. -/
theorem Peek_eq_Pop {T : Type} (q : InMemoryQueue T) :
    q.Peek = q.Pop.1
    ∧ (q.queue = [] →
        q.Peek = (q.nilValue, some "queue is empty")
        ∧ q.Pop = ((q.nilValue, some "queue is empty"), q)
        ∧ q.Pop.2.queue = [])
    ∧ (∀ (top : T) (rest : List T), q.queue = top :: rest →
        q.Peek = (top, none) ∧ q.Pop = ((top, none), { q with queue := rest })) := by
  refine ⟨?_, ?_, ?_⟩
  · cases h : q.queue with
    | nil => rw [Pop_nil q h]; simp [InMemoryQueue.Peek, h]
    | cons top rest => rw [Pop_cons q top rest h]; simp [InMemoryQueue.Peek, h]
  · intro h
    refine ⟨by simp [InMemoryQueue.Peek, h], Pop_nil q h, ?_⟩
    rw [Pop_nil q h]
    exact h
  · intro top rest h
    exact ⟨by simp [InMemoryQueue.Peek, h], Pop_cons q top rest h⟩

/-- Claim C23, evaluated on the empty queue of the processor and on a queue
that holds client1 before client2. -/
theorem Peek_eq_Pop_witness :
    ((NewInMemoryQueue (none : Option ClientData)).Peek = (none, some "queue is empty")
      ∧ (NewInMemoryQueue (none : Option ClientData)).Pop
          = ((none, some "queue is empty"), NewInMemoryQueue none)
      ∧ (NewInMemoryQueue (none : Option ClientData)).Pop.2.queue = [])
    ∧ (InMemoryQueue.mk [some (NewClientWaits "client1"), some (NewClientWaits "client2")]
          none).Peek = (some (NewClientWaits "client1"), none)
    ∧ (InMemoryQueue.mk [some (NewClientWaits "client1"), some (NewClientWaits "client2")]
          none).Pop
        = ((some (NewClientWaits "client1"), none),
           InMemoryQueue.mk [some (NewClientWaits "client2")] none) :=
  ⟨(Peek_eq_Pop (NewInMemoryQueue (none : Option ClientData))).2.1 rfl,
   ((Peek_eq_Pop (InMemoryQueue.mk
      [some (NewClientWaits "client1"), some (NewClientWaits "client2")] none)).2.2
      (some (NewClientWaits "client1")) [some (NewClientWaits "client2")] rfl).1,
   ((Peek_eq_Pop (InMemoryQueue.mk
      [some (NewClientWaits "client1"), some (NewClientWaits "client2")] none)).2.2
      (some (NewClientWaits "client1")) [some (NewClientWaits "client2")] rfl).2⟩

/-- The number of entries is the number of keys. -/
theorem InMemoryStorage.Len_eq_keys {K V : Type} (i : InMemoryStorage K V) :
    i.Len = (i.keys.length : Int) := by
  simp [InMemoryStorage.Len, AList.keys, List.keys]

/-- The number of entries left when a key is erased. -/
theorem length_kerase {K V : Type} [DecidableEq K] (k : K) :
    ∀ l : List (Sigma fun _ : K => V), l.NodupKeys →
      ((List.kerase k l).length : Int) =
        if (List.dlookup k l).isSome then (l.length : Int) - 1 else l.length := by
  intro l
  induction l with
  | nil => intro _; simp
  | cons hd tl ih =>
    intro hnd
    have hnd2 := (List.nodupKeys_cons.mp hnd).2
    by_cases h : k = hd.1
    · subst h
      cases hd with
      | mk a b => simp [List.kerase_cons_eq, List.dlookup_cons_eq]
    · rw [List.kerase_cons_ne h, List.dlookup_cons_ne _ _ h]
      simp only [List.length_cons, Nat.cast_add, Nat.cast_one]
      rw [ih hnd2]
      split <;> omega

/-- Claim C24: the store behaves as a map. After `Set(k, v)` a lookup of `k`
finds `v` and the lookup of any other key is as before; after `Delete(k)` a
lookup of `k` finds nothing and the lookup of any other key is as before; the
`Delete` of an absent key returns the store itself; `Len` is the number of keys,
the keys are pairwise distinct, and a key is listed exactly when its lookup
finds a value. -/
theorem storage_map_semantics {K V : Type} [DecidableEq K] (i : InMemoryStorage K V)
    (k k2 : K) (v : V) (hne : k ≠ k2) :
    (i.Set k v).Get k = some v
    ∧ (i.Set k v).Get k2 = i.Get k2
    ∧ (i.Delete k).Get k = none
    ∧ (i.Delete k).Get k2 = i.Get k2
    ∧ (i.Get k = none → i.Delete k = i)
    ∧ i.Len = (i.keys.length : Int)
    ∧ i.keys.Nodup
    ∧ (∀ x : K, x ∈ i.keys ↔ (i.Get x).isSome)
    ∧ ((i.Set k v).Len = if (i.Get k).isSome then i.Len else i.Len + 1)
    ∧ ((i.Delete k).Len = if (i.Get k).isSome then i.Len - 1 else i.Len) := by
  refine ⟨InMemoryStorage.Get_Set_self i k v, InMemoryStorage.Get_Set_of_ne i v hne.symm,
    InMemoryStorage.Get_Delete_self i k, InMemoryStorage.Get_Delete_of_ne i hne.symm, ?_,
    InMemoryStorage.Len_eq_keys i, i.keys_nodup, fun x => InMemoryStorage.mem_keys_iff i x,
    ?_, ?_⟩
  · intro h
    unfold InMemoryStorage.Delete
    rw [if_pos]
    show (i.Get k).isNone
    rw [h]
    rfl
  · have h := length_kerase (V := V) k i.entries i.nodupKeys
    simp only [InMemoryStorage.Set, InMemoryStorage.Len, InMemoryStorage.Get, AList.lookup,
      AList.insert, List.kinsert, List.length_cons, Nat.cast_add, Nat.cast_one] at h ⊢
    rw [h]
    split <;> omega
  · have h := length_kerase (V := V) k i.entries i.nodupKeys
    rw [InMemoryStorage.Delete_eq_erase]
    simp only [InMemoryStorage.Len, InMemoryStorage.Get, AList.lookup, AList.erase] at h ⊢
    exact h

/-- Claim C24, evaluated on the presence map that holds client1 at table 1:
client1 is set to table 2 and deleted, client2 is looked up. -/
theorem storage_map_semantics_witness :
    "client1" ≠ "client2"
    ∧ (((NewInMemoryStorage : InMemoryStorage String Int).Set "client1" 1).Set "client1" 2).Get
        "client1" = some 2
    ∧ (((NewInMemoryStorage : InMemoryStorage String Int).Set "client1" 1).Set "client1" 2).Get
        "client2" = ((NewInMemoryStorage : InMemoryStorage String Int).Set "client1" 1).Get
          "client2"
    ∧ (((NewInMemoryStorage : InMemoryStorage String Int).Set "client1" 1).Delete "client1").Get
        "client1" = none
    ∧ ((NewInMemoryStorage : InMemoryStorage String Int).Set "client1" 1).Len = 1 :=
  ⟨by decide,
   (storage_map_semantics ((NewInMemoryStorage : InMemoryStorage String Int).Set "client1" 1)
      "client1" "client2" 2 (by decide)).1,
   (storage_map_semantics ((NewInMemoryStorage : InMemoryStorage String Int).Set "client1" 1)
      "client1" "client2" 2 (by decide)).2.1,
   (storage_map_semantics ((NewInMemoryStorage : InMemoryStorage String Int).Set "client1" 1)
      "client1" "client2" 2 (by decide)).2.2.1,
   by decide⟩


/-! ## The text of the output -/

/-- Three fields joined by single spaces, with the middle one set apart. -/
theorem append_fields (a k b : String) : a ++ " " ++ k ++ " " ++ b = a ++ (" " ++ k ++ " ") ++ b := by
  simp [String.append_assoc]

/-- The text of an Error event. -/
theorem render_error (t : Int) (code timeFormat : String) :
    (NewErrorEvent t (GoError.New code)).String timeFormat =
      some (formatTime t timeFormat ++ " 13 " ++ code) := by
  simp only [OutgoingEvent.String, NewErrorEvent, GoError.Error, OutgoingEventTypeError]
  rw [append_fields]
  rfl

/-- The text of a ClientLeft event whose payload is a name alone. -/
theorem render_left (t : Int) (client : ClientData) (timeFormat : String)
    (h : client.String = client.GetName) :
    (NewClientLeftEvent t client).String timeFormat =
      some (formatTime t timeFormat ++ " 11 " ++ client.GetName) := by
  simp only [OutgoingEvent.String, NewClientLeftEvent, OutgoingEventTypeClientLeft, h]
  rw [append_fields]
  rfl

/-- The text of a ClientSat event. -/
theorem render_sat (t : Int) (name : String) (table maxTables : Int) (timeFormat : String) :
    (NewClientSatEvent t (NewClientSits name table maxTables)).String timeFormat =
      some (formatTime t timeFormat ++ " 12 " ++ name ++ " " ++ sprintInt table) := by
  simp only [OutgoingEvent.String, NewClientSatEvent, OutgoingEventTypeClientSat, NewClientSits,
    ClientData.String]
  rw [append_fields, ← String.append_assoc, ← String.append_assoc]
  rfl

/-- A delivered event of kind Waits carries a Waits payload. -/
theorem waits_of_validated {maxTables : Int} {event : IncomingEvent}
    (h : validated maxTables event = true) (ht : event.Typ = Waits) :
    ∃ name, event.Client = .ClientWaits name := by
  unfold validated at h
  cases hc : event.Client with
  | ClientWaits name => exact ⟨name, rfl⟩
  | ClientArrives name =>
    rw [hc] at h
    simp [ht, Waits, Arrives] at h
  | ClientSits name table m =>
    rw [hc] at h
    simp [ht, Waits, Sits] at h
  | ClientLeaves name =>
    rw [hc] at h
    simp [ht, Waits, Leaves] at h

/-- Claim C25: an Error event renders as the time, `13` and the reason code, a
ClientLeft event as the time, `11` and the name, a ClientSat event as the time,
`12`, the name and the table, with single spaces between the fields and the
time in the configured layout, for a layout made of the hour `15`, the minute
`04` and characters that stand for themselves, such as the default `15:04`.
Every event that the processing of a delivered
input event generates is of one of these three forms and carries the time of
the input event, and so is the ClientLeft of the closing procedure, which
carries the closing time. -/
theorem generated_events_render (timeFormat : String) (_hlayout : plainLayout timeFormat) :
    (∀ (t : Int) (code : String),
      (NewErrorEvent t (GoError.New code)).String timeFormat =
        some (formatTime t timeFormat ++ " 13 " ++ code))
    ∧ (∀ (t : Int) (name : String),
      (NewClientLeftEvent t (NewClientWaits name)).String timeFormat =
          some (formatTime t timeFormat ++ " 11 " ++ name)
      ∧ (NewClientLeftEvent t (NewClientLeaves name)).String timeFormat =
          some (formatTime t timeFormat ++ " 11 " ++ name))
    ∧ (∀ (t : Int) (name : String) (table maxTables : Int),
      (NewClientSatEvent t (NewClientSits name table maxTables)).String timeFormat =
        some (formatTime t timeFormat ++ " 12 " ++ name ++ " " ++ sprintInt table))
    ∧ (∀ (p q : EventProcessorImpl) (event : IncomingEvent) (maxTables : Int),
        validated maxTables event = true → processEvent p event = some q →
        ∃ gen, q.out = p.out ++ gen ∧ ∀ l ∈ gen, ∃ e : OutgoingEvent,
          l = Line.event (.outgoing e) ∧ e.HappensAt = event.HappensAt
          ∧ ((∃ code, code ∈ reasonCodes ∧ e.String timeFormat =
                some (formatTime event.HappensAt timeFormat ++ " 13 " ++ code))
            ∨ (∃ name, e.String timeFormat =
                some (formatTime event.HappensAt timeFormat ++ " 11 " ++ name))
            ∨ (∃ (name : String) (table : Int), e.String timeFormat =
                some (formatTime event.HappensAt timeFormat ++ " 12 " ++ name ++ " "
                  ++ sprintInt table))))
    ∧ (∀ (p : EventProcessorImpl) (c : String),
        (closingLeft p c).written timeFormat =
          some (formatTime p.coreData.WorkingTime.End timeFormat ++ " 11 " ++ c ++ "\n")) := by
  refine ⟨fun t code => render_error t code timeFormat,
    fun t name => ⟨render_left t _ timeFormat rfl, render_left t _ timeFormat rfl⟩,
    fun t name table maxTables => render_sat t name table maxTables timeFormat, ?_, ?_⟩
  · intro p q event maxTables hv hq
    have herr : ∀ code, code ∈ reasonCodes →
        ∃ gen, (withError p event.HappensAt code).out = p.out ++ gen ∧ ∀ l ∈ gen,
          ∃ e : OutgoingEvent, l = Line.event (.outgoing e) ∧ e.HappensAt = event.HappensAt
          ∧ ((∃ code, code ∈ reasonCodes ∧ e.String timeFormat =
                some (formatTime event.HappensAt timeFormat ++ " 13 " ++ code))
            ∨ (∃ name, e.String timeFormat =
                some (formatTime event.HappensAt timeFormat ++ " 11 " ++ name))
            ∨ (∃ (name : String) (table : Int), e.String timeFormat =
                some (formatTime event.HappensAt timeFormat ++ " 12 " ++ name ++ " "
                  ++ sprintInt table))) := by
      intro code hcode
      refine ⟨[Line.event (.outgoing (NewErrorEvent event.HappensAt (GoError.New code)))], rfl, ?_⟩
      intro l hl
      rw [List.mem_singleton] at hl
      exact ⟨_, hl, rfl, Or.inl ⟨code, hcode, render_error _ _ _⟩⟩
    unfold processEvent at hq
    split at hq
    · have hq2 := (Option.some.inj hq).symm
      rcases processArrives_outcomes p event with h1 | h1 | h1
      · rw [hq2, h1]; exact herr _ (by simp [reasonCodes])
      · rw [hq2, h1]; exact herr _ (by simp [reasonCodes])
      · exact ⟨[], by rw [hq2, h1]; simp, by simp⟩
    · split at hq
      · rcases processSits_cases hq with h1 | h1 | ⟨name, table, m, cur, -, -, -, h1 | h1⟩
        · rw [h1]; exact herr _ (by simp [reasonCodes])
        · rw [h1]; exact herr _ (by simp [reasonCodes])
        · exact ⟨[], by rw [h1.2]; simp [satLines], by simp⟩
        · exact ⟨[], by rw [h1.2]; simp [satLines], by simp⟩
      · split at hq
        · rename_i hw
          have hq2 := (Option.some.inj hq).symm
          rcases processWaits_outcomes p event with h1 | h1 | h1
          · rw [hq2, h1]; exact herr _ (by simp [reasonCodes])
          · obtain ⟨name, hname⟩ := waits_of_validated hv hw
            refine ⟨[Line.event (.outgoing
              (NewClientLeftEvent event.HappensAt event.Client))], by rw [hq2, h1], ?_⟩
            intro l hl
            rw [List.mem_singleton] at hl
            refine ⟨_, hl, rfl, Or.inr (Or.inl ⟨name, ?_⟩)⟩
            rw [hname]
            exact render_left event.HappensAt (ClientData.ClientWaits name) timeFormat rfl
          · exact ⟨[], by rw [hq2, h1]; simp, by simp⟩
        · split at hq
          · rcases processLeaves_cases hq with
              h1 | h1 | ⟨X, -, -, -, h1⟩ | ⟨X, hd, rest, -, -, -, h1⟩
            · rw [h1.2]; exact herr _ (by simp [reasonCodes])
            · exact ⟨[], by rw [h1.2]; simp [leftLines], by simp⟩
            · exact ⟨[], by rw [h1]; simp [leftLines], by simp⟩
            · refine ⟨[Line.event (.outgoing (NewClientSatEvent event.HappensAt
                (NewClientSits hd.GetName X p.coreData.TablesCount)))], ?_, ?_⟩
              · rw [h1]
                simp [leftLines]
              · intro l hl
                rw [List.mem_singleton] at hl
                exact ⟨_, hl, rfl, Or.inr (Or.inr ⟨hd.GetName, X, render_sat _ _ _ _ _⟩)⟩
          · exact ⟨[], by rw [← Option.some.inj hq]; simp, by simp⟩
  · intro p c
    simp only [closingLeft, Line.written, TimeFormatter.String]
    rw [render_left p.coreData.WorkingTime.End (NewClientLeaves c) timeFormat rfl]
    rfl

/-- Claim C25, evaluated: client1 holds the only table and client2 waits; the
Leave of client1 at 12:00 generates the ClientSat of client2, which renders as
`12:00 12 client2 1`. -/
theorem generated_events_render_witness :
    (plainLayout "15:04"
      ∧ validated 1 (NewIncomingEvent 720 Leaves (NewClientLeaves "client1")) = true
      ∧ (processEvent seatedAndQueued
          (NewIncomingEvent 720 Leaves (NewClientLeaves "client1"))).isSome)
    ∧ (∃ gen, ((processEvent seatedAndQueued
          (NewIncomingEvent 720 Leaves (NewClientLeaves "client1"))).getD seatedAndQueued).out
          = seatedAndQueued.out ++ gen
        ∧ ∀ l ∈ gen, ∃ e : OutgoingEvent,
          l = Line.event (.outgoing e)
          ∧ e.HappensAt = (NewIncomingEvent 720 Leaves (NewClientLeaves "client1")).HappensAt
          ∧ ((∃ code, code ∈ reasonCodes ∧ e.String "15:04" =
                some (formatTime (NewIncomingEvent 720 Leaves
                  (NewClientLeaves "client1")).HappensAt "15:04" ++ " 13 " ++ code))
            ∨ (∃ name, e.String "15:04" =
                some (formatTime (NewIncomingEvent 720 Leaves
                  (NewClientLeaves "client1")).HappensAt "15:04" ++ " 11 " ++ name))
            ∨ (∃ (name : String) (table : Int), e.String "15:04" =
                some (formatTime (NewIncomingEvent 720 Leaves
                  (NewClientLeaves "client1")).HappensAt "15:04" ++ " 12 " ++ name ++ " "
                  ++ sprintInt table))))
    ∧ (NewClientSatEvent 720 (NewClientSits "client2" 1 1)).String "15:04"
        = some "12:00 12 client2 1" :=
  ⟨⟨by decide, by decide, by decide⟩,
   (generated_events_render "15:04" (by decide)).2.2.2.1 seatedAndQueued
    ((processEvent seatedAndQueued
      (NewIncomingEvent 720 Leaves (NewClientLeaves "client1"))).getD seatedAndQueued)
    (NewIncomingEvent 720 Leaves (NewClientLeaves "client1")) 1 (by decide) (by decide),
   by decide⟩

/-- The digits written in front of an accumulator leave the accumulator in. -/
theorem toDigitsCore_length_ge (b : Nat) :
    ∀ (f n : Nat) (ds : List Char), ds.length ≤ (Nat.toDigitsCore b f n ds).length := by
  intro f
  induction f with
  | zero => intro n ds; simp [Nat.toDigitsCore]
  | succ f ih =>
    intro n ds
    simp only [Nat.toDigitsCore]
    split
    · simp
    · exact le_trans (by simp) (ih _ _)

/-- A number below ten is written with one digit. -/
theorem repr_length_of_lt {n : Nat} (h : n < 10) : (Nat.repr n).length = 1 := by
  have h0 : n / 10 = 0 := by omega
  simp [Nat.repr, Nat.toDigits, Nat.toDigitsCore, h0]

/-- With fuel left, at least one digit is written. -/
theorem toDigitsCore_succ_length (b f n : Nat) (ds : List Char) :
    ds.length + 1 ≤ (Nat.toDigitsCore b (f + 1) n ds).length := by
  rw [Nat.toDigitsCore]
  split
  · simp
  · exact le_trans (by simp) (toDigitsCore_length_ge b f _ _)

/-- A number from ten on is written with at least two digits. -/
theorem repr_length_of_ge {n : Nat} (h : 10 ≤ n) : 2 ≤ (Nat.repr n).length := by
  obtain ⟨k, rfl⟩ : ∃ k, n = k + 1 + 1 := ⟨n - 2, by omega⟩
  have h0 : (k + 1 + 1) / 10 ≠ 0 := by omega
  show 2 ≤ (Nat.toDigitsCore 10 (k + 1 + 1 + 1) (k + 1 + 1) []).length
  rw [Nat.toDigitsCore]
  simp only [h0, if_false]
  exact toDigitsCore_succ_length 10 (k + 1) ((k + 1 + 1) / 10) [((k + 1 + 1) % 10).digitChar]

/-- The text of a natural number. -/
theorem sprintInt_ofNat (n : Nat) : sprintInt (n : Int) = Nat.repr n := rfl

/-- A number that is not negative is written by `%02d` with at least two digits. -/
theorem sprintInt02_length {h : Int} (hh : 0 ≤ h) : 2 ≤ (sprintInt02 h).length := by
  obtain ⟨n, rfl⟩ := Int.eq_ofNat_of_zero_le hh
  unfold sprintInt02
  split
  · rename_i hlt
    rw [String.length_append, sprintInt_ofNat, repr_length_of_lt (by omega)]
    decide
  · rename_i hge
    rw [sprintInt_ofNat]
    exact repr_length_of_ge (by omega)

/-- A number from 0 to 99 is written by `%02d` with exactly two digits. -/
theorem sprintInt02_length_two {m : Int} (h0 : 0 ≤ m) (h1 : m < 100) :
    (sprintInt02 m).length = 2 := by
  obtain ⟨n, rfl⟩ := Int.eq_ofNat_of_zero_le h0
  unfold sprintInt02
  split
  · rw [String.length_append, sprintInt_ofNat, repr_length_of_lt (by omega)]
    decide
  · rw [sprintInt_ofNat]
    have h2 := repr_length_of_ge (n := n) (by omega)
    have h3 := Nat.repr_length n 2 (by decide) (by omega)
    omega


/-- Claim C26: for a usage time of `h` hours and `m` minutes, with `h` not
negative and `m` from 0 to 59, `String` renders the income, a space, the hours,
a colon and the minutes, the hours with at least two digits and the minutes with
exactly two, a zero in front of a single digit; and `ShowRevenue` writes for a
table from 1 to `TablesCount` with this entry the table number, a space and
that text. -/
theorem RevenueStats_String_padded (stats : RevenueStats) (h m : Int)
    (hh : 0 ≤ h) (hm0 : 0 ≤ m) (hm : m < 60) (hu : stats.UsageTime = 60 * h + m) :
    stats.String = sprintInt stats.Income ++ " " ++ sprintInt02 h ++ ":" ++ sprintInt02 m
    ∧ 2 ≤ (sprintInt02 h).length
    ∧ (sprintInt02 m).length = 2
    ∧ (h < 10 → sprintInt02 h = "0" ++ sprintInt h)
    ∧ (10 ≤ h → sprintInt02 h = sprintInt h)
    ∧ (m < 10 → sprintInt02 m = "0" ++ sprintInt m)
    ∧ (∀ (i : Int) (timeFormat : String), (Line.revenue i stats).written timeFormat =
        some (sprintInt i ++ " " ++ (sprintInt stats.Income ++ " " ++ sprintInt02 h ++ ":"
          ++ sprintInt02 m) ++ "\n"))
    ∧ (∀ (p : EventProcessorImpl) (i : Int), 1 ≤ i → i ≤ p.coreData.TablesCount →
        p.revenue.Get i = some stats →
        ∃ lines, (ShowRevenue p).out = p.out ++ lines
          ∧ lines.filter (fun l => decide (tableOf l = some i)) = [Line.revenue i stats]) := by
  have hdiv : stats.UsageTime.tdiv 60 = h := by
    rw [Int.tdiv_eq_ediv (by omega) (by omega), hu]
    omega
  have hmod : stats.UsageTime.tmod 60 = m := by
    rw [Int.tmod_eq_emod (by omega) (by omega), hu]
    omega
  have hstr : stats.String =
      sprintInt stats.Income ++ " " ++ sprintInt02 h ++ ":" ++ sprintInt02 m := by
    unfold RevenueStats.String
    rw [hdiv, hmod]
  refine ⟨hstr, sprintInt02_length hh, sprintInt02_length_two hm0 (by omega), ?_, ?_, ?_, ?_, ?_⟩
  · intro h10
    unfold sprintInt02
    rw [if_pos ⟨hh, h10⟩]
  · intro h10
    unfold sprintInt02
    rw [if_neg (by omega)]
  · intro m10
    unfold sprintInt02
    rw [if_pos ⟨hm0, m10⟩]
  · intro i timeFormat
    simp only [Line.written, hstr]
  · intro p i h1 h2 hget
    refine ⟨_, by rw [ShowRevenue_eq], ?_⟩
    rw [List.filter_filterMap]
    refine filterMap_eq_singleton _ i _ ?_ ?_ _ (nodup_tableNumbers _)
      (mem_tableNumbers.mpr ⟨h1, h2⟩)
    · simp [hget, tableOf]
    · intro j hj
      cases hg : p.revenue.Get j with
      | none => simp
      | some s => simp [tableOf, hj]

/-- Claim C26, evaluated: an income of 100 over 10 hours and 5 minutes renders
as `100 10:05`, and the line of table 1 as `1 100 10:05`. -/
theorem RevenueStats_String_padded_witness :
    ((0 : Int) ≤ 10 ∧ (0 : Int) ≤ 5 ∧ (5 : Int) < 60
      ∧ (RevenueStats.mk 100 605).UsageTime = 60 * 10 + 5)
    ∧ (RevenueStats.mk 100 605).String
        = sprintInt (RevenueStats.mk 100 605).Income ++ " " ++ sprintInt02 10 ++ ":"
          ++ sprintInt02 5
    ∧ (RevenueStats.mk 100 605).String = "100 10:05"
    ∧ (Line.revenue 1 (RevenueStats.mk 100 605)).written "15:04" = some "1 100 10:05\n" :=
  ⟨⟨by decide, by decide, by decide, by decide⟩,
   (RevenueStats_String_padded (RevenueStats.mk 100 605) 10 5 (by decide) (by decide)
    (by decide) (by decide)).1,
   by decide, by decide⟩

/-! ## Validation and the reading of events -/

/-- The character class of the name pattern, by the kind of character. -/
theorem isNameChar_iff (c : Char) :
    isNameChar c = true ↔ (c.isLower = true ∨ c.isDigit = true ∨ c = '_') := by
  simp only [isNameChar, Char.isLower, Char.isDigit, Bool.or_eq_true, Bool.and_eq_true,
    decide_eq_true_eq, Char.le_def, UInt32.le_def, ge_iff_le, or_assoc]
  rfl

/-- Claim C28: `ValidateName` accepts a name exactly when it is not empty and
each of its characters is a lowercase Latin letter, a decimal digit or an
underscore; any other name is rejected with the error "invalid client name". -/
theorem ValidateName_iff (name : String) :
    (ValidateName name = none ↔
      name ≠ "" ∧ ∀ c ∈ name.data, c.isLower = true ∨ c.isDigit = true ∨ c = '_')
    ∧ (ValidateName name = none
        ∨ ValidateName name = some (GoError.New ErrClientDataInvalidName)) := by
  unfold ValidateName
  constructor
  · constructor
    · intro h
      split at h
      · rename_i hc
        simp only [Bool.and_eq_true, Bool.not_eq_true', List.isEmpty_eq_false, List.all_eq_true] at hc
        refine ⟨?_, fun c hcm => (isNameChar_iff c).mp (hc.2 c hcm)⟩
        intro he
        rw [he] at hc
        exact hc.1 rfl
      · exact Option.noConfusion h
    · rintro ⟨hne, hall⟩
      rw [if_pos]
      simp only [Bool.and_eq_true, Bool.not_eq_true', List.isEmpty_eq_false, List.all_eq_true]
      refine ⟨?_, fun c hcm => (isNameChar_iff c).mpr (hall c hcm)⟩
      intro he
      exact hne (String.ext he)
  · split
    · exact Or.inl rfl
    · exact Or.inr rfl

/-- Claim C28, evaluated: `client_1` is accepted; a capital letter, a space and
the empty name are rejected. -/
theorem ValidateName_iff_witness :
    ValidateName "client_1" = none
    ∧ ValidateName "Client1" = some (GoError.New "invalid client name")
    ∧ ValidateName "client 1" = some (GoError.New "invalid client name")
    ∧ ValidateName "" = some (GoError.New "invalid client name") :=
  ⟨(ValidateName_iff "client_1").1.mpr ⟨by decide, by decide⟩, by decide, by decide, by decide⟩


/-- The validation of a Sits payload with a valid name. -/
theorem Validate_sits (name : String) (table maxTables : Int) (hname : ValidateName name = none) :
    (NewClientSits name table maxTables).Validate =
      if table ≤ 0 then some (GoError.New ErrValueMustBeMoreThanZero)
      else if maxTables < table then some (GoError.New ErrValueTooBig)
      else none := by
  simp only [NewClientSits, ClientData.Validate, hname, MoreThenZero, NotMoreThen]
  by_cases h1 : table ≤ 0
  · rw [if_neg (by omega), if_pos h1]
  · rw [if_pos (by omega), if_neg h1]
    by_cases h2 : maxTables < table
    · rw [if_pos h2]
      simp only []
      rw [if_neg (by omega)]
    · rw [if_neg h2]
      simp only []
      rw [if_pos (by omega)]


/-- No field: a nil payload and a nil error. -/
theorem parseClientData_nil (p : FileParser) (ty : IncomingEventType) (s : String)
    (hsplit : Split s p.cfg.EventInfoSeparator = []) :
    p.parseClientData ty s = (none, none) := by
  simp [FileParser.parseClientData, hsplit]

/-- A number of fields other than the kind asks for. -/
theorem parseClientData_arity (p : FileParser) (ty : IncomingEventType) (s : String)
    (h0 : (Split s p.cfg.EventInfoSeparator).length ≠ 0)
    (hsize : ((Split s p.cfg.EventInfoSeparator).length : Int) ≠ GetValidClientDataSize ty) :
    p.parseClientData ty s =
      (none, some (GoError.ParseError p.rowNumber ErrClientDataInvalidFormat none)) := by
  simp only [FileParser.parseClientData, if_neg h0]
  rw [if_pos hsize]

/-- One field for a kind that takes a name alone. -/
theorem parseClientData_name (p : FileParser) (ty : IncomingEventType) (s name : String)
    (hty : ty = Arrives ∨ ty = Waits ∨ ty = Leaves)
    (hsplit : Split s p.cfg.EventInfoSeparator = [name]) :
    p.parseClientData ty s =
      match ValidateName name with
      | some e => (none, some (GoError.ValidationError p.rowNumber e.Error))
      | none => (some (nameOnly ty name), none) := by
  rcases hty with h | h | h <;> subst h <;>
  · simp only [FileParser.parseClientData, hsplit, List.length_cons, List.length_nil,
      GetValidClientDataSize, List.getD_cons_zero, nameOnly]
    simp [Sits, Arrives, Waits, Leaves, NewClientArrives, NewClientWaits, NewClientLeaves,
      ClientData.Validate]

/-- Two fields for the kind Sits, the second not an integer. -/
theorem parseClientData_sits_table (p : FileParser) (s name tableStr : String)
    (hsplit : Split s p.cfg.EventInfoSeparator = [name, tableStr])
    (htable : Atoi tableStr = none) :
    p.parseClientData Sits s =
      (none, some (GoError.ParseError p.rowNumber ErrFailedToParseClientTableNumber
        (some atoiFailed))) := by
  simp only [FileParser.parseClientData, hsplit, List.length_cons, List.length_nil,
    GetValidClientDataSize, if_true, List.getD_cons_zero, List.getD_cons_succ, htable]
  simp [Sits, Arrives]

/-- Two fields for the kind Sits, the second an integer. -/
theorem parseClientData_sits (p : FileParser) (s name tableStr : String) (table : Int)
    (hsplit : Split s p.cfg.EventInfoSeparator = [name, tableStr])
    (htable : Atoi tableStr = some table) :
    p.parseClientData Sits s =
      match (NewClientSits name table p.maxTables).Validate with
      | some e => (none, some (GoError.ValidationError p.rowNumber e.Error))
      | none => (some (NewClientSits name table p.maxTables), none) := by
  simp only [FileParser.parseClientData, hsplit, List.length_cons, List.length_nil,
    GetValidClientDataSize, if_true, List.getD_cons_zero, List.getD_cons_succ, htable]
  simp [Sits, Arrives]

/-- The number of fields a kind asks for. -/
theorem size_of_knownKind {ty : IncomingEventType} :
    GetValidClientDataSize ty = if ty = Sits then 2 else if knownKind ty then 1 else 0 := by
  unfold GetValidClientDataSize knownKind
  by_cases h : ty = Sits
  · simp [h]
  · simp only [h, if_false, false_or]
    by_cases h2 : ty = Waits ∨ ty = Leaves ∨ ty = Arrives
    · rw [if_pos h2, if_pos]
      rcases h2 with h2 | h2 | h2
      · exact Or.inr (Or.inl h2)
      · exact Or.inr (Or.inr h2)
      · exact Or.inl h2
    · rw [if_neg h2, if_neg]
      rintro (h3 | h3 | h3)
      · exact h2 (Or.inr (Or.inr h3))
      · exact h2 (Or.inl h3)
      · exact h2 (Or.inr (Or.inl h3))

/-- A payload is returned without an error only for one of the four kinds, with
the number of fields of that kind, and it passed its validation. -/
theorem parseClientData_validated (p : FileParser) (ty : IncomingEventType) (s : String)
    (cd : ClientData) (h : p.parseClientData ty s = (some cd, none)) (t : Int) :
    validated p.maxTables (NewIncomingEvent t ty cd) = true
    ∧ ((Split s p.cfg.EventInfoSeparator).length : Int) = GetValidClientDataSize ty
    ∧ knownKind ty := by
  by_cases h0 : (Split s p.cfg.EventInfoSeparator).length = 0
  · rw [parseClientData_nil p ty s (List.length_eq_zero.mp h0)] at h
    simp at h
  by_cases hsize : ((Split s p.cfg.EventInfoSeparator).length : Int) = GetValidClientDataSize ty
  swap
  · rw [parseClientData_arity p ty s h0 hsize] at h
    simp at h
  have hk : knownKind ty := by
    by_contra hk
    rw [size_of_knownKind, if_neg (fun e => hk (Or.inr (Or.inl e))), if_neg hk] at hsize
    exact h0 (by exact_mod_cast hsize)
  refine ⟨?_, hsize, hk⟩
  by_cases hs : ty = Sits
  · subst hs
    rw [size_of_knownKind, if_pos rfl] at hsize
    obtain ⟨name, tableStr, hsplit⟩ : ∃ a b, Split s p.cfg.EventInfoSeparator = [a, b] :=
      List.length_eq_two.mp (by exact_mod_cast hsize)
    cases ht : Atoi tableStr with
    | none =>
      rw [parseClientData_sits_table p s name tableStr hsplit ht] at h
      simp at h
    | some table =>
      rw [parseClientData_sits p s name tableStr table hsplit ht] at h
      cases hv : (NewClientSits name table p.maxTables).Validate with
      | some e => rw [hv] at h; simp at h
      | none =>
        rw [hv] at h
        simp only [Prod.mk.injEq, Option.some.injEq, and_true] at h
        subst h
        simp only [NewClientSits] at hv
        simp [validated, NewIncomingEvent, NewClientSits, hv]
  · have hn : ty = Arrives ∨ ty = Waits ∨ ty = Leaves := by
      rcases hk with h1 | h1 | h1 | h1
      · exact Or.inl h1
      · exact absurd h1 hs
      · exact Or.inr (Or.inl h1)
      · exact Or.inr (Or.inr h1)
    rw [size_of_knownKind, if_neg hs, if_pos hk] at hsize
    obtain ⟨name, hsplit⟩ : ∃ a, Split s p.cfg.EventInfoSeparator = [a] :=
      List.length_eq_one.mp (by exact_mod_cast hsize)
    rw [parseClientData_name p ty s name hn hsplit] at h
    cases hv : ValidateName name with
    | some e => rw [hv] at h; simp at h
    | none =>
      rw [hv] at h
      simp only [Prod.mk.injEq, Option.some.injEq, and_true] at h
      subst h
      rcases hn with h1 | h1 | h1 <;> subst h1 <;>
        simp [validated, NewIncomingEvent, nameOnly, NewClientArrives, NewClientWaits,
          NewClientLeaves, ClientData.Validate, hv, Arrives, Waits, Leaves]

/-- The kind field is not an integer. -/
theorem parseIncomingEventType_notInt (p : FileParser) (s : String) (h : Atoi s = none) :
    p.parseIncomingEventType s =
      (0, some (GoError.ParseError p.rowNumber ErrFailedToParseEventType (some atoiFailed))) := by
  simp [FileParser.parseIncomingEventType, h]

/-- The kind field is one of the four kinds. -/
theorem parseIncomingEventType_known (p : FileParser) (s : String) (k : Int)
    (h : Atoi s = some k) (hk : knownKind k) : p.parseIncomingEventType s = (k, none) := by
  simp only [FileParser.parseIncomingEventType, h]
  rcases hk with h1 | h1 | h1 | h1 <;> subst h1 <;> simp [Arrives, Sits, Waits, Leaves]

/-- The kind field is an integer that is none of the four kinds. -/
theorem parseIncomingEventType_unknown (p : FileParser) (s : String) (k : Int)
    (h : Atoi s = some k) (hk : ¬ knownKind k) :
    p.parseIncomingEventType s =
      (0, some (GoError.ValidationError p.rowNumber ErrUnknownEventType)) := by
  simp only [FileParser.parseIncomingEventType, h]
  rw [if_neg (fun e => hk (Or.inl e)), if_neg (fun e => hk (Or.inr (Or.inl e))),
    if_neg (fun e => hk (Or.inr (Or.inr (Or.inl e)))),
    if_neg (fun e => hk (Or.inr (Or.inr (Or.inr e))))]

/-- A kind is returned without an error only for one of the four kinds. -/
theorem parseIncomingEventType_ok (p : FileParser) (s : String) (ty : IncomingEventType)
    (h : p.parseIncomingEventType s = (ty, none)) : Atoi s = some ty ∧ knownKind ty := by
  cases ha : Atoi s with
  | none => rw [parseIncomingEventType_notInt p s ha] at h; simp at h
  | some k =>
    by_cases hk : knownKind k
    · rw [parseIncomingEventType_known p s k ha hk] at h
      simp only [Prod.mk.injEq, and_true] at h
      subst h
      exact ⟨rfl, hk⟩
    · rw [parseIncomingEventType_unknown p s k ha hk] at h
      simp at h

/-- The method `readEvent` on a line that splits into the configured number of
fields, the first three of which are the time, the kind and the payload. -/
theorem readEvent_fields (p : FileParser) (a b c : String) (rest : List String)
    (hsplit : SplitN p.scanner.text p.cfg.EventInfoSeparator p.cfg.DistinctEventInfoCount
      = a :: b :: c :: rest)
    (hlen : ((a :: b :: c :: rest).length : Int) = p.cfg.DistinctEventInfoCount) :
    p.readEvent =
      match parseTime p.cfg.TimeFormat a with
      | none =>
        some (none, some (GoError.ParseError p.rowNumber ErrFailedToParseEventTime
          (some parseFailed)))
      | some happensAt =>
        match p.parseIncomingEventType b with
        | (_, some err) => some (none, some err)
        | (eventType, none) =>
          match p.parseClientData eventType c with
          | (_, some err) => some (none, some err)
          | (none, none) => none
          | (some clientData, none) =>
            some (some (NewIncomingEvent happensAt eventType clientData), none) := by
  simp only [FileParser.readEvent, hsplit]
  rw [if_neg (by simpa using hlen)]

/-- What a successful `readEvent` went through. -/
theorem readEvent_ok (p : FileParser) (e : IncomingEvent)
    (h : p.readEvent = some (some e, none)) :
    ∃ (a b c : String) (rest : List String),
      SplitN p.scanner.text p.cfg.EventInfoSeparator p.cfg.DistinctEventInfoCount
        = a :: b :: c :: rest
      ∧ parseTime p.cfg.TimeFormat a = some e.HappensAt
      ∧ Atoi b = some e.Typ ∧ knownKind e.Typ
      ∧ p.parseClientData e.Typ c = (some e.Client, none) := by
  by_cases hlen : ((SplitN p.scanner.text p.cfg.EventInfoSeparator
      p.cfg.DistinctEventInfoCount).length : Int) = p.cfg.DistinctEventInfoCount
  swap
  · simp only [FileParser.readEvent, if_pos hlen] at h
    simp at h
  cases hs : SplitN p.scanner.text p.cfg.EventInfoSeparator p.cfg.DistinctEventInfoCount with
  | nil => simp [FileParser.readEvent, hs] at h
  | cons a l1 =>
    cases l1 with
    | nil => simp [FileParser.readEvent, hs] at h
    | cons b l2 =>
      cases l2 with
      | nil => simp [FileParser.readEvent, hs] at h
      | cons c rest =>
        rw [hs] at hlen
        rw [readEvent_fields p a b c rest hs hlen] at h
        refine ⟨a, b, c, rest, rfl, ?_⟩
        cases ht : parseTime p.cfg.TimeFormat a with
        | none => rw [ht] at h; simp at h
        | some t =>
          rw [ht] at h
          simp only [] at h
          rcases hty : p.parseIncomingEventType b with ⟨ty, _ | err⟩
          swap
          · rw [hty] at h; simp at h
          rw [hty] at h
          simp only [] at h
          obtain ⟨hatoi, hk⟩ := parseIncomingEventType_ok p b ty hty
          rcases hcd : p.parseClientData ty c with ⟨_ | cd, _ | err⟩
          · rw [hcd] at h; simp at h
          · rw [hcd] at h; simp at h
          · rw [hcd] at h
            simp only [Option.some.injEq, Prod.mk.injEq, and_true] at h
            subst h
            exact ⟨rfl, hatoi, hk, hcd⟩
          · rw [hcd] at h; simp at h

/-- An event that `readEvent` returns is a delivered event in the sense of
`validated`. -/
theorem readEvent_validated (p : FileParser) (e : IncomingEvent)
    (h : p.readEvent = some (some e, none)) : validated p.maxTables e = true := by
  obtain ⟨a, b, c, rest, -, -, -, -, hcd⟩ := readEvent_ok p e h
  exact (parseClientData_validated p e.Typ c e.Client hcd e.HappensAt).1

/-- Every event that the loop of `ReadEvents` sends is a delivered event. -/
theorem readEventsLoop_validated :
    ∀ (fuel : Nat) (p : FileParser) (sent : List WrappedIncomingEvent),
      FileParser.readEventsLoop fuel p = some sent →
      ∀ w ∈ sent, ∀ e : IncomingEvent, w.Event = some e → validated p.maxTables e = true := by
  intro fuel
  induction fuel with
  | zero => intro p sent h; simp [FileParser.readEventsLoop] at h
  | succ fuel ih =>
    intro p sent h w hw e he
    simp only [FileParser.readEventsLoop, FileParser.scanWithRowNumber] at h
    cases hscan : p.scanner.Scan.1 with
    | false =>
      rw [hscan] at h
      simp only [Option.some.injEq] at h
      rw [← h] at hw
      exact absurd hw (List.not_mem_nil _)
    | true =>
      rw [hscan] at h
      simp only [] at h
      generalize hp1 : ({ p with rowNumber := p.rowNumber + 1, scanner := p.scanner.Scan.2 } :
        FileParser) = p1 at h
      have hmt : p1.maxTables = p.maxTables := by rw [← hp1]
      rcases hr : p1.readEvent with _ | ⟨ev, err⟩
      · rw [hr] at h; simp at h
      · rw [hr] at h
        cases err with
        | some err =>
          simp only [Option.some.injEq] at h
          rw [← h, List.mem_singleton] at hw
          rw [hw] at he
          simp at he
        | none =>
          cases ev with
          | none => simp at h
          | some event =>
            simp only [Option.map_eq_some'] at h
            obtain ⟨rest, hrest, hsent⟩ := h
            rw [← hsent, List.mem_cons] at hw
            rcases hw with hw | hw
            · rw [hw] at he
              simp only [Option.some.injEq] at he
              rw [← he, ← hmt]
              exact readEvent_validated p1 event hr
            · rw [← hmt]
              exact ih p1 rest hrest w hw e he

/-- Claim C27: for a Sits payload with a valid name, validation finds nothing
exactly when the table is from 1 to `maxTables`; a table of zero or less is
rejected with "value must be more than zero" and a greater table than
`maxTables`, which is not negative, with "value is too big". So `parseClientData`
returns the payload for a table in the range and a `ValidationError` with that
message and the row otherwise, and every Sits event that `ReadEvents` sends has
a table from 1 to the `maxTables` it was called with. -/
theorem ClientSits_Validate_range (name : String) (table maxTables : Int)
    (hname : ValidateName name = none) :
    ((NewClientSits name table maxTables).Validate = none ↔ 1 ≤ table ∧ table ≤ maxTables)
    ∧ (table ≤ 0 → (NewClientSits name table maxTables).Validate =
        some (GoError.New ErrValueMustBeMoreThanZero))
    ∧ (0 ≤ maxTables → maxTables < table → (NewClientSits name table maxTables).Validate =
        some (GoError.New ErrValueTooBig))
    ∧ (∀ (p : FileParser) (s tableStr : String),
        p.maxTables = maxTables →
        Split s p.cfg.EventInfoSeparator = [name, tableStr] → Atoi tableStr = some table →
        p.parseClientData Sits s =
          if 1 ≤ table ∧ table ≤ maxTables then
            (some (NewClientSits name table maxTables), none)
          else if table ≤ 0 then
            (none, some (GoError.ValidationError p.rowNumber ErrValueMustBeMoreThanZero))
          else (none, some (GoError.ValidationError p.rowNumber ErrValueTooBig)))
    ∧ (∀ (p : FileParser) (sent : List WrappedIncomingEvent),
        p.ReadEvents maxTables = some sent →
        ∀ w ∈ sent, ∀ e : IncomingEvent, w.Event = some e →
          validated maxTables e = true
          ∧ (e.Typ = Sits → ∃ (n : String) (t : Int),
              e.Client = .ClientSits n t maxTables ∧ 1 ≤ t ∧ t ≤ maxTables)) := by
  have hv := Validate_sits name table maxTables hname
  refine ⟨?_, ?_, ?_, ?_, ?_⟩
  · rw [hv]
    constructor
    · intro h
      split at h
      · exact Option.noConfusion h
      · split at h
        · exact Option.noConfusion h
        · omega
    · rintro ⟨h1, h2⟩
      rw [if_neg (by omega), if_neg (by omega)]
  · intro h
    rw [hv, if_pos h]
  · intro h0 h
    rw [hv, if_neg (by omega), if_pos h]
  · intro p s tableStr hmt hsplit htable
    rw [parseClientData_sits p s name tableStr table hsplit htable, hmt, hv]
    by_cases h1 : table ≤ 0
    · rw [if_pos h1, if_neg (by omega), if_pos h1]
      rfl
    · rw [if_neg h1]
      by_cases h2 : maxTables < table
      · rw [if_pos h2, if_neg (by omega), if_neg h1]
        rfl
      · rw [if_neg h2, if_pos (by omega)]
  · intro p sent hsent w hw e he
    have hval := readEventsLoop_validated _ _ sent hsent w hw e he
    refine ⟨hval, ?_⟩
    intro hs
    obtain ⟨n, t, m, hcl⟩ := wellShaped_of_validated hval hs
    have hm : m = maxTables := by
      have h2 := hval
      unfold validated at h2
      rw [hcl] at h2
      simp only [Bool.and_eq_true, decide_eq_true_eq] at h2
      exact h2.1.2
    subst hm
    exact ⟨n, t, hcl, table_of_validated hval hcl⟩

/-- Claim C27, evaluated in a club of two tables: table 3 is too big and table 0
is not more than zero, the line `10:00 2 client1 3` ends the stream with a
`ValidationError`, and the line `10:00 2 client1 2` is delivered. -/
theorem ClientSits_Validate_range_witness :
    ValidateName "client1" = none
    ∧ (NewClientSits "client1" 3 2).Validate = some (GoError.New ErrValueTooBig)
    ∧ (NewClientSits "client1" 0 2).Validate = some (GoError.New ErrValueMustBeMoreThanZero)
    ∧ (fileParser ["10:00 2 client1 3"] defaultParser).ReadEvents 2 =
        some [{ Event := none, Err := some (GoError.ValidationError 1 "value is too big") }]
    ∧ (fileParser ["10:00 2 client1 2"] defaultParser).ReadEvents 2 =
        some [wrap (NewIncomingEvent 600 Sits (NewClientSits "client1" 2 2))] :=
  ⟨by decide,
   (ClientSits_Validate_range "client1" 3 2 (by decide)).2.2.1 (by decide) (by decide),
   (ClientSits_Validate_range "client1" 0 2 (by decide)).2.1 (by decide),
   by decide, by decide⟩


/-! ## The parser -/

/-- The pieces of `explode` are as many as asked for. -/
theorem explode_length : ∀ (n : Nat) (s : List Char), n ≤ s.length → (explode n s).length = n := by
  intro n
  induction n using Nat.strong_induction_on with
  | _ n ih =>
    intro s hn
    match n, s with
    | 0, _ => rfl
    | 1, _ => rfl
    | k + 2, [] => simp at hn
    | k + 2, c :: rest =>
      simp only [explode, List.length_cons]
      rw [ih (k + 1) (by omega) rest (by simpa using hn)]

/-- No piece of `explode` is empty. -/
theorem explode_ne_nil : ∀ (n : Nat) (s : List Char), n ≤ s.length →
    ∀ x ∈ explode n s, x ≠ [] := by
  intro n
  induction n using Nat.strong_induction_on with
  | _ n ih =>
    intro s hn x hx
    match n, s with
    | 0, _ => simp [explode] at hx
    | 1, s =>
      simp only [explode, List.mem_singleton] at hx
      subst hx
      intro h
      rw [h] at hn
      simp at hn
    | k + 2, [] => simp at hn
    | k + 2, c :: rest =>
      simp only [explode, List.mem_cons] at hx
      rcases hx with hx | hx
      · rw [hx]; simp
      · exact ih (k + 1) (by omega) rest (by simpa using hn) x hx

/-- The loop of `genSplit` returns at least one piece. -/
theorem genSplit_ne_nil (sep : List Char) (n : Nat) (s : List Char) : genSplit sep n s ≠ [] := by
  cases n with
  | zero => simp [genSplit]
  | succ n =>
    simp only [genSplit]
    split <;> simp

/-- Unless both the text and the separator are empty, `Split` returns at least
one piece. -/
theorem Split_length_ne_zero (s sep : String) (h : sep.data ≠ [] ∨ s.data ≠ []) :
    (Split s sep).length ≠ 0 := by
  simp only [Split, SplitN]
  rw [if_neg (by decide)]
  cases hsep : sep.data with
  | nil =>
    have hs : s.data ≠ [] := by
      rcases h with h | h
      · exact absurd hsep h
      · exact h
    simp only [List.isEmpty_nil, if_true, List.length_map]
    rw [explode_length _ _ (by split <;> simp)]
    split
    · intro h0
      exact hs (List.length_eq_zero.mp h0)
    · rename_i hn
      exact absurd (Or.inl (by decide)) hn
  | cons c rest =>
    simp only [List.isEmpty_cons, Bool.false_eq_true, if_false, List.length_map]
    intro h0
    exact genSplit_ne_nil _ _ _ (List.length_eq_zero.mp h0)

/-- With an empty separator no piece of `SplitN` is empty. -/
theorem SplitN_ne_empty (s sep : String) (n : Int) (hsep : sep.data = []) :
    ∀ x ∈ SplitN s sep n, x.data ≠ [] := by
  intro x hx
  simp only [SplitN] at hx
  split at hx
  · simp at hx
  · simp only [hsep, List.isEmpty_nil, if_true, List.mem_map] at hx
    obtain ⟨y, hy, rfl⟩ := hx
    refine explode_ne_nil _ _ ?_ y hy
    split
    · exact le_refl _
    · rename_i hn
      simp only [not_or, not_lt] at hn
      omega

/-- Claim C29: `readEvent` returns an event only if the kind field is one of 1,
2, 3, 4 and the payload splits into exactly the number of fields of that kind,
two for Sits and one for the other kinds. On a line with the configured number
of fields and a time that parses, a kind that is an integer but none of the four
gives the `ValidationError` "unknown event type", and a payload with another
number of fields than the kind asks for gives the `ParseError` "invalid client
data format for event type", each with the row of the line; these are the
answers of `parseIncomingEventType` and of `parseClientData` on any text. -/
theorem readEvent_kind_and_arity (p : FileParser) :
    (∀ e : IncomingEvent, p.readEvent = some (some e, none) →
      knownKind e.Typ
      ∧ ∃ (a b c : String) (rest : List String),
          SplitN p.scanner.text p.cfg.EventInfoSeparator p.cfg.DistinctEventInfoCount
            = a :: b :: c :: rest
          ∧ Atoi b = some e.Typ
          ∧ ((Split c p.cfg.EventInfoSeparator).length : Int)
              = if e.Typ = Sits then 2 else 1)
    ∧ (∀ (a b c : String) (rest : List String) (t k : Int),
        SplitN p.scanner.text p.cfg.EventInfoSeparator p.cfg.DistinctEventInfoCount
          = a :: b :: c :: rest →
        ((a :: b :: c :: rest).length : Int) = p.cfg.DistinctEventInfoCount →
        parseTime p.cfg.TimeFormat a = some t → Atoi b = some k →
        (¬ knownKind k →
          p.readEvent =
            some (none, some (GoError.ValidationError p.rowNumber ErrUnknownEventType)))
        ∧ (knownKind k →
            ((Split c p.cfg.EventInfoSeparator).length : Int) ≠ (if k = Sits then 2 else 1) →
            p.readEvent =
              some (none, some (GoError.ParseError p.rowNumber ErrClientDataInvalidFormat
                none))))
    ∧ (∀ (s : String) (k : Int), Atoi s = some k → ¬ knownKind k →
        p.parseIncomingEventType s =
          (0, some (GoError.ValidationError p.rowNumber ErrUnknownEventType)))
    ∧ (∀ (eventType : IncomingEventType) (s : String),
        (Split s p.cfg.EventInfoSeparator).length ≠ 0 →
        ((Split s p.cfg.EventInfoSeparator).length : Int) ≠ GetValidClientDataSize eventType →
        p.parseClientData eventType s =
          (none, some (GoError.ParseError p.rowNumber ErrClientDataInvalidFormat none))) := by
  refine ⟨?_, ?_, fun s k ha hk => parseIncomingEventType_unknown p s k ha hk,
    fun eventType s h0 hsize => parseClientData_arity p eventType s h0 hsize⟩
  · intro e h
    obtain ⟨a, b, c, rest, hsplit, -, hatoi, hk, hcd⟩ := readEvent_ok p e h
    refine ⟨hk, a, b, c, rest, hsplit, hatoi, ?_⟩
    have hsize := (parseClientData_validated p e.Typ c e.Client hcd e.HappensAt).2.1
    rw [size_of_knownKind] at hsize
    rw [hsize]
    by_cases hs : e.Typ = Sits
    · rw [if_pos hs, if_pos hs]
    · rw [if_neg hs, if_neg hs, if_pos hk]
  · intro a b c rest t k hsplit hlen htime hatoi
    have hread := readEvent_fields p a b c rest hsplit hlen
    rw [htime] at hread
    simp only [] at hread
    refine ⟨?_, ?_⟩
    · intro hk
      rw [hread, parseIncomingEventType_unknown p b k hatoi hk]
    · intro hk hsize
      have hc : p.cfg.EventInfoSeparator.data ≠ [] ∨ c.data ≠ [] := by
        by_cases hsep : p.cfg.EventInfoSeparator.data = []
        · refine Or.inr (SplitN_ne_empty p.scanner.text p.cfg.EventInfoSeparator
            p.cfg.DistinctEventInfoCount hsep c ?_)
          rw [hsplit]
          simp
        · exact Or.inl hsep
      have h0 := Split_length_ne_zero c p.cfg.EventInfoSeparator hc
      have hsize2 : ((Split c p.cfg.EventInfoSeparator).length : Int)
          ≠ GetValidClientDataSize k := by
        rw [size_of_knownKind]
        by_cases hs : k = Sits
        · rw [if_pos hs] at hsize ⊢
          exact hsize
        · rw [if_neg hs] at hsize
          rw [if_neg hs, if_pos hk]
          exact hsize
      rw [hread, parseIncomingEventType_known p b k hatoi hk]
      simp only []
      rw [parseClientData_arity p k c h0 hsize2]

/-- Claim C29, evaluated with the default configuration on row 5: the kind 7 is
unknown, a Sit without a table and an Arrive with two fields have the wrong
number of fields, and a Sit with a table is read. -/
theorem readEvent_kind_and_arity_witness :
    (FileParser.mk ⟨[], "10:00 7 client1"⟩ defaultParser 5 3).readEvent
        = some (none, some (GoError.ValidationError 5 ErrUnknownEventType))
    ∧ (FileParser.mk ⟨[], "10:00 2 client1"⟩ defaultParser 5 3).readEvent
        = some (none, some (GoError.ParseError 5 ErrClientDataInvalidFormat none))
    ∧ (FileParser.mk ⟨[], "10:00 1 client1 2"⟩ defaultParser 5 3).readEvent
        = some (none, some (GoError.ParseError 5 ErrClientDataInvalidFormat none))
    ∧ (knownKind (NewIncomingEvent 600 Sits (NewClientSits "client1" 2 3)).Typ
      ∧ ∃ (a b c : String) (rest : List String),
          SplitN (FileParser.mk ⟨[], "10:00 2 client1 2"⟩ defaultParser 5 3).scanner.text
            (FileParser.mk ⟨[], "10:00 2 client1 2"⟩ defaultParser 5 3).cfg.EventInfoSeparator
            (FileParser.mk ⟨[], "10:00 2 client1 2"⟩ defaultParser 5
              3).cfg.DistinctEventInfoCount
            = a :: b :: c :: rest
          ∧ Atoi b = some (NewIncomingEvent 600 Sits (NewClientSits "client1" 2 3)).Typ
          ∧ ((Split c (FileParser.mk ⟨[], "10:00 2 client1 2"⟩ defaultParser 5
                3).cfg.EventInfoSeparator).length : Int)
              = if (NewIncomingEvent 600 Sits (NewClientSits "client1" 2 3)).Typ = Sits
                then 2 else 1) :=
  ⟨((readEvent_kind_and_arity (FileParser.mk ⟨[], "10:00 7 client1"⟩ defaultParser 5 3)).2.1
      "10:00" "7" "client1" [] 600 7 (by decide) (by decide) (by decide) (by decide)).1
      (by decide),
   ((readEvent_kind_and_arity (FileParser.mk ⟨[], "10:00 2 client1"⟩ defaultParser 5 3)).2.1
      "10:00" "2" "client1" [] 600 2 (by decide) (by decide) (by decide) (by decide)).2
      (by decide) (by decide),
   ((readEvent_kind_and_arity (FileParser.mk ⟨[], "10:00 1 client1 2"⟩ defaultParser 5 3)).2.1
      "10:00" "1" "client1 2" [] 600 1 (by decide) (by decide) (by decide) (by decide)).2
      (by decide) (by decide),
   (readEvent_kind_and_arity (FileParser.mk ⟨[], "10:00 2 client1 2"⟩ defaultParser 5 3)).1
      (NewIncomingEvent 600 Sits (NewClientSits "client1" 2 3)) (by decide)⟩


/-- The scan of a parser with no line left. -/
theorem scanWithRowNumber_nil (p : FileParser) (h : p.scanner.lines = []) :
    p.scanWithRowNumber =
      (false, { p with rowNumber := p.rowNumber + 1, scanner := { p.scanner with text := "" } }) := by
  simp [FileParser.scanWithRowNumber, Scanner.Scan, h]

/-- The scan of a parser with a line left. -/
theorem scanWithRowNumber_cons (p : FileParser) (line : String) (rest : List String)
    (h : p.scanner.lines = line :: rest) :
    p.scanWithRowNumber =
      (true, { p with rowNumber := p.rowNumber + 1, scanner := { lines := rest, text := line } }) := by
  simp [FileParser.scanWithRowNumber, Scanner.Scan, h]

/-- The method `readTablesCount` with the validation `MoreThenZero`, by the line
it reads. -/
theorem readTablesCount_eq (p : FileParser) :
    (p.readTablesCount MoreThenZero).1 =
      match p.scanner.lines with
      | [] => (0, some (GoError.ParseError (p.rowNumber + 1) ErrTablesCountNotSpecified none))
      | line :: _ =>
        match Atoi line with
        | none =>
          (0, some (GoError.ParseError (p.rowNumber + 1) ErrTablesCountInvalidFormat
            (some atoiFailed)))
        | some n =>
          if n ≤ 0 then
            (0, some (GoError.ValidationError (p.rowNumber + 1) ErrValueMustBeMoreThanZero))
          else (n, none) := by
  cases h : p.scanner.lines with
  | nil => simp [FileParser.readTablesCount, scanWithRowNumber_nil p h]
  | cons line rest =>
    simp only [FileParser.readTablesCount, scanWithRowNumber_cons p line rest h]
    cases ha : Atoi line with
    | none => rfl
    | some n =>
      simp only [MoreThenZero]
      by_cases hn : n ≤ 0
      · rw [if_pos hn, if_neg (by omega)]
        rfl
      · rw [if_neg hn, if_pos (by omega)]

/-- The method `readPricePerHour` with the validation `MoreThenZero`, by the
line it reads. -/
theorem readPricePerHour_eq (p : FileParser) :
    (p.readPricePerHour MoreThenZero).1 =
      match p.scanner.lines with
      | [] => (0, some (GoError.ParseError (p.rowNumber + 1) ErrPricePerHourNotSpecified none))
      | line :: _ =>
        match Atoi line with
        | none =>
          (0, some (GoError.ParseError (p.rowNumber + 1) ErrPricePerHourInvalidFormat
            (some atoiFailed)))
        | some n =>
          if n ≤ 0 then
            (0, some (GoError.ValidationError (p.rowNumber + 1) ErrValueMustBeMoreThanZero))
          else (n, none) := by
  cases h : p.scanner.lines with
  | nil => simp [FileParser.readPricePerHour, scanWithRowNumber_nil p h]
  | cons line rest =>
    simp only [FileParser.readPricePerHour, scanWithRowNumber_cons p line rest h]
    cases ha : Atoi line with
    | none => rfl
    | some n =>
      simp only [MoreThenZero]
      by_cases hn : n ≤ 0
      · rw [if_pos hn, if_neg (by omega)]
        rfl
      · rw [if_neg hn, if_pos (by omega)]

/-- A count is returned without an error only if it is at least one. -/
theorem readTablesCount_pos (p : FileParser) (n : Int)
    (h : (p.readTablesCount MoreThenZero).1 = (n, none)) : 1 ≤ n := by
  rw [readTablesCount_eq] at h
  split at h
  · simp at h
  · split at h
    · simp at h
    · split at h
      · simp at h
      · simp only [Prod.mk.injEq, and_true] at h
        omega

/-- A price is returned without an error only if it is at least one. -/
theorem readPricePerHour_pos (p : FileParser) (n : Int)
    (h : (p.readPricePerHour MoreThenZero).1 = (n, none)) : 1 ≤ n := by
  rw [readPricePerHour_eq] at h
  split at h
  · simp at h
  · split at h
    · simp at h
    · split at h
      · simp at h
      · simp only [Prod.mk.injEq, and_true] at h
        omega

/-- Each of the three reads counts one row. -/
theorem read_rowNumber (p : FileParser) (validate : Int → Option GoError) :
    (p.readTablesCount validate).2.rowNumber = p.rowNumber + 1
    ∧ p.readWorkingTime.2.rowNumber = p.rowNumber + 1
    ∧ (p.readPricePerHour validate).2.rowNumber = p.rowNumber + 1 := by
  cases h : p.scanner.lines with
  | nil =>
    simp only [FileParser.readTablesCount, FileParser.readWorkingTime,
      FileParser.readPricePerHour, scanWithRowNumber_nil p h]
    simp
  | cons line rest =>
    simp only [FileParser.readTablesCount, FileParser.readWorkingTime,
      FileParser.readPricePerHour, scanWithRowNumber_cons p line rest h]
    refine ⟨?_, ?_, ?_⟩
    · repeat' split
      all_goals rfl
    · repeat' split
      all_goals rfl
    · repeat' split
      all_goals rfl

/-- The core data `ReadCoreData` returns hold what the two reads returned. -/
theorem ReadCoreData_ok (p : FileParser) (cd : CoreData)
    (h : p.ReadCoreData.1 = (some cd, none)) :
    (p.readTablesCount MoreThenZero).1 = (cd.TablesCount, none)
    ∧ ∃ p2 : FileParser, (p2.readPricePerHour MoreThenZero).1 = (cd.PricePerHour, none)
        ∧ p2.rowNumber = p.rowNumber + 2 := by
  simp only [FileParser.ReadCoreData] at h
  rcases h1 : p.readTablesCount MoreThenZero with ⟨⟨n, _ | err⟩, p1⟩
  swap
  · rw [h1] at h; simp at h
  rw [h1] at h
  simp only [] at h
  rcases h2 : p1.readWorkingTime with ⟨⟨_ | wt, _ | err⟩, p2⟩
  · rw [h2] at h; simp at h
  · rw [h2] at h; simp at h
  swap
  · rw [h2] at h; simp at h
  rw [h2] at h
  simp only [] at h
  rcases h3 : p2.readPricePerHour MoreThenZero with ⟨⟨k, _ | err⟩, p3⟩
  swap
  · rw [h3] at h; simp at h
  rw [h3] at h
  simp only [Prod.mk.injEq, Option.some.injEq, and_true] at h
  subst h
  refine ⟨rfl, p2, by rw [h3]; rfl, ?_⟩
  have r1 := (read_rowNumber p MoreThenZero).1
  have r2 := (read_rowNumber p1 MoreThenZero).2.1
  rw [h1] at r1
  rw [h2] at r2
  simp only [] at r1 r2
  rw [r2, r1]
  ring

/-- Claim C30: `readTablesCount` and `readPricePerHour`, called with the
validation `MoreThenZero` as `ReadCoreData` calls them, return a value without
an error only if it is at least one. With no line left they return the
`ParseError` "... are not specified", on a line that `Atoi` rejects the
`ParseError` "... are not integer", on an integer of zero or less the
`ValidationError` "value must be more than zero", each with the number of the
row, which every read advances by one from zero; so the core data that
`ReadCoreData` returns have at least one table and a price of at least one. -/
theorem read_counts_positive (p : FileParser) :
    (∀ n : Int, (p.readTablesCount MoreThenZero).1 = (n, none) → 1 ≤ n)
    ∧ (∀ n : Int, (p.readPricePerHour MoreThenZero).1 = (n, none) → 1 ≤ n)
    ∧ (p.scanner.lines = [] →
        (p.readTablesCount MoreThenZero).1 =
          (0, some (GoError.ParseError (p.rowNumber + 1) ErrTablesCountNotSpecified none))
        ∧ (p.readPricePerHour MoreThenZero).1 =
          (0, some (GoError.ParseError (p.rowNumber + 1) ErrPricePerHourNotSpecified none)))
    ∧ (∀ (line : String) (rest : List String), p.scanner.lines = line :: rest →
        Atoi line = none →
        (p.readTablesCount MoreThenZero).1 =
          (0, some (GoError.ParseError (p.rowNumber + 1) ErrTablesCountInvalidFormat
            (some atoiFailed)))
        ∧ (p.readPricePerHour MoreThenZero).1 =
          (0, some (GoError.ParseError (p.rowNumber + 1) ErrPricePerHourInvalidFormat
            (some atoiFailed))))
    ∧ (∀ (line : String) (rest : List String) (n : Int), p.scanner.lines = line :: rest →
        Atoi line = some n → n ≤ 0 →
        (p.readTablesCount MoreThenZero).1 =
          (0, some (GoError.ValidationError (p.rowNumber + 1) ErrValueMustBeMoreThanZero))
        ∧ (p.readPricePerHour MoreThenZero).1 =
          (0, some (GoError.ValidationError (p.rowNumber + 1) ErrValueMustBeMoreThanZero)))
    ∧ (∀ (line : String) (rest : List String) (n : Int), p.scanner.lines = line :: rest →
        Atoi line = some n → 1 ≤ n →
        (p.readTablesCount MoreThenZero).1 = (n, none)
        ∧ (p.readPricePerHour MoreThenZero).1 = (n, none))
    ∧ ((p.readTablesCount MoreThenZero).2.rowNumber = p.rowNumber + 1
        ∧ p.readWorkingTime.2.rowNumber = p.rowNumber + 1
        ∧ (p.readPricePerHour MoreThenZero).2.rowNumber = p.rowNumber + 1)
    ∧ (∀ cd : CoreData, p.ReadCoreData.1 = (some cd, none) →
        1 ≤ cd.TablesCount ∧ 1 ≤ cd.PricePerHour) := by
  refine ⟨readTablesCount_pos p, readPricePerHour_pos p, ?_, ?_, ?_, ?_,
    read_rowNumber p MoreThenZero, ?_⟩
  · intro h
    rw [readTablesCount_eq, readPricePerHour_eq, h]
    exact ⟨rfl, rfl⟩
  · intro line rest h ha
    rw [readTablesCount_eq, readPricePerHour_eq, h]
    simp [ha]
  · intro line rest n h ha hn
    rw [readTablesCount_eq, readPricePerHour_eq, h]
    simp [ha, hn]
  · intro line rest n h ha hn
    rw [readTablesCount_eq, readPricePerHour_eq, h]
    simp [ha, show ¬ n ≤ 0 by omega]
  · intro cd h
    obtain ⟨h1, p2, h2, -⟩ := ReadCoreData_ok p cd h
    exact ⟨readTablesCount_pos p _ h1, readPricePerHour_pos p2 _ h2⟩

/-- Claim C30, evaluated: a file whose first line is `0` fails on row 1, a file
with the price `0` on its third line fails on row 3, a file that ends after two
lines fails on row 3 with the price not specified, and the core data read from
`3`, `10:00 20:00`, `10` have three tables and the price 10. -/
theorem read_counts_positive_witness :
    ((fileParser ["0"] defaultParser).readTablesCount MoreThenZero).1 =
        (0, some (GoError.ValidationError ((fileParser ["0"] defaultParser).rowNumber + 1)
          ErrValueMustBeMoreThanZero))
    ∧ (fileParser ["0"] defaultParser).rowNumber + 1 = 1
    ∧ (fileParser ["3", "10:00 20:00", "0"] defaultParser).ReadCoreData.1 =
        (none, some (GoError.ValidationError 3 "value must be more than zero"))
    ∧ (fileParser ["3", "10:00 20:00"] defaultParser).ReadCoreData.1 =
        (none, some (GoError.ParseError 3 "price per hour are not specified" none))
    ∧ (fileParser ["x", "10:00 20:00", "10"] defaultParser).ReadCoreData.1 =
        (none, some (GoError.ParseError 1 "tables count are not integer" (some atoiFailed)))
    ∧ (fileParser ["3", "10:00 20:00", "10"] defaultParser).ReadCoreData.1 =
        (some (NewCoreData 3 10 ⟨600, 1200⟩), none)
    ∧ (1 ≤ (NewCoreData 3 10 ⟨600, 1200⟩).TablesCount
        ∧ 1 ≤ (NewCoreData 3 10 ⟨600, 1200⟩).PricePerHour) :=
  ⟨((read_counts_positive (fileParser ["0"] defaultParser)).2.2.2.2.1 "0" [] 0 rfl
      (by decide) (by decide)).1,
   by decide, by decide, by decide, by decide, by decide,
   (read_counts_positive (fileParser ["3", "10:00 20:00", "10"] defaultParser)).2.2.2.2.2.2.2
      (NewCoreData 3 10 ⟨600, 1200⟩) (by decide)⟩

/-! ## Invariants of the reachable states -/

/-- One processed event changes the presence map, the occupancy and the queue
in one of the ways of `Transition`. -/
theorem processEvent_transition {p q : EventProcessorImpl} {event : IncomingEvent}
    (hq : processEvent p event = some q) : Transition p event q := by
  unfold processEvent at hq
  split at hq
  · rename_i hty
    have hq2 := (Option.some.inj hq).symm
    unfold processArrives at hq2
    split at hq2
    · rw [hq2]; exact Transition.same rfl rfl rfl
    · split at hq2
      · rw [hq2]; exact Transition.same rfl rfl rfl
      · rename_i _ habs
        rw [hq2]
        refine Transition.arrive hty ?_ rfl rfl rfl
        cases hg : p.clients.Get event.Client.GetName with
        | none => rfl
        | some x => rw [hg] at habs; exact absurd rfl habs
  · split at hq
    · rename_i _ hty
      rcases processSits_cases hq with h1 | h1 | ⟨name, table, m, cur, hcl, hc, hfree, h1 | h1⟩
      · rw [h1]; exact Transition.same rfl rfl rfl
      · rw [h1]; exact Transition.same rfl rfl rfl
      · have hn : event.Client.GetName = name := by rw [hcl]; rfl
        rw [h1.2]
        refine Transition.sit table m hty (by rw [hn]; exact hcl)
          (by rw [hn, hc, h1.1]) hfree (by rw [hn]) rfl rfl
      · have hn : event.Client.GetName = name := by rw [hcl]; rfl
        rw [h1.2]
        refine Transition.move table m cur hty (by rw [hn]; exact hcl)
          (by rw [hn, hc]) h1.1 hfree (by rw [hn]; simp) (by simp) (by simp)
    · split at hq
      · rename_i _ _ hty
        have hq2 := (Option.some.inj hq).symm
        unfold processWaits at hq2
        split at hq2
        · rw [hq2]; exact Transition.same rfl rfl rfl
        · split at hq2
          · rw [hq2]; exact Transition.same rfl rfl rfl
          · rename_i h1 h2
            rw [hq2]
            exact Transition.wait hty (by omega) (by omega) rfl rfl rfl
      · split at hq
        · rename_i _ _ _ hty
          rcases processLeaves_cases hq with
            h1 | h1 | ⟨X, hc, hX, hqe, h1⟩ | ⟨X, hd, rest, hc, hX, hqe, h1⟩
          · rw [h1.2]; exact Transition.same rfl rfl rfl
          · rw [h1.2]; exact Transition.leaveIdle hty h1.1 rfl rfl rfl
          · rw [h1]
            exact Transition.leaveFree X hty hc hX hqe (by simp) (by simp) (by simp)
          · rw [h1]
            exact Transition.leaveSeat X hd rest hty hc hX hqe (by simp) (by simp) (by simp)
        · rw [← Option.some.inj hq]; exact Transition.same rfl rfl rfl

/-- One processed event keeps the queue within `TablesCount`. -/
theorem queueBounded_processEvent {p q : EventProcessorImpl} {event : IncomingEvent}
    (h : p.waitingQueue.Len ≤ p.coreData.TablesCount) (hq : processEvent p event = some q) :
    q.waitingQueue.Len ≤ p.coreData.TablesCount := by
  cases processEvent_transition hq with
  | same _ _ h3 => rw [h3]; exact h
  | arrive _ _ _ _ h3 => rw [h3]; exact h
  | sit _ _ _ _ _ _ _ _ h3 => rw [h3]; exact h
  | move _ _ _ _ _ _ _ _ _ _ h3 => rw [h3]; exact h
  | wait _ _ hlen _ _ h3 =>
    rw [h3]
    simp only [InMemoryQueue.Len, List.length_append, List.length_singleton, Nat.cast_add,
      Nat.cast_one] at hlen ⊢
    omega
  | leaveIdle _ _ _ _ h3 => rw [h3]; exact h
  | leaveFree _ _ _ _ _ _ _ h3 => rw [h3]; exact h
  | leaveSeat X hd rest _ _ _ hqe _ _ h3 =>
    rw [h3]
    simp only [InMemoryQueue.Len, hqe, List.length_cons, Nat.cast_add, Nat.cast_one] at h ⊢
    omega

/-- In every reachable state the queue is within `TablesCount`, when that is
not negative. -/
theorem Reachable.queueBounded {cfg : Processor} {coreData : CoreData}
    {p : EventProcessorImpl} (hr : Reachable cfg coreData p) (htc : 0 ≤ coreData.TablesCount) :
    p.waitingQueue.Len ≤ coreData.TablesCount := by
  induction hr with
  | start => exact htc
  | step event hprev hstep ih =>
    have hcd := hprev.coreData_eq
    have h := queueBounded_processEvent (p := writeOutEvent _ (.incoming event))
      (by rw [show (writeOutEvent _ (.incoming event)).coreData = _ from hcd]; exact ih) hstep
    rw [show (writeOutEvent _ (.incoming event)).coreData = _ from hcd] at h
    exact h

/-- Claim C31: in every state reachable from the empty club by input events,
whatever they are, the waiting queue is no longer than `TablesCount`, for a club
whose number of tables is not negative. -/
theorem queue_length_bounded (cfg : Processor) (coreData : CoreData) (p : EventProcessorImpl)
    (htc : 0 ≤ coreData.TablesCount) (hr : Reachable cfg coreData p) :
    p.waitingQueue.Len ≤ coreData.TablesCount
    ∧ (p.waitingQueue.queue.length : Int) ≤ coreData.TablesCount :=
  ⟨hr.queueBounded htc, hr.queueBounded htc⟩

/-- Claim C31, evaluated in the club of one table where client1 is seated and
client2 waits: the queue holds one client. -/
theorem queue_length_bounded_witness :
    (0 ≤ scenarioCore.TablesCount ∧ Reachable testCfg scenarioCore seatedAndQueued)
    ∧ seatedAndQueued.waitingQueue.Len ≤ scenarioCore.TablesCount
    ∧ seatedAndQueued.waitingQueue.queue.length = 1 :=
  ⟨⟨by decide, @Reachable.of_afterEvents _ _ seatedAndQueuedEvents _ (by decide)⟩,
   (queue_length_bounded testCfg scenarioCore seatedAndQueued (by decide)
      (@Reachable.of_afterEvents _ _ seatedAndQueuedEvents _ (by decide))).1,
   by decide⟩

/-- Claim C35: in every state reachable from the empty club, a client whose
presence entry is a real table, not the sentinel -1, is the client named by the
occupancy entry of that table; so two clients mapped to the same real table are
the same client. -/
theorem seated_client_occupies (cfg : Processor) (coreData : CoreData)
    (p : EventProcessorImpl) (hr : Reachable cfg coreData p) :
    (∀ (c : String) (X : Int), p.clients.Get c = some X → X ≠ -1 →
      ∃ ev : IncomingEvent, p.tables.Get X = some ev ∧ ev.Client.GetName = c)
    ∧ (∀ (c d : String) (X : Int), p.clients.Get c = some X → p.clients.Get d = some X →
        X ≠ -1 → c = d) :=
  ⟨hr.seatedConsistent, fun _ _ _ hc hd hX => hr.seatedConsistent.inj hc hd hX⟩

/-- Claim C35, evaluated in the club of one table where client1 is seated and
client2 waits: client1 is the recorded occupant of table 1. -/
theorem seated_client_occupies_witness :
    Reachable testCfg scenarioCore seatedAndQueued
    ∧ (seatedAndQueued.clients.Get "client1" = some 1 ∧ (1 : Int) ≠ -1)
    ∧ ∃ ev : IncomingEvent, seatedAndQueued.tables.Get 1 = some ev
        ∧ ev.Client.GetName = "client1" :=
  ⟨@Reachable.of_afterEvents _ _ seatedAndQueuedEvents _ (by decide),
   ⟨by decide, by decide⟩,
   (seated_client_occupies testCfg scenarioCore seatedAndQueued
      (@Reachable.of_afterEvents _ _ seatedAndQueuedEvents _ (by decide))).1
      "client1" 1 (by decide) (by decide)⟩


/-! ## Runs that keep the discipline of waiting -/

/-- The number of entries after a key that was free is set. -/
theorem InMemoryStorage.Len_Set_of_free {K V : Type} [DecidableEq K] (i : InMemoryStorage K V)
    (k : K) (v : V) (h : i.Get k = none) : (i.Set k v).Len = i.Len + 1 := by
  have hl := length_kerase (V := V) k i.entries i.nodupKeys
  simp only [InMemoryStorage.Set, InMemoryStorage.Len, InMemoryStorage.Get, AList.lookup,
    AList.insert, List.kinsert, List.length_cons, Nat.cast_add, Nat.cast_one] at hl h ⊢
  rw [hl, h]
  simp

/-- The number of entries after a key that was set is deleted. -/
theorem InMemoryStorage.Len_Delete_of_some {K V : Type} [DecidableEq K]
    (i : InMemoryStorage K V) (k : K) (h : (i.Get k).isSome) : (i.Delete k).Len = i.Len - 1 := by
  have hl := length_kerase (V := V) k i.entries i.nodupKeys
  rw [InMemoryStorage.Delete_eq_erase]
  simp only [InMemoryStorage.Len, InMemoryStorage.Get, AList.lookup, AList.erase] at hl h ⊢
  rw [hl, if_pos h]

/-- When no fewer than `tc` of the club's `tc` tables are occupied, each of them
is. -/
theorem all_busy {tc : Int} {p : EventProcessorImpl} (h : TablesInRange tc p)
    (hlen : tc ≤ p.tables.Len) {T : Int} (h1 : 1 ≤ T) (h2 : T ≤ tc) :
    (p.tables.Get T).isSome := by
  have hsub : p.tables.keys ⊆ tableNumbers tc := by
    intro k hk
    rw [mem_tableNumbers]
    exact h k ((InMemoryStorage.mem_keys_iff _ _).mp hk)
  have hsp := List.subperm_of_subset p.tables.keys_nodup hsub
  have hl : (tableNumbers tc).length ≤ p.tables.keys.length := by
    rw [length_tableNumbers]
    have : p.tables.Len = (p.tables.keys.length : Int) := by
      simp [InMemoryStorage.Len, AList.keys, List.keys]
    omega
  have hperm := hsp.perm_of_length_le hl
  rw [← InMemoryStorage.mem_keys_iff]
  exact hperm.mem_iff.mpr (mem_tableNumbers.mpr ⟨h1, h2⟩)

/-- The names in a queue that a client joins. -/
theorem queuedNames_push (p q : EventProcessorImpl) (client : ClientData)
    (h : q.waitingQueue = { p.waitingQueue with queue := p.waitingQueue.queue ++ [some client] }) :
    queuedNames q = queuedNames p ++ [client.GetName] := by
  simp [queuedNames, h, List.filterMap_append]

/-- The names in a queue with a client at its head. -/
theorem queuedNames_cons (p : EventProcessorImpl) (head : ClientData)
    (rest : List (Option ClientData)) (h : p.waitingQueue.queue = some head :: rest) :
    queuedNames p = head.GetName :: rest.filterMap (fun x => x.map ClientData.GetName) := by
  simp [queuedNames, h]

/-- An empty queue holds no name. -/
theorem queuedNames_nil (p : EventProcessorImpl) (h : p.waitingQueue.queue = []) :
    queuedNames p = [] := by
  simp [queuedNames, h]

/-- While somebody waits, a delivered Sit finds its table occupied; so a Sit
that finds a free table finds an empty queue. -/
theorem queue_empty_of_free {tc : Int} {p : EventProcessorImpl} {event : IncomingEvent}
    {name : String} {table m : Int} (h : Tidy tc p) (hv : validated tc event = true)
    (hcl : event.Client = .ClientSits name table m) (hfree : p.tables.Get table = none) :
    p.waitingQueue.queue = [] := by
  by_contra hne
  obtain ⟨hcd, -, -, hrange, hbusy, -⟩ := h
  have hlen := hbusy hne
  rw [hcd] at hlen
  obtain ⟨h1, h2⟩ := table_of_validated hv hcl
  have := all_busy hrange hlen h1 h2
  rw [hfree] at this
  exact absurd this (by simp)

/-- One delivered event keeps the tables occupied while somebody waits. -/
theorem allBusy_step {p q : EventProcessorImpl} {event : IncomingEvent}
    (h : AllBusyWhenQueued p) (hsc : SeatedConsistent p) (ht : Transition p event q)
    (hcd : q.coreData = p.coreData) : AllBusyWhenQueued q := by
  unfold AllBusyWhenQueued at h ⊢
  rw [hcd]
  cases ht with
  | same _ h2 h3 => rw [h2, h3]; exact h
  | arrive _ _ _ h2 h3 => rw [h2, h3]; exact h
  | sit table m _ _ _ hfree _ h2 h3 =>
    rw [h2, h3, InMemoryStorage.Len_Set_of_free _ _ _ hfree]
    intro hne
    have := h hne
    omega
  | move table m cur _ _ hc hcur hfree _ h2 h3 =>
    obtain ⟨ev, hev, -⟩ := hsc _ cur hc hcur
    have hfree2 : (p.tables.Delete cur).Get table = none := by
      rw [InMemoryStorage.Get_Delete]
      split
      · rfl
      · exact hfree
    rw [h2, h3, InMemoryStorage.Len_Set_of_free _ _ _ hfree2,
      InMemoryStorage.Len_Delete_of_some _ _ (by rw [hev]; rfl)]
    intro hne
    have := h hne
    omega
  | wait _ hlen _ _ h2 _ =>
    rw [h2]
    intro _
    exact hlen
  | leaveIdle _ _ _ h2 h3 => rw [h2, h3]; exact h
  | leaveFree X _ _ _ hqe _ _ h3 =>
    rw [h3]
    intro hne
    exact absurd hqe hne
  | leaveSeat X hd rest _ hc hX hqe _ h2 _ =>
    obtain ⟨ev, hev, -⟩ := hsc _ X hc hX
    rw [h2, InMemoryStorage.Len_Set_of_free _ _ _ (InMemoryStorage.Get_Delete_self _ _),
      InMemoryStorage.Len_Delete_of_some _ _ (by rw [hev]; rfl)]
    intro _
    have := h (by rw [hqe]; simp)
    omega

/-- One delivered event keeps every recorded occupant present and mapped to its
table. -/
theorem occupants_step {tc : Int} {p q : EventProcessorImpl} {event : IncomingEvent}
    (h : Tidy tc p) (ht : Transition p event q) : Occupants q := by
  obtain ⟨-, -, -, hrange, -, hocc, hidle, -⟩ := h
  have hreal : ∀ (X : Int) (ev : IncomingEvent), p.tables.Get X = some ev → X ≠ -1 := by
    intro X ev hX
    have := hrange X (by rw [hX]; rfl)
    omega
  intro X ev hX
  cases ht with
  | same h1 h2 _ =>
    rw [h1]
    rw [h2] at hX
    exact hocc X ev hX
  | arrive _ habs h1 h2 _ =>
    rw [h2] at hX
    have hne : ev.Client.GetName ≠ event.Client.GetName := by
      intro e
      have := hocc X ev hX
      rw [e, habs] at this
      exact Option.noConfusion this
    rw [h1, InMemoryStorage.Get_Set_of_ne _ _ hne]
    exact hocc X ev hX
  | sit table m _ _ hc hfree h1 h2 _ =>
    rw [h2] at hX
    by_cases hXt : X = table
    · rw [hXt, InMemoryStorage.Get_Set_self] at hX
      rw [← Option.some.inj hX, h1, InMemoryStorage.Get_Set_self, hXt]
    · rw [InMemoryStorage.Get_Set_of_ne _ _ hXt] at hX
      have hne : ev.Client.GetName ≠ event.Client.GetName := by
        intro e
        have := hocc X ev hX
        rw [e, hc] at this
        exact hreal X ev hX (Option.some.inj this).symm
      rw [h1, InMemoryStorage.Get_Set_of_ne _ _ hne]
      exact hocc X ev hX
  | move table m cur _ _ hc hcur hfree h1 h2 _ =>
    rw [h2] at hX
    by_cases hXt : X = table
    · rw [hXt, InMemoryStorage.Get_Set_self] at hX
      rw [← Option.some.inj hX, h1, InMemoryStorage.Get_Set_self, hXt]
    · rw [InMemoryStorage.Get_Set_of_ne _ _ hXt, InMemoryStorage.Get_Delete] at hX
      split at hX
      · exact Option.noConfusion hX
      · rename_i hXc
        have hne : ev.Client.GetName ≠ event.Client.GetName := by
          intro e
          have := hocc X ev hX
          rw [e, hc] at this
          exact hXc (Option.some.inj this).symm
        rw [h1, InMemoryStorage.Get_Set_of_ne _ _ hne, InMemoryStorage.Get_Delete_of_ne _ hne]
        exact hocc X ev hX
  | wait _ _ _ h1 h2 _ =>
    rw [h1]
    rw [h2] at hX
    exact hocc X ev hX
  | leaveIdle _ hc h1 h2 _ =>
    rw [h2] at hX
    have hne : ev.Client.GetName ≠ event.Client.GetName := by
      intro e
      have := hocc X ev hX
      rw [e, hc] at this
      exact hreal X ev hX (Option.some.inj this).symm
    rw [h1, InMemoryStorage.Get_Delete_of_ne _ hne]
    exact hocc X ev hX
  | leaveFree X0 _ hc _ _ h1 h2 _ =>
    rw [h2, InMemoryStorage.Get_Delete] at hX
    split at hX
    · exact Option.noConfusion hX
    · rename_i hXc
      have hne : ev.Client.GetName ≠ event.Client.GetName := by
        intro e
        have := hocc X ev hX
        rw [e, hc] at this
        exact hXc (Option.some.inj this).symm
      rw [h1, InMemoryStorage.Get_Delete_of_ne _ hne]
      exact hocc X ev hX
  | leaveSeat X0 hd rest _ hc _ hqe h1 h2 _ =>
    rw [h2] at hX
    by_cases hXt : X = X0
    · rw [hXt, InMemoryStorage.Get_Set_self] at hX
      rw [← Option.some.inj hX, h1, hXt]
      exact InMemoryStorage.Get_Set_self _ _ _
    · rw [InMemoryStorage.Get_Set_of_ne _ _ hXt, InMemoryStorage.Get_Delete_of_ne _ hXt] at hX
      have hne : ev.Client.GetName ≠ event.Client.GetName := by
        intro e
        have := hocc X ev hX
        rw [e, hc] at this
        exact hXt (Option.some.inj this).symm
      have hnh : ev.Client.GetName ≠ hd.GetName := by
        intro e
        have h3 := hocc X ev hX
        have h4 := hidle hd.GetName (by rw [queuedNames_cons p hd rest hqe]; simp)
        rw [e, h4] at h3
        exact hreal X ev hX (Option.some.inj h3).symm
      rw [h1, InMemoryStorage.Get_Set_of_ne _ _ hnh, InMemoryStorage.Get_Set_of_ne _ _ hnh,
        InMemoryStorage.Get_Delete_of_ne _ hne]
      exact hocc X ev hX

/-- One delivered event that keeps the discipline keeps the queued clients
present, without a table and queued once. -/
theorem queued_step {tc : Int} {p q : EventProcessorImpl} {event : IncomingEvent}
    (h : Tidy tc p) (hv : validated tc event = true) (hd : disciplined p event)
    (ht : Transition p event q) : QueuedIdle q ∧ (queuedNames q).Nodup := by
  have hidle : QueuedIdle p := h.2.2.2.2.2.2.1
  have hnd : (queuedNames p).Nodup := h.2.2.2.2.2.2.2
  have hsame : ∀ {q : EventProcessorImpl}, q.waitingQueue = p.waitingQueue →
      queuedNames q = queuedNames p := by
    intro q hq
    simp [queuedNames, hq]
  cases ht with
  | same h1 _ h3 =>
    refine ⟨?_, by rw [hsame h3]; exact hnd⟩
    intro n hn
    rw [hsame h3] at hn
    rw [h1]
    exact hidle n hn
  | arrive _ _ h1 _ h3 =>
    refine ⟨?_, by rw [hsame h3]; exact hnd⟩
    intro n hn
    rw [hsame h3] at hn
    rw [h1]
    by_cases hne : n = event.Client.GetName
    · rw [hne]; exact InMemoryStorage.Get_Set_self _ _ _
    · rw [InMemoryStorage.Get_Set_of_ne _ _ hne]
      exact hidle n hn
  | sit table m _ hcl _ hfree _ _ h3 =>
    have hq0 := queuedNames_nil p (queue_empty_of_free h hv hcl hfree)
    refine ⟨?_, by rw [hsame h3, hq0]; exact List.nodup_nil⟩
    intro n hn
    rw [hsame h3, hq0] at hn
    exact absurd hn (List.not_mem_nil _)
  | move table m cur _ hcl _ _ hfree _ _ h3 =>
    have hq0 := queuedNames_nil p (queue_empty_of_free h hv hcl hfree)
    refine ⟨?_, by rw [hsame h3, hq0]; exact List.nodup_nil⟩
    intro n hn
    rw [hsame h3, hq0] at hn
    exact absurd hn (List.not_mem_nil _)
  | wait hty _ _ h1 _ h3 =>
    obtain ⟨hpres, hnew⟩ := hd.1 hty
    have hqn := queuedNames_push p q event.Client h3
    refine ⟨?_, ?_⟩
    · intro n hn
      rw [hqn, List.mem_append, List.mem_singleton] at hn
      rw [h1]
      rcases hn with hn | hn
      · exact hidle n hn
      · rw [hn]; exact hpres
    · rw [hqn]
      refine List.Nodup.append hnd (List.nodup_singleton _) ?_
      intro a ha hb
      rw [List.mem_singleton] at hb
      exact hnew (hb ▸ ha)
  | leaveIdle hty _ h1 _ h3 =>
    have hnew := hd.2 hty
    refine ⟨?_, by rw [hsame h3]; exact hnd⟩
    intro n hn
    rw [hsame h3] at hn
    have hne : n ≠ event.Client.GetName := fun e => hnew (e ▸ hn)
    rw [h1, InMemoryStorage.Get_Delete_of_ne _ hne]
    exact hidle n hn
  | leaveFree X0 _ _ _ hqe _ _ h3 =>
    have hq0 := queuedNames_nil p hqe
    refine ⟨?_, by rw [hsame h3, hq0]; exact List.nodup_nil⟩
    intro n hn
    rw [hsame h3, hq0] at hn
    exact absurd hn (List.not_mem_nil _)
  | leaveSeat X0 hd0 rest hty _ _ hqe h1 _ h3 =>
    have hnew := hd.2 hty
    have hpn := queuedNames_cons p hd0 rest hqe
    have hqn : queuedNames q = rest.filterMap (fun x => x.map ClientData.GetName) := by
      simp [queuedNames, h3]
    rw [hpn] at hnd hnew
    rw [List.nodup_cons] at hnd
    refine ⟨?_, by rw [hqn]; exact hnd.2⟩
    intro n hn
    rw [hqn] at hn
    have hnh : n ≠ hd0.GetName := fun e => hnd.1 (e ▸ hn)
    have hne : n ≠ event.Client.GetName := fun e => hnew (e ▸ List.mem_cons_of_mem _ hn)
    rw [h1, InMemoryStorage.Get_Set_of_ne _ _ hnh, InMemoryStorage.Get_Set_of_ne _ _ hnh,
      InMemoryStorage.Get_Delete_of_ne _ hne]
    exact hidle n (by rw [hpn]; exact List.mem_cons_of_mem _ hn)

/-- One delivered event that keeps the discipline keeps the invariants. -/
theorem tidy_step {tc : Int} {p q : EventProcessorImpl} {event : IncomingEvent}
    (h : Tidy tc p) (hv : validated tc event = true) (hd : disciplined p event)
    (hq : processEvent p event = some q) : Tidy tc q := by
  have ht := processEvent_transition hq
  have hcd := processEvent_coreData hq
  obtain ⟨hqi, hqn⟩ := queued_step h hv hd ht
  have hocc := occupants_step h ht
  obtain ⟨htc, hnn, hsc, hrange, hbusy, -⟩ := h
  exact ⟨by rw [hcd]; exact htc, queueNonNil_processEvent hnn hq,
    seatedConsistent_processEvent hsc hq, tablesInRange_processEvent hrange hsc hv hq,
    allBusy_step hbusy hsc ht hcd, hocc, hqi, hqn⟩

/-- Every state of a disciplined run satisfies the invariants. -/
theorem ReachableDisciplined.tidy {cfg : Processor} {coreData : CoreData}
    {p : EventProcessorImpl} (h : ReachableDisciplined cfg coreData p) :
    Tidy coreData.TablesCount p := by
  induction h with
  | start =>
    refine ⟨rfl, ?_, ?_, ?_, ?_, ?_, ?_, ?_⟩
    · intro x hx; simp [newClub, NewEventProcessor, NewInMemoryQueue] at hx
    · intro c X hc; simp [newClub, NewEventProcessor, InMemoryStorage.Get_New] at hc
    · intro k hk; simp [newClub, NewEventProcessor, InMemoryStorage.Get_New] at hk
    · intro hne; exact absurd rfl hne
    · intro X ev hX; simp [newClub, NewEventProcessor, InMemoryStorage.Get_New] at hX
    · intro n hn; simp [queuedNames, newClub, NewEventProcessor, NewInMemoryQueue] at hn
    · simp [queuedNames, newClub, NewEventProcessor, NewInMemoryQueue]
  | step event _ hv hd hstep ih =>
    exact tidy_step (p := writeOutEvent _ (.incoming event)) ih hv hd hstep

/-- A run that `disciplinedRun` completes stays among the disciplined states. -/
theorem reachableDisciplined_of_run {cfg : Processor} {coreData : CoreData} :
    ∀ (es : List IncomingEvent) (p q : EventProcessorImpl),
      ReachableDisciplined cfg coreData p →
      disciplinedRun coreData.TablesCount p es = some q →
      ReachableDisciplined cfg coreData q := by
  intro es
  induction es with
  | nil =>
    intro p q hp h
    simp only [disciplinedRun, Option.some.injEq] at h
    rw [← h]
    exact hp
  | cons e es ih =>
    intro p q hp h
    simp only [disciplinedRun] at h
    split at h
    · rename_i hc
      cases hstep : processEvent (writeOutEvent p (.incoming e)) e with
      | none => rw [hstep] at h; exact Option.noConfusion h
      | some r =>
        rw [hstep] at h
        exact ih r q (ReachableDisciplined.step e hp hc.1 hc.2 hstep) h
    · exact Option.noConfusion h

/-- A disciplined run is a run of delivered events. -/
theorem ReachableDisciplined.valid {cfg : Processor} {coreData : CoreData}
    {p : EventProcessorImpl} (h : ReachableDisciplined cfg coreData p) :
    ReachableValid cfg coreData p := by
  induction h with
  | start => exact ReachableValid.start
  | step event _ hv _ hstep ih => exact ReachableValid.step event ih hv hstep

/-- Claim C32, as the code has it: in every state reached by delivered events
of which every Wait comes from a client that is present, holds no table and is
not yet queued, and no Leave comes from a queued client, every name in the
waiting queue is a key of the presence map, mapped to no table. -/
theorem queued_client_present (cfg : Processor) (coreData : CoreData)
    (p : EventProcessorImpl) (hr : ReachableDisciplined cfg coreData p) :
    ∀ name ∈ queuedNames p,
      (p.clients.Get name).isSome ∧ p.clients.Get name = some (-1) := by
  intro name hn
  have h := hr.tidy.2.2.2.2.2.2.1 name hn
  exact ⟨by rw [h]; rfl, h⟩

/-- Claim C32, evaluated in the club of one table where client1 is seated and
client2, who arrived, waits. -/
theorem queued_client_present_witness :
    (ReachableDisciplined testCfg scenarioCore seatedAndQueued
      ∧ "client2" ∈ queuedNames seatedAndQueued)
    ∧ (seatedAndQueued.clients.Get "client2").isSome
    ∧ seatedAndQueued.clients.Get "client2" = some (-1) :=
  ⟨⟨reachableDisciplined_of_run seatedAndQueuedEvents _ _ ReachableDisciplined.start
      (by decide), by decide⟩,
   queued_client_present testCfg scenarioCore seatedAndQueued
    (reachableDisciplined_of_run seatedAndQueuedEvents _ _ ReachableDisciplined.start
      (by decide)) "client2" (by decide)⟩

/-- Claim C32 as stated fails: the events are delivered ones with times that do
not decrease; client2 never arrived, its Wait finds the only table occupied and
is queued, and client2 is not a key of the presence map. -/
theorem queued_client_absent :
    (∀ e ∈ absentWaitEvents, validated scenarioCore.TablesCount e = true)
    ∧ List.Pairwise (fun a b : Int => a ≤ b) (absentWaitEvents.map (fun e => e.HappensAt))
    ∧ afterEvents testCfg scenarioCore absentWaitEvents = some absentWaiter
    ∧ "client2" ∈ queuedNames absentWaiter
    ∧ absentWaiter.clients.Get "client2" = none := by
  decide

/-- Claim C33, as the code has it: in every state reached by delivered events
that keep the discipline of waiting (every Wait from a client that is present,
holds no table and is not yet queued, no Leave from a queued client) the waiting
queue holds no name more than once; and in a club of one table it holds no name
more than once on any run, since it holds at most one entry. -/
theorem queue_names_nodup (cfg : Processor) (coreData : CoreData) (p : EventProcessorImpl) :
    (ReachableDisciplined cfg coreData p → (queuedNames p).Nodup)
    ∧ (Reachable cfg coreData p → 0 ≤ coreData.TablesCount → coreData.TablesCount ≤ 1 →
        (queuedNames p).Nodup) := by
  refine ⟨fun hr => hr.tidy.2.2.2.2.2.2.2, ?_⟩
  intro hr h0 h1
  have hlen := hr.queueBounded h0
  have hle : (queuedNames p).length ≤ 1 := by
    have := List.length_filterMap_le (fun x : Option ClientData => x.map ClientData.GetName)
      p.waitingQueue.queue
    simp only [InMemoryQueue.Len] at hlen
    unfold queuedNames
    omega
  match hq : queuedNames p with
  | [] => exact List.nodup_nil
  | [a] => exact List.nodup_singleton a
  | a :: b :: rest =>
    rw [hq] at hle
    simp at hle

/-- Claim C33, evaluated: the queue of client2 alone in the club of one table,
on a disciplined run and as a reachable state. -/
theorem queue_names_nodup_witness :
    (ReachableDisciplined testCfg scenarioCore seatedAndQueued
      ∧ Reachable testCfg scenarioCore seatedAndQueued
      ∧ 0 ≤ scenarioCore.TablesCount ∧ scenarioCore.TablesCount ≤ 1)
    ∧ (queuedNames seatedAndQueued).Nodup
    ∧ (queuedNames seatedAndQueued).Nodup :=
  ⟨⟨reachableDisciplined_of_run seatedAndQueuedEvents _ _ ReachableDisciplined.start
      (by decide),
    @Reachable.of_afterEvents _ _ seatedAndQueuedEvents _ (by decide), by decide, by decide⟩,
   (queue_names_nodup testCfg scenarioCore seatedAndQueued).1
    (reachableDisciplined_of_run seatedAndQueuedEvents _ _ ReachableDisciplined.start
      (by decide)),
   (queue_names_nodup testCfg scenarioCore seatedAndQueued).2
    (@Reachable.of_afterEvents _ _ seatedAndQueuedEvents _ (by decide)) (by decide)
    (by decide)⟩

/-- Claim C33 as stated fails: in the club of two tables, both occupied, client3
is present and asks to wait twice; the events are delivered ones with times that
do not decrease, and the queue holds client3 twice. -/
theorem queue_names_twice :
    (∀ e ∈ doubleWaitEvents, validated twoTablesCore.TablesCount e = true)
    ∧ List.Pairwise (fun a b : Int => a ≤ b) (doubleWaitEvents.map (fun e => e.HappensAt))
    ∧ afterEvents testCfg twoTablesCore doubleWaitEvents = some doubleWaiter
    ∧ queuedNames doubleWaiter = ["client3", "client3"] := by
  decide

/-- Claim C34, as the code has it: in every state reached by delivered events
that keep the discipline of waiting, every client is in exactly one of the four
combinations: absent; present with no table and not queued; present at exactly
one table, the only one that names it, and not queued; present with no table and
queued. -/
theorem client_combinations (cfg : Processor) (coreData : CoreData) (p : EventProcessorImpl)
    (hr : ReachableDisciplined cfg coreData p) (c : String) :
    (isAbsent p c ∨ isIdle p c ∨ isSeated p c ∨ isQueued p c)
    ∧ ¬ (isAbsent p c ∧ isIdle p c) ∧ ¬ (isAbsent p c ∧ isSeated p c)
    ∧ ¬ (isAbsent p c ∧ isQueued p c) ∧ ¬ (isIdle p c ∧ isSeated p c)
    ∧ ¬ (isIdle p c ∧ isQueued p c) ∧ ¬ (isSeated p c ∧ isQueued p c) := by
  obtain ⟨-, -, hsc, hrange, -, hocc, hidle, -⟩ := hr.tidy
  refine ⟨?_, ?_, ?_, ?_, ?_, ?_, ?_⟩
  · cases hg : p.clients.Get c with
    | none =>
      refine Or.inl ⟨hg, ?_, ?_⟩
      · rintro X ⟨ev, hev, hname⟩
        have := hocc X ev hev
        rw [hname, hg] at this
        exact Option.noConfusion this
      · intro hq
        have := hidle c hq
        rw [hg] at this
        exact Option.noConfusion this
    | some X =>
      by_cases hX : X = -1
      · subst hX
        have hno : ∀ Y : Int, ¬ namedBy p c Y := by
          rintro Y ⟨ev, hev, hname⟩
          have h1 := hocc Y ev hev
          rw [hname, hg] at h1
          have h2 := hrange Y (by rw [hev]; rfl)
          have h3 := Option.some.inj h1
          omega
        by_cases hq : c ∈ queuedNames p
        · exact Or.inr (Or.inr (Or.inr ⟨hg, hno, hq⟩))
        · exact Or.inr (Or.inl ⟨hg, hno, hq⟩)
      · refine Or.inr (Or.inr (Or.inl ⟨X, hX, hg, ?_, ?_⟩))
        · intro Y
          constructor
          · rintro ⟨ev, hev, hname⟩
            have h1 := hocc Y ev hev
            rw [hname, hg] at h1
            exact (Option.some.inj h1).symm
          · intro hY
            rw [hY]
            exact hsc c X hg hX
        · intro hq
          have := hidle c hq
          rw [hg] at this
          exact hX (Option.some.inj this)
  · rintro ⟨h1, h2⟩
    have h3 := h2.1
    rw [h1.1] at h3
    exact Option.noConfusion h3
  · rintro ⟨h1, X, -, h2, -⟩
    rw [h1.1] at h2
    exact Option.noConfusion h2
  · rintro ⟨h1, h2⟩
    have h3 := h2.1
    rw [h1.1] at h3
    exact Option.noConfusion h3
  · rintro ⟨h1, X, hX, h2, -⟩
    rw [h1.1] at h2
    exact hX (Option.some.inj h2).symm
  · rintro ⟨h1, h2⟩
    exact h1.2.2 h2.2.2
  · rintro ⟨⟨X, -, -, -, h1⟩, h2⟩
    exact h1 h2.2.2

/-- Claim C34, evaluated in the club of one table where client1 is seated and
client2 waits: client2 is in one of the four combinations, and it is queued. -/
theorem client_combinations_witness :
    ReachableDisciplined testCfg scenarioCore seatedAndQueued
    ∧ (isAbsent seatedAndQueued "client2" ∨ isIdle seatedAndQueued "client2"
        ∨ isSeated seatedAndQueued "client2" ∨ isQueued seatedAndQueued "client2")
    ∧ seatedAndQueued.clients.Get "client2" = some (-1)
    ∧ "client2" ∈ queuedNames seatedAndQueued :=
  ⟨reachableDisciplined_of_run seatedAndQueuedEvents _ _ ReachableDisciplined.start
      (by decide),
   (client_combinations testCfg scenarioCore seatedAndQueued
      (reachableDisciplined_of_run seatedAndQueuedEvents _ _ ReachableDisciplined.start
        (by decide)) "client2").1,
   by decide, by decide⟩

/-- Claim C34 as stated fails: after delivered events with times that do not
decrease, client1 is present at table 1 and queued, which is none of the four
combinations; and in the other run client2 is queued without being present. -/
theorem client_seated_and_queued :
    ((∀ e ∈ seatedWaiterEvents, validated scenarioCore.TablesCount e = true)
      ∧ List.Pairwise (fun a b : Int => a ≤ b) (seatedWaiterEvents.map (fun e => e.HappensAt))
      ∧ afterEvents testCfg scenarioCore seatedWaiterEvents = some seatedWaiter
      ∧ seatedWaiter.clients.Get "client1" = some 1
      ∧ "client1" ∈ queuedNames seatedWaiter)
    ∧ ¬ (isAbsent seatedWaiter "client1" ∨ isIdle seatedWaiter "client1"
        ∨ isSeated seatedWaiter "client1" ∨ isQueued seatedWaiter "client1")
    ∧ ¬ (isAbsent absentWaiter "client2" ∨ isIdle absentWaiter "client2"
        ∨ isSeated absentWaiter "client2" ∨ isQueued absentWaiter "client2") := by
  have h1 : seatedWaiter.clients.Get "client1" = some 1 := by decide
  have h2 : "client1" ∈ queuedNames seatedWaiter := by decide
  have h3 : absentWaiter.clients.Get "client2" = none := by decide
  have h4 : "client2" ∈ queuedNames absentWaiter := by decide
  refine ⟨⟨by decide, by decide, by decide, h1, h2⟩, ?_, ?_⟩
  · rintro (h | h | h | h)
    · rw [h.1] at h1; exact Option.noConfusion h1
    · rw [h.1] at h1; exact absurd (Option.some.inj h1) (by decide)
    · obtain ⟨X, -, -, -, hq⟩ := h
      exact hq h2
    · rw [h.1] at h1; exact absurd (Option.some.inj h1) (by decide)
  · rintro (h | h | h | h)
    · exact h.2.2 h4
    · rw [h.1] at h3; exact Option.noConfusion h3
    · obtain ⟨X, -, -, -, hq⟩ := h
      exact hq h4
    · rw [h.1] at h3; exact Option.noConfusion h3

/-- The occupancy on disciplined runs: in every state reached by delivered events
that keep the discipline of waiting, no two occupancy entries name the same
client, and the client named by the entry of a table is present and mapped to
that table. -/
theorem occupant_mapped (cfg : Processor) (coreData : CoreData) (p : EventProcessorImpl)
    (hr : ReachableDisciplined cfg coreData p) :
    (∀ (X Y : Int) (evX evY : IncomingEvent), p.tables.Get X = some evX →
      p.tables.Get Y = some evY → evX.Client.GetName = evY.Client.GetName → X = Y)
    ∧ (∀ (X : Int) (ev : IncomingEvent), p.tables.Get X = some ev →
        (p.clients.Get ev.Client.GetName).isSome
        ∧ p.clients.Get ev.Client.GetName = some X) := by
  have hocc : Occupants p := hr.tidy.2.2.2.2.2.1
  refine ⟨?_, ?_⟩
  · intro X Y evX evY hX hY hname
    have h1 := hocc X evX hX
    have h2 := hocc Y evY hY
    rw [hname, h2] at h1
    exact (Option.some.inj h1).symm
  · intro X ev hX
    have h := hocc X ev hX
    exact ⟨by rw [h]; rfl, h⟩

/-- The occupancy evaluated in the club of one table where client1 is seated and
client2 waits: the occupant recorded for table 1 is mapped to table 1. -/
theorem occupant_mapped_witness :
    (ReachableDisciplined testCfg scenarioCore seatedAndQueued
      ∧ seatedAndQueued.tables.Get 1
          = some (NewIncomingEvent 630 Sits (NewClientSits "client1" 1 1)))
    ∧ (seatedAndQueued.clients.Get
          (NewIncomingEvent 630 Sits (NewClientSits "client1" 1 1)).Client.GetName).isSome
    ∧ seatedAndQueued.clients.Get
          (NewIncomingEvent 630 Sits (NewClientSits "client1" 1 1)).Client.GetName = some 1 :=
  ⟨⟨reachableDisciplined_of_run seatedAndQueuedEvents _ _ ReachableDisciplined.start
      (by decide), by decide⟩,
   (occupant_mapped testCfg scenarioCore seatedAndQueued
      (reachableDisciplined_of_run seatedAndQueuedEvents _ _ ReachableDisciplined.start
        (by decide))).2 1 _ (by decide)⟩

/-- Claim C36, evaluated on the code: in the club of two tables client1 sits at
table 1 and asks to wait, and the Leave of client2 seats it at table 2 after
its presence entry was reset to -1, so that table 1 is not released; the events
are delivered ones with times that do not decrease. The entries of tables 1 and
2 both name client1, and the occupant of table 1 is mapped to table 2. -/
theorem occupant_of_two_tables :
    (∀ e ∈ orphanEvents, validated twoTablesCore.TablesCount e = true)
    ∧ List.Pairwise (fun a b : Int => a ≤ b) (orphanEvents.map (fun e => e.HappensAt))
    ∧ afterEvents testCfg twoTablesCore orphanEvents = some orphanState
    ∧ (orphanState.tables.Get 1).map (fun ev => ev.Client.GetName) = some "client1"
    ∧ (orphanState.tables.Get 2).map (fun ev => ev.Client.GetName) = some "client1"
    ∧ orphanState.clients.Get "client1" = some 2 := by
  decide


/-! ## The lines of the closing procedure -/

/-- The last loop of `leaveClients`, for an empty queue, returns and writes the
lines of `closingLines`. -/
theorem leaveLoop_out :
    ∀ (L : List String) (p : EventProcessorImpl), p.waitingQueue.queue = [] →
      ∃ q, leaveLoop p L = some q
        ∧ q.out = p.out ++ closingLines p.coreData.WorkingTime.End p.clients L := by
  intro L
  induction L with
  | nil =>
    intro p _
    exact ⟨p, rfl, by simp [closingLines]⟩
  | cons c rest ih =>
    intro p hq
    obtain ⟨q1, hstep, hwq, hcd, hcl, hout, -, -, -⟩ := leaveLoop_step p c rest hq
    obtain ⟨q, hrun, hout2⟩ := ih q1 (by rw [hwq]; exact hq)
    refine ⟨q, hstep.trans hrun, ?_⟩
    rw [hout2, hout, hcd, hcl, List.append_assoc]
    rfl

/-- The names the lines of `closingLines` carry are the names visited. -/
theorem closingLines_names (closing : Int) :
    ∀ (L : List String) (clients : InMemoryStorage String Int),
      (closingLines closing clients L).map lineClient = L.map some := by
  intro L
  induction L with
  | nil => intro _; rfl
  | cons c rest ih =>
    intro clients
    simp only [closingLines, List.map_cons, ih]
    congr 1
    split <;> rfl

/-- The lines for two lists of names, one after the other. -/
theorem closingLines_append (closing : Int) :
    ∀ (A B : List String) (clients : InMemoryStorage String Int),
      closingLines closing clients (A ++ B) =
        closingLines closing clients A
          ++ closingLines closing (A.foldl InMemoryStorage.Delete clients) B := by
  intro A
  induction A with
  | nil => intro B clients; rfl
  | cons a rest ih =>
    intro B clients
    show closingLines closing clients (a :: (rest ++ B)) = _
    simp only [closingLines, List.foldl_cons, ih, List.cons_append]

/-- Deleting other names leaves a lookup as it was. -/
theorem Get_foldl_Delete (c : String) :
    ∀ (A : List String) (clients : InMemoryStorage String Int), c ∉ A →
      (A.foldl InMemoryStorage.Delete clients).Get c = clients.Get c := by
  intro A
  induction A with
  | nil => intro _ _; rfl
  | cons a rest ih =>
    intro clients hc
    have hne : c ≠ a := fun h => hc (by rw [h]; exact List.mem_cons_self _ _)
    rw [List.foldl_cons, ih _ (fun h => hc (List.mem_cons_of_mem _ h)),
      InMemoryStorage.Get_Delete_of_ne _ hne]

/-- The lines for a name that is no longer present, visited `n` times. -/
theorem closingLines_replicate_absent (closing : Int) (c : String) :
    ∀ (n : Nat) (clients : InMemoryStorage String Int), clients.Get c = none →
      closingLines closing clients (List.replicate n c) =
        List.replicate n
          (Line.event (.incoming (NewIncomingEvent closing Leaves (NewClientLeaves c)))) := by
  intro n
  induction n with
  | zero => intro _ _; rfl
  | succ n ih =>
    intro clients h
    simp only [List.replicate_succ, closingLines, h, Option.isSome_none, Bool.false_eq_true,
      if_false]
    rw [ih _ (InMemoryStorage.Get_Delete_self _ _)]

/-- The lines for a name that is present, visited once more than `n` times. -/
theorem closingLines_replicate_present (closing : Int) (c : String) (n : Nat)
    (clients : InMemoryStorage String Int) (h : (clients.Get c).isSome) :
    closingLines closing clients (List.replicate (n + 1) c) =
      Line.event (.outgoing (NewClientLeftEvent closing (NewClientLeaves c)))
        :: List.replicate n
          (Line.event (.incoming (NewIncomingEvent closing Leaves (NewClientLeaves c)))) := by
  simp only [List.replicate_succ, closingLines, h, if_true]
  rw [closingLines_replicate_absent closing c n _ (InMemoryStorage.Get_Delete_self _ _)]

/-- In a sorted list of names the occurrences of a name stand together. -/
theorem sorted_block (c : String) (L : List String) (hs : List.Sorted strLE L) :
    ∃ L1 L2 : List String, L = L1 ++ List.replicate (L.count c) c ++ L2
      ∧ c ∉ L1 ∧ c ∉ L2 := by
  induction L with
  | nil => exact ⟨[], [], by simp, by simp, by simp⟩
  | cons a rest ih =>
    have hs2 := List.sorted_cons.mp hs
    obtain ⟨R1, R2, hrest, h1, h2⟩ := ih hs2.2
    by_cases hac : a = c
    · subst hac
      by_cases hmem : a ∈ rest
      · have hR1 : R1 = [] := by
          cases R1 with
          | nil => rfl
          | cons b R1t =>
            exfalso
            have hb : b ∈ rest := by rw [hrest]; simp
            have hab : strLE a b := hs2.1 b hb
            have hpos : 0 < rest.count a := List.count_pos_iff.mpr hmem
            have hba : strLE b a := by
              have hsr := hs2.2
              rw [hrest] at hsr
              have hp := List.pairwise_append.mp (List.pairwise_append.mp hsr).1
              refine hp.2.2 b (List.mem_cons_self _ _) a ?_
              exact List.mem_replicate.mpr ⟨by omega, rfl⟩
            have : b = a := antisymm hba hab
            exact h1 (this ▸ List.mem_cons_self _ _)
        subst hR1
        refine ⟨[], R2, ?_, by simp, h2⟩
        rw [List.count_cons_self, List.replicate_succ]
        simp only [List.nil_append, List.cons_append] at hrest ⊢
        rw [← hrest]
      · refine ⟨[], rest, ?_, by simp, hmem⟩
        rw [List.count_cons_self, List.count_eq_zero_of_not_mem hmem]
        simp
    · refine ⟨a :: R1, R2, ?_, ?_, h2⟩
      · rw [List.count_cons_of_ne (fun h => hac h.symm)]
        simp only [List.cons_append]
        rw [← hrest]
      · intro h
        rcases List.mem_cons.mp h with h | h
        · exact hac h.symm
        · exact h1 h

/-- The number of times a name is a key of the presence map. -/
theorem count_keys (clients : InMemoryStorage String Int) (c : String) :
    clients.keys.count c = if (clients.Get c).isSome then 1 else 0 := by
  split
  · rename_i h
    exact List.count_eq_one_of_mem clients.keys_nodup ((InMemoryStorage.mem_keys_iff _ _).mpr h)
  · rename_i h
    exact List.count_eq_zero_of_not_mem (fun hm => h ((InMemoryStorage.mem_keys_iff _ _).mp hm))

/-- The text of the raw line of the closing procedure. -/
theorem render_rawLeave (p : EventProcessorImpl) (c timeFormat : String) :
    (rawLeave p c).written timeFormat =
      some (formatTime p.coreData.WorkingTime.End timeFormat ++ " 4 " ++ c ++ "\n") := by
  simp only [rawLeave, Line.written, TimeFormatter.String, IncomingEvent.String,
    NewIncomingEvent, NewClientLeaves, ClientData.String, Leaves, Option.map_some']
  rw [append_fields]
  rfl

/-- Claim C37, as the code has it: when the queue holds no nil, the closing
procedure returns, and the lines it writes for a name stand together: for a name
that is present the ClientLeft line, with the closing time and the kind 11,
immediately followed by as many raw lines, with the closing time and the kind 4,
as the name occurs in the waiting queue (one, when it is queued once); for a
name that is not present the raw lines alone. No other line it writes carries
the name, and none of these lines is an Error. The texts are given for a time
layout made of the hour `15`, the minute `04` and characters that stand for
themselves, such as the default `15:04`. -/
theorem closing_block (p : EventProcessorImpl) (hnn : QueueNonNil p) (c : String) :
    (∃ (q : EventProcessorImpl) (pre post : List Line), leaveClients p = some q
      ∧ q.out = p.out ++ pre
          ++ ((if (p.clients.Get c).isSome then [closingLeft p c] else [])
              ++ List.replicate ((queuedNames p).count c) (rawLeave p c))
          ++ post
      ∧ (∀ l ∈ pre, lineClient l ≠ some c) ∧ (∀ l ∈ post, lineClient l ≠ some c))
    ∧ (∀ timeFormat : String, plainLayout timeFormat →
        (closingLeft p c).written timeFormat =
          some (formatTime p.coreData.WorkingTime.End timeFormat ++ " 11 " ++ c ++ "\n")
        ∧ (rawLeave p c).written timeFormat =
          some (formatTime p.coreData.WorkingTime.End timeFormat ++ " 4 " ++ c ++ "\n"))
    ∧ isError (closingLeft p c) = false ∧ isError (rawLeave p c) = false := by
  refine ⟨?_, ?_, rfl, rfl⟩
  swap
  · intro timeFormat _
    refine ⟨?_, render_rawLeave p c timeFormat⟩
    simp only [closingLeft, Line.written, TimeFormatter.String]
    rw [render_left p.coreData.WorkingTime.End (NewClientLeaves c) timeFormat rfl]
    rfl
  have hsorted := sorted_sortStrings (p.clients.keys ++ queuedNames p)
  obtain ⟨L1, L2, hS, h1, h2⟩ := sorted_block c _ hsorted
  have hcount : (sortStrings (p.clients.keys ++ queuedNames p)).count c =
      (if (p.clients.Get c).isSome then 1 else 0) + (queuedNames p).count c := by
    have hperm := (List.perm_insertionSort strLE (p.clients.keys ++ queuedNames p)).count_eq c
    rw [List.count_append, count_keys] at hperm
    exact hperm
  obtain ⟨q, hrun, hout⟩ := leaveLoop_out (sortStrings (p.clients.keys ++ queuedNames p))
    { p with waitingQueue := { queue := [], nilValue := p.waitingQueue.nilValue } } rfl
  have hleave : leaveClients p = some q := by
    rw [leaveClients_eq p hnn]
    exact hrun
  have hget := Get_foldl_Delete c L1 p.clients h1
  have hblock : closingLines p.coreData.WorkingTime.End (L1.foldl InMemoryStorage.Delete p.clients)
      (List.replicate ((sortStrings (p.clients.keys ++ queuedNames p)).count c) c) =
      (if (p.clients.Get c).isSome then [closingLeft p c] else [])
        ++ List.replicate ((queuedNames p).count c) (rawLeave p c) := by
    rw [hcount]
    by_cases hp : (p.clients.Get c).isSome
    · rw [if_pos hp, if_pos hp, Nat.add_comm,
        closingLines_replicate_present _ c _ _ (by rw [hget]; exact hp)]
      rfl
    · rw [if_neg hp, if_neg hp, Nat.zero_add,
        closingLines_replicate_absent _ c _ _ (by
          rw [hget]
          cases hg : p.clients.Get c with
          | none => rfl
          | some x => rw [hg] at hp; exact absurd rfl hp)]
      rfl
  refine ⟨q, closingLines p.coreData.WorkingTime.End p.clients L1,
    closingLines p.coreData.WorkingTime.End
      ((L1 ++ List.replicate ((sortStrings (p.clients.keys ++ queuedNames p)).count c) c).foldl
        InMemoryStorage.Delete p.clients) L2,
    hleave, ?_, ?_, ?_⟩
  · have hlines : closingLines p.coreData.WorkingTime.End p.clients
        (sortStrings (p.clients.keys ++ queuedNames p)) =
        closingLines p.coreData.WorkingTime.End p.clients L1
          ++ ((if (p.clients.Get c).isSome then [closingLeft p c] else [])
              ++ List.replicate ((queuedNames p).count c) (rawLeave p c))
          ++ closingLines p.coreData.WorkingTime.End
              ((L1 ++ List.replicate
                ((sortStrings (p.clients.keys ++ queuedNames p)).count c) c).foldl
                InMemoryStorage.Delete p.clients) L2 := by
      conv_lhs => rw [hS]
      rw [closingLines_append, closingLines_append, hblock]
    rw [hout]
    show p.out ++ closingLines p.coreData.WorkingTime.End p.clients
      (sortStrings (p.clients.keys ++ queuedNames p)) = _
    rw [hlines]
    simp only [List.append_assoc]
  · intro l hl heq
    have hm : lineClient l ∈ (closingLines p.coreData.WorkingTime.End p.clients L1).map
        lineClient := List.mem_map_of_mem _ hl
    rw [closingLines_names, heq, List.mem_map] at hm
    obtain ⟨x, hx, hxc⟩ := hm
    exact h1 (Option.some.inj hxc ▸ hx)
  · intro l hl heq
    have hm := List.mem_map_of_mem lineClient hl
    rw [closingLines_names, heq, List.mem_map] at hm
    obtain ⟨x, hx, hxc⟩ := hm
    exact h2 (Option.some.inj hxc ▸ hx)

/-- Claim C37, evaluated in the club of one table where client1 is seated and
client2 is present and waits: the closing procedure writes for client2 the
ClientLeft line immediately followed by one raw line, in the default layout
`20:00 11 client2` and `20:00 4 client2`. -/
theorem closing_block_witness :
    (QueueNonNil seatedAndQueued ∧ plainLayout "15:04")
    ∧ (∃ (q : EventProcessorImpl) (pre post : List Line), leaveClients seatedAndQueued = some q
      ∧ q.out = seatedAndQueued.out ++ pre
          ++ ((if (seatedAndQueued.clients.Get "client2").isSome
                then [closingLeft seatedAndQueued "client2"] else [])
              ++ List.replicate ((queuedNames seatedAndQueued).count "client2")
                  (rawLeave seatedAndQueued "client2"))
          ++ post
      ∧ (∀ l ∈ pre, lineClient l ≠ some "client2")
      ∧ (∀ l ∈ post, lineClient l ≠ some "client2"))
    ∧ ((closingLeft seatedAndQueued "client2").written "15:04" =
          some (formatTime seatedAndQueued.coreData.WorkingTime.End "15:04" ++ " 11 "
            ++ "client2" ++ "\n")
        ∧ (rawLeave seatedAndQueued "client2").written "15:04" =
          some (formatTime seatedAndQueued.coreData.WorkingTime.End "15:04" ++ " 4 "
            ++ "client2" ++ "\n"))
    ∧ (closingOf seatedAndQueued).filterMap (Line.written "15:04")
        = ["20:00 11 client1\n", "20:00 11 client2\n", "20:00 4 client2\n"] :=
  ⟨⟨(@Reachable.of_afterEvents testCfg scenarioCore seatedAndQueuedEvents seatedAndQueued
      (by decide)).queueNonNil, by decide⟩,
   (closing_block seatedAndQueued
    (@Reachable.of_afterEvents testCfg scenarioCore seatedAndQueuedEvents seatedAndQueued
      (by decide)).queueNonNil "client2").1,
   (closing_block seatedAndQueued
    (@Reachable.of_afterEvents testCfg scenarioCore seatedAndQueuedEvents seatedAndQueued
      (by decide)).queueNonNil "client2").2.1 "15:04" (by decide),
   by decide⟩

/-- Claim C37 as stated fails: in the club of two tables client3 is present
and, after delivered events with times that do not decrease, queued twice; the
closing procedure writes for client3 the ClientLeft line followed by two raw
lines, not by one. -/
theorem closing_two_raw_lines :
    (∀ e ∈ doubleWaitEvents, validated twoTablesCore.TablesCount e = true)
    ∧ afterEvents testCfg twoTablesCore doubleWaitEvents = some doubleWaiter
    ∧ (doubleWaiter.clients.Get "client3").isSome
    ∧ "client3" ∈ queuedNames doubleWaiter
    ∧ (closingOf doubleWaiter).filter (fun l => decide (lineClient l = some "client3"))
        = [closingLeft doubleWaiter "client3", rawLeave doubleWaiter "client3",
           rawLeave doubleWaiter "client3"]
    ∧ (closingOf doubleWaiter).filterMap (Line.written "15:04")
        = ["20:00 11 client1\n", "20:00 11 client2\n", "20:00 11 client3\n",
           "20:00 4 client3\n", "20:00 4 client3\n"] := by
  decide


/-! ## Times of day and the order of the events -/

/-- Claim C38, evaluated on the code: for the working hours 20:00 to 10:00 the
interval ends at 10:00 of the next day; the Arrive of client1 read from the line
`02:00 1 client1` carries 02:00 of the first day, which is before the opening
time, and it is answered with the Error NotOpenYet; client1 is not made
present. -/
theorem overnight_arrive_rejected :
    (fileParser overnightLines defaultParser).ReadCoreData.1 = (some overnightCore, none)
    ∧ overnightCore.WorkingTime = { Start := 1200, End := 2040 }
    ∧ (fileParser overnightLines defaultParser).ReadCoreData.2.ReadEvents
        overnightCore.TablesCount
        = some [wrap (NewIncomingEvent 120 Arrives (NewClientArrives "client1"))]
    ∧ overnightCore.WorkingTime.In 120 = false
    ∧ processEvent (newClub testCfg overnightCore)
        (NewIncomingEvent 120 Arrives (NewClientArrives "client1"))
        = some (withError (newClub testCfg overnightCore) 120 ErrNotOpenYet)
    ∧ (withError (newClub testCfg overnightCore) 120 ErrNotOpenYet).clients.Get "client1"
        = none
    ∧ (mainOn defaultParser testCfg overnightLines).map
        (fun printed => printed.filterMap (fun x =>
          match x with
          | Printed.line l => l.written "15:04"
          | Printed.message text => some text))
        = some ["20:00\n", "02:00 1 client1\n", "02:00 13 NotOpenYet\n", "10:00\n"] := by
  decide

/-- The loop of `ReadEvents` sends what `readEvent` returns line by line. -/
theorem readEventsLoop_eq_deliver :
    ∀ (fuel : Nat) (p : FileParser), p.scanner.lines.length < fuel →
      FileParser.readEventsLoop fuel p =
        deliver (lineResults p.cfg p.maxTables p.rowNumber p.scanner.lines) := by
  intro fuel
  induction fuel with
  | zero => intro p h; exact absurd h (Nat.not_lt_zero _)
  | succ fuel ih =>
    intro p h
    cases hl : p.scanner.lines with
    | nil =>
      simp [FileParser.readEventsLoop, FileParser.scanWithRowNumber, Scanner.Scan, hl,
        lineResults, deliver]
    | cons line rest =>
      rw [hl] at h
      have hrec := ih (FileParser.mk ⟨rest, line⟩ p.cfg (p.rowNumber + 1) p.maxTables)
        (by simpa using h)
      simp only [FileParser.readEventsLoop, FileParser.scanWithRowNumber, Scanner.Scan, hl,
        lineResults, deliver]
      rcases hr : (FileParser.mk ⟨rest, line⟩ p.cfg (p.rowNumber + 1) p.maxTables).readEvent
        with _ | ⟨_ | ev, _ | err⟩
      · simp [deliver]
      · simp [deliver]
      · simp [deliver]
      · simp only [deliver]
        rw [hrec]
      · simp [deliver]

/-- The events of lines that are all read without an error are delivered in the
order of the lines. -/
theorem deliver_all (events : List IncomingEvent) :
    deliver (events.map (fun e => some (some e, none))) = some (events.map wrap) := by
  induction events with
  | nil => rfl
  | cons e rest ih =>
    simp only [List.map_cons, deliver, ih]
    rfl

/-- The events of the lines before the first failure are delivered, then the
failure. -/
theorem deliver_until (events : List IncomingEvent) (err : GoError)
    (rest : List (Option (Option IncomingEvent × Option GoError))) :
    deliver (events.map (fun e => some (some e, none)) ++ some (none, some err) :: rest)
      = some (events.map wrap ++ [{ Event := none, Err := some err }]) := by
  induction events with
  | nil => rfl
  | cons e tl ih =>
    show Option.map _ (deliver (tl.map (fun e => some (some e, none))
      ++ some (none, some err) :: rest)) = _
    rw [ih]
    rfl

/-- Claim C39, as the code has it, for a file whose lines each fit the buffer
of the scanner: `ReadEvents` delivers what `readEvent` returns on each line by
itself, in the order of the lines, up to the first failure. When every line is
read without an error, the events of all lines are delivered, whatever their
times; a failure is delivered only for the first line that `readEvent` rejects,
after the events of the lines before it. -/
theorem ReadEvents_line_by_line (p : FileParser) (maxTables : Int)
    (_hfit : ∀ line ∈ p.scanner.lines, fitsBuffer line) :
    p.ReadEvents maxTables
      = deliver (lineResults p.cfg maxTables p.rowNumber p.scanner.lines)
    ∧ (∀ events : List IncomingEvent,
        lineResults p.cfg maxTables p.rowNumber p.scanner.lines
          = events.map (fun e => some (some e, none)) →
        p.ReadEvents maxTables = some (events.map wrap))
    ∧ (∀ (events : List IncomingEvent) (err : GoError)
        (rest : List (Option (Option IncomingEvent × Option GoError))),
        lineResults p.cfg maxTables p.rowNumber p.scanner.lines
          = events.map (fun e => some (some e, none)) ++ some (none, some err) :: rest →
        p.ReadEvents maxTables
          = some (events.map wrap ++ [{ Event := none, Err := some err }])) := by
  have h : p.ReadEvents maxTables
      = deliver (lineResults p.cfg maxTables p.rowNumber p.scanner.lines) :=
    readEventsLoop_eq_deliver (p.scanner.lines.length + 1) { p with maxTables := maxTables }
      (Nat.lt_succ_self _)
  refine ⟨h, ?_, ?_⟩
  · intro events hl
    rw [h, hl, deliver_all]
  · intro events err rest hl
    rw [h, hl, deliver_until]

/-- Claim C39, evaluated: of the lines `10:00 1 client1` and `09:00 1 client2`
both are read without an error, and both events are delivered; with the kind 7
in a third line, the failure follows the two events. The lines are short. -/
theorem ReadEvents_line_by_line_witness :
    ((∀ line ∈ (fileParser unorderedLines defaultParser).scanner.lines, fitsBuffer line)
      ∧ (∀ line ∈ (fileParser (unorderedLines ++ ["11:00 7 client3", "12:00 1 c"])
            defaultParser).scanner.lines, fitsBuffer line)
      ∧ lineResults defaultParser 1 0 unorderedLines
        = [NewIncomingEvent 600 Arrives (NewClientArrives "client1"),
           NewIncomingEvent 540 Arrives (NewClientArrives "client2")].map
            (fun e => some (some e, none))
      ∧ lineResults defaultParser 1 0 (unorderedLines ++ ["11:00 7 client3", "12:00 1 c"])
        = [NewIncomingEvent 600 Arrives (NewClientArrives "client1"),
           NewIncomingEvent 540 Arrives (NewClientArrives "client2")].map
            (fun e => some (some e, none))
          ++ some (none, some (GoError.ValidationError 3 ErrUnknownEventType))
            :: [some (some (NewIncomingEvent 720 Arrives (NewClientArrives "c")), none)])
    ∧ (fileParser unorderedLines defaultParser).ReadEvents 1
        = some ([NewIncomingEvent 600 Arrives (NewClientArrives "client1"),
                 NewIncomingEvent 540 Arrives (NewClientArrives "client2")].map wrap)
    ∧ (fileParser (unorderedLines ++ ["11:00 7 client3", "12:00 1 c"]) defaultParser).ReadEvents
          1
        = some ([NewIncomingEvent 600 Arrives (NewClientArrives "client1"),
                 NewIncomingEvent 540 Arrives (NewClientArrives "client2")].map wrap
            ++ [{ Event := none,
                  Err := some (GoError.ValidationError 3 ErrUnknownEventType) }]) :=
  ⟨⟨by decide, by decide, by decide, by decide⟩,
   (ReadEvents_line_by_line (fileParser unorderedLines defaultParser) 1
      (by decide)).2.1 _ (by decide),
   (ReadEvents_line_by_line
      (fileParser (unorderedLines ++ ["11:00 7 client3", "12:00 1 c"]) defaultParser) 1
      (by decide)).2.2
      _ _ [some (some (NewIncomingEvent 720 Arrives (NewClientArrives "c")), none)]
      (by decide)⟩

/-- Claim C39 as stated fails: the second of the two event lines, both short,
has an earlier time than the first, and `ReadEvents` delivers its event, at
09:00 after 10:00, not a failure. -/
theorem unordered_events_delivered :
    (∀ line ∈ unorderedLines, fitsBuffer line)
    ∧ (fileParser unorderedLines defaultParser).ReadEvents 1
      = some [wrap (NewIncomingEvent 600 Arrives (NewClientArrives "client1")),
              wrap (NewIncomingEvent 540 Arrives (NewClientArrives "client2"))]
    ∧ (540 : Int) < 600
    ∧ ∀ w ∈ ((fileParser unorderedLines defaultParser).ReadEvents 1).getD [],
        w.Err = none := by
  decide


/-! ## Reading back a rendered event -/

/-- The character of a digit below ten is a decimal digit with that value. -/
theorem digitChar_isDigit : ∀ d : Nat, d < 10 →
    isDigit (Nat.digitChar d) = true ∧ digitVal (Nat.digitChar d) = d
      ∧ Nat.digitChar d ≠ ' ' := by
  decide

/-- The digits already produced stay behind the ones still to come. -/
theorem toDigitsCore_acc (b : Nat) : ∀ (fuel n : Nat) (ds : List Char),
    Nat.toDigitsCore b fuel n ds = Nat.toDigitsCore b fuel n [] ++ ds := by
  intro fuel
  induction fuel with
  | zero => intro n ds; rfl
  | succ fuel ih =>
    intro n ds
    simp only [Nat.toDigitsCore]
    split
    · rfl
    · rw [ih _ (_ :: ds), ih _ [_]]
      simp

/-- The value of a run of decimal digits. -/
theorem digitsValue_eq (cs : List Char) (hall : ∀ c ∈ cs, isDigit c = true) (acc : Nat) :
    digitsValue cs acc = some (cs.foldl (fun a c => a * 10 + digitVal c) acc) := by
  induction cs generalizing acc with
  | nil => rfl
  | cons c rest ih =>
    simp only [digitsValue, hall c (List.mem_cons_self _ _), if_true, List.foldl_cons]
    exact ih (fun x hx => hall x (List.mem_cons_of_mem _ hx)) _

/-- The decimal digits of a number are digits, are not empty and have the number as their value. -/
theorem toDigitsCore_value : ∀ (fuel n : Nat), n < fuel →
    (∀ c ∈ Nat.toDigitsCore 10 fuel n [], isDigit c = true)
    ∧ (Nat.toDigitsCore 10 fuel n []).foldl (fun a c => a * 10 + digitVal c) 0 = n
    ∧ Nat.toDigitsCore 10 fuel n [] ≠ [] := by
  intro fuel
  induction fuel with
  | zero => intro n h; exact absurd h (Nat.not_lt_zero _)
  | succ fuel ih =>
    intro n h
    have hd := digitChar_isDigit (n % 10) (Nat.mod_lt _ (by decide))
    by_cases h0 : n / 10 = 0
    · have : Nat.toDigitsCore 10 (fuel + 1) n [] = [Nat.digitChar (n % 10)] := by
        simp [Nat.toDigitsCore, h0]
      rw [this]
      refine ⟨?_, ?_, by simp⟩
      · intro c hc
        rw [List.mem_singleton] at hc
        rw [hc]; exact hd.1
      · simp only [List.foldl_cons, List.foldl_nil, hd.2.1]
        omega
    · have : Nat.toDigitsCore 10 (fuel + 1) n []
          = Nat.toDigitsCore 10 fuel (n / 10) [] ++ [Nat.digitChar (n % 10)] := by
        rw [Nat.toDigitsCore, if_neg h0, toDigitsCore_acc]
      rw [this]
      have hrec := ih (n / 10) (by omega)
      refine ⟨?_, ?_, by simp⟩
      · intro c hc
        rw [List.mem_append, List.mem_singleton] at hc
        rcases hc with hc | hc
        · exact hrec.1 c hc
        · rw [hc]; exact hd.1
      · rw [List.foldl_append, hrec.2.1]
        simp only [List.foldl_cons, List.foldl_nil, hd.2.1]
        omega

/-- A decimal digit is neither a sign nor a space. -/
theorem isDigit_not_sign (c : Char) (h : isDigit c = true) : c ≠ '-' ∧ c ≠ '+' ∧ c ≠ ' ' := by
  refine ⟨?_, ?_, ?_⟩ <;> (intro hc; rw [hc] at h; exact absurd h (by decide))

/-- The function `Atoi` reads back what `%d` wrote of a number that is not negative, and that text has no space. -/
theorem Atoi_sprintInt (n : Int) (h0 : 0 ≤ n) (h1 : n < 2 ^ 63) :
    Atoi (sprintInt n) = some n
    ∧ ∀ c ∈ (sprintInt n).data, c ≠ ' ' := by
  obtain ⟨k, rfl⟩ := Int.eq_ofNat_of_zero_le h0
  have hv := toDigitsCore_value (k + 1) k (Nat.lt_succ_self _)
  have hdata : (sprintInt (k : Int)).data = Nat.toDigitsCore 10 (k + 1) k [] := rfl
  refine ⟨?_, ?_⟩
  · unfold Atoi
    rw [hdata]
    cases hcs : Nat.toDigitsCore 10 (k + 1) k [] with
    | nil => exact absurd hcs hv.2.2
    | cons c rest =>
      rw [hcs] at hv
      have hc := isDigit_not_sign c (hv.1 c (List.mem_cons_self _ _))
      simp only [if_neg hc.1, if_neg hc.2.1]
      rw [digitsValue_eq _ hv.1, hv.2.1]
      show (if k < 2 ^ 63 then some (k : Int) else none) = some (k : Int)
      rw [if_pos (by exact_mod_cast h1)]
  · intro c hc
    rw [hdata] at hc
    exact (isDigit_not_sign c (hv.1 c hc)).2.2

/-- Without the separator there is nothing to cut. -/
theorem cut_none (c : Char) : ∀ l : List Char, c ∉ l → cut [c] l = none := by
  intro l
  induction l with
  | nil => intro _; rfl
  | cons x rest ih =>
    intro h
    have hx : c ≠ x := fun e => h (e ▸ List.mem_cons_self _ _)
    have hr : c ∉ rest := fun e => h (List.mem_cons_of_mem _ e)
    simp [cut, List.isPrefixOf, hx, ih hr]

/-- The cut is at the first occurrence of the separator. -/
theorem cut_append (c : Char) : ∀ l1 l2 : List Char, c ∉ l1 →
    cut [c] (l1 ++ c :: l2) = some (l1, l2) := by
  intro l1
  induction l1 with
  | nil => intro l2 _; simp [cut, List.isPrefixOf]
  | cons x rest ih =>
    intro l2 h
    have hx : c ≠ x := fun e => h (e ▸ List.mem_cons_self _ _)
    have hr : c ∉ rest := fun e => h (List.mem_cons_of_mem _ e)
    simp [cut, List.isPrefixOf, hx, ih l2 hr]

/-- A text without the separator is one piece. -/
theorem genSplit_none (c : Char) (n : Nat) (l : List Char) (h : c ∉ l) :
    genSplit [c] n l = [l] := by
  cases n with
  | zero => rfl
  | succ n => simp [genSplit, cut_none c l h]

/-- Three fields between two spaces, the first two without a space. -/
theorem SplitN_three (a b r : List Char) (ha : ' ' ∉ a) (hb : ' ' ∉ b) :
    SplitN (String.mk (a ++ ' ' :: (b ++ ' ' :: r))) " " 3
      = [String.mk a, String.mk b, String.mk r] := by
  have h1 : (" " : String).data = [' '] := rfl
  simp only [SplitN, h1]
  simp [genSplit, cut_append, ha, hb]

/-- A text without a space is one field. -/
theorem Split_one (a : List Char) (ha : ' ' ∉ a) :
    Split (String.mk a) " " = [String.mk a] := by
  have h1 : (" " : String).data = [' '] := rfl
  simp only [Split, SplitN, h1]
  simp [genSplit_none ' ' _ a ha]

/-- Two fields without a space around one space. -/
theorem Split_two (a b : List Char) (ha : ' ' ∉ a) (hb : ' ' ∉ b) :
    Split (String.mk (a ++ ' ' :: b)) " " = [String.mk a, String.mk b] := by
  have h1 : (" " : String).data = [' '] := rfl
  simp only [Split, SplitN, h1]
  have hlen : (a ++ ' ' :: b).length = (a.length + b.length) + 1 := by
    simp [List.length_append]; omega
  simp [hlen, genSplit, cut_append, ha, genSplit_none ' ' _ b hb]

/-- The layout `15:04` writes two digits of the hour, a colon and two digits of the minute. -/
theorem formatTime_default (t : Int) :
    (formatTime t "15:04").data
      = digit2 (t / 60 % 24) ++ ':' :: digit2 (t % 60) := by
  have h1 : ("15:04" : String).data = ['1', '5', ':', '0', '4'] := rfl
  simp [formatTime, h1, formatChars]

/-- Two digits hold no space. -/
theorem digit2_no_space (n : Int) (h1 : n < 100) : ' ' ∉ digit2 n := by
  intro h
  simp only [digit2, List.mem_cons, List.mem_singleton, List.mem_nil_iff, or_false] at h
  rcases h with h | h
  · exact (digitChar_isDigit (n.toNat / 10) (by omega)).2.2 h.symm
  · exact (digitChar_isDigit (n.toNat % 10) (Nat.mod_lt _ (by decide))).2.2 h.symm

/-- The function `getnum` reads back two digits. -/
theorem getnum_digit2 (n : Int) (h0 : 0 ≤ n) (h1 : n < 100) (fixed : Bool)
    (rest : List Char) : getnum (digit2 n ++ rest) fixed = some (n, rest) := by
  have ha := digitChar_isDigit (n.toNat / 10) (by omega)
  have hb := digitChar_isDigit (n.toNat % 10) (Nat.mod_lt _ (by decide))
  simp only [digit2, List.cons_append, List.nil_append, getnum, ha.1, hb.1, if_true,
    ha.2.1, hb.2.1]
  congr 2
  omega

/-- Under the layout `15:04` parsing a formatted time gives its time of day, and the text has no space. -/
theorem parseTime_formatTime (t : Int) :
    parseTime "15:04" (formatTime t "15:04") = some (t % 1440)
    ∧ ' ' ∉ (formatTime t "15:04").data := by
  have h1 : ("15:04" : String).data = ['1', '5', ':', '0', '4'] := rfl
  have hh0 : 0 ≤ t / 60 % 24 := by omega
  have hh1 : t / 60 % 24 < 24 := by omega
  have hm0 : 0 ≤ t % 60 := by omega
  have hm1 : t % 60 < 60 := by omega
  refine ⟨?_, ?_⟩
  · unfold parseTime
    rw [formatTime_default, h1]
    have hg := getnum_digit2 (t / 60 % 24) hh0 (by omega) false (':' :: digit2 (t % 60))
    have hg2 := getnum_digit2 (t % 60) hm0 (by omega) true []
    rw [List.append_nil] at hg2
    simp only [parseChars, hg, hg2, if_neg (not_le.mpr hh1), if_neg (not_le.mpr hm1)]
    simp
    omega
  · rw [formatTime_default]
    intro h
    rw [List.mem_append, List.mem_cons] at h
    rcases h with h | h | h
    · exact digit2_no_space _ (by omega) h
    · exact absurd h (by decide)
    · exact digit2_no_space _ (by omega) h

/-- A valid name has no space. -/
theorem name_no_space (name : String) (h : ValidateName name = none) : ' ' ∉ name.data := by
  unfold ValidateName at h
  split at h
  · rename_i hc
    simp only [Bool.and_eq_true, List.all_eq_true] at hc
    intro hmem
    exact absurd (hc.2 _ hmem) (by decide)
  · exact absurd h (by simp)

/-- The characters of the line of an input event. -/
theorem event_text (t : Int) (ty : IncomingEventType) (cd : ClientData) :
    (NewIncomingEvent t ty cd).String "15:04"
      = String.mk ((formatTime t "15:04").data
          ++ ' ' :: ((sprintInt ty).data ++ ' ' :: cd.String.data)) := by
  apply String.ext
  simp [IncomingEvent.String, NewIncomingEvent, String.data_append]

/-- The method `readEvent` on the line of an event whose payload text is read back as the payload. -/
theorem readEvent_of_text (p : FileParser) (t : Int) (ty : IncomingEventType) (cd : ClientData)
    (hcfg : p.cfg = defaultParser)
    (htext : p.scanner.text = (NewIncomingEvent t ty cd).String p.cfg.TimeFormat)
    (hty : knownKind ty)
    (hcd : p.parseClientData ty cd.String = (some cd, none)) :
    p.readEvent = some (some (NewIncomingEvent (t % 1440) ty cd), none) := by
  have hk : Atoi (sprintInt ty) = some ty ∧ ' ' ∉ (sprintInt ty).data := by
    rcases hty with h | h | h | h <;> subst h <;> decide
  have hfmt : p.cfg.TimeFormat = "15:04" := by rw [hcfg]; rfl
  have hsep : p.cfg.EventInfoSeparator = " " := by rw [hcfg]; rfl
  have hcount : p.cfg.DistinctEventInfoCount = 3 := by rw [hcfg]; rfl
  have hsplit : SplitN p.scanner.text p.cfg.EventInfoSeparator p.cfg.DistinctEventInfoCount
      = [formatTime t "15:04", sprintInt ty, cd.String] := by
    rw [htext, hfmt, hsep, hcount, event_text]
    exact SplitN_three _ _ _ (parseTime_formatTime t).2 hk.2
  rw [readEvent_fields p _ _ _ [] hsplit (by rw [hcount]; rfl), hfmt,
    (parseTime_formatTime t).1]
  simp only [parseIncomingEventType_known p _ ty hk.1 hty, hcd]

/-- The method `parseClientData` reads back the text of a valid payload of its kind. -/
theorem parseClientData_of_text (p : FileParser) (e : IncomingEvent)
    (hcfg : p.cfg = defaultParser) (hmax : p.maxTables < 2 ^ 63)
    (hval : validated p.maxTables e = true) :
    knownKind e.Typ ∧ p.parseClientData e.Typ e.Client.String = (some e.Client, none) := by
  have hsep : p.cfg.EventInfoSeparator = " " := by rw [hcfg]; rfl
  obtain ⟨t, ty, cd⟩ := e
  cases cd with
  | ClientSits name table m =>
    simp only [validated, Bool.and_eq_true, decide_eq_true_eq, Option.isNone_iff_eq_none] at hval
    obtain ⟨⟨hty, hm⟩, hv⟩ := hval
    subst hty
    subst hm
    have hname : ValidateName name = none := by
      simp only [ClientData.Validate] at hv
      cases hn : ValidateName name with
      | none => rfl
      | some err => rw [hn] at hv; exact absurd hv (by simp)
    have hv2 := hv
    rw [show ClientData.ClientSits name table p.maxTables = NewClientSits name table p.maxTables
      from rfl, Validate_sits _ _ _ hname] at hv2
    have h1 : ¬ table ≤ 0 := by
      intro h; rw [if_pos h] at hv2; exact absurd hv2 (by simp)
    have h2 : ¬ p.maxTables < table := by
      intro h; rw [if_neg h1, if_pos h] at hv2; exact absurd hv2 (by simp)
    have ha := Atoi_sprintInt table (by omega) (by omega)
    refine ⟨Or.inr (Or.inl rfl), ?_⟩
    have hsplit : Split (ClientData.ClientSits name table p.maxTables).String
        p.cfg.EventInfoSeparator = [name, sprintInt table] := by
      rw [hsep]
      have : (ClientData.ClientSits name table p.maxTables).String
          = String.mk (name.data ++ ' ' :: (sprintInt table).data) := by
        apply String.ext
        simp [ClientData.String, String.data_append]
      rw [this]
      exact Split_two _ _ (name_no_space name hname) (fun h => ha.2 _ h rfl)
    rw [parseClientData_sits p _ name _ table hsplit ha.1]
    rw [show NewClientSits name table p.maxTables = ClientData.ClientSits name table p.maxTables
      from rfl, hv]
  | ClientArrives name =>
    simp only [validated, Bool.and_eq_true, decide_eq_true_eq, Option.isNone_iff_eq_none] at hval
    obtain ⟨hty, hv⟩ := hval
    subst hty
    have hname : ValidateName name = none := hv
    refine ⟨Or.inl rfl, ?_⟩
    rw [parseClientData_name p _ _ name (Or.inl rfl)
      (by rw [hsep]; exact Split_one _ (name_no_space name hname)), hname]
    rfl
  | ClientWaits name =>
    simp only [validated, Bool.and_eq_true, decide_eq_true_eq, Option.isNone_iff_eq_none] at hval
    obtain ⟨hty, hv⟩ := hval
    subst hty
    have hname : ValidateName name = none := hv
    refine ⟨Or.inr (Or.inr (Or.inl rfl)), ?_⟩
    rw [parseClientData_name p _ _ name (Or.inr (Or.inl rfl))
      (by rw [hsep]; exact Split_one _ (name_no_space name hname)), hname]
    rfl
  | ClientLeaves name =>
    simp only [validated, Bool.and_eq_true, decide_eq_true_eq, Option.isNone_iff_eq_none] at hval
    obtain ⟨hty, hv⟩ := hval
    subst hty
    have hname : ValidateName name = none := hv
    refine ⟨Or.inr (Or.inr (Or.inr rfl)), ?_⟩
    rw [parseClientData_name p _ _ name (Or.inr (Or.inr rfl))
      (by rw [hsep]; exact Split_one _ (name_no_space name hname)), hname]
    rfl

/-- Claim C40: under the default configuration, for an input event of one of
the four kinds whose payload is of its kind and valid (a valid name and, for a
Sit, a table from 1 to `maxTables`, which is an `int`), `readEvent` on the line
`e.String(timeFormat)` succeeds and returns the event with the same kind and
payload at the time of day of `e`; for a time of day it returns `e` itself. -/
theorem readEvent_String_roundtrip (p : FileParser) (e : IncomingEvent)
    (hcfg : p.cfg = defaultParser) (hmax : p.maxTables < 2 ^ 63)
    (hval : validated p.maxTables e = true)
    (htext : p.scanner.text = e.String p.cfg.TimeFormat) :
    p.readEvent = some (some { e with HappensAt := e.HappensAt % 1440 }, none)
    ∧ (0 ≤ e.HappensAt → e.HappensAt < 1440 → p.readEvent = some (some e, none)) := by
  have hcd := parseClientData_of_text p e hcfg hmax hval
  have h := readEvent_of_text p e.HappensAt e.Typ e.Client hcfg htext hcd.1 hcd.2
  refine ⟨h, fun h0 h1 => ?_⟩
  rw [h, Int.emod_eq_of_lt h0 h1]
  rfl

/-- Claim C40, evaluated: the lines of a Sit of client1 at table 2 at 09:05 and
of a Leave of client_2 at 23:59 are read back as the events that were
rendered. -/
theorem readEvent_String_roundtrip_witness :
    ((NewIncomingEvent 545 Sits (NewClientSits "client1" 2 3)).String "15:04"
        = "09:05 2 client1 2"
      ∧ (FileParser.mk ⟨[], "09:05 2 client1 2"⟩ defaultParser 4 3).readEvent
        = some (some (NewIncomingEvent 545 Sits (NewClientSits "client1" 2 3)), none))
    ∧ (FileParser.mk ⟨[], "23:59 4 client_2"⟩ defaultParser 4 3).readEvent
        = some (some (NewIncomingEvent 1439 Leaves (NewClientLeaves "client_2")), none) :=
  ⟨⟨by decide,
    (readEvent_String_roundtrip (FileParser.mk ⟨[], "09:05 2 client1 2"⟩ defaultParser 4 3)
      (NewIncomingEvent 545 Sits (NewClientSits "client1" 2 3)) rfl (by decide) (by decide)
      (by decide)).2 (by decide) (by decide)⟩,
   (readEvent_String_roundtrip (FileParser.mk ⟨[], "23:59 4 client_2"⟩ defaultParser 4 3)
      (NewIncomingEvent 1439 Leaves (NewClientLeaves "client_2")) rfl (by decide) (by decide)
      (by decide)).2 (by decide) (by decide)⟩


end YadroIntern
